import Mathlib

/-!
# Edit distance by graph search: a verification development

Shallow embedding of `algorithms/bfs_edit_distance.cpp`,
`algorithms/dynamic_programming.cpp`, `algorithms/greedy_edit_distance.cpp`, the table of
classic test cases of `utils/test_data.cpp` and the approximation ratio of the greedy test of
`main.cpp`.

* A C++ `std::string` is a `List Char`; C++ `int` is `Int` (the values handled
  here are path lengths and table entries, far below the overflow range).
* `std::queue` is a list (front = head, `push` appends at the end);
  `std::unordered_set` / `std::unordered_map` are only ever queried by key, so
  they are a list of keys and an association list.
* `std::priority_queue<.., greater<..>>` is a list too; `top()` hands out one of the entries
  below which `operator<` puts no entry, and which one is chosen by a parameter.
* Loops whose trip count is not bounded syntactically (`while (!q.empty())`)
  take a fuel argument and return `none` when the fuel runs out.
* `std::sort` orders by its comparison; the order it leaves among elements that the
  comparison does not separate is chosen by a parameter.
* A member of `std::string` that can throw `std::out_of_range` at its call site returns
  `Except`; the exception ends the function that made the call.
* `std::map<char, int>` is an association list in ascending order of its keys.
* `computation_time` (wall clock) is not part of the model.
-/

namespace EditDistance

/-- A string of the program. -/
abbrev Str := List Char

/-! ## The transition generator (`BFSEditDistance::generateNextStates`) -/

/-- The characters enumerated by `for (char c = 'a'; c <= 'z'; c++)`. -/
def alphabet : List Char := "abcdefghijklmnopqrstuvwxyz".toList

/-- First loop of `generateNextStates`: `next.erase(i, 1)` for `i = 0 .. len-1`. -/
def deletions (current : Str) : List Str :=
  (List.range current.length).map (fun i => current.eraseIdx i)

/-- Second loop: `next.insert(i, 1, c)` for `i = 0 .. len`, `c = 'a' .. 'z'`. -/
def insertions (current : Str) : List Str :=
  (List.range (current.length + 1)).flatMap
    (fun i => alphabet.map (fun c => current.insertIdx i c))

/-- Third loop: `next[i] = c` for `i = 0 .. len-1` and every `c != current[i]`. -/
def substitutions (current : Str) : List Str :=
  (List.range current.length).flatMap
    (fun i => (alphabet.filter (fun c => decide (current[i]? ≠ some c))).map
      (fun c => current.set i c))

/-- `BFSEditDistance::generateNextStates`. -/
def generateNextStates (current : Str) : List Str :=
  deletions current ++ insertions current ++ substitutions current

/-- `BFSEditDistance::heuristic`: `abs((int)current.length() - (int)target.length())`. -/
def heuristic (current target : Str) : Int :=
  |(current.length : Int) - (target.length : Int)|

/-! ## The dynamic-programming oracle (`DynamicProgrammingEditDistance::basicEditDistance`) -/

/-- The matrix `vector<vector<int>>`. -/
abbrev Table := List (List Int)

/-- Read `dp[i][j]`. -/
def tget (dp : Table) (i j : Nat) : Int := (dp.getD i []).getD j 0

/-- Write `dp[i][j] = v`. -/
def tset (dp : Table) (i j : Nat) (v : Int) : Table :=
  dp.set i ((dp.getD i []).set j v)

/-- Body of the inner loop of the table fill, for the cell `(i, j)`. -/
def fillCell (str1 str2 : Str) (i : Nat) (dp : Table) (j : Nat) : Table :=
  if str1[i - 1]? = str2[j - 1]? then
    tset dp i j (tget dp (i - 1) (j - 1))
  else
    tset dp i j (1 + min (tget dp (i - 1) j) (min (tget dp i (j - 1)) (tget dp (i - 1) (j - 1))))

/-- Body of the outer loop: `for (int j = 1; j <= n; j++)`. -/
def fillRow (str1 str2 : Str) (dp : Table) (i : Nat) : Table :=
  (List.range' 1 str2.length).foldl (fillCell str1 str2 i) dp

/-- The table after the boundary initialisation and the fill loops. -/
def dpTable (str1 str2 : Str) : Table :=
  let m := str1.length
  let n := str2.length
  let dp0 : Table := List.replicate (m + 1) (List.replicate (n + 1) 0)
  let dp1 := (List.range (m + 1)).foldl (fun dp i => tset dp i 0 (i : Int)) dp0
  let dp2 := (List.range (n + 1)).foldl (fun dp j => tset dp 0 j (j : Int)) dp1
  (List.range' 1 m).foldl (fillRow str1 str2) dp2

/-- `DynamicProgrammingEditDistance::basicEditDistance`: `return dp[m][n]`. -/
def basicEditDistance (str1 str2 : Str) : Int :=
  tget (dpTable str1 str2) str1.length str2.length

/-! ## Reference definitions from the specification -/

/-- Substitution cost of the reference recursion: zero for equal characters, one otherwise. -/
def subCost (a b : Char) : Nat := if a = b then 0 else 1

/-- One row of the reference recursion: distance from `a :: x` to every suffix of the second
string, given the distances `f` from `x`. -/
def levRow (a : Char) (f : Str → Nat) : Str → Nat
  | [] => f [] + 1
  | b :: y => min (f (b :: y) + 1) (min (levRow a f y + 1) (f y + subCost a b))

/-- The reference recursive Levenshtein distance with unit costs:
`lev [] t = |t|`, `lev s [] = |s|`, and
`lev (a::x) (b::y) = min (lev x (b::y) + 1, lev (a::x) y + 1, lev x y + [a ≠ b])`. -/
def lev : Str → Str → Nat
  | [], t => t.length
  | a :: x, t => levRow a (lev x) t

/-- One single-character edit: a deletion, an insertion or a substitution by a different
character, at any position; an inserted or substituting character has to satisfy `P`. -/
inductive EditOver (P : Char → Prop) : Str → Str → Prop
  | del (a : Char) (s : Str) : EditOver P (a :: s) s
  | ins (c : Char) (s : Str) : P c → EditOver P s (c :: s)
  | sub (a c : Char) (s : Str) : P c → a ≠ c → EditOver P (a :: s) (c :: s)
  | cons (a : Char) {s t : Str} : EditOver P s t → EditOver P (a :: s) (a :: t)

/-- One single-character edit over arbitrary characters. -/
abbrev OneEdit : Str → Str → Prop := EditOver (fun _ => True)

/-- One single-character edit whose inserted or substituted character is one of a .. z. -/
abbrev LowerEdit : Str → Str → Prop := EditOver (fun c => c ∈ alphabet)

/-- Exactly `n` steps of a relation `R`, leading from `s` to `t`. -/
inductive Steps (R : Str → Str → Prop) : Nat → Str → Str → Prop
  | nil (s : Str) : Steps R 0 s s
  | step {n : Nat} {s u t : Str} : R s u → Steps R n u t → Steps R (n + 1) s t

/-- A script of exactly `n` single-character edits (over arbitrary characters). -/
abbrev EditScript : Nat → Str → Str → Prop := Steps OneEdit

/-- A walk of exactly `n` steps of the transition generator from `s` to `t`. -/
abbrev Walk : Nat → Str → Str → Prop := Steps (fun s u => u ∈ generateNextStates s)

/-- Every character of the string is one of `a .. z`. -/
def Lower (s : Str) : Prop := ∀ c ∈ s, c ∈ alphabet

instance (s : Str) : Decidable (Lower s) := by unfold Lower; infer_instance

/-! ## Exhaustive single-path search (`BFSEditDistance::basicBFSEditDistance`) -/

/-- The loop `for (const string& next_state : next_states)` of `basicBFSEditDistance`, run for
the entry `(current, cost)`: `Sum.inl r` is `return r`, `Sum.inr (visited, q)` is the state with
which the `while` loop goes on. -/
def basicScan (target : Str) (cost : Int) :
    List Str → List Str → List (Str × Int) → Sum Int (List Str × List (Str × Int))
  | [], visited, q => Sum.inr (visited, q)
  | next_state :: rest, visited, q =>
    if next_state = target then Sum.inl (cost + 1)
    else if next_state ∉ visited then
      basicScan target cost rest (next_state :: visited) (q ++ [(next_state, cost + 1)])
    else basicScan target cost rest visited q

/-- The loop `while (!q.empty())` of `basicBFSEditDistance`; one unit of fuel per test of the
loop condition. The exhausted queue gives the fall-through `return -1`. -/
def basicLoop (target : Str) : Nat → List Str → List (Str × Int) → Option Int
  | 0, _, _ => none
  | _ + 1, _, [] => some (-1)
  | fuel + 1, visited, (current, cost) :: q =>
    match basicScan target cost (generateNextStates current) visited q with
    | Sum.inl r => some r
    | Sum.inr (visited1, q1) => basicLoop target fuel visited1 q1

/-- `BFSEditDistance::basicBFSEditDistance`. -/
def basicBFSEditDistance (fuel : Nat) (start target : Str) : Option Int :=
  if start = target then some 0 else basicLoop target fuel [start] [(start, 0)]

/-! ## The path-collecting searches -/

/-- `BFSEditDistance::State`. -/
structure State where
  current_string : Str
  cost : Int
  path : List Str

/-- `BFSEditDistance::BFSResult` (without the wall-clock field `computation_time`). -/
structure BFSResult where
  min_distance : Int
  all_paths : List (List Str)
  nodes_explored : Int
  max_queue_size : Int

/-- The result record before the search: `min_distance = -1`, no path, counters zero. -/
def emptyResult : BFSResult := ⟨-1, [], 0, 0⟩

/-- The result returned at once when `start == target`. -/
def trivialResult (start : Str) : BFSResult := ⟨0, [[start]], 0, 0⟩

/-- Lookup in `unordered_map<string, int>`, kept as an association list whose most recent
binding of a key comes first. -/
def costOf : List (Str × Int) → Str → Option Int
  | [], _ => none
  | (k, v) :: m, s => if k = s then some v else costOf m s

/-- The branch `if (next_state == target)` shared by the path-collecting searches: a strictly
better cost replaces the path list, an equal cost appends to it, a worse one is dropped. -/
def recordPath (result : BFSResult) (new_cost : Int) (new_path : List Str) : BFSResult :=
  if result.min_distance = -1 ∨ new_cost < result.min_distance then
    { result with min_distance := new_cost, all_paths := [new_path] }
  else if new_cost = result.min_distance then
    { result with all_paths := result.all_paths ++ [new_path] }
  else result

/-- The bookkeeping at the head of an iteration: `max_queue_size = max(.., q.size())` and
`nodes_explored++`. -/
def countNode (result : BFSResult) (queueSize : Nat) : BFSResult :=
  { result with
    max_queue_size := max result.max_queue_size (queueSize : Int),
    nodes_explored := result.nodes_explored + 1 }

/-! ### All-optimal-paths search (`BFSEditDistance::completeBFSEditDistance`) -/

/-- The variables of the main loop of `completeBFSEditDistance`. -/
structure Search where
  result : BFSResult
  best_cost : List (Str × Int)
  q : List State

/-- Admission test `best_cost.find(n) == end || new_cost <= best_cost[n]`. -/
def completeAccepts (best_cost : List (Str × Int)) (next_state : Str) (new_cost : Int) : Bool :=
  match costOf best_cost next_state with
  | none => true
  | some c => decide (new_cost ≤ c)

/-- Body of the loop over `next_states` in `completeBFSEditDistance`. -/
def completeVisit (target : Str) (current : State) (σ : Search) (next_state : Str) : Search :=
  if next_state = target then
    { σ with result := recordPath σ.result (current.cost + 1) (current.path ++ [target]) }
  else if completeAccepts σ.best_cost next_state (current.cost + 1) then
    { σ with
      best_cost := (next_state, current.cost + 1) :: σ.best_cost,
      q := σ.q ++ [⟨next_state, current.cost + 1, current.path ++ [next_state]⟩] }
  else σ

/-- One iteration of `while (!q.empty())` in `completeBFSEditDistance` in which only the first
`k` neighbours have been processed yet (a point inside the iteration). -/
def completeUpTo (target : Str) (k : Nat) (σ : Search) : Search :=
  match σ.q with
  | [] => σ
  | current :: rest =>
    let σ1 : Search := ⟨countNode σ.result σ.q.length, σ.best_cost, rest⟩
    if σ1.result.min_distance ≠ -1 ∧ current.cost > σ1.result.min_distance then σ1
    else ((generateNextStates current.current_string).take k).foldl (completeVisit target current) σ1

/-- One full iteration of `while (!q.empty())` in `completeBFSEditDistance`. -/
def completeIter (target : Str) (σ : Search) : Search :=
  match σ.q with
  | [] => σ
  | current :: rest =>
    let σ1 : Search := ⟨countNode σ.result σ.q.length, σ.best_cost, rest⟩
    if σ1.result.min_distance ≠ -1 ∧ current.cost > σ1.result.min_distance then σ1
    else (generateNextStates current.current_string).foldl (completeVisit target current) σ1

/-- The loop `while (!q.empty())` of `completeBFSEditDistance`. -/
def completeLoop (target : Str) : Nat → Search → Option BFSResult
  | 0, _ => none
  | fuel + 1, σ =>
    match σ.q with
    | [] => some σ.result
    | _ :: _ => completeLoop target fuel (completeIter target σ)

/-- The loop variables of `completeBFSEditDistance` before the first iteration. -/
def completeInit (start : Str) : Search :=
  ⟨emptyResult, [(start, 0)], [⟨start, 0, [start]⟩]⟩

/-- `BFSEditDistance::completeBFSEditDistance`. -/
def completeBFSEditDistance (fuel : Nat) (start target : Str) : Option BFSResult :=
  if start = target then some (trivialResult start)
  else completeLoop target fuel (completeInit start)

/-! ### Heuristic best-first search (`BFSEditDistance::optimizedBFSEditDistance`) -/

/-- `operator<` of `pair<int, State>`: first components by `<`, ties by `State::operator<`,
which is `cost > other.cost`. -/
def entryLt (a b : Int × State) : Bool :=
  decide (a.1 < b.1) || (!decide (b.1 < a.1) && decide (a.2.cost > b.2.cost))

/-- The entries (with their positions) that `priority_queue<.., greater<..>>::top()` may return:
those below which `operator<` puts no entry of the queue. -/
def topCandidates (pq : List (Int × State)) : List (Nat × (Int × State)) :=
  pq.enum.filter (fun ie => pq.all (fun e => !entryLt e ie.2))

/-- The entry handed out by `top()`, and its position: among the candidates, the one selected by
`choice` (the order in which the heap hands out entries that compare equal is not specified). -/
def pickTop (choice : Nat) (first : Int × State) (pq : List (Int × State)) : Nat × (Int × State) :=
  let cands := topCandidates pq
  cands.getD (choice % cands.length) (0, first)

/-- The variables of the main loop of `optimizedBFSEditDistance`. -/
structure PSearch where
  result : BFSResult
  best_cost : List (Str × Int)
  pq : List (Int × State)

/-- Admission test `best_cost.find(n) == end || new_cost < best_cost[n]`. -/
def optimizedAccepts (best_cost : List (Str × Int)) (next_state : Str) (new_cost : Int) : Bool :=
  match costOf best_cost next_state with
  | none => true
  | some c => decide (new_cost < c)

/-- Body of the loop over `next_states` in `optimizedBFSEditDistance`. -/
def optimizedVisit (target : Str) (current : State) (σ : PSearch) (next_state : Str) : PSearch :=
  if next_state = target then
    { σ with result := recordPath σ.result (current.cost + 1) (current.path ++ [target]) }
  else if optimizedAccepts σ.best_cost next_state (current.cost + 1) then
    { σ with
      best_cost := (next_state, current.cost + 1) :: σ.best_cost,
      pq := σ.pq ++ [(current.cost + 1 + heuristic next_state target,
        ⟨next_state, current.cost + 1, current.path ++ [next_state]⟩)] }
  else σ

/-- One iteration of `while (!pq.empty())` in `optimizedBFSEditDistance`; `choice` resolves
which of the entries that compare equal is popped. -/
def optimizedIter (target : Str) (choice : Nat) (σ : PSearch) : PSearch :=
  match σ.pq with
  | [] => σ
  | first :: _ =>
    let top := pickTop choice first σ.pq
    let current := top.2.2
    let σ1 : PSearch := ⟨countNode σ.result σ.pq.length, σ.best_cost, σ.pq.eraseIdx top.1⟩
    if σ1.result.min_distance ≠ -1 ∧ current.cost ≥ σ1.result.min_distance then σ1
    else (generateNextStates current.current_string).foldl (optimizedVisit target current) σ1

/-- The loop `while (!pq.empty())` of `optimizedBFSEditDistance`; `tie k` resolves the pop of
iteration `k`. -/
def optimizedLoop (target : Str) : Nat → (Nat → Nat) → PSearch → Option BFSResult
  | 0, _, _ => none
  | fuel + 1, tie, σ =>
    match σ.pq with
    | [] => some σ.result
    | _ :: _ => optimizedLoop target fuel (fun k => tie (k + 1)) (optimizedIter target (tie 0) σ)

/-- The loop variables of `optimizedBFSEditDistance` before the first iteration. -/
def optimizedInit (start target : Str) : PSearch :=
  ⟨emptyResult, [(start, 0)], [(heuristic start target, ⟨start, 0, [start]⟩)]⟩

/-- `BFSEditDistance::optimizedBFSEditDistance`, for a given resolution `tie` of the pops among
entries that compare equal. -/
def optimizedBFSEditDistance (tie : Nat → Nat) (fuel : Nat) (start target : Str) :
    Option BFSResult :=
  if start = target then some (trivialResult start)
  else optimizedLoop target fuel tie (optimizedInit start target)

/-! ### Depth-bounded search (`BFSEditDistance::limitedBFS`) -/

/-- The variables of the main loop of `limitedBFS`. -/
structure LSearch where
  result : BFSResult
  visited : List Str
  q : List State

/-- Body of the loop over `next_states` in `limitedBFS`. -/
def limitedVisit (target : Str) (current : State) (σ : LSearch) (next_state : Str) : LSearch :=
  if next_state = target then
    { σ with result := recordPath σ.result (current.cost + 1) (current.path ++ [target]) }
  else if next_state ∉ σ.visited then
    { σ with
      visited := next_state :: σ.visited,
      q := σ.q ++ [⟨next_state, current.cost + 1, current.path ++ [next_state]⟩] }
  else σ

/-- One iteration of `while (!q.empty())` in `limitedBFS`: an entry with
`current.cost >= max_depth` is dropped without being expanded. -/
def limitedIter (target : Str) (max_depth : Int) (σ : LSearch) : LSearch :=
  match σ.q with
  | [] => σ
  | current :: rest =>
    let σ1 : LSearch := ⟨countNode σ.result σ.q.length, σ.visited, rest⟩
    if current.cost ≥ max_depth then σ1
    else (generateNextStates current.current_string).foldl (limitedVisit target current) σ1

/-- The loop `while (!q.empty())` of `limitedBFS`. -/
def limitedLoop (target : Str) (max_depth : Int) : Nat → LSearch → Option BFSResult
  | 0, _ => none
  | fuel + 1, σ =>
    match σ.q with
    | [] => some σ.result
    | _ :: _ => limitedLoop target max_depth fuel (limitedIter target max_depth σ)

/-- The loop variables of `limitedBFS` before the first iteration. -/
def limitedInit (start : Str) : LSearch :=
  ⟨emptyResult, [start], [⟨start, 0, [start]⟩]⟩

/-- `BFSEditDistance::limitedBFS`. -/
def limitedBFS (fuel : Nat) (start target : Str) (max_depth : Int) : Option BFSResult :=
  if start = target then some (trivialResult start)
  else limitedLoop target max_depth fuel (limitedInit start)

/-! ### Bidirectional search (`BFSEditDistance::bidirectionalBFS`) -/

/-- The queue and the registry of one direction: `forward_queue` with `forward_visited`, or
`backward_queue` with `backward_visited`. -/
structure Frontier where
  queue : List (Str × Int)
  visited : List (Str × Int)

/-- The variables of the main loop of `bidirectionalBFS`. -/
structure BiSearch where
  result : BFSResult
  forward : Frontier
  backward : Frontier

/-- Registry test `visited.find(n) == end || new_cost < visited[n]` of either direction. -/
def biAccepts (visited : List (Str × Int)) (next_state : Str) (new_cost : Int) : Bool :=
  match costOf visited next_state with
  | none => true
  | some c => decide (new_cost < c)

/-- The meeting check of either direction: when `next_state` is in the registry of the other
direction, `total_cost = new_cost + other_visited[next_state]` replaces `min_distance` if that
is unset or larger. -/
def biMeet (other_visited : List (Str × Int)) (result : BFSResult) (next_state : Str)
    (new_cost : Int) : BFSResult :=
  match costOf other_visited next_state with
  | none => result
  | some c =>
    if result.min_distance = -1 ∨ new_cost + c < result.min_distance then
      { result with min_distance := new_cost + c }
    else result

/-- Body of the loop over `next_states` in either direction, for the popped entry of cost
`cost`: the meeting check against the other registry, then the push. -/
def biVisit (other_visited : List (Str × Int)) (cost : Int) (acc : BFSResult × Frontier)
    (next_state : Str) : BFSResult × Frontier :=
  (biMeet other_visited acc.1 next_state (cost + 1),
    if biAccepts acc.2.visited next_state (cost + 1) then
      ⟨acc.2.queue ++ [(next_state, cost + 1)], (next_state, cost + 1) :: acc.2.visited⟩
    else acc.2)

/-- One direction searches one step: if its queue is not empty, pop the front, count the node
and visit the neighbours. -/
def biHalf (other_visited : List (Str × Int)) (acc : BFSResult × Frontier) :
    BFSResult × Frontier :=
  match acc.2.queue with
  | [] => acc
  | (current, cost) :: rest =>
    (generateNextStates current).foldl (biVisit other_visited cost)
      ({ acc.1 with nodes_explored := acc.1.nodes_explored + 1 }, ⟨rest, acc.2.visited⟩)

/-- The body of `while (!forward_queue.empty() || !backward_queue.empty())` up to the stopping
check: queue-size bookkeeping, one forward step, one backward step. -/
def biIter (σ : BiSearch) : BiSearch :=
  let r0 : BFSResult :=
    { σ.result with
      max_queue_size := max σ.result.max_queue_size
        ((σ.forward.queue.length + σ.backward.queue.length : Nat) : Int) }
  let fwd := biHalf σ.backward.visited (r0, σ.forward)
  let bwd := biHalf fwd.2.visited (fwd.1, σ.backward)
  ⟨bwd.1, fwd.2, bwd.2⟩

/-- The test `!queue.empty() && queue.front().second <= result.min_distance`. -/
def frontBlocks (queue : List (Str × Int)) (min_distance : Int) : Bool :=
  match queue with
  | [] => false
  | (_, c) :: _ => decide (c ≤ min_distance)

/-- The stopping check at the end of an iteration: `min_distance` is set and `can_stop` has
not been cleared by either queue. -/
def biCanStop (σ : BiSearch) : Bool :=
  decide (σ.result.min_distance ≠ -1) &&
    (!frontBlocks σ.forward.queue σ.result.min_distance &&
      !frontBlocks σ.backward.queue σ.result.min_distance)

/-- The loop of `bidirectionalBFS`: it ends when both queues are empty or by `break`. -/
def biLoop : Nat → BiSearch → Option BFSResult
  | 0, _ => none
  | fuel + 1, σ =>
    match σ.forward.queue, σ.backward.queue with
    | [], [] => some σ.result
    | _, _ =>
      if biCanStop (biIter σ) then some (biIter σ).result else biLoop fuel (biIter σ)

/-- The loop variables of `bidirectionalBFS` before the first iteration. -/
def biInit (start target : Str) : BiSearch :=
  ⟨emptyResult, ⟨[(start, 0)], [(start, 0)]⟩, ⟨[(target, 0)], [(target, 0)]⟩⟩

/-- `BFSEditDistance::bidirectionalBFS`. -/
def bidirectionalBFS (fuel : Nat) (start target : Str) : Option BFSResult :=
  if start = target then some (trivialResult start)
  else biLoop fuel (biInit start target)

/-! ## The other dynamic-programming variants (`dynamic_programming.cpp`) -/

/-! ### Two rows instead of the table (`spaceOptimizedEditDistance`) -/

/-- Body of the inner loop `for (int i = 1; i <= m; i++)` in row `j`: the assignment to
`curr[i]` from `prev[i]`, `curr[i-1]` and `prev[i-1]`. -/
def rowCell (str1 str2 : Str) (j : Nat) (prev curr : List Int) (i : Nat) : List Int :=
  if str1[i - 1]? = str2[j - 1]? then
    curr.set i (prev.getD (i - 1) 0)
  else
    curr.set i (1 + min (prev.getD i 0) (min (curr.getD (i - 1) 0) (prev.getD (i - 1) 0)))

/-- Body of the outer loop `for (int j = 1; j <= n; j++)` on the pair `(prev, curr)`:
`curr[0] = j`, the inner loop, `prev = curr`. -/
def rowStep (str1 str2 : Str) (rows : List Int × List Int) (j : Nat) : List Int × List Int :=
  let curr := (List.range' 1 str1.length).foldl (rowCell str1 str2 j rows.1)
    (rows.2.set 0 (j : Int))
  (curr, curr)

/-- The part of `spaceOptimizedEditDistance` after the guard `if (m > n)`: the two vectors of
length `m + 1`, the initialisation `prev[i] = i`, the row loop and `return prev[m]`. -/
def twoRows (str1 str2 : Str) : Int :=
  let m := str1.length
  let prev0 := (List.range (m + 1)).foldl (fun prev i => prev.set i (i : Int))
    (List.replicate (m + 1) 0)
  let curr0 : List Int := List.replicate (m + 1) 0
  ((List.range' 1 str2.length).foldl (rowStep str1 str2) (prev0, curr0)).1.getD m 0

/-- `DynamicProgrammingEditDistance::spaceOptimizedEditDistance`: when `str1` is the longer
string the function calls itself with the arguments swapped. -/
def spaceOptimizedEditDistance (str1 str2 : Str) : Int :=
  if str1.length > str2.length then spaceOptimizedEditDistance str2 str1
  else twoRows str1 str2
termination_by (if str1.length > str2.length then 1 else 0)
decreasing_by
  rename_i h
  rw [if_pos h, if_neg (by omega)]
  exact Nat.zero_lt_one

/-! ### Weighted operations (`weightedEditDistance`) -/

/-- Body of the inner loop of the weighted table fill, for the cell `(i, j)`. -/
def weightedCell (str1 str2 : Str) (insert_cost delete_cost replace_cost : Int) (i : Nat)
    (dp : Table) (j : Nat) : Table :=
  if str1[i - 1]? = str2[j - 1]? then
    tset dp i j (tget dp (i - 1) (j - 1))
  else
    tset dp i j (min (tget dp (i - 1) j + delete_cost)
      (min (tget dp i (j - 1) + insert_cost) (tget dp (i - 1) (j - 1) + replace_cost)))

/-- Body of the outer loop of the weighted table fill. -/
def weightedRow (str1 str2 : Str) (insert_cost delete_cost replace_cost : Int) (dp : Table)
    (i : Nat) : Table :=
  (List.range' 1 str2.length).foldl
    (weightedCell str1 str2 insert_cost delete_cost replace_cost i) dp

/-- The weighted table after the boundary initialisation `dp[i][0] = i * delete_cost`,
`dp[0][j] = j * insert_cost` and the fill loops. -/
def weightedTable (str1 str2 : Str) (insert_cost delete_cost replace_cost : Int) : Table :=
  let m := str1.length
  let n := str2.length
  let dp0 : Table := List.replicate (m + 1) (List.replicate (n + 1) 0)
  let dp1 := (List.range (m + 1)).foldl (fun dp i => tset dp i 0 ((i : Int) * delete_cost)) dp0
  let dp2 := (List.range (n + 1)).foldl (fun dp j => tset dp 0 j ((j : Int) * insert_cost)) dp1
  (List.range' 1 m).foldl (weightedRow str1 str2 insert_cost delete_cost replace_cost) dp2

/-- `DynamicProgrammingEditDistance::weightedEditDistance`: `return dp[m][n]`. The C++ default
arguments are `insert_cost = delete_cost = replace_cost = 1`. -/
def weightedEditDistance (str1 str2 : Str) (insert_cost delete_cost replace_cost : Int) : Int :=
  tget (weightedTable str1 str2 insert_cost delete_cost replace_cost) str1.length str2.length

/-! ### Distance with the operation sequence (`completeEditDistance`, `reconstructPath`) -/

/-- The enumeration `Operation`. -/
inductive Operation where
  | MATCH
  | INSERT
  | DELETE
  | REPLACE
deriving DecidableEq

/-- The record `EditOperation`. -/
structure EditOperation where
  op : Operation
  pos1 : Int
  pos2 : Int
  from_char : Char
  to_char : Char

/-- The record `EditDistanceResult`, without the wall-clock field `computation_time`. -/
structure EditDistanceResult where
  distance : Int
  operations : List EditOperation
  dp_matrix : Table

/-- The character `'\0'` used for the missing side of an insertion or deletion. -/
def nul : Char := Char.ofNat 0

/-- Read `str[i]`. -/
def charAt (str : Str) (i : Nat) : Char := str.getD i nul

/-- One pass through the body of `while (i > 0 || j > 0)` of `reconstructPath`: the four
branches in their order; when none applies the variables are left as they are. -/
def reconstructStep (str1 str2 : Str) (dp : Table) (i j : Nat)
    (operations : List EditOperation) : Nat × Nat × List EditOperation :=
  if 0 < i ∧ 0 < j ∧ str1[i - 1]? = str2[j - 1]? then
    (i - 1, j - 1, operations ++
      [⟨Operation.MATCH, ((i - 1 : Nat) : Int), ((j - 1 : Nat) : Int), charAt str1 (i - 1),
        charAt str2 (j - 1)⟩])
  else if 0 < i ∧ 0 < j ∧ tget dp i j = tget dp (i - 1) (j - 1) + 1 then
    (i - 1, j - 1, operations ++
      [⟨Operation.REPLACE, ((i - 1 : Nat) : Int), ((j - 1 : Nat) : Int), charAt str1 (i - 1),
        charAt str2 (j - 1)⟩])
  else if 0 < i ∧ tget dp i j = tget dp (i - 1) j + 1 then
    (i - 1, j, operations ++
      [⟨Operation.DELETE, ((i - 1 : Nat) : Int), -1, charAt str1 (i - 1), nul⟩])
  else if 0 < j ∧ tget dp i j = tget dp i (j - 1) + 1 then
    (i, j - 1, operations ++
      [⟨Operation.INSERT, (i : Int), ((j - 1 : Nat) : Int), nul, charAt str2 (j - 1)⟩])
  else (i, j, operations)

/-- The loop `while (i > 0 || j > 0)` of `reconstructPath`. -/
def reconstructLoop (str1 str2 : Str) (dp : Table) :
    Nat → Nat → Nat → List EditOperation → Option (List EditOperation)
  | 0, _, _, _ => none
  | fuel + 1, i, j, operations =>
    if 0 < i ∨ 0 < j then
      reconstructLoop str1 str2 dp fuel (reconstructStep str1 str2 dp i j operations).1
        (reconstructStep str1 str2 dp i j operations).2.1
        (reconstructStep str1 str2 dp i j operations).2.2
    else some operations

/-- `DynamicProgrammingEditDistance::reconstructPath`: the loop from
`(str1.length(), str2.length())`, then `reverse`. -/
def reconstructPath (fuel : Nat) (str1 str2 : Str) (dp : Table) : Option (List EditOperation) :=
  (reconstructLoop str1 str2 dp fuel str1.length str2.length []).map List.reverse

/-- `DynamicProgrammingEditDistance::completeEditDistance`: the same table fill as
`basicEditDistance`, then `distance = dp[m][n]`, `dp_matrix = dp` and the reconstructed
operations. -/
def completeEditDistance (fuel : Nat) (str1 str2 : Str) : Option EditDistanceResult :=
  (reconstructPath fuel str1 str2 (dpTable str1 str2)).map
    (fun operations =>
      ⟨tget (dpTable str1 str2) str1.length str2.length, operations, dpTable str1 str2⟩)

/-! ### One target against many candidates (`batchEditDistance`) -/

/-- The library call `std::sort(first, last, comp)`: the result is ordered by `comp`; the
order among elements that `comp` does not separate is not fixed by the library, so it is
decided by the parameter `tie`, a rank given to every input position. -/
def stdSort {α : Type} (tie : Nat → Nat) (comp : α → α → Bool) (l : List α) : List α :=
  ((l.enum.map (fun e => (tie e.1, e.2))).mergeSort
    (fun a b => comp a.2 b.2 || (!comp b.2 a.2 && decide (a.1 ≤ b.1)))).map Prod.snd

/-- `DynamicProgrammingEditDistance::batchEditDistance`: one pair per candidate in input
order, then the sort with the comparison `a.second < b.second`. -/
def batchEditDistance (tie : Nat → Nat) (target : Str) (candidates : List Str) :
    List (Str × Int) :=
  stdSort tie (fun a b => decide (a.2 < b.2))
    (candidates.map (fun candidate => (candidate, basicEditDistance target candidate)))

/-! ### The classic test cases (`TestDataGenerator::getClassicTestCases`) -/

/-- The record `TestCase`, without the printed `description`. -/
structure TestCase where
  str1 : Str
  str2 : Str
  expected_distance : Int

/-- The table returned by `getClassicTestCases`, in its order. -/
def getClassicTestCases : List TestCase :=
  [⟨"kitten".toList, "sitting".toList, 3⟩,
   ⟨"".toList, "abc".toList, 3⟩,
   ⟨"abc".toList, "".toList, 3⟩,
   ⟨"".toList, "".toList, 0⟩,
   ⟨"same".toList, "same".toList, 0⟩,
   ⟨"abc".toList, "ab".toList, 1⟩,
   ⟨"ab".toList, "abc".toList, 1⟩,
   ⟨"abc".toList, "axc".toList, 1⟩,
   ⟨"intention".toList, "execution".toList, 5⟩,
   ⟨"algorithm".toList, "logarithm".toList, 2⟩,
   ⟨"sunday".toList, "saturday".toList, 3⟩,
   ⟨"cat".toList, "dog".toList, 3⟩,
   ⟨"exponential".toList, "polynomial".toList, 6⟩]

/-- The verdict printed by `testBasicFunctionality` for one test case: `[PASS]` when
`basic_result == test_case.expected_distance`. -/
def testPasses (test_case : TestCase) : Bool :=
  decide (basicEditDistance test_case.str1 test_case.str2 = test_case.expected_distance)

/-! ## The greedy approximations (`greedy_edit_distance.cpp`) -/

/-- The enumeration `GreedyEditDistance::OperationType`. -/
inductive OperationType where
  | INSERT
  | DELETE
  | REPLACE
  | MATCH
deriving DecidableEq

/-- The record `GreedyEditDistance::EditOperation` (the name `EditOperation` is taken by the
record of `dynamic_programming.h`). -/
structure GreedyOperation where
  type : OperationType
  position : Int
  from_char : Char
  to_char : Char

/-- The record `GreedyEditDistance::GreedyResult`, without the wall-clock field
`computation_time`. -/
structure GreedyResult where
  distance : Int
  operations : List GreedyOperation
  final_string : Str

/-- The exception `std::out_of_range` thrown by a member of `std::string`, tagged with the
member that throws it. -/
inductive StringError where
  | insert_out_of_range
  | substr_out_of_range
deriving DecidableEq

/-- The comparison `pos < size` of an `int` with a `size_t`: the `int` is converted to
`size_t`, which sends a negative value beyond every size. -/
def sizeLt (pos : Int) (size : Nat) : Bool := decide (0 ≤ pos ∧ pos < (size : Int))

/-- `std::string::insert(pos, 1, c)`: throws `std::out_of_range` when `pos > size()`. -/
def strInsert (str : Str) (pos : Int) (c : Char) : Except StringError Str :=
  if 0 ≤ pos ∧ pos ≤ (str.length : Int) then Except.ok (str.insertIdx pos.toNat c)
  else Except.error StringError.insert_out_of_range

/-- `std::string::substr(pos, count)`: throws `std::out_of_range` when `pos > size()`. -/
def strSubstr (str : Str) (pos count : Nat) : Except StringError Str :=
  if pos ≤ str.length then Except.ok ((str.drop pos).take count)
  else Except.error StringError.substr_out_of_range

/-! ### Left-to-right greedy (`basicGreedyEditDistance`) -/

/-- The variables of the loop of `basicGreedyEditDistance`: `current`, `pos`,
`result.operations` and `result.distance`. -/
structure GreedyVars where
  current : Str
  pos : Nat
  operations : List GreedyOperation
  distance : Int

/-- The body of `while (pos < max(current.length(), target.length()))`: insertion at the end,
deletion (`continue`, `pos` unchanged), match or replacement. The `erase` is reached only
with `pos < current.length()` and cannot throw. -/
def basicGreedyStep (target : Str) (v : GreedyVars) : Except StringError GreedyVars :=
  if v.pos ≥ v.current.length then
    (strInsert v.current (v.pos : Int) (charAt target v.pos)).map (fun current =>
      ⟨current, v.pos + 1,
        v.operations ++ [⟨OperationType.INSERT, (v.pos : Int), nul, charAt target v.pos⟩],
        v.distance + 1⟩)
  else if v.pos ≥ target.length then
    Except.ok ⟨v.current.eraseIdx v.pos, v.pos,
      v.operations ++ [⟨OperationType.DELETE, (v.pos : Int), charAt v.current v.pos, nul⟩],
      v.distance + 1⟩
  else if charAt v.current v.pos = charAt target v.pos then
    Except.ok ⟨v.current, v.pos + 1,
      v.operations ++
        [⟨OperationType.MATCH, (v.pos : Int), charAt v.current v.pos, charAt target v.pos⟩],
      v.distance⟩
  else
    Except.ok ⟨v.current.set v.pos (charAt target v.pos), v.pos + 1,
      v.operations ++
        [⟨OperationType.REPLACE, (v.pos : Int), charAt v.current v.pos, charAt target v.pos⟩],
      v.distance + 1⟩

/-- The loop of `basicGreedyEditDistance`; `none` when the fuel runs out. -/
def basicGreedyLoop (target : Str) : Nat → GreedyVars → Option (Except StringError GreedyVars)
  | 0, _ => none
  | fuel + 1, v =>
    if v.pos < max v.current.length target.length then
      match basicGreedyStep target v with
      | Except.error e => some (Except.error e)
      | Except.ok v1 => basicGreedyLoop target fuel v1
    else some (Except.ok v)

/-- `GreedyEditDistance::basicGreedyEditDistance`. -/
def basicGreedyEditDistance (fuel : Nat) (source target : Str) :
    Option (Except StringError GreedyResult) :=
  (basicGreedyLoop target fuel ⟨source, 0, [], 0⟩).map
    (fun outcome => outcome.map (fun v => ⟨v.distance, v.operations, v.current⟩))

/-! ### Common prefix and suffix first (`heuristicGreedy`) -/

/-- The first loop of `heuristicGreedy`: it counts the common prefix and records a `MATCH` for
each of its characters. -/
def prefixLoop (current target : Str) :
    Nat → Nat → List GreedyOperation → Option (Nat × List GreedyOperation)
  | 0, _, _ => none
  | fuel + 1, prefix_len, operations =>
    if prefix_len < min current.length target.length ∧
        charAt current prefix_len = charAt target prefix_len then
      prefixLoop current target fuel (prefix_len + 1)
        (operations ++ [⟨OperationType.MATCH, (prefix_len : Int), charAt current prefix_len,
          charAt target prefix_len⟩])
    else some (prefix_len, operations)

/-- The second loop of `heuristicGreedy`: it counts the common suffix of what follows the
prefix. The differences are taken in `size_t`; `prefix_len` comes from the first loop and
exceeds neither length, so they do not wrap. -/
def suffixLoop (current target : Str) (prefix_len : Nat) : Nat → Nat → Option Nat
  | 0, _ => none
  | fuel + 1, suffix_len =>
    if suffix_len < min (current.length - prefix_len) (target.length - prefix_len) ∧
        charAt current (current.length - 1 - suffix_len) =
          charAt target (target.length - 1 - suffix_len) then
      suffixLoop current target prefix_len fuel (suffix_len + 1)
    else some suffix_len

/-- The loop `for (auto& op : middle_result.operations)`: the operations other than `MATCH`,
their position moved by `prefix_len`. -/
def shiftOperations (prefix_len : Nat) (operations : List GreedyOperation) :
    List GreedyOperation :=
  (operations.filter (fun op => decide (op.type ≠ OperationType.MATCH))).map
    (fun op => { op with position := op.position + (prefix_len : Int) })

/-- The loop `for (int i = 0; i < suffix_len; i++)`: one `MATCH` per character of the
suffix. -/
def suffixOperations (target : Str) (suffix_len : Nat) : List GreedyOperation :=
  (List.range suffix_len).map (fun i =>
    ⟨OperationType.MATCH, ((target.length - suffix_len + i : Nat) : Int),
      charAt target (target.length - suffix_len + i),
      charAt target (target.length - suffix_len + i)⟩)

/-- Step 3 of `heuristicGreedy`, entered when
`prefix_len + suffix_len < max(current.length(), target.length())`: the basic greedy on the
middle parts; it yields the distance, the operations to append and the new `current`. The call
`substr(pos)` without a count takes everything from `pos` on. -/
def heuristicMiddle (fuel : Nat) (current target : Str) (prefix_len suffix_len : Nat) :
    Option (Except StringError (Int × List GreedyOperation × Str)) :=
  match strSubstr current prefix_len (current.length - prefix_len - suffix_len),
      strSubstr target prefix_len (target.length - prefix_len - suffix_len) with
  | Except.error e, _ => some (Except.error e)
  | Except.ok _, Except.error e => some (Except.error e)
  | Except.ok middle_source, Except.ok middle_target =>
    match basicGreedyEditDistance fuel middle_source middle_target with
    | none => none
    | some (Except.error e) => some (Except.error e)
    | some (Except.ok middle_result) =>
      match strSubstr current 0 prefix_len,
          strSubstr current (current.length - suffix_len) current.length with
      | Except.error e, _ => some (Except.error e)
      | Except.ok _, Except.error e => some (Except.error e)
      | Except.ok head, Except.ok tail =>
        some (Except.ok (middle_result.distance,
          shiftOperations prefix_len middle_result.operations,
          head ++ middle_result.final_string ++ tail))

/-- `GreedyEditDistance::heuristicGreedy`; each of its loops may take `fuel` iterations. -/
def heuristicGreedy (fuel : Nat) (source target : Str) :
    Option (Except StringError GreedyResult) :=
  match prefixLoop source target fuel 0 [] with
  | none => none
  | some (prefix_len, operations) =>
    match suffixLoop source target prefix_len fuel 0 with
    | none => none
    | some suffix_len =>
      if prefix_len + suffix_len < max source.length target.length then
        match heuristicMiddle fuel source target prefix_len suffix_len with
        | none => none
        | some (Except.error e) => some (Except.error e)
        | some (Except.ok (distance, middle_operations, current)) =>
          some (Except.ok ⟨distance,
            operations ++ middle_operations ++ suffixOperations target suffix_len, current⟩)
      else
        some (Except.ok ⟨0, operations ++ suffixOperations target suffix_len, source⟩)

/-! ### Character frequencies (`frequencyBasedGreedy`, `calculateFrequency`) -/

/-- The statement `freq[c]++` on a `std::map<char, int>`, kept as an association list in
ascending order of its keys. -/
def freqIncr : List (Char × Int) → Char → List (Char × Int)
  | [], c => [(c, 1)]
  | (k, v) :: rest, c =>
    if c = k then (k, v + 1) :: rest
    else if c < k then (c, 1) :: (k, v) :: rest
    else (k, v) :: freqIncr rest c

/-- `GreedyEditDistance::calculateFrequency`. -/
def calculateFrequency (str : Str) : List (Char × Int) := str.foldl freqIncr []

/-- The expression `(freq.find(c) != freq.end()) ? freq[c] : 0`. -/
def freqCount (freq : List (Char × Int)) (c : Char) : Int :=
  match freq.find? (fun pair => pair.1 == c) with
  | some pair => pair.2
  | none => 0

/-- The variables updated by the loops of `frequencyBasedGreedy`: `current`,
`result.operations` and `result.distance`. -/
structure FrequencyVars where
  current : Str
  operations : List GreedyOperation
  distance : Int

/-- The body of `for (int i = 0; i < insert_count; i++)`: append the character. -/
def appendChar (target_char : Char) (v : FrequencyVars) : FrequencyVars :=
  ⟨v.current ++ [target_char],
    v.operations ++
      [⟨OperationType.INSERT, ((v.current.length + 1 - 1 : Nat) : Int), nul, target_char⟩],
    v.distance + 1⟩

/-- The body of the first loop of `frequencyBasedGreedy`, over the pairs of `target_freq`. -/
def insertMissing (source_freq : List (Char × Int)) (v : FrequencyVars) (pair : Char × Int) :
    FrequencyVars :=
  if freqCount source_freq pair.1 < pair.2 then
    (List.range (pair.2 - freqCount source_freq pair.1).toNat).foldl
      (fun v1 _ => appendChar pair.1 v1) v
  else v

/-- The body of `for (int i = 0; i < delete_count; i++)`: erase the first occurrence of the
character, if there is one. -/
def eraseFirst (source_char : Char) (v : FrequencyVars) : FrequencyVars :=
  if v.current.indexOf source_char < v.current.length then
    ⟨v.current.eraseIdx (v.current.indexOf source_char),
      v.operations ++
        [⟨OperationType.DELETE, ((v.current.indexOf source_char : Nat) : Int), source_char, nul⟩],
      v.distance + 1⟩
  else v

/-- The body of the second loop of `frequencyBasedGreedy`, over the pairs of `source_freq`. -/
def deleteSurplus (target_freq : List (Char × Int)) (v : FrequencyVars) (pair : Char × Int) :
    FrequencyVars :=
  if pair.2 > freqCount target_freq pair.1 then
    (List.range (pair.2 - freqCount target_freq pair.1).toNat).foldl
      (fun v1 _ => eraseFirst pair.1 v1) v
  else v

/-- `GreedyEditDistance::frequencyBasedGreedy`. -/
def frequencyBasedGreedy (source target : Str) : GreedyResult :=
  let source_freq := calculateFrequency source
  let target_freq := calculateFrequency target
  let v1 := target_freq.foldl (insertMissing source_freq) ⟨source, [], 0⟩
  let v2 := source_freq.foldl (deleteSurplus target_freq) v1
  ⟨v2.distance, v2.operations, v2.current⟩

/-! ### Position by position (`positionBasedGreedy`, `findLCS`) -/

/-- Body of the inner loop of the table fill of `findLCS`, for the cell `(i, j)`. -/
def lcsCell (str1 str2 : Str) (i : Nat) (dp : Table) (j : Nat) : Table :=
  if str1[i - 1]? = str2[j - 1]? then
    tset dp i j (tget dp (i - 1) (j - 1) + 1)
  else
    tset dp i j (max (tget dp (i - 1) j) (tget dp i (j - 1)))

/-- The table of `findLCS` after its fill loops. -/
def lcsTable (str1 str2 : Str) : Table :=
  (List.range' 1 str1.length).foldl
    (fun dp i => (List.range' 1 str2.length).foldl (lcsCell str1 str2 i) dp)
    (List.replicate (str1.length + 1) (List.replicate (str2.length + 1) 0))

/-- One pass through the body of `while (i > 0 && j > 0)` of `findLCS`. -/
def lcsStep (str1 str2 : Str) (dp : Table) (i j : Nat) (positions : List (Int × Int)) :
    Nat × Nat × List (Int × Int) :=
  if str1[i - 1]? = str2[j - 1]? then
    (i - 1, j - 1, positions ++ [(((i - 1 : Nat) : Int), ((j - 1 : Nat) : Int))])
  else if tget dp (i - 1) j > tget dp i (j - 1) then (i - 1, j, positions)
  else (i, j - 1, positions)

/-- The loop `while (i > 0 && j > 0)` of `findLCS`. -/
def lcsLoop (str1 str2 : Str) (dp : Table) :
    Nat → Nat → Nat → List (Int × Int) → Option (List (Int × Int))
  | 0, _, _, _ => none
  | fuel + 1, i, j, positions =>
    if 0 < i ∧ 0 < j then
      lcsLoop str1 str2 dp fuel (lcsStep str1 str2 dp i j positions).1
        (lcsStep str1 str2 dp i j positions).2.1 (lcsStep str1 str2 dp i j positions).2.2
    else some positions

/-- `GreedyEditDistance::findLCS`. -/
def findLCS (fuel : Nat) (str1 str2 : Str) : Option (List (Int × Int)) :=
  (lcsLoop str1 str2 (lcsTable str1 str2) fuel str1.length str2.length []).map List.reverse

/-- The variables of the loop of `positionBasedGreedy`: `current`, `offset`,
`result.operations` and `result.distance`. -/
structure PositionVars where
  current : Str
  offset : Int
  operations : List GreedyOperation
  distance : Int

/-- The body of `for (size_t i = 0; i < max(source.length(), target.length()); i++)` of
`positionBasedGreedy`. The `erase` is guarded by `current_pos < current.length()` and cannot
throw; the `insert` can. -/
def positionStep (target : Str) (v : PositionVars) (i : Nat) :
    Except StringError PositionVars :=
  if i ≥ target.length then
    if sizeLt ((i : Int) + v.offset) v.current.length then
      Except.ok ⟨v.current.eraseIdx ((i : Int) + v.offset).toNat, v.offset - 1,
        v.operations ++ [⟨OperationType.DELETE, (i : Int) + v.offset,
          charAt v.current ((i : Int) + v.offset).toNat, nul⟩],
        v.distance + 1⟩
    else Except.ok v
  else if !sizeLt ((i : Int) + v.offset) v.current.length then
    (strInsert v.current ((i : Int) + v.offset) (charAt target i)).map (fun current =>
      ⟨current, v.offset + 1,
        v.operations ++ [⟨OperationType.INSERT, (i : Int) + v.offset, nul, charAt target i⟩],
        v.distance + 1⟩)
  else if charAt v.current ((i : Int) + v.offset).toNat ≠ charAt target i then
    Except.ok ⟨v.current.set ((i : Int) + v.offset).toNat (charAt target i), v.offset,
      v.operations ++ [⟨OperationType.REPLACE, (i : Int) + v.offset,
        charAt v.current ((i : Int) + v.offset).toNat, charAt target i⟩],
      v.distance + 1⟩
  else
    Except.ok ⟨v.current, v.offset,
      v.operations ++ [⟨OperationType.MATCH, (i : Int) + v.offset,
        charAt v.current ((i : Int) + v.offset).toNat, charAt target i⟩],
      v.distance⟩

/-- The `for` loop of `positionBasedGreedy` over the given values of `i`; an exception ends
it. -/
def positionLoop (target : Str) : List Nat → PositionVars → Except StringError PositionVars
  | [], v => Except.ok v
  | i :: rest, v =>
    match positionStep target v i with
    | Except.error e => Except.error e
    | Except.ok v1 => positionLoop target rest v1

/-- `GreedyEditDistance::positionBasedGreedy`: the call of `findLCS` (whose result is not
used), then the loop. -/
def positionBasedGreedy (fuel : Nat) (source target : Str) :
    Option (Except StringError GreedyResult) :=
  (findLCS fuel source target).map (fun _ =>
    (positionLoop target (List.range (max source.length target.length))
      ⟨source, 0, [], 0⟩).map (fun v => ⟨v.distance, v.operations, v.current⟩))

/-! ### The approximation ratio of the greedy test (`testGreedyAlgorithms` in `main.cpp`) -/

/-- The statement `double basic_ratio = (double)basic_greedy.distance / dp_result;`, executed
when `dp_result > 0`; the quotient of the two integers is kept as a rational number. -/
def basic_ratio (distance dp_result : Int) : Option ℚ :=
  if dp_result > 0 then some ((distance : ℚ) / (dp_result : ℚ)) else none

/-! ## Definitions used by the proofs: invariants and termination measures -/

/-- The table has `m + 1` rows of `n + 1` entries. -/
def Shaped (m n : Nat) (dp : Table) : Prop :=
  dp.length = m + 1 ∧ ∀ row ∈ dp, row.length = n + 1

/-- The value the filled table is shown to hold at cell `(i, j)`. -/
def cellValue (s t : Str) (i j : Nat) : Int :=
  (lev (s.take i).reverse (t.take j).reverse : Nat)

/-- Invariant of the table fill: the boundary, all rows before `i`, and the cells of row `i`
before column `j` hold the reference distance of the corresponding prefixes. -/
def Cells (s t : Str) (i j : Nat) (dp : Table) : Prop :=
  Shaped s.length t.length dp ∧
    ∀ i' j', i' ≤ s.length → j' ≤ t.length →
      (i' = 0 ∨ j' = 0 ∨ i' < i ∨ (i' = i ∧ j' < j)) → tget dp i' j' = cellValue s t i' j'

/-- Consecutive states are linked by the transition generator. -/
def IsChain (p : List Str) : Prop := List.Chain' (fun a b => b ∈ generateNextStates a) p

/-- A path from `start` to `target` along the transition generator. -/
def PathFromTo (start target : Str) (p : List Str) : Prop :=
  p.head? = some start ∧ p.getLast? = some target ∧ IsChain p

/-- A queue entry is well formed: its path leads from `start` to its string, has `cost + 1`
states, its string is not the target and its cost is not below the distance bound. -/
structure EntryOK (start target : Str) (e : State) : Prop where
  path_ok : PathFromTo start e.current_string e.path
  len : (e.path.length : Int) = e.cost + 1
  ne : e.current_string ≠ target
  sound : (lev start target : Int) ≤ e.cost + lev e.current_string target

/-- The result record is consistent. -/
structure ResultOK (start target : Str) (r : BFSResult) : Prop where
  paths : ∀ p ∈ r.all_paths, (p.length : Int) = r.min_distance + 1 ∧ PathFromTo start target p
  nonempty : r.all_paths ≠ [] ↔ r.min_distance ≠ -1
  sound : r.min_distance = -1 ∨ (lev start target : Int) ≤ r.min_distance

/-- Every recorded best cost is at least the distance bound. -/
def BestOK (start target : Str) (best_cost : List (Str × Int)) : Prop :=
  ∀ w c, costOf best_cost w = some c → (lev start target : Int) ≤ c + lev w target

/-- The part of the loop invariant of `completeBFSEditDistance` that needs no ordering
argument. -/
structure CompleteOK (start target : Str) (σ : Search) : Prop where
  result : ResultOK start target σ.result
  entries : ∀ e ∈ σ.q, EntryOK start target e
  best : BestOK start target σ.best_cost

/-- Number of nodes of the tree of all walks of at most `k` steps from `s`: the termination
measure of the searches. -/
def treeSize : Nat → Str → Nat
  | 0, _ => 1
  | k + 1, s => 1 + ((generateNextStates s).map (treeSize k)).sum

/-- Weight of a queue entry: the size of the walk tree below it down to depth `bound`. -/
def stateWeight (bound : Nat) (e : State) : Nat :=
  treeSize (bound - e.cost.toNat) e.current_string

/-- Total weight of a queue. -/
def queueWeight (bound : Nat) (q : List State) : Nat := (q.map (stateWeight bound)).sum

/-- The queue is in first-in-first-out order of a level-by-level search: entries of one cost,
followed by entries of the next cost. -/
def Fifo {α : Type} (cost : α → Int) (q : List α) : Prop :=
  ∃ (K : Int) (front back : List α), q = front ++ back ∧
    (∀ e ∈ front, cost e = K) ∧ (∀ e ∈ back, cost e = K + 1)

/-- The queue while an entry of cost `c` is being expanded. -/
def FifoAfter {α : Type} (cost : α → Int) (c : Int) (q : List α) : Prop :=
  ∃ (front back : List α), q = front ++ back ∧
    (∀ e ∈ front, cost e = c) ∧ (∀ e ∈ back, cost e = c + 1)

/-- An optimal path: a path from `start` to `target` with `lev start target + 1` states. -/
def OptPath (start target : Str) (p : List Str) : Prop :=
  PathFromTo start target p ∧ p.length = lev start target + 1

/-- The entry lies on a shortest route to the target. -/
def Good (start target : Str) (e : State) : Prop :=
  e.cost + (lev e.current_string target : Int) = lev start target

/-- Where an optimal path `p` is at the head of an iteration: already recorded, or one of its
proper prefixes is waiting in the queue. -/
def TrackHead (p : List Str) (σ : Search) : Prop :=
  p ∈ σ.result.all_paths ∨
    ∃ pre x suf, p = pre ++ x :: suf ∧ suf ≠ [] ∧
      (⟨x, (pre.length : Int), pre ++ [x]⟩ : State) ∈ σ.q

/-- Where an optimal path is inside an iteration: as at the head, or its prefix is the entry
being expanded and its next state is still to be visited. -/
def TrackMid (p : List Str) (cur : State) (pending : List Str) (σ : Search) : Prop :=
  TrackHead p σ ∨
    ∃ pre x w suf, p = pre ++ x :: w :: suf ∧
      cur = (⟨x, (pre.length : Int), pre ++ [x]⟩ : State) ∧ w ∈ pending

/-- Loop invariant of `completeBFSEditDistance` at the head of an iteration. -/
structure CHead (start target : Str) (σ : Search) : Prop where
  ok : CompleteOK start target σ
  fifo : Fifo State.cost σ.q
  cap : ∀ e ∈ σ.q, e.cost ≤ (lev start target : Int) + 1
  good : σ.result.min_distance = lev start target ∨ ∃ e ∈ σ.q, Good start target e
  track : ∀ p, OptPath start target p → TrackHead p σ

/-- Loop invariant of `completeBFSEditDistance` inside the expansion of `cur`, with the
neighbours `pending` still to be visited. -/
structure CMid (start target : Str) (cur : State) (pending : List Str) (σ : Search) : Prop where
  ok : CompleteOK start target σ
  cur_ok : EntryOK start target cur
  pend : ∀ w ∈ pending, w ∈ generateNextStates cur.current_string
  fifo : FifoAfter State.cost cur.cost σ.q
  cur_cap : cur.cost ≤ (lev start target : Int)
  cap : ∀ e ∈ σ.q, e.cost ≤ (lev start target : Int) + 1
  good : σ.result.min_distance = lev start target ∨ (∃ e ∈ σ.q, Good start target e) ∨
    (Good start target cur ∧ ∃ w ∈ pending, lev w target + 1 = lev cur.current_string target)
  track : ∀ p, OptPath start target p → TrackMid p cur pending σ

/-- What the all-optimal-paths search is shown to return. -/
structure CompletePost (start target : Str) (r : BFSResult) : Prop where
  ok : ResultOK start target r
  dist : r.min_distance = lev start target
  all : ∀ p, OptPath start target p → p ∈ r.all_paths

/-- Number of loop iterations after which `completeBFSEditDistance` has returned. -/
def completeFuel (start target : Str) : Nat :=
  queueWeight (lev start target + 1) (completeInit start).q + 1

/-- Weight of an entry `(string, cost)` of the queue of `basicBFSEditDistance`. -/
def pairWeight (bound : Nat) (e : Str × Int) : Nat := treeSize (bound - e.2.toNat) e.1

/-- Total weight of the queue of `basicBFSEditDistance`. -/
def pairsWeight (bound : Nat) (q : List (Str × Int)) : Nat := (q.map (pairWeight bound)).sum

/-- The entry `(string, cost)` lies on a shortest route to the target. -/
def GoodP (start target : Str) (e : Str × Int) : Prop :=
  e.2 + (lev e.1 target : Int) = lev start target

/-- Loop invariant of `basicBFSEditDistance` inside the expansion of `cur`; `hist` lists every
entry pushed so far. -/
structure BMid (start target : Str) (cur : Str × Int) (pending visited : List Str)
    (q hist : List (Str × Int)) : Prop where
  vis : ∀ w ∈ visited, ∃ c, (w, c) ∈ hist
  sub : ∀ e ∈ q, e ∈ hist
  cur_in : cur ∈ hist
  sound : ∀ e ∈ hist, (lev start target : Int) ≤ e.2 + lev e.1 target ∧ e.1 ≠ target
  mono : ∀ e ∈ hist, e.2 ≤ cur.2 + 1
  fifo : FifoAfter Prod.snd cur.2 q
  pend : ∀ w ∈ pending, w ∈ generateNextStates cur.1
  start_in : (start, (0 : Int)) ∈ hist
  nonneg : 0 ≤ cur.2
  key : ∀ e ∈ hist, GoodP start target e →
    (∃ e1 ∈ q, GoodP start target e1 ∧ lev e1.1 target ≤ lev e.1 target) ∨
    (GoodP start target cur ∧ lev cur.1 target ≤ lev e.1 target ∧
      ∃ w ∈ pending, lev w target + 1 = lev cur.1 target)

/-- Loop invariant of `basicBFSEditDistance` at the head of an iteration. -/
structure BHead (start target : Str) (visited : List Str) (q hist : List (Str × Int)) : Prop where
  vis : ∀ w ∈ visited, ∃ c, (w, c) ∈ hist
  sub : ∀ e ∈ q, e ∈ hist
  sound : ∀ e ∈ hist, (lev start target : Int) ≤ e.2 + lev e.1 target ∧ e.1 ≠ target
  mono : ∀ e1 ∈ q, ∀ e ∈ hist, e.2 ≤ e1.2 + 1
  fifo : Fifo Prod.snd q
  start_in : (start, (0 : Int)) ∈ hist
  nonneg : ∀ e ∈ q, 0 ≤ e.2
  key : ∀ e ∈ hist, GoodP start target e →
    ∃ e1 ∈ q, GoodP start target e1 ∧ lev e1.1 target ≤ lev e.1 target

/-- Number of loop iterations after which `basicBFSEditDistance` has returned. -/
def basicFuel (start target : Str) : Nat :=
  pairsWeight (lev start target + 1) [(start, 0)] + 1

/-- The part of the loop invariant of `optimizedBFSEditDistance` that needs no ordering
argument. -/
structure OptOK (start target : Str) (σ : PSearch) : Prop where
  result : ResultOK start target σ.result
  entries : ∀ pe ∈ σ.pq, EntryOK start target pe.2 ∧
    pe.1 = pe.2.cost + heuristic pe.2.current_string target
  best : BestOK start target σ.best_cost

/-- Loop invariant of `optimizedBFSEditDistance` at the head of an iteration. -/
structure PHead (start target : Str) (σ : PSearch) : Prop where
  ok : OptOK start target σ
  key0 : costOf σ.best_cost start = some 0
  cap : ∀ pe ∈ σ.pq, pe.2.cost ≤ (lev start target : Int) + 1
  key : ∀ w c, costOf σ.best_cost w = some c → c + (lev w target : Int) = lev start target →
    σ.result.min_distance = lev start target ∨
      ∃ pe ∈ σ.pq, Good start target pe.2 ∧ lev pe.2.current_string target ≤ lev w target

/-- Loop invariant of `optimizedBFSEditDistance` inside the expansion of `cur`. -/
structure PMid (start target : Str) (cur : State) (pending : List Str) (σ : PSearch) : Prop where
  ok : OptOK start target σ
  cur_ok : EntryOK start target cur
  pend : ∀ w ∈ pending, w ∈ generateNextStates cur.current_string
  key0 : costOf σ.best_cost start = some 0
  cur_cap : cur.cost ≤ (lev start target : Int)
  cap : ∀ pe ∈ σ.pq, pe.2.cost ≤ (lev start target : Int) + 1
  key : ∀ w c, costOf σ.best_cost w = some c → c + (lev w target : Int) = lev start target →
    σ.result.min_distance = lev start target ∨
      (∃ pe ∈ σ.pq, Good start target pe.2 ∧ lev pe.2.current_string target ≤ lev w target) ∨
      (Good start target cur ∧ lev cur.current_string target ≤ lev w target ∧
        ∃ w1 ∈ pending, lev w1 target + 1 = lev cur.current_string target)

/-- Total weight of the priority queue. -/
def pqWeight (bound : Nat) (pq : List (Int × State)) : Nat :=
  (pq.map (fun pe => stateWeight bound pe.2)).sum

/-- Number of loop iterations after which `optimizedBFSEditDistance` has returned. -/
def optimizedFuel (start target : Str) : Nat :=
  pqWeight (lev start target + 1) (optimizedInit start target).pq + 1

/-- The loop variables of `completeBFSEditDistance` after `n` iterations of the main loop. -/
def completeAfter (target start : Str) : Nat → Search
  | 0 => completeInit start
  | n + 1 => completeIter target (completeAfter target start n)

/-- The path `p` is listed at least twice at the front of the path list, with distance 1. -/
def ListedTwice (p : List Str) (r : BFSResult) : Prop :=
  r.min_distance = 1 ∧ ∃ more, r.all_paths = p :: p :: more

/-- The path list is non-empty exactly when `min_distance` is set. -/
def PathsIffSet (r : BFSResult) : Prop := r.all_paths ≠ [] ↔ r.min_distance ≠ -1

/-- Loop invariant of `basicBFSEditDistance` used to show that the queue never runs empty:
every queued string is lowercase and some queued string is at least as long as every visited
one. -/
def NeverEmpty (visited : List Str) (q : List (Str × Int)) : Prop :=
  (∀ e ∈ q, Lower e.1) ∧ ∃ e ∈ q, ∀ v ∈ visited, v.length ≤ e.1.length

/-- The same invariant inside the scan of the neighbours `pending` of the popped string `s`. -/
def NeverEmptyMid (s : Str) (pending visited : List Str) (q : List (Str × Int)) : Prop :=
  Lower s ∧ (∀ w ∈ pending, w ∈ generateNextStates s) ∧ (∀ e ∈ q, Lower e.1) ∧
    ((∃ e ∈ q, ∀ v ∈ visited, v.length ≤ e.1.length) ∨
      ((∀ v ∈ visited, v.length ≤ s.length) ∧ ∃ w ∈ pending, w.length = s.length + 1))

/-- The part of the loop invariant of `limitedBFS` that needs no ordering argument. -/
structure LimitedOK (start target : Str) (σ : LSearch) : Prop where
  result : ResultOK start target σ.result
  entries : ∀ e ∈ σ.q, EntryOK start target e

/-- Number of loop iterations after which `limitedBFS` has returned. -/
def limitedFuel (start : Str) (max_depth : Int) : Nat :=
  queueWeight max_depth.toNat (limitedInit start).q + 1

/-- Nothing has been recorded: `min_distance` is unset and there is no path. -/
def NothingFound (r : BFSResult) : Prop := r.min_distance = -1 ∧ r.all_paths = []

/-- Loop invariant of `limitedBFS` at the head of an iteration; `hist` lists every pair
`(string, cost)` pushed so far. -/
structure LHead (start target : Str) (σ : LSearch) (hist : List (Str × Int)) : Prop where
  vis : ∀ w ∈ σ.visited, ∃ c, (w, c) ∈ hist
  sub : ∀ e ∈ σ.q, (e.current_string, e.cost) ∈ hist
  sound : ∀ h ∈ hist, (lev start target : Int) ≤ h.2 + lev h.1 target
  mono : ∀ e ∈ σ.q, ∀ h ∈ hist, h.2 ≤ e.cost + 1
  fifo : Fifo State.cost σ.q
  start_in : (start, (0 : Int)) ∈ hist
  key : ∀ h ∈ hist, GoodP start target h →
    σ.result.min_distance = lev start target ∨
      ∃ e ∈ σ.q, Good start target e ∧ lev e.current_string target ≤ lev h.1 target

/-- Loop invariant of `limitedBFS` inside the expansion of `cur`. -/
structure LMid (start target : Str) (cur : State) (pending : List Str) (σ : LSearch)
    (hist : List (Str × Int)) : Prop where
  vis : ∀ w ∈ σ.visited, ∃ c, (w, c) ∈ hist
  sub : ∀ e ∈ σ.q, (e.current_string, e.cost) ∈ hist
  sound : ∀ h ∈ hist, (lev start target : Int) ≤ h.2 + lev h.1 target
  mono : ∀ h ∈ hist, h.2 ≤ cur.cost + 1
  fifo : FifoAfter State.cost cur.cost σ.q
  pend : ∀ w ∈ pending, w ∈ generateNextStates cur.current_string
  start_in : (start, (0 : Int)) ∈ hist
  key : ∀ h ∈ hist, GoodP start target h →
    σ.result.min_distance = lev start target ∨
      (∃ e ∈ σ.q, Good start target e ∧ lev e.current_string target ≤ lev h.1 target) ∨
      (Good start target cur ∧ lev cur.current_string target ≤ lev h.1 target ∧
        ∃ w ∈ pending, lev w target + 1 = lev cur.current_string target)

/-- The invariant of `limitedBFS` with the history hidden. -/
def LimitedGood (start target : Str) (σ : LSearch) : Prop := ∃ hist, LHead start target σ hist

/-- The path `p1 ++ [target]` can no longer be recorded: the last state `c` of `p1` is already
visited, no queue entry carries the path `p1`, and the path is not in the path list. -/
def MissesPath (p1 : List Str) (c target : Str) (σ : LSearch) : Prop :=
  c ∈ σ.visited ∧ (∀ e ∈ σ.q, e.path ≠ p1) ∧ p1 ++ [target] ∉ σ.result.all_paths

instance (p1 : List Str) (c target : Str) (σ : LSearch) :
    Decidable (MissesPath p1 c target σ) := by
  unfold MissesPath; infer_instance

/-- The recorded distance is unset, or between the distance `D` and `2 * D`. -/
def MinOK (D : Nat) (m : Int) : Prop := m = -1 ∨ ((D : Int) ≤ m ∧ m ≤ 2 * (D : Int))

/-- What one direction of the bidirectional search knows about a registry filled from
`origin`: every recorded cost is at least the reference distance from `origin`, `origin` itself
is recorded with cost 0, and no cost exceeds `D` while the distance `D` is not yet recorded. -/
structure RegistryOK (origin : Str) (D : Nat) (m : Int) (visited : List (Str × Int)) : Prop where
  up : ∀ w c, costOf visited w = some c → (lev origin w : Int) ≤ c
  key0 : costOf visited origin = some 0
  cap : m ≠ D → ∀ w c, costOf visited w = some c → c ≤ (D : Int)

/-- The entry `(string, cost)` lies on a shortest route to `goal`. -/
def SideGood (goal : Str) (D : Nat) (e : Str × Int) : Prop := e.2 + (lev e.1 goal : Int) = D

/-- Invariant of one direction of `bidirectionalBFS` between two of its steps. -/
structure SideHead (origin goal : Str) (D : Nat) (m : Int) (F : Frontier) : Prop where
  reg : RegistryOK origin D m F.visited
  qup : ∀ e ∈ F.queue, (lev origin e.1 : Int) ≤ e.2
  fifo : Fifo Prod.snd F.queue
  key : ∀ w c, costOf F.visited w = some c → c + (lev w goal : Int) = D →
    m = D ∨ ∃ e ∈ F.queue, SideGood goal D e ∧ e.1 ≠ goal ∧ lev e.1 goal ≤ lev w goal

/-- Invariant of one direction of `bidirectionalBFS` inside the expansion of `(s, c)`. -/
structure SideMid (origin goal : Str) (D : Nat) (m : Int) (s : Str) (c : Int)
    (pending : List Str) (F : Frontier) : Prop where
  reg : RegistryOK origin D m F.visited
  qup : ∀ e ∈ F.queue, (lev origin e.1 : Int) ≤ e.2
  fifo : FifoAfter Prod.snd c F.queue
  cur_up : (lev origin s : Int) ≤ c
  cur_cap : m ≠ D → c + 1 ≤ (D : Int)
  pend : ∀ w ∈ pending, w ∈ generateNextStates s
  key : ∀ w c0, costOf F.visited w = some c0 → c0 + (lev w goal : Int) = D →
    m = D ∨ (∃ e ∈ F.queue, SideGood goal D e ∧ e.1 ≠ goal ∧ lev e.1 goal ≤ lev w goal) ∨
      (c + (lev s goal : Int) = D ∧ lev s goal ≤ lev w goal ∧
        ∃ w1 ∈ pending, lev w1 goal + 1 = lev s goal)

/-- Weight of a queue entry of the bidirectional search: entries beyond `bound` weigh nothing. -/
def cutWeight (bound : Nat) (e : Str × Int) : Nat :=
  if e.2 ≤ (bound : Int) then treeSize (bound - e.2.toNat) e.1 else 0

/-- Total weight of one queue of the bidirectional search. -/
def frontierWeight (bound : Nat) (q : List (Str × Int)) : Nat := (q.map (cutWeight bound)).sum

/-- Loop invariant of `bidirectionalBFS`. -/
structure BiInv (start target : Str) (σ : BiSearch) : Prop where
  fwd : SideHead start target (lev start target) σ.result.min_distance σ.forward
  bwd : SideHead target start (lev start target) σ.result.min_distance σ.backward
  minok : MinOK (lev start target) σ.result.min_distance
  paths : σ.result.all_paths = []

/-- Number of loop iterations after which `bidirectionalBFS` has returned. -/
def biFuel (start target : Str) : Nat :=
  frontierWeight (2 * lev start target) [(start, 0)] +
    frontierWeight (2 * lev start target) [(target, 0)] + 1

/-- Order of the candidates of one loop of `generateNextStates`: by position, then by
character. -/
def keyLt (a b : Nat × Char) : Prop := a.1 < b.1 ∨ (a.1 = b.1 ∧ a.2 < b.2)

/-- Invariant of `limitedBFS` from a lowercase start: nothing is recorded and every queued
string is lowercase. -/
def LowerQueue (σ : LSearch) : Prop :=
  NothingFound σ.result ∧ ∀ e ∈ σ.q, Lower e.current_string

/-! ## Reference definitions for the weighted distance -/

/-- The three operation costs of `weightedEditDistance`. -/
structure Costs where
  insert_cost : Int
  delete_cost : Int
  replace_cost : Int

/-- No cost is negative. -/
def Costs.NonNeg (k : Costs) : Prop :=
  0 ≤ k.insert_cost ∧ 0 ≤ k.delete_cost ∧ 0 ≤ k.replace_cost

/-- Substitution cost of the weighted reference recursion: zero for equal characters. -/
def wsubCost (k : Costs) (a b : Char) : Int := if a = b then 0 else k.replace_cost

/-- One row of the weighted reference recursion, given the costs `f` from the tail `x` of
`a :: x`. -/
def wlevRow (k : Costs) (a : Char) (f : Str → Int) : Str → Int
  | [] => f [] + k.delete_cost
  | b :: y => min (f (b :: y) + k.delete_cost)
      (min (wlevRow k a f y + k.insert_cost) (f y + wsubCost k a b))

/-- The reference weighted Levenshtein recursion: `wlev [] t = |t| * insert_cost`,
`wlev s [] = |s| * delete_cost`, and for `a :: x`, `b :: y` the minimum of deleting `a`,
inserting `b`, and substituting `a` by `b` (free when `a = b`). -/
def wlev (k : Costs) : Str → Str → Int
  | [], t => (t.length : Int) * k.insert_cost
  | a :: x, t => wlevRow k a (wlev k x) t

/-- One single-character edit together with its cost. -/
inductive WEdit (k : Costs) : Int → Str → Str → Prop
  | del (a : Char) (s : Str) : WEdit k k.delete_cost (a :: s) s
  | ins (c : Char) (s : Str) : WEdit k k.insert_cost s (c :: s)
  | sub (a c : Char) (s : Str) : a ≠ c → WEdit k k.replace_cost (a :: s) (c :: s)
  | cons (a : Char) {c : Int} {s t : Str} : WEdit k c s t → WEdit k c (a :: s) (a :: t)

/-- An edit script from `s` to `t` of total cost `n`. -/
inductive WScript (k : Costs) : Int → Str → Str → Prop
  | nil (s : Str) : WScript k 0 s s
  | step {c n : Int} {s u t : Str} : WEdit k c s u → WScript k n u t → WScript k (c + n) s t

/-- Invariant of a table fill towards the values `val`: the boundary, all rows before `i`, and
the cells of row `i` before column `j` hold their value. -/
def CellsOf (val : Nat → Nat → Int) (m n i j : Nat) (dp : Table) : Prop :=
  Shaped m n dp ∧
    ∀ i' j', i' ≤ m → j' ≤ n →
      (i' = 0 ∨ j' = 0 ∨ i' < i ∨ (i' = i ∧ j' < j)) → tget dp i' j' = val i' j'

/-- The value the weighted table is shown to hold at cell `(i, j)`. -/
def wcellValue (k : Costs) (s t : Str) (i j : Nat) : Int :=
  wlev k (s.take i).reverse (t.take j).reverse

/-- Invariant of the row loop of `spaceOptimizedEditDistance` before row `j`: both vectors have
`m + 1` entries and `prev` holds row `j - 1` of the table. -/
def RowsOK (s t : Str) (j : Nat) (rows : List Int × List Int) : Prop :=
  rows.1.length = s.length + 1 ∧ rows.2.length = s.length + 1 ∧
    ∀ i, i ≤ s.length → rows.1.getD i 0 = cellValue s t i (j - 1)

/-- Invariant of the inner loop in row `j` before column `i`: the entries of `curr` before `i`
hold row `j` of the table. -/
def CurrOK (s t : Str) (j i : Nat) (curr : List Int) : Prop :=
  curr.length = s.length + 1 ∧ ∀ i', i' < i → curr.getD i' 0 = cellValue s t i' j

/-- The operation consumes a character of `str1`: `MATCH`, `REPLACE` or `DELETE`. -/
def EditOperation.readsFrom (o : EditOperation) : Bool :=
  decide (o.op = Operation.MATCH ∨ o.op = Operation.REPLACE ∨ o.op = Operation.DELETE)

/-- The operation produces a character of `str2`: `MATCH`, `REPLACE` or `INSERT`. -/
def EditOperation.writesTo (o : EditOperation) : Bool :=
  decide (o.op = Operation.MATCH ∨ o.op = Operation.REPLACE ∨ o.op = Operation.INSERT)

/-- The operation is an edit: it is not a `MATCH`. -/
def EditOperation.isEdit (o : EditOperation) : Bool := decide (o.op ≠ Operation.MATCH)

/-- What the operations emitted by the loop of `reconstructPath` on its way from cell `(i, j)`
to cell `(0, 0)` satisfy, in the order of emission (last operation first). -/
def Trace (s t : Str) (i j : Nat) (emitted : List EditOperation) : Prop :=
  ((emitted.filter EditOperation.readsFrom).map EditOperation.from_char).reverse = s.take i ∧
    ((emitted.filter EditOperation.writesTo).map EditOperation.to_char).reverse = t.take j ∧
    (∀ o ∈ emitted, o.op = Operation.MATCH → o.from_char = o.to_char) ∧
    (((emitted.filter EditOperation.isEdit).length : Nat) : Int) = cellValue s t i j

/-- Number of loop iterations after which `reconstructPath` has returned. -/
def reconstructFuel (str1 str2 : Str) : Nat := str1.length + str2.length + 1

/-- The loop variables of `optimizedBFSEditDistance` after `n` iterations of the main loop,
the pop of iteration `k` being resolved by `tie k`. -/
def optimizedAfter (target start : Str) (tie : Nat → Nat) : Nat → PSearch
  | 0 => optimizedInit start target
  | n + 1 => optimizedIter target (tie n) (optimizedAfter target start tie n)

/-- The loop variables of `limitedBFS` after `n` iterations of the main loop. -/
def limitedAfter (target start : Str) (max_depth : Int) : Nat → LSearch
  | 0 => limitedInit start
  | n + 1 => limitedIter target max_depth (limitedAfter target start max_depth n)

/-- Invariant of `optimizedBFSEditDistance`, with the list `hist` of all entries pushed so far:
the queue holds entries of `hist`; every recorded path is the path of an entry of `hist`
followed by the target; the path of an entry ends in its string and has `cost + 1` states; no
two entries of `hist` share string and cost; and the registry holds for the string of every
entry a cost that is not above the cost of the entry. -/
structure OnePerCost (target : Str) (σ : PSearch) (hist : List State) : Prop where
  queued : ∀ pe ∈ σ.pq, pe.2 ∈ hist
  recorded : ∀ p ∈ σ.result.all_paths, ∃ e ∈ hist, p = e.path ++ [target]
  shape : ∀ e ∈ hist, e.path.getLast? = some e.current_string ∧
    (e.path.length : Int) = e.cost + 1
  single : ∀ e ∈ hist, ∀ e1 ∈ hist, e.current_string = e1.current_string → e.cost = e1.cost →
    e = e1
  known : ∀ e ∈ hist, ∃ v, costOf σ.best_cost e.current_string = some v ∧ v ≤ e.cost

/-- Every string is enqueued at most once by `limitedBFS`: the visited list and the queue hold
no string twice and every queued string is visited. -/
def OncePerString (σ : LSearch) : Prop :=
  σ.visited.Nodup ∧ (σ.q.map State.current_string).Nodup ∧
    ∀ e ∈ σ.q, e.current_string ∈ σ.visited

/-- The recorded distance has not been raised or unset: if `m` is set then `m1` is set and not
above `m`. -/
def NotRaised (m m1 : Int) : Prop := m ≠ -1 → m1 ≠ -1 ∧ m1 ≤ m

/-- The bookkeeping at the head of an iteration of `bidirectionalBFS`:
`max_queue_size = max(max_queue_size, forward_queue.size() + backward_queue.size())`. -/
def biBook (σ : BiSearch) : BFSResult :=
  { σ.result with
    max_queue_size := max σ.result.max_queue_size
      ((σ.forward.queue.length + σ.backward.queue.length : Nat) : Int) }

/-- One direction of `bidirectionalBFS` inside its step, when only the first `k` neighbours of
the popped entry have been visited yet (a point inside the iteration). -/
def biHalfUpTo (k : Nat) (other_visited : List (Str × Int)) (acc : BFSResult × Frontier) :
    BFSResult × Frontier :=
  match acc.2.queue with
  | [] => acc
  | (current, cost) :: rest =>
    ((generateNextStates current).take k).foldl (biVisit other_visited cost)
      ({ acc.1 with nodes_explored := acc.1.nodes_explored + 1 }, ⟨rest, acc.2.visited⟩)

/-- The loop variables of `bidirectionalBFS` after `n` iterations of the main loop. -/
def biAfter (start target : Str) : Nat → BiSearch
  | 0 => biInit start target
  | n + 1 => biIter (biAfter start target n)

/-- The integer `c` is the length of a shortest walk along `generateNextStates` from `origin`
to `s`. -/
def ShortestWalk (origin s : Str) (c : Int) : Prop :=
  ∃ m : Nat, c = (m : Int) ∧ Walk m origin s ∧ ∀ n, Walk n origin s → m ≤ n

/-- Every entry of the registry is a lowercase string with its reference distance from
`origin`. -/
def ExactRegistry (origin : Str) (visited : List (Str × Int)) : Prop :=
  ∀ e ∈ visited, Lower e.1 ∧ (lev origin e.1 : Int) = e.2

/-- The recorded distance is unset or at least `d`. -/
def MinSound (d : Nat) (m : Int) : Prop := m = -1 ∨ (d : Int) ≤ m

/-- The string has an entry in the registry. -/
def Registered (visited : List (Str × Int)) (u : Str) : Prop := ∃ c, (u, c) ∈ visited

/-- Breadth-first invariant of one direction of `bidirectionalBFS` between two of its steps:
the registry is exact, the queue holds registry entries level by level, and every registered
string that is no longer queued has all its neighbours registered. -/
structure ExactHead (origin : Str) (F : Frontier) : Prop where
  exact : ExactRegistry origin F.visited
  origin_in : (origin, (0 : Int)) ∈ F.visited
  qsub : ∀ e ∈ F.queue, e ∈ F.visited
  fifo : Fifo Prod.snd F.queue
  closed : ∀ e ∈ F.visited, e ∈ F.queue ∨ ∀ u ∈ generateNextStates e.1, Registered F.visited u

/-- Breadth-first invariant of one direction inside the expansion of `(s, c)`, with the
neighbours `pending` still to be visited. -/
structure ExactMid (origin s : Str) (c : Int) (pending : List Str) (F : Frontier) : Prop where
  exact : ExactRegistry origin F.visited
  origin_in : (origin, (0 : Int)) ∈ F.visited
  qsub : ∀ e ∈ F.queue, e ∈ F.visited
  fifo : FifoAfter Prod.snd c F.queue
  cur_in : (s, c) ∈ F.visited
  pend : ∀ w ∈ pending, w ∈ generateNextStates s
  closed : ∀ e ∈ F.visited, e ∈ F.queue ∨
    (∀ u ∈ generateNextStates e.1, Registered F.visited u) ∨
    (e = (s, c) ∧ ∀ u ∈ generateNextStates s, u ∈ pending ∨ Registered F.visited u)

/-- Invariant of `bidirectionalBFS` between two iterations, for the registry claim. -/
structure BiExact (start target : Str) (σ : BiSearch) : Prop where
  fwd : ExactHead start σ.forward
  bwd : ExactHead target σ.backward
  sound : MinSound (lev start target) σ.result.min_distance

/-- The distance the left-to-right greedy assigns to what is still ahead: `x` is the rest of
`current` from `pos` on, `y` the rest of `target`. -/
def greedyCost : Str → Str → Nat
  | [], y => y.length
  | a :: x, [] => (a :: x).length
  | a :: x, b :: y => (if a = b then 0 else 1) + greedyCost x y

/-- The operations the left-to-right greedy records from position `pos` on. -/
def greedyOps : Nat → Str → Str → List GreedyOperation
  | _, [], [] => []
  | pos, [], b :: y => ⟨OperationType.INSERT, (pos : Int), nul, b⟩ :: greedyOps (pos + 1) [] y
  | pos, a :: x, [] => ⟨OperationType.DELETE, (pos : Int), a, nul⟩ :: greedyOps pos x []
  | pos, a :: x, b :: y =>
    (if a = b then ⟨OperationType.MATCH, (pos : Int), a, b⟩
      else ⟨OperationType.REPLACE, (pos : Int), a, b⟩) :: greedyOps (pos + 1) x y
termination_by _ x y => x.length + y.length

/-- The number of recorded operations other than `MATCH`. -/
def editCount (operations : List GreedyOperation) : Nat :=
  operations.countP (fun op => decide (op.type ≠ OperationType.MATCH))

/-- The number of positions `i < min(len(source), len(target))` with
`source[i] != target[i]`. -/
def mismatches (source target : Str) : Nat :=
  ((List.range (min source.length target.length)).filter
    (fun i => decide (charAt source i ≠ charAt target i))).length

/-- The length of the longest common prefix of two strings. -/
def lcp : Str → Str → Nat
  | a :: x, b :: y => if a = b then lcp x y + 1 else 0
  | _, _ => 0

/-- How many more copies of the character of `pair` its count asks for than `other` holds:
the `insert_count` and `delete_count` of `frequencyBasedGreedy`, zero when the test fails. -/
def excess (other : List (Char × Int)) (pair : Char × Int) : Nat :=
  (pair.2 - freqCount other pair.1).toNat

/-- A frequency map is kept in strictly ascending order of its keys. -/
def FreqSorted (freq : List (Char × Int)) : Prop :=
  (freq.map Prod.fst).Pairwise (fun a b => a < b)

/-- The six orders of deleting the three letters of `abc`. -/
def abcDeletionOrders : List (List Str) :=
  [["abc".toList, "bc".toList, "c".toList, "".toList],
   ["abc".toList, "bc".toList, "b".toList, "".toList],
   ["abc".toList, "ac".toList, "c".toList, "".toList],
   ["abc".toList, "ac".toList, "a".toList, "".toList],
   ["abc".toList, "ab".toList, "b".toList, "".toList],
   ["abc".toList, "ab".toList, "a".toList, "".toList]]

/-- The number of neighbours of the front entry of the queue, zero for an empty queue. -/
def neighbourCount (F : Frontier) : Nat :=
  match F.queue with
  | [] => 0
  | (s, _) :: _ => (generateNextStates s).length

/-- The point of iteration `n + 1` of `bidirectionalBFS` inside the forward step, when the
first `k` neighbours of the popped entry have been visited: the result record and the forward
queue and registry. -/
def forwardPoint (start target : Str) (n k : Nat) : BFSResult × Frontier :=
  biHalfUpTo k (biAfter start target n).backward.visited
    (biBook (biAfter start target n), (biAfter start target n).forward)

/-- The point of iteration `n + 1` of `bidirectionalBFS` inside the backward step, after the
whole forward step, when the first `k` neighbours of the popped entry have been visited: the
result record and the backward queue and registry. -/
def backwardPoint (start target : Str) (n k : Nat) : BFSResult × Frontier :=
  biHalfUpTo k
    (biHalf (biAfter start target n).backward.visited
      (biBook (biAfter start target n), (biAfter start target n).forward)).2.visited
    ((biHalf (biAfter start target n).backward.visited
      (biBook (biAfter start target n), (biAfter start target n).forward)).1,
      (biAfter start target n).backward)

/-! ## Theorems -/

/-! ### The reference distance -/

theorem lev_nil_left (t : Str) : lev [] t = t.length := rfl

theorem lev_nil_right (s : Str) : lev s [] = s.length := by
  induction s with
  | nil => rfl
  | cons a x ih => show lev x [] + 1 = _; simp [ih]

theorem lev_cons_cons (a b : Char) (x y : Str) : lev (a :: x) (b :: y) =
    min (lev x (b :: y) + 1) (min (lev (a :: x) y + 1) (lev x y + subCost a b)) := rfl

theorem subCost_le_one (a b : Char) : subCost a b ≤ 1 := by
  unfold subCost; split <;> simp

theorem subCost_comm (a b : Char) : subCost a b = subCost b a := by
  unfold subCost; by_cases h : a = b
  · simp [h]
  · have : ¬ b = a := fun e => h e.symm
    simp [h, this]

theorem subCost_self (a : Char) : subCost a a = 0 := by simp [subCost]

theorem lev_comm (s t : Str) : lev s t = lev t s := by
  induction s generalizing t with
  | nil => simp [lev_nil_left, lev_nil_right]
  | cons a x ihx =>
    induction t with
    | nil => simp [lev_nil_left, lev_nil_right]
    | cons b y ihy =>
      rw [lev_cons_cons, lev_cons_cons, ihx (b :: y), ihy, ihx y, subCost_comm a b]
      simp only [min_left_comm, min_comm, min_assoc]

/-- Removing the head of the first string changes the distance by at most one. -/
theorem lev_cons_left_le (a : Char) (x t : Str) : lev (a :: x) t ≤ lev x t + 1 := by
  cases t with
  | nil => simp [lev_nil_right]
  | cons b y => rw [lev_cons_cons]; exact min_le_left _ _

theorem lev_cons_right_le (b : Char) (s y : Str) : lev s (b :: y) ≤ lev s y + 1 := by
  rw [lev_comm s, lev_comm s]; exact lev_cons_left_le b y s

/-- The distance to a fixed string is 1-Lipschitz along single edits of the other string. -/
theorem lev_le_of_edit {P : Char → Prop} {v w : Str} (h : EditOver P v w) :
    ∀ x, lev x w ≤ lev x v + 1 := by
  induction h with
  | del a s =>
    intro x
    induction x with
    | nil => simp [lev_nil_left]; omega
    | cons c x ih =>
      rw [lev_cons_cons]
      have h1 := lev_cons_left_le c x s
      omega
  | ins c s => intro x; exact lev_cons_right_le c x s
  | sub a c s _ _ =>
    intro x
    induction x with
    | nil => simp [lev_nil_left]
    | cons e x ih =>
      rw [lev_cons_cons, lev_cons_cons]
      have h1 := subCost_le_one e c
      omega
  | cons a _ ih =>
    rename_i s t
    intro x
    induction x with
    | nil => have := ih []; simp [lev_nil_left] at this ⊢; omega
    | cons e x ihx =>
      rw [lev_cons_cons, lev_cons_cons]
      have h1 := ih x
      have h2 := ih (e :: x)
      omega

theorem EditOver.edit_symm_any {P : Char → Prop} {v w : Str} (h : EditOver P v w) : OneEdit w v := by
  induction h with
  | del a s => exact EditOver.ins a s trivial
  | ins c s _ => exact EditOver.del c s
  | sub a c s _ hne => exact EditOver.sub c a s trivial (fun e => hne e.symm)
  | cons a _ ih => exact EditOver.cons a ih

theorem EditOver.edit_mono {P Q : Char → Prop} (hPQ : ∀ c, P c → Q c) {v w : Str}
    (h : EditOver P v w) : EditOver Q v w := by
  induction h with
  | del a s => exact EditOver.del a s
  | ins c s hc => exact EditOver.ins c s (hPQ c hc)
  | sub a c s hc hne => exact EditOver.sub a c s (hPQ c hc) hne
  | cons a _ ih => exact EditOver.cons a ih

theorem lev_ge_of_edit {P : Char → Prop} {v w : Str} (h : EditOver P v w) (x : Str) :
    lev x v ≤ lev x w + 1 := lev_le_of_edit h.edit_symm_any x

theorem lev_le_of_edit_left {P : Char → Prop} {v w : Str} (h : EditOver P v w) (x : Str) :
    lev w x ≤ lev v x + 1 := by
  rw [lev_comm w, lev_comm v]; exact lev_le_of_edit h x

theorem lev_ge_of_edit_left {P : Char → Prop} {v w : Str} (h : EditOver P v w) (x : Str) :
    lev v x ≤ lev w x + 1 := by
  rw [lev_comm w, lev_comm v]; exact lev_ge_of_edit h x

theorem lev_self (s : Str) : lev s s = 0 := by
  induction s with
  | nil => rfl
  | cons a x ih => rw [lev_cons_cons, ih, subCost_self]; simp

theorem eq_of_lev_eq_zero : ∀ (s t : Str), lev s t = 0 → s = t := by
  intro s
  induction s with
  | nil => intro t h; rw [lev_nil_left] at h; exact (List.length_eq_zero.mp h).symm
  | cons a x ih =>
    intro t h
    cases t with
    | nil => rw [lev_nil_right] at h; simp at h
    | cons b y =>
      rw [lev_cons_cons] at h
      have hs : subCost a b = 0 := by omega
      have hxy : lev x y = 0 := by omega
      have hab : a = b := by
        unfold subCost at hs
        by_contra hne
        simp [hne] at hs
      rw [hab, ih y hxy]

theorem lev_pos_of_ne {s t : Str} (h : s ≠ t) : 0 < lev s t :=
  Nat.pos_of_ne_zero (fun h0 => h (eq_of_lev_eq_zero s t h0))

/-- The length difference is a lower bound of the distance. -/
theorem length_le_lev_add : ∀ (s t : Str), s.length ≤ t.length + lev s t ∧ t.length ≤ s.length + lev s t := by
  intro s
  induction s with
  | nil => intro t; simp [lev_nil_left]
  | cons a x ih =>
    intro t
    induction t with
    | nil => simp [lev_nil_right]
    | cons b y ihy =>
      rw [lev_cons_cons]
      have h1 := ih (b :: y)
      have h2 := ih y
      simp only [List.length_cons] at *
      omega

/-- A single edit that does not increase the distance to `t` decreases it by exactly one. -/
theorem lev_succ_eq_of_edit {P : Char → Prop} {s u t : Str} (h : EditOver P s u)
    (hle : lev u t + 1 ≤ lev s t) : lev u t + 1 = lev s t :=
  le_antisymm hle (lev_ge_of_edit_left h t)

/-- Progress: from any string other than `t` some single edit, using only characters of `t`
for insertion and substitution, brings the string one unit closer to `t`. -/
theorem exists_edit_closer {P : Char → Prop} :
    ∀ (s t : Str), (∀ c ∈ t, P c) → s ≠ t → ∃ u, EditOver P s u ∧ lev u t + 1 = lev s t := by
  intro s
  induction s with
  | nil =>
    intro t hP hne
    cases t with
    | nil => exact absurd rfl hne
    | cons b y =>
      have hb : P b := hP b (List.mem_cons_self _ _)
      refine ⟨[b], EditOver.ins b [] hb, lev_succ_eq_of_edit (EditOver.ins b [] hb) ?_⟩
      rw [lev_cons_cons, subCost_self]
      simp [lev_nil_left]
  | cons a x ih =>
    intro t hP hne
    cases t with
    | nil =>
      exact ⟨x, EditOver.del a x, by simp [lev_nil_right]⟩
    | cons b y =>
      have hb : P b := hP b (List.mem_cons_self _ _)
      have hy : ∀ c ∈ y, P c := fun c hc => hP c (List.mem_cons_of_mem _ hc)
      have hcc := lev_cons_cons a b x y
      by_cases h1 : lev (a :: x) (b :: y) = lev x (b :: y) + 1
      · exact ⟨x, EditOver.del a x, h1.symm⟩
      by_cases h2 : lev (a :: x) (b :: y) = lev (a :: x) y + 1
      · refine ⟨b :: a :: x, EditOver.ins b _ hb, lev_succ_eq_of_edit (EditOver.ins b _ hb) ?_⟩
        have := lev_cons_cons b b (a :: x) y
        rw [subCost_self] at this
        omega
      have h3 : lev (a :: x) (b :: y) = lev x y + subCost a b := by omega
      by_cases hab : a = b
      · subst hab
        have hxy : x ≠ y := fun e => hne (by rw [e])
        obtain ⟨u, hu, hlev⟩ := ih y hy hxy
        refine ⟨a :: u, EditOver.cons a hu, lev_succ_eq_of_edit (EditOver.cons a hu) ?_⟩
        have := lev_cons_cons a a u y
        rw [subCost_self] at this h3
        omega
      · refine ⟨b :: x, EditOver.sub a b x hb hab, lev_succ_eq_of_edit (EditOver.sub a b x hb hab) ?_⟩
        have := lev_cons_cons b b x y
        rw [subCost_self] at this
        have hs : subCost a b = 1 := by simp [subCost, hab]
        omega

/-- Monotonicity of step sequences in the step relation. -/
theorem Steps.steps_mono {R Q : Str → Str → Prop} (hRQ : ∀ s u, R s u → Q s u) {n : Nat} {s t : Str}
    (h : Steps R n s t) : Steps Q n s t := by
  induction h with
  | nil s => exact Steps.nil s
  | step hr _ ih => exact Steps.step (hRQ _ _ hr) ih

theorem Steps.steps_zero_eq {R : Str → Str → Prop} {s t : Str} (h : Steps R 0 s t) : s = t := by
  cases h; rfl

theorem Steps.steps_snoc {R : Str → Str → Prop} {n : Nat} {s u t : Str}
    (h : Steps R n s u) (hr : R u t) : Steps R (n + 1) s t := by
  induction h with
  | nil s => exact Steps.step hr (Steps.nil _)
  | step hr1 _ ih => exact Steps.step hr1 (ih hr)

/-- No sequence of single edits is shorter than the reference distance. -/
theorem lev_le_of_steps {P : Char → Prop} {n : Nat} {s t : Str}
    (h : Steps (EditOver P) n s t) : lev s t ≤ n := by
  induction h with
  | nil s => simp [lev_self]
  | step hr _ ih => have := lev_ge_of_edit_left hr (by assumption); omega

/-- A sequence of exactly `lev s t` single edits leads from `s` to `t`. -/
theorem steps_of_lev {P : Char → Prop} : ∀ (k : Nat) (s t : Str), (∀ c ∈ t, P c) →
    lev s t = k → Steps (EditOver P) k s t := by
  intro k
  induction k with
  | zero => intro s t _ h; rw [eq_of_lev_eq_zero s t h]; exact Steps.nil t
  | succ k ih =>
    intro s t hP h
    have hne : s ≠ t := fun e => by rw [e, lev_self] at h; omega
    obtain ⟨u, hu, hlev⟩ := exists_edit_closer s t hP hne
    exact Steps.step hu (ih u t hP (by omega))

theorem EditOver.edit_append_right {P : Char → Prop} {u v : Str} (h : EditOver P u v) (w : Str) :
    EditOver P (u ++ w) (v ++ w) := by
  induction h with
  | del a s => exact EditOver.del a _
  | ins c s hc => exact EditOver.ins c _ hc
  | sub a c s hc hne => exact EditOver.sub a c _ hc hne
  | cons a _ ih => exact EditOver.cons a ih

theorem EditOver.edit_append_left {P : Char → Prop} {u v : Str} (h : EditOver P u v) (w : Str) :
    EditOver P (w ++ u) (w ++ v) := by
  induction w with
  | nil => exact h
  | cons a w ih => exact EditOver.cons a ih

theorem EditOver.edit_reverse {P : Char → Prop} {u v : Str} (h : EditOver P u v) :
    EditOver P u.reverse v.reverse := by
  induction h with
  | del a s =>
    have := (EditOver.del (P := P) a []).edit_append_left s.reverse
    simpa using this
  | ins c s hc =>
    have := (EditOver.ins (P := P) c [] hc).edit_append_left s.reverse
    simpa using this
  | sub a c s hc hne =>
    have := (EditOver.sub (P := P) a c [] hc hne).edit_append_left s.reverse
    simpa using this
  | cons a _ ih =>
    have := ih.edit_append_right [a]
    simpa using this

theorem Steps.steps_reverse {P : Char → Prop} {n : Nat} {s t : Str} (h : Steps (EditOver P) n s t) :
    Steps (EditOver P) n s.reverse t.reverse := by
  induction h with
  | nil s => exact Steps.nil _
  | step hr _ ih => exact Steps.step hr.edit_reverse ih

/-- The reference distance is invariant under reversing both strings. -/
theorem lev_reverse (s t : Str) : lev s.reverse t.reverse = lev s t := by
  have key : ∀ s t : Str, lev s.reverse t.reverse ≤ lev s t := fun s t =>
    lev_le_of_steps (steps_of_lev (P := fun _ => True) (lev s t) s t (fun _ _ => trivial) rfl).steps_reverse
  apply le_antisymm (key s t)
  have := key s.reverse t.reverse
  simpa using this

/-! ### The table fill computes the reference distance -/

theorem shaped_replicate (m n : Nat) :
    Shaped m n (List.replicate (m + 1) (List.replicate (n + 1) 0)) := by
  refine ⟨by simp, ?_⟩
  intro row hrow
  rw [List.eq_of_mem_replicate hrow]; simp

theorem Shaped.shaped_row_length {m n : Nat} {dp : Table} (h : Shaped m n dp) {i : Nat} (hi : i ≤ m) :
    (dp.getD i []).length = n + 1 := by
  have hlt : i < dp.length := by rw [h.1]; omega
  rw [List.getD_eq_getElem _ _ hlt]
  exact h.2 _ (List.getElem_mem _)

theorem Shaped.shaped_tset {m n : Nat} {dp : Table} (h : Shaped m n dp) (i j : Nat) (v : Int) (hi : i ≤ m) :
    Shaped m n (tset dp i j v) := by
  refine ⟨by simp [EditDistance.tset, h.1], ?_⟩
  intro row hrow
  unfold EditDistance.tset at hrow
  rcases List.mem_or_eq_of_mem_set hrow with h1 | h1
  · exact h.2 _ h1
  · rw [h1, List.length_set]; exact h.shaped_row_length hi

theorem tget_tset {m n : Nat} {dp : Table} (h : Shaped m n dp) {i j : Nat} (v : Int)
    (hi : i ≤ m) (hj : j ≤ n) (i' j' : Nat) :
    tget (tset dp i j v) i' j' = if i' = i ∧ j' = j then v else tget dp i' j' := by
  have hlt : i < dp.length := by rw [h.1]; omega
  have hrow := h.shaped_row_length hi
  unfold tget tset
  simp only [List.getD_eq_getElem?_getD] at hrow ⊢
  by_cases hii : i' = i
  · subst hii
    rw [List.getElem?_set_self hlt]
    simp only [Option.getD_some]
    by_cases hjj : j' = j
    · subst hjj
      rw [List.getElem?_set_self (by omega)]
      simp
    · rw [List.getElem?_set_ne (fun e => hjj e.symm)]
      simp [hjj]
  · rw [List.getElem?_set_ne (fun e => hii e.symm)]
    simp [hii]

/-- Loop rule for `for (k = a; k < a + n; k++)` written as a left fold over `List.range'`. -/
theorem foldl_range'_inv {β : Type} (f : β → Nat → β) (Inv : Nat → β → Prop) :
    ∀ (n a : Nat) (b0 : β), Inv a b0 →
      (∀ k b, a ≤ k → k < a + n → Inv k b → Inv (k + 1) (f b k)) →
      Inv (a + n) ((List.range' a n).foldl f b0) := by
  intro n
  induction n with
  | zero => intro a b0 h0 _; simpa using h0
  | succ n ih =>
    intro a b0 h0 hstep
    rw [List.range'_succ, List.foldl_cons]
    have := ih (a + 1) (f b0 a) (hstep a b0 (le_refl _) (by omega) h0)
      (fun k b h1 h2 hk => hstep k b (by omega) (by omega) hk)
    have e : a + 1 + n = a + (n + 1) := by omega
    rw [e] at this
    exact this

theorem reverse_take_succ (s : Str) (i : Nat) (a : Char) (h : s[i]? = some a) :
    (s.take (i + 1)).reverse = a :: (s.take i).reverse := by
  rw [List.take_succ, h]; simp

theorem lev_cons_cons_same (a : Char) (x y : Str) : lev (a :: x) (a :: y) = lev x y := by
  rw [lev_cons_cons, subCost_self]
  have h1 := lev_le_of_edit (EditOver.del (P := fun _ => True) a y) x
  have h2 := lev_le_of_edit_left (EditOver.del (P := fun _ => True) a x) y
  omega

theorem lev_cons_cons_ne {a b : Char} (h : a ≠ b) (x y : Str) :
    lev (a :: x) (b :: y) = 1 + min (lev x (b :: y)) (min (lev (a :: x) y) (lev x y)) := by
  rw [lev_cons_cons]
  have hs : subCost a b = 1 := by simp [subCost, h]
  omega

theorem cellValue_zero_right (s t : Str) (i : Nat) (hi : i ≤ s.length) : cellValue s t i 0 = i := by
  simp [cellValue, lev_nil_right, hi]

theorem cellValue_zero_left (s t : Str) (j : Nat) (hj : j ≤ t.length) : cellValue s t 0 j = j := by
  simp [cellValue, lev_nil_left, hj]

/-- The recurrence of the fill loop holds for the reference distance of the prefixes. -/
theorem cellValue_succ (s t : Str) (i j : Nat) (hi : i < s.length) (hj : j < t.length) :
    cellValue s t (i + 1) (j + 1) =
      if s[i]? = t[j]? then cellValue s t i j
      else 1 + min (cellValue s t i (j + 1)) (min (cellValue s t (i + 1) j) (cellValue s t i j)) := by
  have ha : s[i]? = some s[i] := List.getElem?_eq_getElem hi
  have hb : t[j]? = some t[j] := List.getElem?_eq_getElem hj
  unfold cellValue
  rw [reverse_take_succ s i _ ha, reverse_take_succ t j _ hb, ha, hb]
  by_cases hab : s[i] = t[j]
  · rw [hab, lev_cons_cons_same]; simp
  · rw [lev_cons_cons_ne hab]
    have : ¬ (some s[i] = some t[j]) := fun e => hab (Option.some.inj e)
    rw [if_neg this]
    push_cast
    rfl

theorem cells_fillCell (s t : Str) (i j : Nat) (dp : Table) (hi1 : 1 ≤ i) (hi : i ≤ s.length)
    (hj1 : 1 ≤ j) (hj : j ≤ t.length) (h : Cells s t i j dp) :
    Cells s t i (j + 1) (fillCell s t i dp j) := by
  obtain ⟨i0, rfl⟩ : ∃ i0, i = i0 + 1 := ⟨i - 1, by omega⟩
  obtain ⟨j0, rfl⟩ : ∃ j0, j = j0 + 1 := ⟨j - 1, by omega⟩
  have hd := h.2 i0 j0 (by omega) (by omega) (by omega)
  have hu := h.2 i0 (j0 + 1) (by omega) (by omega) (by omega)
  have hl := h.2 (i0 + 1) j0 (by omega) (by omega) (Or.inr (Or.inr (Or.inr ⟨rfl, by omega⟩)))
  have hval : ∀ i' j', tget (fillCell s t (i0 + 1) dp (j0 + 1)) i' j' =
      if i' = i0 + 1 ∧ j' = j0 + 1 then cellValue s t (i0 + 1) (j0 + 1) else tget dp i' j' := by
    intro i' j'
    unfold fillCell
    simp only [Nat.add_sub_cancel]
    rw [cellValue_succ s t i0 j0 (by omega) (by omega)]
    split
    · rw [tget_tset h.1 _ hi hj, hd]
    · rw [tget_tset h.1 _ hi hj, hd, hu, hl]
  refine ⟨?_, ?_⟩
  · unfold fillCell; split <;> exact h.1.shaped_tset _ _ _ hi
  · intro i' j' hi' hj' hc
    rw [hval]
    split
    · rename_i heq; rw [heq.1, heq.2]
    · rename_i hneq
      apply h.2 i' j' hi' hj'
      rcases hc with hc | hc | hc | hc
      · exact Or.inl hc
      · exact Or.inr (Or.inl hc)
      · exact Or.inr (Or.inr (Or.inl hc))
      · refine Or.inr (Or.inr (Or.inr ⟨hc.1, ?_⟩))
        have : ¬ (j' = j0 + 1) := fun e => hneq ⟨hc.1, e⟩
        omega

theorem cells_fillRow (s t : Str) (i : Nat) (dp : Table) (hi1 : 1 ≤ i) (hi : i ≤ s.length)
    (h : Cells s t i 1 dp) : Cells s t i (1 + t.length) (fillRow s t dp i) := by
  unfold fillRow
  exact foldl_range'_inv (fillCell s t i) (fun j dp => Cells s t i j dp) t.length 1 dp h
    (fun k b h1 h2 hk => cells_fillCell s t i k b hi1 hi h1 (by omega) hk)

theorem cells_next_row (s t : Str) (i : Nat) (dp : Table) (h : Cells s t i (1 + t.length) dp) :
    Cells s t (i + 1) 1 dp := by
  refine ⟨h.1, ?_⟩
  intro i' j' hi' hj' hc
  apply h.2 i' j' hi' hj'
  rcases hc with hc | hc | hc | hc
  · exact Or.inl hc
  · exact Or.inr (Or.inl hc)
  · by_cases e : i' = i
    · exact Or.inr (Or.inr (Or.inr ⟨e, by omega⟩))
    · exact Or.inr (Or.inr (Or.inl (by omega)))
  · exact Or.inr (Or.inl (by omega))

/-- After the two boundary loops the first row and the first column are correct. -/
theorem cells_boundary (s t : Str) :
    Cells s t 1 1
      ((List.range (t.length + 1)).foldl (fun dp j => tset dp 0 j (j : Int))
        ((List.range (s.length + 1)).foldl (fun dp i => tset dp i 0 (i : Int))
          (List.replicate (s.length + 1) (List.replicate (t.length + 1) 0)))) := by
  have h1 := foldl_range'_inv (fun dp i => tset dp i 0 (i : Int))
    (fun k dp => Shaped s.length t.length dp ∧ ∀ i, i < k → tget dp i 0 = (i : Int))
    (s.length + 1) 0 _ ⟨shaped_replicate _ _, fun i hi => by omega⟩
    (fun k b _ hk hinv => by
      refine ⟨hinv.1.shaped_tset _ _ _ (by omega), ?_⟩
      intro i hi
      rw [tget_tset hinv.1 _ (by omega) (Nat.zero_le _)]
      by_cases e : i = k
      · simp [e]
      · simp only [e, false_and, if_false]; exact hinv.2 i (by omega))
  rw [← List.range_eq_range'] at h1
  have h2 := foldl_range'_inv (fun dp j => tset dp 0 j (j : Int))
    (fun k dp => Shaped s.length t.length dp ∧ (∀ i, i ≤ s.length → tget dp i 0 = (i : Int)) ∧
      ∀ j, j < k → tget dp 0 j = (j : Int))
    (t.length + 1) 0 _ ⟨h1.1, fun i hi => h1.2 i (by omega), fun j hj => by omega⟩
    (fun k b _ hk hinv => by
      refine ⟨hinv.1.shaped_tset _ _ _ (Nat.zero_le _), ?_, ?_⟩
      · intro i hi
        rw [tget_tset hinv.1 _ (Nat.zero_le _) (by omega)]
        by_cases e : i = 0 ∧ 0 = k
        · rw [if_pos e, ← e.2, e.1]
        · rw [if_neg e]; exact hinv.2.1 i hi
      · intro j hj
        rw [tget_tset hinv.1 _ (Nat.zero_le _) (by omega)]
        by_cases e : j = k
        · simp [e]
        · simp only [e, and_false, if_false]; exact hinv.2.2 j (by omega))
  rw [← List.range_eq_range'] at h2
  refine ⟨h2.1, ?_⟩
  intro i' j' hi' hj' hc
  have hc' : i' = 0 ∨ j' = 0 := by omega
  rcases hc' with e | e
  · subst e; rw [cellValue_zero_left s t j' hj']; exact h2.2.2 j' (by omega)
  · subst e; rw [cellValue_zero_right s t i' hi']; exact h2.2.1 i' hi'

theorem cells_dpTable (s t : Str) : Cells s t (1 + s.length) 1 (dpTable s t) := by
  unfold dpTable
  exact foldl_range'_inv (fillRow s t) (fun i dp => Cells s t i 1 dp) s.length 1 _
    (cells_boundary s t)
    (fun k b h1 h2 hk => cells_next_row s t k _ (cells_fillRow s t k b h1 (by omega) hk))

/-- The table-filling algorithm computes the reference recursive distance. -/
theorem basicEditDistance_eq_lev (s t : Str) : basicEditDistance s t = (lev s t : Int) := by
  unfold basicEditDistance
  rw [(cells_dpTable s t).2 s.length t.length (le_refl _) (le_refl _) (by omega)]
  unfold cellValue
  rw [List.take_length, List.take_length, lev_reverse]

/-! ### The transition generator lists the single edits over `a .. z` -/

theorem mem_deletions {s u : Str} : u ∈ deletions s ↔ ∃ i, i < s.length ∧ u = s.eraseIdx i := by
  simp only [deletions, List.mem_map, List.mem_range]
  constructor
  · rintro ⟨i, hi, rfl⟩; exact ⟨i, hi, rfl⟩
  · rintro ⟨i, hi, rfl⟩; exact ⟨i, hi, rfl⟩

theorem mem_insertions {s u : Str} :
    u ∈ insertions s ↔ ∃ i c, i ≤ s.length ∧ c ∈ alphabet ∧ u = s.insertIdx i c := by
  simp only [insertions, List.mem_flatMap, List.mem_map, List.mem_range]
  constructor
  · rintro ⟨i, hi, c, hc, rfl⟩; exact ⟨i, c, by omega, hc, rfl⟩
  · rintro ⟨i, c, hi, hc, rfl⟩; exact ⟨i, by omega, c, hc, rfl⟩

theorem mem_substitutions {s u : Str} :
    u ∈ substitutions s ↔
      ∃ i c, i < s.length ∧ c ∈ alphabet ∧ s[i]? ≠ some c ∧ u = s.set i c := by
  simp only [substitutions, List.mem_flatMap, List.mem_map, List.mem_range, List.mem_filter,
    decide_eq_true_eq]
  constructor
  · rintro ⟨i, hi, c, ⟨hc, hne⟩, rfl⟩; exact ⟨i, c, hi, hc, hne, rfl⟩
  · rintro ⟨i, c, hi, hc, hne, rfl⟩; exact ⟨i, hi, c, ⟨hc, hne⟩, rfl⟩

theorem mem_generateNextStates {s u : Str} :
    u ∈ generateNextStates s ↔ u ∈ deletions s ∨ u ∈ insertions s ∨ u ∈ substitutions s := by
  simp [generateNextStates, or_assoc]

theorem lowerEdit_eraseIdx : ∀ (s : Str) (i : Nat), i < s.length → LowerEdit s (s.eraseIdx i) := by
  intro s
  induction s with
  | nil => intro i hi; simp at hi
  | cons a s ih =>
    intro i hi
    cases i with
    | zero => exact EditOver.del a s
    | succ i => exact EditOver.cons a (ih i (by simpa using hi))

theorem lowerEdit_insertIdx (c : Char) (hc : c ∈ alphabet) :
    ∀ (s : Str) (i : Nat), i ≤ s.length → LowerEdit s (s.insertIdx i c) := by
  intro s
  induction s with
  | nil =>
    intro i hi
    have : i = 0 := by simpa using hi
    subst this
    exact EditOver.ins c [] hc
  | cons a s ih =>
    intro i hi
    cases i with
    | zero => exact EditOver.ins c _ hc
    | succ i => exact EditOver.cons a (ih i (by simpa using hi))

theorem lowerEdit_set (c : Char) (hc : c ∈ alphabet) :
    ∀ (s : Str) (i : Nat), i < s.length → s[i]? ≠ some c → LowerEdit s (s.set i c) := by
  intro s
  induction s with
  | nil => intro i hi; simp at hi
  | cons a s ih =>
    intro i hi hne
    cases i with
    | zero => exact EditOver.sub a c s hc (fun e => hne (by simp [e]))
    | succ i => exact EditOver.cons a (ih i (by simpa using hi) (by simpa using hne))

theorem cons_mem_generateNextStates (a : Char) {s u : Str} (h : u ∈ generateNextStates s) :
    a :: u ∈ generateNextStates (a :: s) := by
  rw [mem_generateNextStates] at h ⊢
  rcases h with h | h | h
  · obtain ⟨i, hi, rfl⟩ := mem_deletions.mp h
    exact Or.inl (mem_deletions.mpr ⟨i + 1, by simpa using hi, rfl⟩)
  · obtain ⟨i, c, hi, hc, rfl⟩ := mem_insertions.mp h
    exact Or.inr (Or.inl (mem_insertions.mpr ⟨i + 1, c, by simpa using hi, hc, rfl⟩))
  · obtain ⟨i, c, hi, hc, hne, rfl⟩ := mem_substitutions.mp h
    exact Or.inr (Or.inr (mem_substitutions.mpr ⟨i + 1, c, by simpa using hi, hc, by simpa using hne, rfl⟩))

/-- The transition generator lists exactly the single edits whose inserted or substituted
character is one of `a .. z`. -/
theorem mem_generateNextStates_iff {s u : Str} : u ∈ generateNextStates s ↔ LowerEdit s u := by
  constructor
  · intro h
    rcases mem_generateNextStates.mp h with h | h | h
    · obtain ⟨i, hi, rfl⟩ := mem_deletions.mp h
      exact lowerEdit_eraseIdx s i hi
    · obtain ⟨i, c, hi, hc, rfl⟩ := mem_insertions.mp h
      exact lowerEdit_insertIdx c hc s i hi
    · obtain ⟨i, c, hi, hc, hne, rfl⟩ := mem_substitutions.mp h
      exact lowerEdit_set c hc s i hi hne
  · intro h
    induction h with
    | del a s =>
      exact mem_generateNextStates.mpr (Or.inl (mem_deletions.mpr ⟨0, by simp, rfl⟩))
    | ins c s hc =>
      exact mem_generateNextStates.mpr (Or.inr (Or.inl (mem_insertions.mpr ⟨0, c, by simp, hc, rfl⟩)))
    | sub a c s hc hne =>
      exact mem_generateNextStates.mpr (Or.inr (Or.inr (mem_substitutions.mpr
        ⟨0, c, by simp, hc, by simpa using hne, rfl⟩)))
    | cons a _ ih => exact cons_mem_generateNextStates a ih

/-- Distance to the target of a neighbour: at most one more, at most one less. -/
theorem lev_neighbour {s u : Str} (h : u ∈ generateNextStates s) (t : Str) :
    lev u t ≤ lev s t + 1 ∧ lev s t ≤ lev u t + 1 :=
  ⟨lev_le_of_edit_left (mem_generateNextStates_iff.mp h) t,
    lev_ge_of_edit_left (mem_generateNextStates_iff.mp h) t⟩

/-- Towards a lowercase target some neighbour is one unit closer. -/
theorem exists_neighbour_closer {s t : Str} (ht : Lower t) (hne : s ≠ t) :
    ∃ u, u ∈ generateNextStates s ∧ lev u t + 1 = lev s t := by
  obtain ⟨u, hu, hlev⟩ := exists_edit_closer (P := fun c => c ∈ alphabet) s t ht hne
  exact ⟨u, mem_generateNextStates_iff.mpr hu, hlev⟩

theorem lev_le_of_walk {n : Nat} {s t : Str} (h : Walk n s t) : lev s t ≤ n :=
  lev_le_of_steps (P := fun c => c ∈ alphabet)
    (Steps.steps_mono (fun _ _ hr => mem_generateNextStates_iff.mp hr) h)

theorem walk_of_lev {s t : Str} (ht : Lower t) : Walk (lev s t) s t :=
  Steps.steps_mono (fun _ _ hr => mem_generateNextStates_iff.mpr hr)
    (steps_of_lev (P := fun c => c ∈ alphabet) (lev s t) s t ht rfl)

/-! ### All-optimal-paths search: what holds whenever it returns -/

theorem EntryOK.entry_path_ne_nil {start target : Str} {e : State} (h : EntryOK start target e) :
    e.path ≠ [] := by
  intro hnil
  have := h.path_ok.1
  rw [hnil] at this
  simp at this

theorem EntryOK.entry_cost_nonneg {start target : Str} {e : State} (h : EntryOK start target e) :
    0 ≤ e.cost := by
  have h1 := h.len
  have h2 := List.length_pos.mpr h.entry_path_ne_nil
  omega

theorem pathFromTo_snoc {start s w : Str} {p : List Str} (hp : PathFromTo start s p)
    (hw : w ∈ generateNextStates s) : PathFromTo start w (p ++ [w]) := by
  obtain ⟨h1, h2, h3⟩ := hp
  have hne : p ≠ [] := by intro e; rw [e] at h1; simp at h1
  refine ⟨?_, by simp, ?_⟩
  · cases p with
    | nil => exact absurd rfl hne
    | cons a p => simpa using h1
  · refine List.Chain'.append h3 (List.chain'_singleton w) ?_
    intro x hx y hy
    rw [h2] at hx
    simp at hx hy
    subst hx hy
    exact hw

theorem lev_target_neighbour {s target : Str} (h : target ∈ generateNextStates s) :
    lev s target ≤ 1 := by
  have := (lev_neighbour h target).2
  rw [lev_self] at this
  exact this

theorem EntryOK.entry_step_cost {start target : Str} {e : State} (h : EntryOK start target e)
    {w : Str} (hw : w ∈ generateNextStates e.current_string) :
    (lev start target : Int) ≤ e.cost + 1 + lev w target := by
  have h1 := h.sound
  have h2 := (lev_neighbour hw target).2
  omega

theorem EntryOK.entry_push {start target : Str} {e : State} (h : EntryOK start target e)
    {w : Str} (hw : w ∈ generateNextStates e.current_string) (hne : w ≠ target) :
    EntryOK start target ⟨w, e.cost + 1, e.path ++ [w]⟩ where
  path_ok := pathFromTo_snoc h.path_ok hw
  len := by have := h.len; simp only [List.length_append, List.length_singleton]; push_cast; omega
  ne := hne
  sound := h.entry_step_cost hw

theorem resultOK_recordPath {start target : Str} {r : BFSResult} {cur : State}
    (hr : ResultOK start target r) (hc : EntryOK start target cur)
    (ht : target ∈ generateNextStates cur.current_string) :
    ResultOK start target (recordPath r (cur.cost + 1) (cur.path ++ [target])) := by
  have hnew : (lev start target : Int) ≤ cur.cost + 1 := by
    have := hc.entry_step_cost ht
    rw [lev_self] at this
    simpa using this
  have hlen : ((cur.path ++ [target]).length : Int) = cur.cost + 1 + 1 := by
    have := hc.len
    simp only [List.length_append, List.length_singleton]; push_cast; omega
  have hpath := pathFromTo_snoc hc.path_ok ht
  unfold recordPath
  split
  · refine ⟨?_, ?_, Or.inr hnew⟩
    · intro p hp
      simp only [List.mem_singleton] at hp
      subst hp
      exact ⟨hlen, hpath⟩
    · simp only [ne_eq, List.cons_ne_nil, not_false_eq_true, true_iff]
      have : (0 : Int) ≤ lev start target := Int.natCast_nonneg _
      omega
  · rename_i h1
    split
    · rename_i h2
      refine ⟨?_, ?_, hr.sound⟩
      · intro p hp
        simp only [List.mem_append, List.mem_singleton] at hp
        rcases hp with hp | hp
        · exact hr.paths p hp
        · subst hp
          exact ⟨by rw [hlen, h2], hpath⟩
      · simp only [ne_eq, List.append_eq_nil, List.cons_ne_nil, and_false, not_false_eq_true,
          true_iff]
        intro e
        exact h1 (Or.inl e)
    · exact hr

theorem costOf_cons (k : Str) (v : Int) (m : List (Str × Int)) (s : Str) :
    costOf ((k, v) :: m) s = if k = s then some v else costOf m s := rfl

theorem bestOK_cons {start target : Str} {m : List (Str × Int)} (h : BestOK start target m)
    {w : Str} {c : Int} (hc : (lev start target : Int) ≤ c + lev w target) :
    BestOK start target ((w, c) :: m) := by
  intro w1 c1 hlook
  rw [costOf_cons] at hlook
  split at hlook
  · rename_i e
    subst e
    simp only [Option.some.injEq] at hlook
    subst hlook
    exact hc
  · exact h w1 c1 hlook

theorem completeOK_visit {start target : Str} {cur : State} {σ : Search} {w : Str}
    (hσ : CompleteOK start target σ) (hc : EntryOK start target cur)
    (hw : w ∈ generateNextStates cur.current_string) :
    CompleteOK start target (completeVisit target cur σ w) := by
  unfold completeVisit
  split
  · rename_i e
    subst e
    exact ⟨resultOK_recordPath hσ.result hc hw, hσ.entries, hσ.best⟩
  · rename_i hne
    split
    · refine ⟨hσ.result, ?_, bestOK_cons hσ.best (hc.entry_step_cost hw)⟩
      intro e he
      simp only [List.mem_append, List.mem_singleton] at he
      rcases he with he | he
      · exact hσ.entries e he
      · subst he
        exact hc.entry_push hw hne
    · exact hσ

/-- Loop rule for a left fold: the invariant may mention the elements still to come. -/
theorem foldl_pending_inv {α β : Type} (f : β → α → β) (Inv : List α → β → Prop) :
    ∀ (l : List α) (b : β), Inv l b → (∀ x rest b, Inv (x :: rest) b → Inv rest (f b x)) →
      Inv [] (l.foldl f b) := by
  intro l
  induction l with
  | nil => intro b h _; exact h
  | cons x rest ih => intro b h hstep; exact ih (f b x) (hstep x rest b h) hstep

theorem completeOK_foldl {start target : Str} {cur : State} (hc : EntryOK start target cur) :
    ∀ (l : List Str) (σ : Search), (∀ w ∈ l, w ∈ generateNextStates cur.current_string) →
      CompleteOK start target σ → CompleteOK start target (l.foldl (completeVisit target cur) σ) := by
  intro l
  induction l with
  | nil => intro σ _ h; exact h
  | cons w rest ih =>
    intro σ hl h
    exact ih _ (fun x hx => hl x (List.mem_cons_of_mem _ hx))
      (completeOK_visit h hc (hl w (List.mem_cons_self _ _)))

theorem resultOK_countNode {start target : Str} {r : BFSResult} (h : ResultOK start target r)
    (n : Nat) : ResultOK start target (countNode r n) :=
  ⟨h.paths, h.nonempty, h.sound⟩

theorem completeOK_upTo {start target : Str} {σ : Search} (h : CompleteOK start target σ)
    (k : Nat) : CompleteOK start target (completeUpTo target k σ) := by
  unfold completeUpTo
  split
  · exact h
  · rename_i cur rest hq
    have hcur : EntryOK start target cur := h.entries cur (by rw [hq]; exact List.mem_cons_self _ _)
    have h1 : CompleteOK start target ⟨countNode σ.result σ.q.length, σ.best_cost, rest⟩ :=
      ⟨resultOK_countNode h.result _, fun e he => h.entries e (by rw [hq]; exact List.mem_cons_of_mem _ he),
        h.best⟩
    simp only
    split
    · exact h1
    · exact completeOK_foldl hcur _ _ (fun w hw => List.mem_of_mem_take hw) h1

theorem completeOK_iter {start target : Str} {σ : Search} (h : CompleteOK start target σ) :
    CompleteOK start target (completeIter target σ) := by
  unfold completeIter
  split
  · exact h
  · rename_i cur rest hq
    have hcur : EntryOK start target cur := h.entries cur (by rw [hq]; exact List.mem_cons_self _ _)
    have h1 : CompleteOK start target ⟨countNode σ.result σ.q.length, σ.best_cost, rest⟩ :=
      ⟨resultOK_countNode h.result _, fun e he => h.entries e (by rw [hq]; exact List.mem_cons_of_mem _ he),
        h.best⟩
    simp only
    split
    · exact h1
    · exact completeOK_foldl hcur _ _ (fun w hw => hw) h1

theorem completeOK_init {start target : Str} (hne : start ≠ target) :
    CompleteOK start target (completeInit start) := by
  refine ⟨⟨by simp [completeInit, emptyResult], by simp [completeInit, emptyResult],
    Or.inl rfl⟩, ?_, ?_⟩
  · intro e he
    simp only [completeInit, List.mem_singleton] at he
    subst he
    exact ⟨⟨rfl, rfl, List.chain'_singleton _⟩, by simp, hne, by simp⟩
  · intro w c h
    simp only [completeInit, costOf_cons, costOf] at h
    split at h
    · rename_i e
      subst e
      simp only [Option.some.injEq] at h
      subst h
      simp
    · simp at h

theorem completeLoop_resultOK {start target : Str} :
    ∀ (fuel : Nat) (σ : Search) (r : BFSResult), CompleteOK start target σ →
      completeLoop target fuel σ = some r → ResultOK start target r := by
  intro fuel
  induction fuel with
  | zero => intro σ r _ h; simp [completeLoop] at h
  | succ fuel ih =>
    intro σ r hσ h
    unfold completeLoop at h
    split at h
    · simp only [Option.some.injEq] at h
      subst h
      exact hσ.result
    · exact ih _ r (completeOK_iter hσ) h

theorem resultOK_trivial (start : Str) : ResultOK start start (trivialResult start) := by
  refine ⟨?_, by simp [trivialResult], Or.inr (by simp [trivialResult, lev_self])⟩
  intro p hp
  simp only [trivialResult, List.mem_singleton] at hp
  subst hp
  exact ⟨by simp [trivialResult], rfl, rfl, List.chain'_singleton _⟩

/-- Whatever `completeBFSEditDistance` returns is a consistent result record. -/
theorem completeBFS_resultOK {fuel : Nat} {start target : Str} {r : BFSResult}
    (h : completeBFSEditDistance fuel start target = some r) : ResultOK start target r := by
  unfold completeBFSEditDistance at h
  split at h
  · rename_i e
    subst e
    simp only [Option.some.injEq] at h
    subst h
    exact resultOK_trivial start
  · rename_i hne
    exact completeLoop_resultOK fuel _ r (completeOK_init hne) h

/-! ### All-optimal-paths search: termination, distance and completeness -/

theorem treeSize_pos (k : Nat) (s : Str) : 0 < treeSize k s := by
  cases k <;> simp [treeSize]

theorem queueWeight_cons (bound : Nat) (e : State) (q : List State) :
    queueWeight bound (e :: q) = stateWeight bound e + queueWeight bound q := by
  simp [queueWeight]

theorem queueWeight_append (bound : Nat) (q1 q2 : List State) :
    queueWeight bound (q1 ++ q2) = queueWeight bound q1 + queueWeight bound q2 := by
  simp [queueWeight]

theorem Fifo.fifo_pop {α : Type} {cost : α → Int} {cur : α} {rest : List α}
    (h : Fifo cost (cur :: rest)) : FifoAfter cost (cost cur) rest := by
  obtain ⟨K, front, back, hq, hf, hb⟩ := h
  cases front with
  | nil =>
    simp only [List.nil_append] at hq
    have hc : cost cur = K + 1 := hb cur (by rw [← hq]; exact List.mem_cons_self _ _)
    refine ⟨rest, [], by simp, ?_, by simp⟩
    intro e he
    rw [hc]
    exact hb e (by rw [← hq]; exact List.mem_cons_of_mem _ he)
  | cons f fs =>
    simp only [List.cons_append, List.cons.injEq] at hq
    obtain ⟨h1, h2⟩ := hq
    subst h1
    have hc : cost cur = K := hf cur (List.mem_cons_self _ _)
    refine ⟨fs, back, h2, ?_, ?_⟩
    · intro e he; rw [hc]; exact hf e (List.mem_cons_of_mem _ he)
    · intro e he; rw [hc]; exact hb e he

theorem FifoAfter.fifo_push {α : Type} {cost : α → Int} {c : Int} {q : List α}
    (h : FifoAfter cost c q) {e : α} (he : cost e = c + 1) : FifoAfter cost c (q ++ [e]) := by
  obtain ⟨front, back, hq, hf, hb⟩ := h
  refine ⟨front, back ++ [e], by rw [hq, List.append_assoc], hf, ?_⟩
  intro x hx
  simp only [List.mem_append, List.mem_singleton] at hx
  rcases hx with hx | hx
  · exact hb x hx
  · rw [hx]; exact he

theorem FifoAfter.to_fifo {α : Type} {cost : α → Int} {c : Int} {q : List α}
    (h : FifoAfter cost c q) : Fifo cost q := by
  obtain ⟨front, back, hq, hf, hb⟩ := h
  exact ⟨c, front, back, hq, hf, hb⟩

theorem FifoAfter.cost_ge {α : Type} {cost : α → Int} {c : Int} {q : List α}
    (h : FifoAfter cost c q) {e : α} (he : e ∈ q) : c ≤ cost e := by
  obtain ⟨front, back, hq, hf, hb⟩ := h
  rw [hq, List.mem_append] at he
  rcases he with he | he
  · rw [hf e he]
  · rw [hb e he]; omega

/-- Along a chain the distance to any string drops by at most the number of steps. -/
theorem chain_lev_le : ∀ (suf : List Str) (x t : Str), IsChain (x :: suf) →
    (x :: suf).getLast? = some t → lev x t ≤ suf.length := by
  intro suf
  induction suf with
  | nil =>
    intro x t _ hl
    simp at hl
    subst hl
    simp [lev_self]
  | cons y suf ih =>
    intro x t hc hl
    have hxy : y ∈ generateNextStates x := (List.chain'_cons.mp hc).1
    have hc2 : IsChain (y :: suf) := (List.chain'_cons.mp hc).2
    have hl2 : (y :: suf).getLast? = some t := by
      rw [List.getLast?_cons_cons] at hl; exact hl
    have h1 := ih y t hc2 hl2
    have h2 := (lev_neighbour hxy t).2
    simp only [List.length_cons]
    omega

theorem chain_lev_ge : ∀ (pre : List Str) (s x t : Str), IsChain (pre ++ [x]) →
    (pre ++ [x]).head? = some s → lev s t ≤ pre.length + lev x t := by
  intro pre
  induction pre with
  | nil =>
    intro s x t _ hh
    simp at hh
    subst hh
    simp
  | cons a pre ih =>
    intro s x t hc hh
    simp at hh
    subst hh
    cases pre with
    | nil =>
      have hax : x ∈ generateNextStates a := by
        simpa [IsChain] using hc
      have := (lev_neighbour hax t).2
      simp only [List.length_cons, List.length_nil]
      omega
    | cons b pre =>
      have hc1 : List.Chain' (fun a b => b ∈ generateNextStates a) (a :: (b :: (pre ++ [x]))) := by
        simpa [IsChain] using hc
      have hab : b ∈ generateNextStates a := (List.chain'_cons.mp hc1).1
      have hc2 : IsChain ((b :: pre) ++ [x]) := by
        simpa [IsChain] using (List.chain'_cons.mp hc1).2
      have h1 := ih b x t hc2 (by simp)
      have h2 := (lev_neighbour hab t).2
      simp only [List.length_cons] at h1 ⊢
      omega

theorem recordPath_min (r : BFSResult) (c : Int) (p : List Str) :
    (recordPath r c p).min_distance =
      if r.min_distance = -1 ∨ c < r.min_distance then c else r.min_distance := by
  unfold recordPath
  split
  · rfl
  · split <;> rfl

theorem recordPath_mem_new {r : BFSResult} {c : Int} {p : List Str}
    (h : r.min_distance = -1 ∨ c ≤ r.min_distance) : p ∈ (recordPath r c p).all_paths := by
  unfold recordPath
  split
  · simp
  · rename_i h1
    have h2 : c = r.min_distance := by
      rcases h with h | h
      · exact absurd (Or.inl h) h1
      · by_contra hne
        exact h1 (Or.inr (by omega))
    rw [if_pos h2]
    simp

theorem recordPath_mem_old {r : BFSResult} {c : Int} {p np : List Str}
    (hp : p ∈ r.all_paths) (h1 : r.min_distance ≠ -1) (h2 : r.min_distance ≤ c) :
    p ∈ (recordPath r c np).all_paths := by
  unfold recordPath
  rw [if_neg (by intro h; rcases h with h | h; exact h1 h; omega)]
  split
  · simp [hp]
  · exact hp

theorem optPath_split {start target : Str} {p pre suf : List Str} {x w : Str}
    (hp : OptPath start target p) (he : p = pre ++ x :: w :: suf) :
    w ∈ generateNextStates x ∧ lev start target = pre.length + 1 + suf.length ∧
      lev w target = suf.length := by
  obtain ⟨⟨hh, hl, hc⟩, hlen⟩ := hp
  subst he
  have hc1 : List.Chain' (fun a b => b ∈ generateNextStates a) (x :: w :: suf) :=
    List.Chain'.right_of_append hc
  have hxw : w ∈ generateNextStates x := (List.chain'_cons.mp hc1).1
  have hc2 : IsChain (w :: suf) := (List.chain'_cons.mp hc1).2
  have hl2 : (w :: suf).getLast? = some target := by
    have e1 : pre ++ x :: w :: suf = (pre ++ [x]) ++ (w :: suf) := by simp
    rw [e1, List.getLast?_append_of_ne_nil _ (List.cons_ne_nil _ _)] at hl
    exact hl
  have h1 := chain_lev_le suf w target hc2 hl2
  have hc3 : IsChain ((pre ++ [x]) ++ [w]) := by
    have e1 : pre ++ x :: w :: suf = ((pre ++ [x]) ++ [w]) ++ suf := by simp
    rw [e1] at hc
    exact List.Chain'.left_of_append hc
  have hh3 : ((pre ++ [x]) ++ [w]).head? = some start := by
    cases pre <;> simpa using hh
  have h2 := chain_lev_ge (pre ++ [x]) start w target hc3 hh3
  simp only [List.length_append, List.length_cons, List.length_nil] at hlen h2
  refine ⟨hxw, ?_, ?_⟩ <;> omega

theorem CMid.cmid_finish {start target : Str} {cur : State} {σ : Search}
    (h : CMid start target cur [] σ) : CHead start target σ where
  ok := h.ok
  fifo := h.fifo.to_fifo
  cap := h.cap
  good := by
    rcases h.good with g | g | ⟨_, w, hw, _⟩
    · exact Or.inl g
    · exact Or.inr g
    · simp at hw
  track := by
    intro p hp
    rcases h.track p hp with t | ⟨_, _, w, _, _, _, hw⟩
    · exact t
    · simp at hw

theorem CMid.cmid_visit_target {start target : Str} {cur : State} {rest : List Str} {σ : Search}
    (h : CMid start target cur (target :: rest) σ) :
    CMid start target cur rest
      { σ with result := recordPath σ.result (cur.cost + 1) (cur.path ++ [target]) } := by
  have hw : target ∈ generateNextStates cur.current_string := h.pend _ (List.mem_cons_self _ _)
  have hnew : (lev start target : Int) ≤ cur.cost + 1 := by
    have := h.cur_ok.entry_step_cost hw
    rw [lev_self] at this
    simpa using this
  have hsound := h.ok.result.sound
  refine ⟨⟨resultOK_recordPath h.ok.result h.cur_ok hw, h.ok.entries, h.ok.best⟩, h.cur_ok,
    fun w hw => h.pend w (List.mem_cons_of_mem _ hw), h.fifo, h.cur_cap, h.cap, ?_, ?_⟩
  · rcases h.good with g | g | ⟨gc, w, hw1, hlev⟩
    · left
      show (recordPath _ _ _).min_distance = _
      rw [recordPath_min, if_neg]
      · exact g
      · have : (0 : Int) ≤ lev start target := Int.natCast_nonneg _
        omega
    · exact Or.inr (Or.inl g)
    · rcases List.mem_cons.mp hw1 with e | hw2
      · left
        rw [e, lev_self] at hlev
        have gc1 : cur.cost + (lev cur.current_string target : Int) = lev start target := gc
        show (recordPath _ _ _).min_distance = _
        rw [recordPath_min]
        split
        · omega
        · rename_i hn
          omega
      · exact Or.inr (Or.inr ⟨gc, w, hw2, hlev⟩)
  · intro p hp
    rcases h.track p hp with (hin | ⟨pre, x, suf, h1, h2, h3⟩) | ⟨pre, x, w, suf, h1, h2, h3⟩
    · left; left
      have hmin := (h.ok.result.paths p hin).1
      have hlen := hp.2
      show p ∈ (recordPath _ _ _).all_paths
      apply recordPath_mem_old hin <;> omega
    · exact Or.inl (Or.inr ⟨pre, x, suf, h1, h2, h3⟩)
    · rcases List.mem_cons.mp h3 with e | hw2
      · left; left
        obtain ⟨_, hd, hl⟩ := optPath_split hp h1
        rw [e, lev_self] at hl
        have hsuf : suf = [] := List.length_eq_zero.mp hl.symm
        subst hsuf
        have hpath : cur.path ++ [target] = p := by rw [h2, h1, e]; simp
        have hcost : cur.cost = (pre.length : Int) := by rw [h2]
        show p ∈ (recordPath _ _ _).all_paths
        rw [← hpath]
        apply recordPath_mem_new
        simp only [List.length_nil] at hd
        omega
      · exact Or.inr ⟨pre, x, w, suf, h1, h2, hw2⟩

theorem CMid.cmid_visit_push {start target : Str} {cur : State} {w : Str} {rest : List Str}
    {σ : Search} (h : CMid start target cur (w :: rest) σ) (hne : w ≠ target) :
    CMid start target cur rest
      { σ with
        best_cost := (w, cur.cost + 1) :: σ.best_cost,
        q := σ.q ++ [⟨w, cur.cost + 1, cur.path ++ [w]⟩] } := by
  have hw : w ∈ generateNextStates cur.current_string := h.pend _ (List.mem_cons_self _ _)
  refine ⟨⟨h.ok.result, ?_, bestOK_cons h.ok.best (h.cur_ok.entry_step_cost hw)⟩, h.cur_ok,
    fun w hw => h.pend w (List.mem_cons_of_mem _ hw), h.fifo.fifo_push rfl, h.cur_cap, ?_, ?_, ?_⟩
  · intro e he
    simp only [List.mem_append, List.mem_singleton] at he
    rcases he with he | he
    · exact h.ok.entries e he
    · subst he; exact h.cur_ok.entry_push hw hne
  · intro e he
    simp only [List.mem_append, List.mem_singleton] at he
    rcases he with he | he
    · exact h.cap e he
    · subst he
      have := h.cur_cap
      show cur.cost + 1 ≤ _
      omega
  · rcases h.good with g | ⟨e, he, g⟩ | ⟨gc, w1, hw1, hlev⟩
    · exact Or.inl g
    · exact Or.inr (Or.inl ⟨e, List.mem_append_left _ he, g⟩)
    · rcases List.mem_cons.mp hw1 with e | hw2
      · subst e
        refine Or.inr (Or.inl ⟨_, List.mem_append_right _ (List.mem_singleton_self _), ?_⟩)
        have gc1 : cur.cost + (lev cur.current_string target : Int) = lev start target := gc
        show cur.cost + 1 + (lev w1 target : Int) = _
        omega
      · exact Or.inr (Or.inr ⟨gc, w1, hw2, hlev⟩)
  · intro p hp
    rcases h.track p hp with (hin | ⟨pre, x, suf, h1, h2, h3⟩) | ⟨pre, x, w1, suf, h1, h2, h3⟩
    · exact Or.inl (Or.inl hin)
    · exact Or.inl (Or.inr ⟨pre, x, suf, h1, h2, List.mem_append_left _ h3⟩)
    · rcases List.mem_cons.mp h3 with e | hw2
      · left; right
        subst e
        obtain ⟨_, hd, hl⟩ := optPath_split hp h1
        have hsuf : suf ≠ [] := by
          intro e
          rw [e] at hl
          exact hne (eq_of_lev_eq_zero _ _ (by simpa using hl))
        refine ⟨pre ++ [x], w1, suf, by rw [h1]; simp, hsuf, ?_⟩
        apply List.mem_append_right
        rw [h2]
        simp
      · exact Or.inr ⟨pre, x, w1, suf, h1, h2, hw2⟩

theorem CMid.cmid_visit_skip {start target : Str} {cur : State} {w : Str} {rest : List Str}
    {σ : Search} (h : CMid start target cur (w :: rest) σ) (hne : w ≠ target)
    (hadm : completeAccepts σ.best_cost w (cur.cost + 1) = false) :
    CMid start target cur rest σ := by
  have hw : w ∈ generateNextStates cur.current_string := h.pend _ (List.mem_cons_self _ _)
  obtain ⟨c1, hc1, hlt⟩ : ∃ c1, costOf σ.best_cost w = some c1 ∧ c1 < cur.cost + 1 := by
    unfold completeAccepts at hadm
    split at hadm
    · simp at hadm
    · rename_i c1 hc1
      exact ⟨c1, hc1, by simpa using hadm⟩
  have hbest := h.ok.best w c1 hc1
  refine ⟨h.ok, h.cur_ok, fun w hw => h.pend w (List.mem_cons_of_mem _ hw), h.fifo, h.cur_cap,
    h.cap, ?_, ?_⟩
  · rcases h.good with g | g | ⟨gc, w1, hw1, hlev⟩
    · exact Or.inl g
    · exact Or.inr (Or.inl g)
    · rcases List.mem_cons.mp hw1 with e | hw2
      · subst e
        have gc1 : cur.cost + (lev cur.current_string target : Int) = lev start target := gc
        omega
      · exact Or.inr (Or.inr ⟨gc, w1, hw2, hlev⟩)
  · intro p hp
    rcases h.track p hp with t | ⟨pre, x, w1, suf, h1, h2, h3⟩
    · exact Or.inl t
    · rcases List.mem_cons.mp h3 with e | hw2
      · subst e
        obtain ⟨_, hd, hl⟩ := optPath_split hp h1
        have hcost : cur.cost = (pre.length : Int) := by rw [h2]
        omega
      · exact Or.inr ⟨pre, x, w1, suf, h1, h2, hw2⟩

theorem CMid.cmid_visit {start target : Str} {cur : State} {w : Str} {rest : List Str}
    {σ : Search} (h : CMid start target cur (w :: rest) σ) :
    CMid start target cur rest (completeVisit target cur σ w) := by
  unfold completeVisit
  split
  · rename_i e
    subst e
    exact h.cmid_visit_target
  · rename_i hne
    split
    · exact h.cmid_visit_push hne
    · rename_i hadm
      exact h.cmid_visit_skip hne (by simpa using hadm)

theorem CMid.cmid_foldl {start target : Str} {cur : State} {pending : List Str} {σ : Search}
    (h : CMid start target cur pending σ) :
    CHead start target (pending.foldl (completeVisit target cur) σ) :=
  (foldl_pending_inv (completeVisit target cur) (fun l s => CMid start target cur l s)
    pending σ h (fun _ _ _ hx => hx.cmid_visit)).cmid_finish

theorem Good.good_cost_lt {start target : Str} {e : State} (hg : Good start target e)
    (he : EntryOK start target e) : e.cost + 1 ≤ (lev start target : Int) := by
  have h1 : e.cost + (lev e.current_string target : Int) = lev start target := hg
  have h2 := lev_pos_of_ne he.ne
  omega

theorem CHead.chead_pop_skip {start target : Str} {σ : Search} {cur : State} {rest : List State}
    (h : CHead start target σ) (hq : σ.q = cur :: rest)
    (hskip : σ.result.min_distance ≠ -1 ∧ cur.cost > σ.result.min_distance) :
    CHead start target ⟨countNode σ.result σ.q.length, σ.best_cost, rest⟩ := by
  have hcur : EntryOK start target cur := h.ok.entries cur (by rw [hq]; exact List.mem_cons_self _ _)
  have hsound := h.ok.result.sound
  have hfifo : FifoAfter State.cost cur.cost rest := (hq ▸ h.fifo).fifo_pop
  refine ⟨⟨resultOK_countNode h.ok.result _,
    fun e he => h.ok.entries e (by rw [hq]; exact List.mem_cons_of_mem _ he), h.ok.best⟩,
    hfifo.to_fifo, fun e he => h.cap e (by rw [hq]; exact List.mem_cons_of_mem _ he), ?_, ?_⟩
  · rcases h.good with g | ⟨e, he, g⟩
    · exact Or.inl g
    · right
      rw [hq] at he
      rcases List.mem_cons.mp he with e1 | e1
      · subst e1
        have := g.good_cost_lt hcur
        omega
      · exact ⟨e, e1, g⟩
  · intro p hp
    rcases h.track p hp with t | ⟨pre, x, suf, h1, h2, h3⟩
    · exact Or.inl t
    · right
      rw [hq] at h3
      rcases List.mem_cons.mp h3 with e1 | e1
      · have hc : cur.cost = (pre.length : Int) := by rw [← e1]
        have hlen := hp.2
        rw [h1] at hlen
        have : 0 < suf.length := List.length_pos.mpr h2
        simp only [List.length_append, List.length_cons] at hlen
        omega
      · exact ⟨pre, x, suf, h1, h2, e1⟩

theorem CHead.chead_pop_expand {start target : Str} (ht : Lower target) {σ : Search} {cur : State}
    {rest : List State} (h : CHead start target σ) (hq : σ.q = cur :: rest)
    (hexp : ¬ (σ.result.min_distance ≠ -1 ∧ cur.cost > σ.result.min_distance)) :
    CMid start target cur (generateNextStates cur.current_string)
      ⟨countNode σ.result σ.q.length, σ.best_cost, rest⟩ := by
  have hcur : EntryOK start target cur := h.ok.entries cur (by rw [hq]; exact List.mem_cons_self _ _)
  have hfifo : FifoAfter State.cost cur.cost rest := (hq ▸ h.fifo).fifo_pop
  refine ⟨⟨resultOK_countNode h.ok.result _,
    fun e he => h.ok.entries e (by rw [hq]; exact List.mem_cons_of_mem _ he), h.ok.best⟩,
    hcur, fun w hw => hw, hfifo, ?_,
    fun e he => h.cap e (by rw [hq]; exact List.mem_cons_of_mem _ he), ?_, ?_⟩
  · rcases h.good with g | ⟨e, he, g⟩
    · have : (0 : Int) ≤ lev start target := Int.natCast_nonneg _
      by_contra hgt
      exact hexp ⟨by omega, by omega⟩
    · have h1 := g.good_cost_lt (h.ok.entries e he)
      rw [hq] at he
      rcases List.mem_cons.mp he with e1 | e1
      · subst e1; omega
      · have := hfifo.cost_ge e1; omega
  · rcases h.good with g | ⟨e, he, g⟩
    · exact Or.inl g
    · rw [hq] at he
      rcases List.mem_cons.mp he with e1 | e1
      · subst e1
        obtain ⟨w, hw, hlev⟩ := exists_neighbour_closer ht hcur.ne
        exact Or.inr (Or.inr ⟨g, w, hw, hlev⟩)
      · exact Or.inr (Or.inl ⟨e, e1, g⟩)
  · intro p hp
    rcases h.track p hp with t | ⟨pre, x, suf, h1, h2, h3⟩
    · exact Or.inl (Or.inl t)
    · rw [hq] at h3
      rcases List.mem_cons.mp h3 with e1 | e1
      · right
        cases suf with
        | nil => exact absurd rfl h2
        | cons w suf =>
          obtain ⟨hw, _, _⟩ := optPath_split hp h1
          refine ⟨pre, x, w, suf, h1, e1.symm, ?_⟩
          rw [← e1]
          exact hw
      · exact Or.inl (Or.inr ⟨pre, x, suf, h1, h2, e1⟩)

theorem CHead.chead_iter {start target : Str} (ht : Lower target) {σ : Search}
    (h : CHead start target σ) : CHead start target (completeIter target σ) := by
  unfold completeIter
  split
  · exact h
  · rename_i cur rest hq
    simp only
    split
    · rename_i hskip
      exact h.chead_pop_skip hq hskip
    · rename_i hexp
      exact (h.chead_pop_expand ht hq hexp).cmid_foldl

theorem weight_visit (bound : Nat) (target : Str) (cur : State) (σ : Search) (w : Str) :
    queueWeight bound (completeVisit target cur σ w).q ≤
      queueWeight bound σ.q + treeSize (bound - (cur.cost + 1).toNat) w := by
  unfold completeVisit
  split
  · simp
  · split
    · simp [queueWeight_append, queueWeight, stateWeight]
    · simp

theorem weight_foldl (bound : Nat) (target : Str) (cur : State) :
    ∀ (l : List Str) (σ : Search),
      queueWeight bound (l.foldl (completeVisit target cur) σ).q ≤
        queueWeight bound σ.q + (l.map (treeSize (bound - (cur.cost + 1).toNat))).sum := by
  intro l
  induction l with
  | nil => intro σ; simp
  | cons w l ih =>
    intro σ
    have h1 := ih (completeVisit target cur σ w)
    have h2 := weight_visit bound target cur σ w
    simp only [List.foldl_cons, List.map_cons, List.sum_cons]
    omega

theorem stateWeight_expand {bound : Nat} {cur : State} (h0 : 0 ≤ cur.cost)
    (h1 : cur.cost + 1 ≤ (bound : Int)) :
    stateWeight bound cur =
      1 + ((generateNextStates cur.current_string).map
        (treeSize (bound - (cur.cost + 1).toNat))).sum := by
  unfold stateWeight
  have e : bound - cur.cost.toNat = (bound - (cur.cost + 1).toNat) + 1 := by omega
  rw [e, treeSize]

theorem weight_iter {start target : Str} (ht : Lower target) {σ : Search}
    (h : CHead start target σ) (hne : σ.q ≠ []) :
    queueWeight (lev start target + 1) (completeIter target σ).q <
      queueWeight (lev start target + 1) σ.q := by
  unfold completeIter
  split
  · rename_i hq; exact absurd hq hne
  · rename_i cur rest hq
    simp only
    rw [show queueWeight (lev start target + 1) σ.q =
      stateWeight (lev start target + 1) cur + queueWeight (lev start target + 1) rest from by
        rw [hq, queueWeight_cons]]
    split
    · have := treeSize_pos (lev start target + 1 - cur.cost.toNat) cur.current_string
      simp only [stateWeight]
      omega
    · rename_i hexp
      have hmid := h.chead_pop_expand ht hq hexp
      have h0 := hmid.cur_ok.entry_cost_nonneg
      have h1 := hmid.cur_cap
      rw [stateWeight_expand h0 (by push_cast; omega)]
      have := weight_foldl (lev start target + 1) target cur
        (generateNextStates cur.current_string)
        ⟨countNode σ.result σ.q.length, σ.best_cost, rest⟩
      simp only at this
      omega

theorem CHead.chead_init {start target : Str} (hne : start ≠ target) :
    CHead start target (completeInit start) := by
  refine ⟨completeOK_init hne, ⟨0, [⟨start, 0, [start]⟩], [], by simp [completeInit], by simp,
    by simp⟩, ?_, ?_, ?_⟩
  · intro e he
    simp only [completeInit, List.mem_singleton] at he
    subst he
    have : (0 : Int) ≤ lev start target := Int.natCast_nonneg _
    show (0 : Int) ≤ _
    omega
  · right
    exact ⟨⟨start, 0, [start]⟩, by simp [completeInit], by simp [Good]⟩
  · intro p hp
    right
    obtain ⟨⟨hh, hl, hc⟩, hlen⟩ := hp
    have hpos := lev_pos_of_ne hne
    cases p with
    | nil => simp at hh
    | cons x suf =>
      simp only [List.head?_cons, Option.some.injEq] at hh
      subst hh
      refine ⟨[], x, suf, rfl, ?_, by simp [completeInit]⟩
      intro e
      rw [e] at hlen
      simp at hlen
      omega

theorem completeLoop_total {start target : Str} (ht : Lower target) :
    ∀ (n : Nat) (σ : Search), CHead start target σ →
      queueWeight (lev start target + 1) σ.q ≤ n →
      ∃ r, completeLoop target (n + 1) σ = some r ∧ CompletePost start target r := by
  intro n
  induction n with
  | zero =>
    intro σ h hw
    unfold completeLoop
    split
    · rename_i hq
      refine ⟨σ.result, rfl, h.ok.result, ?_, ?_⟩
      · rcases h.good with g | ⟨e, he, _⟩
        · exact g
        · rw [hq] at he; simp at he
      · intro p hp
        rcases h.track p hp with t | ⟨_, _, _, _, _, h3⟩
        · exact t
        · rw [hq] at h3; simp at h3
    · rename_i cur rest hq
      rw [hq, queueWeight_cons] at hw
      have := treeSize_pos (lev start target + 1 - cur.cost.toNat) cur.current_string
      simp only [stateWeight] at hw
      omega
  | succ n ih =>
    intro σ h hw
    unfold completeLoop
    split
    · rename_i hq
      refine ⟨σ.result, rfl, h.ok.result, ?_, ?_⟩
      · rcases h.good with g | ⟨e, he, _⟩
        · exact g
        · rw [hq] at he; simp at he
      · intro p hp
        rcases h.track p hp with t | ⟨_, _, _, _, _, h3⟩
        · exact t
        · rw [hq] at h3; simp at h3
    · rename_i cur rest hq
      have hlt := weight_iter ht h (by rw [hq]; simp)
      exact ih _ (h.chead_iter ht) (by omega)

theorem completeLoop_mono {target : Str} : ∀ (fuel : Nat) (σ : Search) (r : BFSResult),
    completeLoop target fuel σ = some r → completeLoop target (fuel + 1) σ = some r := by
  intro fuel
  induction fuel with
  | zero => intro σ r h; simp [completeLoop] at h
  | succ fuel ih =>
    intro σ r h
    cases hq : σ.q with
    | nil =>
      rw [completeLoop, hq] at h ⊢
      exact h
    | cons cur rest =>
      rw [completeLoop, hq] at h ⊢
      exact ih _ r h

theorem completeLoop_mono_le {target : Str} {fuel fuel1 : Nat} (hle : fuel ≤ fuel1) {σ : Search}
    {r : BFSResult} (h : completeLoop target fuel σ = some r) :
    completeLoop target fuel1 σ = some r := by
  induction hle with
  | refl => exact h
  | step _ ih => exact completeLoop_mono _ σ r ih

/-- Total correctness of the all-optimal-paths search towards a lowercase target. -/
theorem completeBFS_total (start target : Str) (ht : Lower target) :
    ∃ r, (∀ fuel, completeFuel start target ≤ fuel →
        completeBFSEditDistance fuel start target = some r) ∧ CompletePost start target r := by
  by_cases hst : start = target
  · subst hst
    refine ⟨trivialResult start, fun fuel _ => by simp [completeBFSEditDistance],
      resultOK_trivial start, by simp [trivialResult, lev_self], ?_⟩
    intro p hp
    obtain ⟨⟨hh, _, _⟩, hlen⟩ := hp
    rw [lev_self] at hlen
    cases p with
    | nil => simp at hh
    | cons x suf =>
      simp only [List.head?_cons, Option.some.injEq] at hh
      simp only [List.length_cons, zero_add, add_left_eq_self, List.length_eq_zero] at hlen
      subst hh hlen
      simp [trivialResult]
  · obtain ⟨r, hr, hpost⟩ := completeLoop_total ht _ _ (CHead.chead_init hst) (le_refl _)
    refine ⟨r, fun fuel hf => ?_, hpost⟩
    unfold completeBFSEditDistance
    rw [if_neg hst]
    exact completeLoop_mono_le hf hr

/-! ### Exhaustive single-path search -/

theorem goodP_cost_lt {start target : Str} {e : Str × Int} (hg : GoodP start target e)
    (hne : e.1 ≠ target) : e.2 + 1 ≤ (lev start target : Int) := by
  have h1 : e.2 + (lev e.1 target : Int) = lev start target := hg
  have h2 := lev_pos_of_ne hne
  omega

theorem BMid.bmid_cost_lt {start target : Str} {cur : Str × Int} {pending visited : List Str}
    {q hist : List (Str × Int)} (h : BMid start target cur pending visited q hist) :
    cur.2 + 1 ≤ (lev start target : Int) := by
  have hs : GoodP start target (start, 0) := by simp [GoodP]
  rcases h.key _ h.start_in hs with ⟨e1, he1, hg, _⟩ | ⟨hg, _, _⟩
  · have h1 := goodP_cost_lt hg (h.sound e1 (h.sub e1 he1)).2
    have h2 := h.fifo.cost_ge he1
    omega
  · exact goodP_cost_lt hg (h.sound cur h.cur_in).2

theorem BMid.bmid_finish {start target : Str} {cur : Str × Int} {visited : List Str}
    {q hist : List (Str × Int)} (h : BMid start target cur [] visited q hist) :
    BHead start target visited q hist where
  vis := h.vis
  sub := h.sub
  sound := h.sound
  mono := by
    intro e1 he1 e he
    have h1 := h.mono e he
    have h2 := h.fifo.cost_ge he1
    omega
  fifo := h.fifo.to_fifo
  start_in := h.start_in
  nonneg := by
    intro e he
    have h1 := h.nonneg
    have h2 := h.fifo.cost_ge he
    omega
  key := by
    intro e he hg
    rcases h.key e he hg with k | ⟨_, _, w, hw, _⟩
    · exact k
    · simp at hw

theorem BHead.bhead_pop {start target : Str} (ht : Lower target) {cur : Str × Int} {visited : List Str}
    {rest hist : List (Str × Int)} (h : BHead start target visited (cur :: rest) hist) :
    BMid start target cur (generateNextStates cur.1) visited rest hist where
  vis := h.vis
  sub := fun e he => h.sub e (List.mem_cons_of_mem _ he)
  cur_in := h.sub cur (List.mem_cons_self _ _)
  sound := h.sound
  mono := h.mono cur (List.mem_cons_self _ _)
  fifo := h.fifo.fifo_pop
  pend := fun _ hw => hw
  start_in := h.start_in
  nonneg := h.nonneg cur (List.mem_cons_self _ _)
  key := by
    intro e he hg
    obtain ⟨e1, he1, hg1, hl⟩ := h.key e he hg
    rcases List.mem_cons.mp he1 with e2 | e2
    · subst e2
      obtain ⟨w, hw, hlev⟩ :=
        exists_neighbour_closer ht (h.sound e1 (h.sub e1 (List.mem_cons_self _ _))).2
      exact Or.inr ⟨hg1, hl, w, hw, hlev⟩
    · exact Or.inl ⟨e1, e2, hg1, hl⟩

theorem BMid.bmid_visit_push {start target : Str} {cur : Str × Int} {w : Str}
    {rest visited : List Str} {q hist : List (Str × Int)}
    (h : BMid start target cur (w :: rest) visited q hist) (hne : w ≠ target) :
    BMid start target cur rest (w :: visited) (q ++ [(w, cur.2 + 1)])
      ((w, cur.2 + 1) :: hist) := by
  have hw : w ∈ generateNextStates cur.1 := h.pend _ (List.mem_cons_self _ _)
  have hcs := (h.sound cur h.cur_in).1
  have hnb := (lev_neighbour hw target).2
  refine ⟨?_, ?_, List.mem_cons_of_mem _ h.cur_in, ?_, ?_, h.fifo.fifo_push rfl,
    fun x hx => h.pend x (List.mem_cons_of_mem _ hx), List.mem_cons_of_mem _ h.start_in,
    h.nonneg, ?_⟩
  · intro x hx
    rcases List.mem_cons.mp hx with e | e
    · exact ⟨cur.2 + 1, by rw [e]; exact List.mem_cons_self _ _⟩
    · obtain ⟨c, hc⟩ := h.vis x e
      exact ⟨c, List.mem_cons_of_mem _ hc⟩
  · intro e he
    simp only [List.mem_append, List.mem_singleton] at he
    rcases he with he | he
    · exact List.mem_cons_of_mem _ (h.sub e he)
    · rw [he]; exact List.mem_cons_self _ _
  · intro e he
    rcases List.mem_cons.mp he with e1 | e1
    · subst e1
      refine ⟨?_, hne⟩
      show (lev start target : Int) ≤ cur.2 + 1 + lev w target
      omega
    · exact h.sound e e1
  · intro e he
    rcases List.mem_cons.mp he with e1 | e1
    · subst e1; exact le_refl _
    · exact h.mono e e1
  · intro e he hg
    have hnew : ∀ x, lev w target + 1 = lev cur.1 target → GoodP start target cur →
        lev cur.1 target ≤ x → ∃ e1 ∈ q ++ [(w, cur.2 + 1)], GoodP start target e1 ∧
          lev e1.1 target ≤ x := by
      intro x hlev hgc hx
      refine ⟨(w, cur.2 + 1), List.mem_append_right _ (List.mem_singleton_self _), ?_, ?_⟩
      · have hgc1 : cur.2 + (lev cur.1 target : Int) = lev start target := hgc
        show cur.2 + 1 + (lev w target : Int) = lev start target
        omega
      · show lev w target ≤ x
        omega
    rcases List.mem_cons.mp he with e1 | e1
    · subst e1
      exact Or.inl ⟨(w, cur.2 + 1), List.mem_append_right _ (List.mem_singleton_self _), hg,
        le_refl _⟩
    · rcases h.key e e1 hg with ⟨e2, he2, hg2, hl2⟩ | ⟨hgc, hl, w1, hw1, hlev⟩
      · exact Or.inl ⟨e2, List.mem_append_left _ he2, hg2, hl2⟩
      · rcases List.mem_cons.mp hw1 with e3 | e3
        · rw [e3] at hlev
          exact Or.inl (hnew _ hlev hgc hl)
        · exact Or.inr ⟨hgc, hl, w1, e3, hlev⟩

theorem BMid.bmid_visit_seen {start target : Str} {cur : Str × Int} {w : Str}
    {rest visited : List Str} {q hist : List (Str × Int)}
    (h : BMid start target cur (w :: rest) visited q hist) (hv : w ∈ visited) :
    BMid start target cur rest visited q hist := by
  have hw : w ∈ generateNextStates cur.1 := h.pend _ (List.mem_cons_self _ _)
  refine ⟨h.vis, h.sub, h.cur_in, h.sound, h.mono, h.fifo,
    fun x hx => h.pend x (List.mem_cons_of_mem _ hx), h.start_in, h.nonneg, ?_⟩
  intro e he hg
  rcases h.key e he hg with k | ⟨hgc, hl, w1, hw1, hlev⟩
  · exact Or.inl k
  · rcases List.mem_cons.mp hw1 with e3 | e3
    · rw [e3] at hlev
      obtain ⟨c1, hc1⟩ := h.vis w hv
      have h1 := (h.sound _ hc1).1
      have h2 := h.mono _ hc1
      have hgc1 : cur.2 + (lev cur.1 target : Int) = lev start target := hgc
      have hgw : GoodP start target (w, c1) := by
        show c1 + (lev w target : Int) = lev start target
        simp only at h1 h2
        omega
      rcases h.key _ hc1 hgw with ⟨e2, he2, hg2, hl2⟩ | ⟨_, hl3, _⟩
      · exact Or.inl ⟨e2, he2, hg2, by simp only at hl2; omega⟩
      · simp only at hl3; omega
    · exact Or.inr ⟨hgc, hl, w1, e3, hlev⟩

theorem pairsWeight_append (bound : Nat) (q1 q2 : List (Str × Int)) :
    pairsWeight bound (q1 ++ q2) = pairsWeight bound q1 + pairsWeight bound q2 := by
  simp [pairsWeight]

/-- The scan of the neighbours either returns the distance or hands a queue of bounded weight
back to the main loop. -/
theorem basicScan_spec {start target : Str} {cur : Str × Int} (bound : Nat) :
    ∀ (pending visited : List Str) (q hist : List (Str × Int)),
      BMid start target cur pending visited q hist →
      basicScan target cur.2 pending visited q = Sum.inl (lev start target : Int) ∨
      ∃ v1 q1 hist1, basicScan target cur.2 pending visited q = Sum.inr (v1, q1) ∧
        BMid start target cur [] v1 q1 hist1 ∧
        pairsWeight bound q1 ≤ pairsWeight bound q +
          (pending.map (treeSize (bound - (cur.2 + 1).toNat))).sum := by
  intro pending
  induction pending with
  | nil =>
    intro visited q hist h
    exact Or.inr ⟨visited, q, hist, rfl, h, by simp⟩
  | cons w rest ih =>
    intro visited q hist h
    have hw : w ∈ generateNextStates cur.1 := h.pend _ (List.mem_cons_self _ _)
    unfold basicScan
    by_cases hwt : w = target
    · left
      rw [if_pos hwt]
      have h1 := h.bmid_cost_lt
      have h2 := (h.sound cur h.cur_in).1
      have h3 := (lev_neighbour hw target).2
      rw [hwt, lev_self] at h3
      congr 1
      omega
    · rw [if_neg hwt]
      by_cases hv : w ∈ visited
      · rw [if_neg (not_not.mpr hv)]
        rcases ih visited q hist (h.bmid_visit_seen hv) with r | ⟨v1, q1, hist1, r1, r2, r3⟩
        · exact Or.inl r
        · refine Or.inr ⟨v1, q1, hist1, r1, r2, ?_⟩
          simp only [List.map_cons, List.sum_cons]
          omega
      · rw [if_pos hv]
        rcases ih _ _ _ (h.bmid_visit_push hwt) with r | ⟨v1, q1, hist1, r1, r2, r3⟩
        · exact Or.inl r
        · refine Or.inr ⟨v1, q1, hist1, r1, r2, ?_⟩
          rw [pairsWeight_append] at r3
          simp only [List.map_cons, List.sum_cons]
          simp only [pairsWeight, pairWeight, List.map_cons, List.map_nil, List.sum_cons,
            List.sum_nil] at r3 ⊢
          omega

theorem basicLoop_total {start target : Str} (ht : Lower target) :
    ∀ (n : Nat) (visited : List Str) (q hist : List (Str × Int)),
      BHead start target visited q hist → pairsWeight (lev start target + 1) q ≤ n →
      basicLoop target (n + 1) visited q = some (lev start target : Int) := by
  intro n
  induction n with
  | zero =>
    intro visited q hist h hw
    cases q with
    | nil =>
      obtain ⟨e1, he1, _⟩ := h.key _ h.start_in (by simp [GoodP])
      simp at he1
    | cons cur rest =>
      have := treeSize_pos (lev start target + 1 - cur.2.toNat) cur.1
      simp only [pairsWeight, pairWeight, List.map_cons, List.sum_cons] at hw
      omega
  | succ n ih =>
    intro visited q hist h hw
    cases q with
    | nil =>
      obtain ⟨e1, he1, _⟩ := h.key _ h.start_in (by simp [GoodP])
      simp at he1
    | cons cur rest =>
      obtain ⟨s, c⟩ := cur
      have hmid := h.bhead_pop ht
      have hlt := hmid.bmid_cost_lt
      have h0 := hmid.nonneg
      simp only at hlt h0
      unfold basicLoop
      rcases basicScan_spec (lev start target + 1) _ _ _ _ hmid with r | ⟨v1, q1, hist1, r1, r2, r3⟩
      · simp only at r
        rw [r]
      · simp only at r1 r3
        rw [r1]
        simp only
        apply ih v1 q1 hist1 r2.bmid_finish
        have e : lev start target + 1 - c.toNat = (lev start target + 1 - (c + 1).toNat) + 1 := by
          omega
        simp only [pairsWeight, pairWeight, List.map_cons, List.sum_cons] at hw r3 ⊢
        rw [e, treeSize] at hw
        omega

theorem basicLoop_mono {target : Str} : ∀ (fuel : Nat) (visited : List Str)
    (q : List (Str × Int)) (r : Int),
    basicLoop target fuel visited q = some r → basicLoop target (fuel + 1) visited q = some r := by
  intro fuel
  induction fuel with
  | zero => intro visited q r h; simp [basicLoop] at h
  | succ fuel ih =>
    intro visited q r h
    cases q with
    | nil => simpa [basicLoop] using h
    | cons cur rest =>
      obtain ⟨s, c⟩ := cur
      rw [basicLoop] at h ⊢
      cases hs : basicScan target c (generateNextStates s) visited rest with
      | inl r1 => rw [hs] at h; exact h
      | inr p =>
        obtain ⟨v1, q1⟩ := p
        rw [hs] at h
        exact ih v1 q1 r h

theorem basicLoop_mono_le {target : Str} {fuel fuel1 : Nat} (hle : fuel ≤ fuel1)
    {visited : List Str} {q : List (Str × Int)} {r : Int}
    (h : basicLoop target fuel visited q = some r) :
    basicLoop target fuel1 visited q = some r := by
  induction hle with
  | refl => exact h
  | step _ ih => exact basicLoop_mono _ _ _ r ih

theorem BHead.bhead_init {start target : Str} (hne : start ≠ target) :
    BHead start target [start] [(start, 0)] [(start, 0)] where
  vis := by intro w hw; simp at hw; subst hw; exact ⟨0, by simp⟩
  sub := fun _ he => he
  sound := by intro e he; simp at he; subst he; exact ⟨by simp, hne⟩
  mono := by intro e1 he1 e he; simp at he1 he; subst he1 he; simp
  fifo := ⟨0, [(start, 0)], [], by simp, by simp, by simp⟩
  start_in := by simp
  nonneg := by intro e he; simp at he; subst he; simp
  key := by intro e he hg; exact ⟨e, he, hg, le_refl _⟩

/-- Total correctness of the exhaustive search towards a lowercase target. -/
theorem basicBFS_total {start target : Str} (ht : Lower target) (fuel : Nat)
    (hf : basicFuel start target ≤ fuel) :
    basicBFSEditDistance fuel start target = some (lev start target : Int) := by
  unfold basicBFSEditDistance
  by_cases hst : start = target
  · rw [if_pos hst, hst, lev_self]; rfl
  · rw [if_neg hst]
    exact basicLoop_mono_le hf (basicLoop_total ht _ _ _ _ (BHead.bhead_init hst) (le_refl _))

/-! ### Heuristic best-first search -/

theorem entryLt_iff (a b : Int × State) :
    entryLt a b = true ↔ (a.1 < b.1 ∨ (a.1 = b.1 ∧ b.2.cost < a.2.cost)) := by
  unfold entryLt
  simp only [Bool.or_eq_true, Bool.and_eq_true, decide_eq_true_eq, Bool.not_eq_true',
    decide_eq_false_iff_not, gt_iff_lt]
  constructor
  · rintro (h | ⟨h1, h2⟩)
    · exact Or.inl h
    · by_cases h3 : a.1 < b.1
      · exact Or.inl h3
      · exact Or.inr ⟨by omega, h2⟩
  · rintro (h | ⟨h1, h2⟩)
    · exact Or.inl h
    · exact Or.inr ⟨by omega, h2⟩

/-- A non-empty queue has an entry below which `operator<` puts no other entry. -/
theorem exists_top : ∀ (pq : List (Int × State)), pq ≠ [] →
    ∃ e ∈ pq, ∀ e1 ∈ pq, entryLt e1 e = false := by
  intro pq
  induction pq with
  | nil => intro h; exact absurd rfl h
  | cons x tl ih =>
    intro _
    by_cases htl : tl = []
    · subst htl
      refine ⟨x, List.mem_singleton_self _, ?_⟩
      intro e1 he1
      rw [List.mem_singleton] at he1
      subst he1
      rw [Bool.eq_false_iff, Ne, entryLt_iff]
      omega
    · obtain ⟨m, hm, hmin⟩ := ih htl
      by_cases hx : entryLt x m = true
      · refine ⟨x, List.mem_cons_self _ _, ?_⟩
        intro e1 he1
        rw [Bool.eq_false_iff, Ne, entryLt_iff]
        rw [entryLt_iff] at hx
        rcases List.mem_cons.mp he1 with e2 | e2
        · subst e2; omega
        · have := hmin e1 e2
          rw [Bool.eq_false_iff, Ne, entryLt_iff] at this
          omega
      · refine ⟨m, List.mem_cons_of_mem _ hm, ?_⟩
        intro e1 he1
        rcases List.mem_cons.mp he1 with e2 | e2
        · subst e2; simpa using hx
        · exact hmin e1 e2

/-- The entry handed out by `top()` is an entry of the queue, at the reported position, and no
entry of the queue is below it. -/
theorem pickTop_spec (choice : Nat) (first : Int × State) (pq : List (Int × State))
    (hne : pq ≠ []) :
    pq[(pickTop choice first pq).1]? = some (pickTop choice first pq).2 ∧
      ∀ e ∈ pq, entryLt e (pickTop choice first pq).2 = false := by
  have hc : topCandidates pq ≠ [] := by
    obtain ⟨e, he, hmin⟩ := exists_top pq hne
    obtain ⟨i, hi, hget⟩ := List.getElem_of_mem he
    have : (i, e) ∈ topCandidates pq := by
      unfold topCandidates
      rw [List.mem_filter]
      refine ⟨List.mk_mem_enum_iff_getElem?.mpr (by rw [List.getElem?_eq_getElem hi, hget]), ?_⟩
      rw [List.all_eq_true]
      intro x hx
      simp [hmin x hx]
    intro e1
    rw [e1] at this
    simp at this
  have hlen : 0 < (topCandidates pq).length := List.length_pos.mpr hc
  have hlt : choice % (topCandidates pq).length < (topCandidates pq).length :=
    Nat.mod_lt _ hlen
  have hmem : pickTop choice first pq ∈ topCandidates pq := by
    unfold pickTop
    simp only
    rw [List.getD_eq_getElem _ _ hlt]
    exact List.getElem_mem _
  unfold topCandidates at hmem
  rw [List.mem_filter] at hmem
  obtain ⟨h1, h2⟩ := hmem
  refine ⟨List.mk_mem_enum_iff_getElem?.mp h1, ?_⟩
  rw [List.all_eq_true] at h2
  intro e he
  simpa using h2 e he

theorem mem_eraseIdx_of_ne {α : Type} {l : List α} {i : Nat} {e x : α} (hi : l[i]? = some e)
    (hx : x ∈ l) (hne : x ≠ e) : x ∈ l.eraseIdx i := by
  obtain ⟨j, hj, hget⟩ := List.getElem_of_mem hx
  rw [List.mem_eraseIdx_iff_getElem?]
  refine ⟨j, ?_, by rw [List.getElem?_eq_getElem hj, hget]⟩
  intro e1
  subst e1
  rw [List.getElem?_eq_getElem hj, hget] at hi
  exact hne (Option.some.inj hi)

theorem sum_map_eraseIdx {α : Type} (g : α → Nat) : ∀ (l : List α) (i : Nat) (e : α),
    l[i]? = some e → (l.map g).sum = g e + ((l.eraseIdx i).map g).sum := by
  intro l
  induction l with
  | nil => intro i e h; simp at h
  | cons a l ih =>
    intro i e h
    cases i with
    | zero =>
      simp only [List.getElem?_cons_zero, Option.some.injEq] at h
      subst h
      simp
    | succ i =>
      simp only [List.getElem?_cons_succ] at h
      have := ih i e h
      simp only [List.eraseIdx_cons_succ, List.map_cons, List.sum_cons]
      omega

theorem heuristic_nonneg (s t : Str) : 0 ≤ heuristic s t := abs_nonneg _

/-- Admissibility of the length-difference heuristic. -/
theorem heuristic_le_lev (s t : Str) : heuristic s t ≤ (lev s t : Int) := by
  unfold heuristic
  have h := length_le_lev_add s t
  rw [abs_le]
  constructor <;> omega

theorem PMid.pmid_finish {start target : Str} {cur : State} {σ : PSearch}
    (h : PMid start target cur [] σ) : PHead start target σ where
  ok := h.ok
  key0 := h.key0
  cap := h.cap
  key := by
    intro w c hc hg
    rcases h.key w c hc hg with k | k | ⟨_, _, w1, hw1, _⟩
    · exact Or.inl k
    · exact Or.inr k
    · simp at hw1

theorem PMid.pmid_visit_target {start target : Str} {cur : State} {rest : List Str} {σ : PSearch}
    (h : PMid start target cur (target :: rest) σ) :
    PMid start target cur rest
      { σ with result := recordPath σ.result (cur.cost + 1) (cur.path ++ [target]) } := by
  have hw : target ∈ generateNextStates cur.current_string := h.pend _ (List.mem_cons_self _ _)
  have hnew : (lev start target : Int) ≤ cur.cost + 1 := by
    have := h.cur_ok.entry_step_cost hw
    rw [lev_self] at this
    simpa using this
  have hsound := h.ok.result.sound
  have hpos : (0 : Int) ≤ lev start target := Int.natCast_nonneg _
  refine ⟨⟨resultOK_recordPath h.ok.result h.cur_ok hw, h.ok.entries, h.ok.best⟩, h.cur_ok,
    fun w hw => h.pend w (List.mem_cons_of_mem _ hw), h.key0, h.cur_cap, h.cap, ?_⟩
  intro w c hc hg
  rcases h.key w c hc hg with g | g | ⟨gc, hl, w1, hw1, hlev⟩
  · left
    show (recordPath _ _ _).min_distance = _
    rw [recordPath_min, if_neg]
    · exact g
    · omega
  · exact Or.inr (Or.inl g)
  · rcases List.mem_cons.mp hw1 with e | hw2
    · left
      rw [e, lev_self] at hlev
      have gc1 : cur.cost + (lev cur.current_string target : Int) = lev start target := gc
      show (recordPath _ _ _).min_distance = _
      rw [recordPath_min]
      split
      · omega
      · omega
    · exact Or.inr (Or.inr ⟨gc, hl, w1, hw2, hlev⟩)

theorem PMid.pmid_visit_push {start target : Str} {cur : State} {w : Str} {rest : List Str}
    {σ : PSearch} (h : PMid start target cur (w :: rest) σ) (hne : w ≠ target)
    (hadm : optimizedAccepts σ.best_cost w (cur.cost + 1) = true) :
    PMid start target cur rest
      { σ with
        best_cost := (w, cur.cost + 1) :: σ.best_cost,
        pq := σ.pq ++ [(cur.cost + 1 + heuristic w target,
          ⟨w, cur.cost + 1, cur.path ++ [w]⟩)] } := by
  have hw : w ∈ generateNextStates cur.current_string := h.pend _ (List.mem_cons_self _ _)
  have h0 := h.cur_ok.entry_cost_nonneg
  have hws : w ≠ start := by
    intro e
    rw [e] at hadm
    unfold optimizedAccepts at hadm
    rw [h.key0] at hadm
    simp only [decide_eq_true_eq] at hadm
    omega
  refine ⟨⟨h.ok.result, ?_, bestOK_cons h.ok.best (h.cur_ok.entry_step_cost hw)⟩, h.cur_ok,
    fun w hw => h.pend w (List.mem_cons_of_mem _ hw), ?_, h.cur_cap, ?_, ?_⟩
  · intro pe hpe
    simp only [List.mem_append, List.mem_singleton] at hpe
    rcases hpe with hpe | hpe
    · exact h.ok.entries pe hpe
    · subst hpe; exact ⟨h.cur_ok.entry_push hw hne, rfl⟩
  · show costOf ((w, cur.cost + 1) :: σ.best_cost) start = some 0
    rw [costOf_cons, if_neg hws]
    exact h.key0
  · intro pe hpe
    simp only [List.mem_append, List.mem_singleton] at hpe
    rcases hpe with hpe | hpe
    · exact h.cap pe hpe
    · subst hpe
      have := h.cur_cap
      show cur.cost + 1 ≤ _
      omega
  · intro w0 c0 hc hg
    have hnew : ∀ x, lev w target ≤ x → cur.cost + 1 + (lev w target : Int) = lev start target →
        ∃ pe ∈ σ.pq ++ [(cur.cost + 1 + heuristic w target,
          (⟨w, cur.cost + 1, cur.path ++ [w]⟩ : State))],
            Good start target pe.2 ∧ lev pe.2.current_string target ≤ x := by
      intro x hx hgood
      exact ⟨_, List.mem_append_right _ (List.mem_singleton_self _), hgood, hx⟩
    change costOf ((w, cur.cost + 1) :: σ.best_cost) w0 = some c0 at hc
    rw [costOf_cons] at hc
    split at hc
    · rename_i e
      simp only [Option.some.injEq] at hc
      subst e
      right; left
      apply hnew _ (le_refl _)
      rw [hc]; exact hg
    · rcases h.key w0 c0 hc hg with g | ⟨pe, hpe, g⟩ | ⟨gc, hl, w1, hw1, hlev⟩
      · exact Or.inl g
      · exact Or.inr (Or.inl ⟨pe, List.mem_append_left _ hpe, g⟩)
      · rcases List.mem_cons.mp hw1 with e | hw2
        · right; left
          rw [e] at hlev
          have gc1 : cur.cost + (lev cur.current_string target : Int) = lev start target := gc
          apply hnew _ (by omega)
          omega
        · exact Or.inr (Or.inr ⟨gc, hl, w1, hw2, hlev⟩)

theorem PMid.pmid_visit_skip {start target : Str} {cur : State} {w : Str} {rest : List Str}
    {σ : PSearch} (h : PMid start target cur (w :: rest) σ)
    (hadm : optimizedAccepts σ.best_cost w (cur.cost + 1) = false) :
    PMid start target cur rest σ := by
  have hw : w ∈ generateNextStates cur.current_string := h.pend _ (List.mem_cons_self _ _)
  obtain ⟨c1, hc1, hle⟩ : ∃ c1, costOf σ.best_cost w = some c1 ∧ c1 ≤ cur.cost + 1 := by
    unfold optimizedAccepts at hadm
    split at hadm
    · simp at hadm
    · rename_i c1 hc1
      exact ⟨c1, hc1, by simpa using hadm⟩
  have hbest := h.ok.best w c1 hc1
  refine ⟨h.ok, h.cur_ok, fun w hw => h.pend w (List.mem_cons_of_mem _ hw), h.key0, h.cur_cap,
    h.cap, ?_⟩
  intro w0 c0 hc hg
  rcases h.key w0 c0 hc hg with g | g | ⟨gc, hl, w1, hw1, hlev⟩
  · exact Or.inl g
  · exact Or.inr (Or.inl g)
  · rcases List.mem_cons.mp hw1 with e | hw2
    · rw [e] at hlev
      have gc1 : cur.cost + (lev cur.current_string target : Int) = lev start target := gc
      rcases h.key w c1 hc1 (by omega) with g | ⟨pe, hpe, g, hl2⟩ | ⟨_, hl3, _⟩
      · exact Or.inl g
      · exact Or.inr (Or.inl ⟨pe, hpe, g, by omega⟩)
      · omega
    · exact Or.inr (Or.inr ⟨gc, hl, w1, hw2, hlev⟩)

theorem PMid.pmid_visit {start target : Str} {cur : State} {w : Str} {rest : List Str}
    {σ : PSearch} (h : PMid start target cur (w :: rest) σ) :
    PMid start target cur rest (optimizedVisit target cur σ w) := by
  unfold optimizedVisit
  split
  · rename_i e
    subst e
    exact h.pmid_visit_target
  · rename_i hne
    split
    · rename_i hadm
      exact h.pmid_visit_push hne hadm
    · rename_i hadm
      exact h.pmid_visit_skip (by simpa using hadm)

theorem PMid.pmid_foldl {start target : Str} {cur : State} {pending : List Str} {σ : PSearch}
    (h : PMid start target cur pending σ) :
    PHead start target (pending.foldl (optimizedVisit target cur) σ) :=
  (foldl_pending_inv (optimizedVisit target cur) (fun l s => PMid start target cur l s)
    pending σ h (fun _ _ _ hx => hx.pmid_visit)).pmid_finish

theorem PHead.phead_pop_skip {start target : Str} {σ : PSearch} {i : Nat} {top : Int × State}
    (h : PHead start target σ) (hi : σ.pq[i]? = some top)
    (hskip : σ.result.min_distance ≠ -1 ∧ top.2.cost ≥ σ.result.min_distance) :
    PHead start target ⟨countNode σ.result σ.pq.length, σ.best_cost, σ.pq.eraseIdx i⟩ := by
  have hsound := h.ok.result.sound
  have htop : top ∈ σ.pq := List.getElem?_mem hi
  refine ⟨⟨resultOK_countNode h.ok.result _,
    fun pe hpe => h.ok.entries pe (List.mem_of_mem_eraseIdx hpe), h.ok.best⟩, h.key0,
    fun pe hpe => h.cap pe (List.mem_of_mem_eraseIdx hpe), ?_⟩
  intro w c hc hg
  rcases h.key w c hc hg with g | ⟨pe, hpe, g, hl⟩
  · exact Or.inl g
  · right
    by_cases e : pe = top
    · subst e
      have := g.good_cost_lt (h.ok.entries pe hpe).1
      omega
    · exact ⟨pe, mem_eraseIdx_of_ne hi hpe e, g, hl⟩

theorem PHead.phead_pop_expand {start target : Str} (ht : Lower target) {σ : PSearch} {i : Nat}
    {top : Int × State} (h : PHead start target σ) (hi : σ.pq[i]? = some top)
    (hmin : ∀ pe ∈ σ.pq, entryLt pe top = false)
    (hexp : ¬ (σ.result.min_distance ≠ -1 ∧ top.2.cost ≥ σ.result.min_distance)) :
    PMid start target top.2 (generateNextStates top.2.current_string)
      ⟨countNode σ.result σ.pq.length, σ.best_cost, σ.pq.eraseIdx i⟩ := by
  have htop : top ∈ σ.pq := List.getElem?_mem hi
  have hcur := h.ok.entries top htop
  have hpos : (0 : Int) ≤ lev start target := Int.natCast_nonneg _
  refine ⟨⟨resultOK_countNode h.ok.result _,
    fun pe hpe => h.ok.entries pe (List.mem_of_mem_eraseIdx hpe), h.ok.best⟩, hcur.1,
    fun w hw => hw, h.key0, ?_, fun pe hpe => h.cap pe (List.mem_of_mem_eraseIdx hpe), ?_⟩
  · rcases h.key start 0 h.key0 (by simp) with g | ⟨pe, hpe, g, _⟩
    · by_contra hgt
      exact hexp ⟨by omega, by omega⟩
    · have hpe_ok := h.ok.entries pe hpe
      have h1 := hmin pe hpe
      rw [Bool.eq_false_iff, Ne, entryLt_iff] at h1
      have h2 := heuristic_le_lev pe.2.current_string target
      have h3 := heuristic_nonneg top.2.current_string target
      have g1 : pe.2.cost + (lev pe.2.current_string target : Int) = lev start target := g
      have e1 := hpe_ok.2
      have e2 := hcur.2
      omega
  · intro w c hc hg
    rcases h.key w c hc hg with g | ⟨pe, hpe, g, hl⟩
    · exact Or.inl g
    · by_cases e : pe = top
      · subst e
        obtain ⟨w1, hw1, hlev⟩ := exists_neighbour_closer ht hcur.1.ne
        exact Or.inr (Or.inr ⟨g, hl, w1, hw1, hlev⟩)
      · exact Or.inr (Or.inl ⟨pe, mem_eraseIdx_of_ne hi hpe e, g, hl⟩)

theorem PHead.phead_iter {start target : Str} (ht : Lower target) (choice : Nat) {σ : PSearch}
    (h : PHead start target σ) : PHead start target (optimizedIter target choice σ) := by
  unfold optimizedIter
  split
  · exact h
  · rename_i first tl hq
    obtain ⟨hi, hmin⟩ := pickTop_spec choice first σ.pq (by rw [hq]; simp)
    simp only
    split
    · rename_i hskip
      exact h.phead_pop_skip hi hskip
    · rename_i hexp
      exact (h.phead_pop_expand ht hi hmin hexp).pmid_foldl

theorem pqWeight_visit (bound : Nat) (target : Str) (cur : State) (σ : PSearch) (w : Str) :
    pqWeight bound (optimizedVisit target cur σ w).pq ≤
      pqWeight bound σ.pq + treeSize (bound - (cur.cost + 1).toNat) w := by
  unfold optimizedVisit
  split
  · simp
  · split
    · simp [pqWeight, stateWeight]
    · simp

theorem pqWeight_foldl (bound : Nat) (target : Str) (cur : State) :
    ∀ (l : List Str) (σ : PSearch),
      pqWeight bound (l.foldl (optimizedVisit target cur) σ).pq ≤
        pqWeight bound σ.pq + (l.map (treeSize (bound - (cur.cost + 1).toNat))).sum := by
  intro l
  induction l with
  | nil => intro σ; simp
  | cons w l ih =>
    intro σ
    have h1 := ih (optimizedVisit target cur σ w)
    have h2 := pqWeight_visit bound target cur σ w
    simp only [List.foldl_cons, List.map_cons, List.sum_cons]
    omega

theorem pqWeight_iter {start target : Str} (ht : Lower target) (choice : Nat) {σ : PSearch}
    (h : PHead start target σ) (hne : σ.pq ≠ []) :
    pqWeight (lev start target + 1) (optimizedIter target choice σ).pq <
      pqWeight (lev start target + 1) σ.pq := by
  unfold optimizedIter
  split
  · rename_i hq; exact absurd hq hne
  · rename_i first tl hq
    obtain ⟨hi, hmin⟩ := pickTop_spec choice first σ.pq hne
    have hsum := sum_map_eraseIdx (fun pe => stateWeight (lev start target + 1) pe.2) σ.pq _ _ hi
    simp only at hsum
    simp only
    rw [show pqWeight (lev start target + 1) σ.pq = _ from hsum]
    split
    · have := treeSize_pos (lev start target + 1 - (pickTop choice first σ.pq).2.2.cost.toNat)
        (pickTop choice first σ.pq).2.2.current_string
      simp only [stateWeight, pqWeight]
      omega
    · rename_i hexp
      have hmid := h.phead_pop_expand ht hi hmin hexp
      have h0 := hmid.cur_ok.entry_cost_nonneg
      have h1 := hmid.cur_cap
      rw [stateWeight_expand h0 (by push_cast; omega)]
      have := pqWeight_foldl (lev start target + 1) target (pickTop choice first σ.pq).2.2
        (generateNextStates (pickTop choice first σ.pq).2.2.current_string)
        ⟨countNode σ.result σ.pq.length, σ.best_cost,
          σ.pq.eraseIdx (pickTop choice first σ.pq).1⟩
      simp only [pqWeight] at this ⊢
      omega

theorem PHead.phead_init {start target : Str} (hne : start ≠ target) :
    PHead start target (optimizedInit start target) := by
  have hentry : EntryOK start target ⟨start, 0, [start]⟩ :=
    ⟨⟨rfl, rfl, List.chain'_singleton _⟩, by simp, hne, by simp⟩
  refine ⟨⟨⟨by simp [optimizedInit, emptyResult], by simp [optimizedInit, emptyResult],
    Or.inl rfl⟩, ?_, ?_⟩, by simp [optimizedInit, costOf], ?_, ?_⟩
  · intro pe hpe
    simp only [optimizedInit, List.mem_singleton] at hpe
    subst hpe
    exact ⟨hentry, by simp⟩
  · intro w c h
    simp only [optimizedInit, costOf_cons, costOf] at h
    split at h
    · rename_i e
      subst e
      simp only [Option.some.injEq] at h
      subst h
      simp
    · simp at h
  · intro pe hpe
    simp only [optimizedInit, List.mem_singleton] at hpe
    subst hpe
    have : (0 : Int) ≤ lev start target := Int.natCast_nonneg _
    show (0 : Int) ≤ _
    omega
  · intro w c hc hg
    right
    simp only [optimizedInit, costOf_cons, costOf] at hc
    split at hc
    · rename_i e
      subst e
      exact ⟨(heuristic start target, ⟨start, 0, [start]⟩), by simp [optimizedInit],
        by simp [Good], le_refl _⟩
    · simp at hc

theorem optimizedLoop_total {start target : Str} (ht : Lower target) :
    ∀ (n : Nat) (tie : Nat → Nat) (σ : PSearch), PHead start target σ →
      pqWeight (lev start target + 1) σ.pq ≤ n →
      ∃ r, optimizedLoop target (n + 1) tie σ = some r ∧ ResultOK start target r ∧
        r.min_distance = lev start target := by
  intro n
  induction n with
  | zero =>
    intro tie σ h hw
    cases hq : σ.pq with
    | nil =>
      rw [optimizedLoop, hq]
      refine ⟨σ.result, rfl, h.ok.result, ?_⟩
      rcases h.key start 0 h.key0 (by simp) with g | ⟨pe, hpe, _⟩
      · exact g
      · rw [hq] at hpe; simp at hpe
    | cons first tl =>
      rw [hq] at hw
      have := treeSize_pos (lev start target + 1 - first.2.cost.toNat) first.2.current_string
      simp only [pqWeight, stateWeight, List.map_cons, List.sum_cons] at hw
      omega
  | succ n ih =>
    intro tie σ h hw
    cases hq : σ.pq with
    | nil =>
      rw [optimizedLoop, hq]
      refine ⟨σ.result, rfl, h.ok.result, ?_⟩
      rcases h.key start 0 h.key0 (by simp) with g | ⟨pe, hpe, _⟩
      · exact g
      · rw [hq] at hpe; simp at hpe
    | cons first tl =>
      rw [optimizedLoop, hq]
      simp only
      have hlt := pqWeight_iter ht (tie 0) h (by rw [hq]; simp)
      exact ih _ _ (h.phead_iter ht (tie 0)) (by omega)

theorem optimizedLoop_mono {target : Str} : ∀ (fuel : Nat) (tie : Nat → Nat) (σ : PSearch)
    (r : BFSResult), optimizedLoop target fuel tie σ = some r →
      optimizedLoop target (fuel + 1) tie σ = some r := by
  intro fuel
  induction fuel with
  | zero => intro tie σ r h; simp [optimizedLoop] at h
  | succ fuel ih =>
    intro tie σ r h
    cases hq : σ.pq with
    | nil =>
      rw [optimizedLoop, hq] at h ⊢
      exact h
    | cons cur rest =>
      rw [optimizedLoop, hq] at h ⊢
      exact ih _ _ r h

theorem optimizedLoop_mono_le {target : Str} {fuel fuel1 : Nat} (hle : fuel ≤ fuel1)
    {tie : Nat → Nat} {σ : PSearch} {r : BFSResult}
    (h : optimizedLoop target fuel tie σ = some r) :
    optimizedLoop target fuel1 tie σ = some r := by
  induction hle with
  | refl => exact h
  | step _ ih => exact optimizedLoop_mono _ _ σ r ih

/-- Total correctness of the heuristic search towards a lowercase target, for every resolution
of the ties of the priority queue. -/
theorem optimizedBFS_total (start target : Str) (ht : Lower target) (tie : Nat → Nat) :
    ∃ r, (∀ fuel, optimizedFuel start target ≤ fuel →
        optimizedBFSEditDistance tie fuel start target = some r) ∧
      ResultOK start target r ∧ r.min_distance = lev start target := by
  by_cases hst : start = target
  · subst hst
    exact ⟨trivialResult start, fun fuel _ => by simp [optimizedBFSEditDistance],
      resultOK_trivial start, by simp [trivialResult, lev_self]⟩
  · obtain ⟨r, hr, hpost⟩ := optimizedLoop_total ht _ tie _ (PHead.phead_init hst) (le_refl _)
    refine ⟨r, fun fuel hf => ?_, hpost⟩
    unfold optimizedBFSEditDistance
    rw [if_neg hst]
    exact optimizedLoop_mono_le hf hr

/-! ### Results do not depend on the fuel; repeated paths -/

theorem editOver_ne {P : Char → Prop} {s u : Str} (h : EditOver P s u) : s ≠ u := by
  induction h with
  | del a s => intro e; have := congrArg List.length e; simp at this
  | ins c s _ => intro e; have := congrArg List.length e; simp at this
  | sub a c s _ hne => intro e; exact hne (List.cons.inj e).1
  | cons a _ ih => intro e; exact ih (List.cons.inj e).2

/-- A neighbour is at reference distance exactly one. -/
theorem lev_eq_one_of_mem {s u : Str} (h : u ∈ generateNextStates s) : lev s u = 1 := by
  have h1 := (lev_neighbour h u).2
  rw [lev_self] at h1
  have h2 := lev_pos_of_ne (editOver_ne (mem_generateNextStates_iff.mp h))
  omega

theorem completeLoop_unique {target : Str} {fuel fuel1 : Nat} {σ : Search} {r r1 : BFSResult}
    (h : completeLoop target fuel σ = some r) (h1 : completeLoop target fuel1 σ = some r1) :
    r = r1 := by
  have a := completeLoop_mono_le (Nat.le_max_left fuel fuel1) h
  have b := completeLoop_mono_le (Nat.le_max_right fuel fuel1) h1
  rw [a] at b
  exact Option.some.inj b

theorem completeBFS_unique {start target : Str} {fuel fuel1 : Nat} {r r1 : BFSResult}
    (h : completeBFSEditDistance fuel start target = some r)
    (h1 : completeBFSEditDistance fuel1 start target = some r1) : r = r1 := by
  unfold completeBFSEditDistance at h h1
  by_cases hst : start = target
  · rw [if_pos hst] at h h1
    rw [← Option.some.inj h, ← Option.some.inj h1]
  · rw [if_neg hst] at h h1
    exact completeLoop_unique h h1

theorem optimizedLoop_unique {target : Str} {tie : Nat → Nat} {fuel fuel1 : Nat} {σ : PSearch}
    {r r1 : BFSResult} (h : optimizedLoop target fuel tie σ = some r)
    (h1 : optimizedLoop target fuel1 tie σ = some r1) : r = r1 := by
  have a := optimizedLoop_mono_le (Nat.le_max_left fuel fuel1) h
  have b := optimizedLoop_mono_le (Nat.le_max_right fuel fuel1) h1
  rw [a] at b
  exact Option.some.inj b

theorem optimizedBFS_unique {tie : Nat → Nat} {start target : Str} {fuel fuel1 : Nat}
    {r r1 : BFSResult} (h : optimizedBFSEditDistance tie fuel start target = some r)
    (h1 : optimizedBFSEditDistance tie fuel1 start target = some r1) : r = r1 := by
  unfold optimizedBFSEditDistance at h h1
  by_cases hst : start = target
  · rw [if_pos hst] at h h1
    rw [← Option.some.inj h, ← Option.some.inj h1]
  · rw [if_neg hst] at h h1
    exact optimizedLoop_unique h h1

theorem completeOK_after {start target : Str} (hne : start ≠ target) (n : Nat) :
    CompleteOK start target (completeAfter target start n) := by
  induction n with
  | zero => exact completeOK_init hne
  | succ n ih => exact completeOK_iter ih

theorem listedTwice_recordPath {p : List Str} {r : BFSResult} (h : ListedTwice p r)
    {c : Int} (hc : 1 ≤ c) (np : List Str) : ListedTwice p (recordPath r c np) := by
  obtain ⟨h1, more, h2⟩ := h
  unfold recordPath
  rw [if_neg (by rw [h1]; omega)]
  split
  · exact ⟨h1, more ++ [np], by simp [h2]⟩
  · exact ⟨h1, more, h2⟩

theorem listedTwice_visit {p : List Str} {target : Str} {cur : State} (hc : 0 ≤ cur.cost)
    (σ : Search) (w : Str) (h : ListedTwice p σ.result) :
    ListedTwice p (completeVisit target cur σ w).result := by
  unfold completeVisit
  split
  · exact listedTwice_recordPath h (by omega) _
  · split
    · exact h
    · exact h

theorem listedTwice_foldl {p : List Str} {target : Str} {cur : State} (hc : 0 ≤ cur.cost) :
    ∀ (l : List Str) (σ : Search), ListedTwice p σ.result →
      ListedTwice p (l.foldl (completeVisit target cur) σ).result := by
  intro l
  induction l with
  | nil => intro σ h; exact h
  | cons w l ih => intro σ h; exact ih _ (listedTwice_visit hc σ w h)

theorem listedTwice_iter {p : List Str} {start target : Str} {σ : Search}
    (hok : CompleteOK start target σ) (h : ListedTwice p σ.result) :
    ListedTwice p (completeIter target σ).result := by
  unfold completeIter
  split
  · exact h
  · rename_i cur rest hq
    have hcur := (hok.entries cur (by rw [hq]; exact List.mem_cons_self _ _)).entry_cost_nonneg
    have h1 : ListedTwice p (countNode σ.result σ.q.length) := h
    simp only
    split
    · exact h1
    · exact listedTwice_foldl hcur _ _ h1

theorem listedTwice_loop {p : List Str} {start target : Str} :
    ∀ (fuel : Nat) (σ : Search) (r : BFSResult), CompleteOK start target σ →
      ListedTwice p σ.result → completeLoop target fuel σ = some r → ListedTwice p r := by
  intro fuel
  induction fuel with
  | zero => intro σ r _ _ h; simp [completeLoop] at h
  | succ fuel ih =>
    intro σ r hok h hr
    cases hq : σ.q with
    | nil =>
      rw [completeLoop, hq] at hr
      rw [← Option.some.inj hr]
      exact h
    | cons cur rest =>
      rw [completeLoop, hq] at hr
      exact ih _ r (completeOK_iter hok) (listedTwice_iter hok h) hr

theorem completeLoop_succ_of_ne {target : Str} {fuel : Nat} {σ : Search} (hne : σ.q ≠ []) :
    completeLoop target (fuel + 1) σ = completeLoop target fuel (completeIter target σ) := by
  cases hq : σ.q with
  | nil => exact absurd hq hne
  | cons cur rest => rw [completeLoop, hq]

theorem optPath_iff {start target : Str} {p : List Str} :
    OptPath start target p ↔
      ((p.length : Int) = basicEditDistance start target + 1 ∧ p.head? = some start ∧
        p.getLast? = some target ∧ List.Chain' (fun a b => b ∈ generateNextStates a) p) := by
  rw [basicEditDistance_eq_lev]
  unfold OptPath PathFromTo IsChain
  constructor
  · rintro ⟨⟨h1, h2, h3⟩, h4⟩
    exact ⟨by rw [h4]; push_cast; rfl, h1, h2, h3⟩
  · rintro ⟨h4, h1, h2, h3⟩
    exact ⟨⟨h1, h2, h3⟩, by omega⟩

set_option maxRecDepth 1000000 in
theorem first_iteration_aa_a :
    ListedTwice ["aa".toList, "a".toList]
      (completeIter "a".toList (completeInit "aa".toList)).result := by
  refine ⟨?_, [], ?_⟩ <;> decide

/-! ### The claims -/

/-- C1. For every start string and every lowercase target (so for every pair of lowercase
strings) `basicBFSEditDistance` terminates, and with enough loop iterations allowed it returns
exactly `basicEditDistance start target`. -/
theorem C1_basicBFS_eq_basicEditDistance (start target : Str) (ht : Lower target) (fuel : Nat)
    (hf : basicFuel start target ≤ fuel) :
    basicBFSEditDistance fuel start target = some (basicEditDistance start target) := by
  rw [basicEditDistance_eq_lev]
  exact basicBFS_total ht fuel hf

set_option maxRecDepth 1000000 in
theorem C1_witness :
    (Lower "bat".toList ∧
      basicBFSEditDistance (basicFuel "cat".toList "bat".toList) "cat".toList "bat".toList =
        some (basicEditDistance "cat".toList "bat".toList) ∧
      basicEditDistance "cat".toList "bat".toList = 1) ∧
    (Lower "sitting".toList ∧
      basicBFSEditDistance (basicFuel "kitten".toList "sitting".toList) "kitten".toList
        "sitting".toList = some (basicEditDistance "kitten".toList "sitting".toList) ∧
      basicEditDistance "kitten".toList "sitting".toList = 3) ∧
    (Lower "axc".toList ∧
      basicBFSEditDistance (basicFuel "abc".toList "axc".toList) "abc".toList "axc".toList =
        some (basicEditDistance "abc".toList "axc".toList) ∧
      basicEditDistance "abc".toList "axc".toList = 1) :=
  ⟨⟨by decide, C1_basicBFS_eq_basicEditDistance _ _ (by decide) _ (le_refl _), by decide⟩,
    ⟨by decide, C1_basicBFS_eq_basicEditDistance _ _ (by decide) _ (le_refl _), by decide⟩,
    ⟨by decide, C1_basicBFS_eq_basicEditDistance _ _ (by decide) _ (le_refl _), by decide⟩⟩

/-- C2. For all strings (any characters) `basicEditDistance str1 str2` equals the reference
recursive Levenshtein distance `lev str1 str2`, and that number is the minimum number of
single-character insertions, deletions and substitutions turning `str1` into `str2`: a script
of exactly that many edits exists and no script is shorter. -/
theorem C2_basicEditDistance_is_levenshtein (str1 str2 : Str) :
    basicEditDistance str1 str2 = (lev str1 str2 : Int) ∧
      EditScript (lev str1 str2) str1 str2 ∧
      ∀ n, EditScript n str1 str2 → lev str1 str2 ≤ n :=
  ⟨basicEditDistance_eq_lev str1 str2,
    steps_of_lev (lev str1 str2) str1 str2 (fun _ _ => trivial) rfl,
    fun _ h => lev_le_of_steps h⟩

theorem C2_witness :
    EditScript 2 "ab".toList "b!".toList ∧ lev "ab".toList "b!".toList ≤ 2 :=
  ⟨Steps.step (EditOver.del 'a' _) (Steps.step (EditOver.cons 'b' (EditOver.ins '!' [] trivial))
      (Steps.nil _)),
    (C2_basicEditDistance_is_levenshtein "ab".toList "b!".toList).2.2 2
      (Steps.step (EditOver.del 'a' _)
        (Steps.step (EditOver.cons 'b' (EditOver.ins '!' [] trivial)) (Steps.nil _)))⟩

/-- C3. For every start string and every lowercase target `completeBFSEditDistance` terminates
and the `min_distance` of its result is `basicEditDistance start target`; in particular it is
not the unset value `-1`. -/
theorem C3_complete_min_distance (start target : Str) (ht : Lower target) :
    ∃ r, (∀ fuel, completeFuel start target ≤ fuel →
        completeBFSEditDistance fuel start target = some r) ∧
      r.min_distance = basicEditDistance start target ∧ r.min_distance ≠ -1 := by
  obtain ⟨r, hr, hpost⟩ := completeBFS_total start target ht
  refine ⟨r, hr, by rw [basicEditDistance_eq_lev]; exact hpost.dist, ?_⟩
  rw [hpost.dist]
  have : (0 : Int) ≤ lev start target := Int.natCast_nonneg _
  omega

theorem C3_witness :
    Lower "sitting".toList ∧
      ∃ r, (∀ fuel, completeFuel "kitten".toList "sitting".toList ≤ fuel →
        completeBFSEditDistance fuel "kitten".toList "sitting".toList = some r) ∧
      r.min_distance = basicEditDistance "kitten".toList "sitting".toList ∧
      r.min_distance ≠ -1 :=
  ⟨by decide, C3_complete_min_distance _ _ (by decide)⟩

/-- C4. Completeness of the all-optimal-paths search: for every start and lowercase target,
every sequence of `d + 1` states (`d` the true distance) that begins with `start`, ends with
`target` and moves by `generateNextStates` at every step occurs in the returned `all_paths`. -/
theorem C4_complete_lists_every_optimal_path (start target : Str) (ht : Lower target) :
    ∃ r, (∀ fuel, completeFuel start target ≤ fuel →
        completeBFSEditDistance fuel start target = some r) ∧
      ∀ p : List Str, (p.length : Int) = basicEditDistance start target + 1 →
        p.head? = some start → p.getLast? = some target →
        List.Chain' (fun a b => b ∈ generateNextStates a) p → p ∈ r.all_paths := by
  obtain ⟨r, hr, hpost⟩ := completeBFS_total start target ht
  exact ⟨r, hr, fun p h1 h2 h3 h4 => hpost.all p (optPath_iff.mpr ⟨h1, h2, h3, h4⟩)⟩

set_option maxRecDepth 1000000 in
theorem C4_witness :
    Lower "b".toList ∧
      ∃ r, (∀ fuel, completeFuel "ab".toList "b".toList ≤ fuel →
        completeBFSEditDistance fuel "ab".toList "b".toList = some r) ∧
      ["ab".toList, "b".toList] ∈ r.all_paths := by
  refine ⟨by decide, ?_⟩
  obtain ⟨r, hr, hall⟩ := C4_complete_lists_every_optimal_path "ab".toList "b".toList (by decide)
  refine ⟨r, hr, hall _ (by decide) rfl rfl ?_⟩
  simp only [List.chain'_cons, List.chain'_singleton, and_true]
  decide

/-- C5. Whenever `completeBFSEditDistance` returns, every path of `all_paths` has exactly
`min_distance + 1` states, begins with `start` and ends with `target`. -/
theorem C5_complete_path_shape (fuel : Nat) (start target : Str) (r : BFSResult)
    (h : completeBFSEditDistance fuel start target = some r) :
    ∀ p ∈ r.all_paths, (p.length : Int) = r.min_distance + 1 ∧ p.head? = some start ∧
      p.getLast? = some target := by
  intro p hp
  obtain ⟨h1, h2, h3, _⟩ := (completeBFS_resultOK h).paths p hp
  exact ⟨h1, h2, h3⟩

theorem C5_witness :
    ∃ r, completeBFSEditDistance (completeFuel "cat".toList "bat".toList) "cat".toList
        "bat".toList = some r ∧
      ∀ p ∈ r.all_paths, (p.length : Int) = r.min_distance + 1 ∧
        p.head? = some "cat".toList ∧ p.getLast? = some "bat".toList := by
  obtain ⟨r, hr, _⟩ := completeBFS_total "cat".toList "bat".toList (by decide)
  exact ⟨r, hr _ (le_refl _), C5_complete_path_shape _ _ _ r (hr _ (le_refl _))⟩

/-- C6. Whenever `completeBFSEditDistance` returns, in every returned path each state is
followed by one of its `generateNextStates` neighbours, and the reference distance between the
two is exactly one. -/
theorem C6_complete_paths_step_by_one_edit (fuel : Nat) (start target : Str) (r : BFSResult)
    (h : completeBFSEditDistance fuel start target = some r) :
    ∀ p ∈ r.all_paths,
      List.Chain' (fun a b => b ∈ generateNextStates a ∧ lev a b = 1) p := by
  intro p hp
  obtain ⟨_, _, _, h4⟩ := (completeBFS_resultOK h).paths p hp
  exact List.Chain'.imp (fun a b hab => ⟨hab, lev_eq_one_of_mem hab⟩) h4

theorem C6_witness :
    ∃ r, completeBFSEditDistance (completeFuel "cat".toList "bit".toList) "cat".toList
        "bit".toList = some r ∧
      ∀ p ∈ r.all_paths,
        List.Chain' (fun a b => b ∈ generateNextStates a ∧ lev a b = 1) p := by
  obtain ⟨r, hr, _⟩ := completeBFS_total "cat".toList "bit".toList (by decide)
  exact ⟨r, hr _ (le_refl _), C6_complete_paths_step_by_one_edit _ _ _ r (hr _ (le_refl _))⟩

/-- C7. In whatever `completeBFSEditDistance` returns, and (for `start ≠ target`, when the loop
is entered) at the head of every iteration and after any number `k` of neighbours processed
inside an iteration, `all_paths` is non-empty exactly when `min_distance ≠ -1`. -/
theorem C7_paths_nonempty_iff_distance_set (start target : Str) :
    (∀ fuel r, completeBFSEditDistance fuel start target = some r → PathsIffSet r) ∧
      (start ≠ target → ∀ n,
        PathsIffSet (completeAfter target start n).result ∧
        ∀ k, PathsIffSet (completeUpTo target k (completeAfter target start n)).result) :=
  ⟨fun _ _ h => (completeBFS_resultOK h).nonempty,
    fun hne n => ⟨(completeOK_after hne n).result.nonempty,
      fun k => (completeOK_upTo (completeOK_after hne n) k).result.nonempty⟩⟩

theorem C7_witness :
    (∃ r, completeBFSEditDistance (completeFuel "ab".toList "ba".toList) "ab".toList
        "ba".toList = some r ∧ PathsIffSet r) ∧
      PathsIffSet (completeUpTo "ba".toList 7 (completeAfter "ba".toList "ab".toList 3)).result := by
  obtain ⟨r, hr, _⟩ := completeBFS_total "ab".toList "ba".toList (by decide)
  exact ⟨⟨r, hr _ (le_refl _),
      (C7_paths_nonempty_iff_distance_set "ab".toList "ba".toList).1 _ r (hr _ (le_refl _))⟩,
    ((C7_paths_nonempty_iff_distance_set "ab".toList "ba".toList).2 (by decide) 3).2 7⟩

/-- C8 (as stated, refuted). On `start = "aa"`, `target = "a"` the search returns a result whose
`all_paths` lists the path `["aa", "a"]` twice: the path list is not duplicate-free. -/
theorem C8_counterexample :
    ∃ r, (∀ fuel, completeFuel "aa".toList "a".toList ≤ fuel →
        completeBFSEditDistance fuel "aa".toList "a".toList = some r) ∧
      ¬ r.all_paths.Nodup := by
  obtain ⟨r, hr, _⟩ := completeBFS_total "aa".toList "a".toList (by decide)
  refine ⟨r, hr, ?_⟩
  have hne : "aa".toList ≠ "a".toList := by decide
  have h1 := hr _ (le_refl _)
  unfold completeBFSEditDistance at h1
  rw [if_neg hne] at h1
  unfold completeFuel at h1
  rw [completeLoop_succ_of_ne (by simp [completeInit])] at h1
  obtain ⟨_, more, h2⟩ := listedTwice_loop _ _ r (completeOK_iter (completeOK_init hne))
    first_iteration_aa_a h1
  rw [h2]
  simp

/-- C8 (amended). For every start and lowercase target the returned `all_paths`, read as a
set, is exactly the set of optimal paths: a path is listed if and only if it has `d + 1` states
(`d` the true distance), begins with `start`, ends with `target` and moves by
`generateNextStates` at every step. (The list itself may repeat a path.) -/
theorem C8_paths_as_a_set_are_the_optimal_paths (start target : Str) (ht : Lower target) :
    ∃ r, (∀ fuel, completeFuel start target ≤ fuel →
        completeBFSEditDistance fuel start target = some r) ∧
      ∀ p : List Str, p ∈ r.all_paths ↔
        ((p.length : Int) = basicEditDistance start target + 1 ∧ p.head? = some start ∧
          p.getLast? = some target ∧ List.Chain' (fun a b => b ∈ generateNextStates a) p) := by
  obtain ⟨r, hr, hpost⟩ := completeBFS_total start target ht
  refine ⟨r, hr, fun p => ⟨fun hp => ?_, fun h => hpost.all p (optPath_iff.mpr h)⟩⟩
  obtain ⟨h1, h2, h3, h4⟩ := hpost.ok.paths p hp
  refine ⟨?_, h2, h3, h4⟩
  rw [h1, hpost.dist, basicEditDistance_eq_lev]

theorem C8_witness :
    Lower "a".toList ∧
      ∃ r, (∀ fuel, completeFuel "aa".toList "a".toList ≤ fuel →
        completeBFSEditDistance fuel "aa".toList "a".toList = some r) ∧
      ∀ p : List Str, p ∈ r.all_paths ↔
        ((p.length : Int) = basicEditDistance "aa".toList "a".toList + 1 ∧
          p.head? = some "aa".toList ∧ p.getLast? = some "a".toList ∧
          List.Chain' (fun a b => b ∈ generateNextStates a) p) :=
  ⟨by decide, C8_paths_as_a_set_are_the_optimal_paths _ _ (by decide)⟩

/-- C9. For every start and lowercase target, and for every way `tie` of resolving which of
the queue entries that compare equal is popped, `optimizedBFSEditDistance` terminates and its
`min_distance` is the value returned by `basicBFSEditDistance`, the true edit distance. -/
theorem C9_optimized_min_distance (start target : Str) (ht : Lower target) (tie : Nat → Nat) :
    ∃ r, (∀ fuel, optimizedFuel start target ≤ fuel →
        optimizedBFSEditDistance tie fuel start target = some r) ∧
      (∀ fuel, basicFuel start target ≤ fuel →
        basicBFSEditDistance fuel start target = some r.min_distance) ∧
      r.min_distance = basicEditDistance start target := by
  obtain ⟨r, hr, _, hdist⟩ := optimizedBFS_total start target ht tie
  refine ⟨r, hr, fun fuel hf => ?_, by rw [basicEditDistance_eq_lev]; exact hdist⟩
  rw [hdist]
  exact basicBFS_total ht fuel hf

theorem C9_witness :
    Lower "sitting".toList ∧
      ∃ r, (∀ fuel, optimizedFuel "kitten".toList "sitting".toList ≤ fuel →
        optimizedBFSEditDistance (fun k => 2 * k + 1) fuel "kitten".toList "sitting".toList =
          some r) ∧
      (∀ fuel, basicFuel "kitten".toList "sitting".toList ≤ fuel →
        basicBFSEditDistance fuel "kitten".toList "sitting".toList = some r.min_distance) ∧
      r.min_distance = basicEditDistance "kitten".toList "sitting".toList :=
  ⟨by decide, C9_optimized_min_distance _ _ (by decide) _⟩

/-- C10. For every start and lowercase target and every resolution `tie` of the queue ties,
whenever both searches return, every path in the `all_paths` of `optimizedBFSEditDistance` also
occurs in the `all_paths` of `completeBFSEditDistance`. -/
theorem C10_optimized_paths_subset_complete (start target : Str) (ht : Lower target)
    (tie : Nat → Nat) (fuel fuel1 : Nat) (r r1 : BFSResult)
    (h : optimizedBFSEditDistance tie fuel start target = some r)
    (h1 : completeBFSEditDistance fuel1 start target = some r1) :
    ∀ p ∈ r.all_paths, p ∈ r1.all_paths := by
  obtain ⟨ro, hro, hok, hdist⟩ := optimizedBFS_total start target ht tie
  obtain ⟨rc, hrc, hpost⟩ := completeBFS_total start target ht
  have e1 : r = ro := optimizedBFS_unique h (hro _ (le_refl _))
  have e2 : r1 = rc := completeBFS_unique h1 (hrc _ (le_refl _))
  subst e1 e2
  intro p hp
  obtain ⟨hlen, hpath⟩ := hok.paths p hp
  exact hpost.all p ⟨hpath, by omega⟩

theorem C10_witness :
    Lower "".toList ∧
      ∃ r r1, optimizedBFSEditDistance (fun _ => 0) (optimizedFuel "abc".toList "".toList)
          "abc".toList "".toList = some r ∧
        completeBFSEditDistance (completeFuel "abc".toList "".toList) "abc".toList "".toList =
          some r1 ∧
        ∀ p ∈ r.all_paths, p ∈ r1.all_paths := by
  refine ⟨by decide, ?_⟩
  obtain ⟨r, hr, _⟩ := optimizedBFS_total "abc".toList "".toList (by decide) (fun _ => 0)
  obtain ⟨r1, hr1, _⟩ := completeBFS_total "abc".toList "".toList (by decide)
  exact ⟨r, r1, hr _ (le_refl _), hr1 _ (le_refl _),
    C10_optimized_paths_subset_complete _ _ (by decide) _ _ _ r r1 (hr _ (le_refl _))
      (hr1 _ (le_refl _))⟩

/-! ### Non-termination of the exhaustive search towards a target outside the alphabet -/

theorem lev_le_add_of_steps {P : Char → Prop} {n : Nat} {s u : Str}
    (h : Steps (EditOver P) n s u) (t : Str) : lev s t ≤ n + lev u t := by
  induction h with
  | nil s => simp
  | step hr _ ih => have := lev_ge_of_edit_left hr t; omega

/-- Triangle inequality of the reference distance. -/
theorem lev_triangle (a b c : Str) : lev a c ≤ lev a b + lev b c :=
  lev_le_add_of_steps (steps_of_lev (P := fun _ => True) (lev a b) a b (fun _ _ => trivial) rfl) c

theorem lower_of_edit {s w : Str} (h : LowerEdit s w) (hs : Lower s) : Lower w := by
  induction h with
  | del a s => exact fun c hc => hs c (List.mem_cons_of_mem _ hc)
  | ins c s hc =>
    intro x hx
    rcases List.mem_cons.mp hx with e | e
    · rw [e]; exact hc
    · exact hs x e
  | sub a c s hc _ =>
    intro x hx
    rcases List.mem_cons.mp hx with e | e
    · rw [e]; exact hc
    · exact hs x (List.mem_cons_of_mem _ e)
  | cons a _ ih =>
    intro x hx
    rcases List.mem_cons.mp hx with e | e
    · rw [e]; exact hs a (List.mem_cons_self _ _)
    · exact ih (fun c hc => hs c (List.mem_cons_of_mem _ hc)) x e

/-- The transition generator keeps lowercase strings lowercase. -/
theorem lower_of_neighbour {s w : Str} (h : w ∈ generateNextStates s) (hs : Lower s) :
    Lower w :=
  lower_of_edit (mem_generateNextStates_iff.mp h) hs

theorem length_neighbour {s w : Str} (h : w ∈ generateNextStates s) :
    w.length ≤ s.length + 1 := by
  have h1 := (length_le_lev_add s w).2
  rw [lev_eq_one_of_mem h] at h1
  exact h1

theorem exists_longer_neighbour (s : Str) :
    ∃ w ∈ generateNextStates s, w.length = s.length + 1 :=
  ⟨'a' :: s, mem_generateNextStates_iff.mpr (EditOver.ins 'a' s (by decide)), by simp⟩

theorem neverEmpty_scan {target : Str} (ht : ¬ Lower target) (s : Str) (c : Int) :
    ∀ (pending visited : List Str) (q : List (Str × Int)),
      NeverEmptyMid s pending visited q →
      ∃ v1 q1, basicScan target c pending visited q = Sum.inr (v1, q1) ∧ NeverEmpty v1 q1 := by
  intro pending
  induction pending with
  | nil =>
    intro visited q h
    obtain ⟨_, _, hq, hmax⟩ := h
    refine ⟨visited, q, rfl, hq, ?_⟩
    rcases hmax with h1 | ⟨_, w, hw, _⟩
    · exact h1
    · simp at hw
  | cons w rest ih =>
    intro visited q h
    obtain ⟨hs, hp, hq, hmax⟩ := h
    have hw : w ∈ generateNextStates s := hp w (List.mem_cons_self _ _)
    have hwl : Lower w := lower_of_neighbour hw hs
    have hwt : w ≠ target := fun e => ht (e ▸ hwl)
    have hp1 : ∀ x ∈ rest, x ∈ generateNextStates s := fun x hx => hp x (List.mem_cons_of_mem _ hx)
    unfold basicScan
    rw [if_neg hwt]
    by_cases hv : w ∈ visited
    · rw [if_neg (not_not.mpr hv)]
      apply ih visited q
      refine ⟨hs, hp1, hq, ?_⟩
      rcases hmax with h1 | ⟨h2, w1, hw1, hl1⟩
      · exact Or.inl h1
      · right
        refine ⟨h2, w1, ?_, hl1⟩
        rcases List.mem_cons.mp hw1 with e | e
        · have := h2 w hv
          rw [← e] at this
          omega
        · exact e
    · rw [if_pos hv]
      apply ih (w :: visited) (q ++ [(w, c + 1)])
      have hq1 : ∀ e ∈ q ++ [(w, c + 1)], Lower e.1 := by
        intro e he
        simp only [List.mem_append, List.mem_singleton] at he
        rcases he with he | he
        · exact hq e he
        · rw [he]; exact hwl
      refine ⟨hs, hp1, hq1, ?_⟩
      have hlen := length_neighbour hw
      rcases hmax with ⟨e, he, h1⟩ | ⟨h2, w1, hw1, hl1⟩
      · left
        by_cases hcmp : w.length ≤ e.1.length
        · refine ⟨e, List.mem_append_left _ he, ?_⟩
          intro v hv1
          rcases List.mem_cons.mp hv1 with e1 | e1
          · rw [e1]; exact hcmp
          · exact h1 v e1
        · refine ⟨(w, c + 1), List.mem_append_right _ (List.mem_singleton_self _), ?_⟩
          intro v hv1
          rcases List.mem_cons.mp hv1 with e1 | e1
          · rw [e1]
          · have := h1 v e1
            show v.length ≤ w.length
            omega
      · by_cases hcmp : w.length = s.length + 1
        · left
          refine ⟨(w, c + 1), List.mem_append_right _ (List.mem_singleton_self _), ?_⟩
          intro v hv1
          rcases List.mem_cons.mp hv1 with e1 | e1
          · rw [e1]
          · have := h2 v e1
            show v.length ≤ w.length
            omega
        · right
          refine ⟨?_, w1, ?_, hl1⟩
          · intro v hv1
            rcases List.mem_cons.mp hv1 with e1 | e1
            · rw [e1]; omega
            · exact h2 v e1
          · rcases List.mem_cons.mp hw1 with e | e
            · rw [e] at hl1; exact absurd hl1 hcmp
            · exact e

theorem basicLoop_never_returns {target : Str} (ht : ¬ Lower target) :
    ∀ (fuel : Nat) (visited : List Str) (q : List (Str × Int)), NeverEmpty visited q →
      basicLoop target fuel visited q = none := by
  intro fuel
  induction fuel with
  | zero => intro visited q _; rfl
  | succ fuel ih =>
    intro visited q h
    obtain ⟨hq, e, he, hmax⟩ := h
    cases q with
    | nil => simp at he
    | cons cur rest =>
      obtain ⟨s, c⟩ := cur
      have hmid : NeverEmptyMid s (generateNextStates s) visited rest := by
        refine ⟨hq (s, c) (List.mem_cons_self _ _), fun _ hw => hw,
          fun x hx => hq x (List.mem_cons_of_mem _ hx), ?_⟩
        rcases List.mem_cons.mp he with e1 | e1
        · right
          rw [e1] at hmax
          exact ⟨hmax, exists_longer_neighbour s⟩
        · exact Or.inl ⟨e, e1, hmax⟩
      obtain ⟨v1, q1, hscan, hnext⟩ := neverEmpty_scan ht s c _ _ _ hmid
      rw [basicLoop, hscan]
      exact ih v1 q1 hnext

/-- From a lowercase start the exhaustive search never returns when the target has a character
outside `a .. z`: neither by finding the target nor by emptying its queue. -/
theorem basicBFS_never_returns {start target : Str} (hs : Lower start) (ht : ¬ Lower target)
    (fuel : Nat) : basicBFSEditDistance fuel start target = none := by
  unfold basicBFSEditDistance
  have hne : start ≠ target := fun e => ht (e ▸ hs)
  rw [if_neg hne]
  apply basicLoop_never_returns ht
  refine ⟨?_, (start, 0), List.mem_singleton_self _, ?_⟩
  · intro e he
    rw [List.mem_singleton] at he
    rw [he]; exact hs
  · intro v hv
    rw [List.mem_singleton] at hv
    rw [hv]

/-! ### Depth-bounded search: invariant and termination -/

theorem limitedOK_visit {start target : Str} {cur : State} {σ : LSearch} {w : Str}
    (hσ : LimitedOK start target σ) (hc : EntryOK start target cur)
    (hw : w ∈ generateNextStates cur.current_string) :
    LimitedOK start target (limitedVisit target cur σ w) := by
  unfold limitedVisit
  split
  · rename_i e
    subst e
    exact ⟨resultOK_recordPath hσ.result hc hw, hσ.entries⟩
  · rename_i hne
    split
    · refine ⟨hσ.result, ?_⟩
      intro e he
      simp only [List.mem_append, List.mem_singleton] at he
      rcases he with he | he
      · exact hσ.entries e he
      · subst he
        exact hc.entry_push hw hne
    · exact hσ

/-- Loop rule for one iteration of `limitedBFS`: a property of the loop variables that survives
the bookkeeping of a pop and every visit of a neighbour of an expanded entry survives the
iteration. -/
theorem limitedIter_preserves {start target : Str} {max_depth : Int} (I : LSearch → Prop)
    (hpop : ∀ σ cur rest, σ.q = cur :: rest → LimitedOK start target σ → I σ →
      I ⟨countNode σ.result σ.q.length, σ.visited, rest⟩)
    (hvisit : ∀ σ cur w, EntryOK start target cur → cur.cost < max_depth →
      w ∈ generateNextStates cur.current_string → LimitedOK start target σ → I σ →
      I (limitedVisit target cur σ w))
    {σ : LSearch} (hok : LimitedOK start target σ) (h : I σ) :
    LimitedOK start target (limitedIter target max_depth σ) ∧
      I (limitedIter target max_depth σ) := by
  unfold limitedIter
  split
  · exact ⟨hok, h⟩
  · rename_i cur rest hq
    have hcur : EntryOK start target cur :=
      hok.entries cur (by rw [hq]; exact List.mem_cons_self _ _)
    have h1 : LimitedOK start target ⟨countNode σ.result σ.q.length, σ.visited, rest⟩ :=
      ⟨resultOK_countNode hok.result _,
        fun e he => hok.entries e (by rw [hq]; exact List.mem_cons_of_mem _ he)⟩
    have h2 := hpop σ cur rest hq hok h
    simp only
    split
    · exact ⟨h1, h2⟩
    · rename_i hlt
      have hlt1 : cur.cost < max_depth := by omega
      have := foldl_pending_inv (limitedVisit target cur)
        (fun l s => (∀ w ∈ l, w ∈ generateNextStates cur.current_string) ∧
          LimitedOK start target s ∧ I s)
        (generateNextStates cur.current_string) _ ⟨fun _ hw => hw, h1, h2⟩
        (fun x rest1 b hb =>
          have hx := hb.1 x (List.mem_cons_self _ _)
          ⟨fun w hw => hb.1 w (List.mem_cons_of_mem _ hw), limitedOK_visit hb.2.1 hcur hx,
            hvisit b cur x hcur hlt1 hx hb.2.1 hb.2.2⟩)
      exact this.2

theorem limitedOK_init {start target : Str} (hne : start ≠ target) :
    LimitedOK start target (limitedInit start) := by
  refine ⟨⟨by simp [limitedInit, emptyResult], by simp [limitedInit, emptyResult],
    Or.inl rfl⟩, ?_⟩
  intro e he
  simp only [limitedInit, List.mem_singleton] at he
  subst he
  exact ⟨⟨rfl, rfl, List.chain'_singleton _⟩, by simp, hne, by simp⟩

theorem limited_weight_visit (bound : Nat) (target : Str) (cur : State) (σ : LSearch) (w : Str) :
    queueWeight bound (limitedVisit target cur σ w).q ≤
      queueWeight bound σ.q + treeSize (bound - (cur.cost + 1).toNat) w := by
  unfold limitedVisit
  split
  · simp
  · split
    · simp [queueWeight_append, queueWeight, stateWeight]
    · simp

theorem limited_weight_foldl (bound : Nat) (target : Str) (cur : State) :
    ∀ (l : List Str) (σ : LSearch),
      queueWeight bound (l.foldl (limitedVisit target cur) σ).q ≤
        queueWeight bound σ.q + (l.map (treeSize (bound - (cur.cost + 1).toNat))).sum := by
  intro l
  induction l with
  | nil => intro σ; simp
  | cons w l ih =>
    intro σ
    have h1 := ih (limitedVisit target cur σ w)
    have h2 := limited_weight_visit bound target cur σ w
    simp only [List.foldl_cons, List.map_cons, List.sum_cons]
    omega

theorem limited_weight_iter {start target : Str} (max_depth : Int) {σ : LSearch}
    (h : LimitedOK start target σ) (hne : σ.q ≠ []) :
    queueWeight max_depth.toNat (limitedIter target max_depth σ).q <
      queueWeight max_depth.toNat σ.q := by
  unfold limitedIter
  split
  · rename_i hq; exact absurd hq hne
  · rename_i cur rest hq
    simp only
    rw [show queueWeight max_depth.toNat σ.q =
      stateWeight max_depth.toNat cur + queueWeight max_depth.toNat rest from by
        rw [hq, queueWeight_cons]]
    split
    · have := treeSize_pos (max_depth.toNat - cur.cost.toNat) cur.current_string
      simp only [stateWeight]
      omega
    · rename_i hexp
      have h0 := (h.entries cur (by rw [hq]; exact List.mem_cons_self _ _)).entry_cost_nonneg
      rw [stateWeight_expand h0 (by omega)]
      have := limited_weight_foldl max_depth.toNat target cur
        (generateNextStates cur.current_string)
        ⟨countNode σ.result σ.q.length, σ.visited, rest⟩
      simp only at this
      omega

/-- Termination of the loop of `limitedBFS`, with an invariant carried to the final state. -/
theorem limitedLoop_total {start target : Str} {max_depth : Int} (I : LSearch → Prop)
    (hI : ∀ σ, LimitedOK start target σ → I σ → I (limitedIter target max_depth σ))
    (hOK : ∀ σ, LimitedOK start target σ → I σ →
      LimitedOK start target (limitedIter target max_depth σ)) :
    ∀ (n : Nat) (σ : LSearch), LimitedOK start target σ → I σ →
      queueWeight max_depth.toNat σ.q ≤ n →
      ∃ σf, limitedLoop target max_depth (n + 1) σ = some σf.result ∧ σf.q = [] ∧
        LimitedOK start target σf ∧ I σf := by
  intro n
  induction n with
  | zero =>
    intro σ h hi hw
    cases hq : σ.q with
    | nil => exact ⟨σ, by rw [limitedLoop, hq], hq, h, hi⟩
    | cons cur rest =>
      rw [hq, queueWeight_cons] at hw
      have := treeSize_pos (max_depth.toNat - cur.cost.toNat) cur.current_string
      simp only [stateWeight] at hw
      omega
  | succ n ih =>
    intro σ h hi hw
    cases hq : σ.q with
    | nil => exact ⟨σ, by rw [limitedLoop, hq], hq, h, hi⟩
    | cons cur rest =>
      have hlt := limited_weight_iter max_depth h (by rw [hq]; simp)
      rw [limitedLoop, hq]
      exact ih _ (hOK σ h hi) (hI σ h hi) (by omega)

theorem limitedLoop_mono {target : Str} {max_depth : Int} : ∀ (fuel : Nat) (σ : LSearch)
    (r : BFSResult), limitedLoop target max_depth fuel σ = some r →
      limitedLoop target max_depth (fuel + 1) σ = some r := by
  intro fuel
  induction fuel with
  | zero => intro σ r h; simp [limitedLoop] at h
  | succ fuel ih =>
    intro σ r h
    cases hq : σ.q with
    | nil =>
      rw [limitedLoop, hq] at h ⊢
      exact h
    | cons cur rest =>
      rw [limitedLoop, hq] at h ⊢
      exact ih _ r h

theorem limitedLoop_mono_le {target : Str} {max_depth : Int} {fuel fuel1 : Nat}
    (hle : fuel ≤ fuel1) {σ : LSearch} {r : BFSResult}
    (h : limitedLoop target max_depth fuel σ = some r) :
    limitedLoop target max_depth fuel1 σ = some r := by
  induction hle with
  | refl => exact h
  | step _ ih => exact limitedLoop_mono _ σ r ih

theorem limitedLoop_unique {target : Str} {max_depth : Int} {fuel fuel1 : Nat} {σ : LSearch}
    {r r1 : BFSResult} (h : limitedLoop target max_depth fuel σ = some r)
    (h1 : limitedLoop target max_depth fuel1 σ = some r1) : r = r1 := by
  have a := limitedLoop_mono_le (Nat.le_max_left fuel fuel1) h
  have b := limitedLoop_mono_le (Nat.le_max_right fuel fuel1) h1
  rw [a] at b
  exact Option.some.inj b

/-- The depth-bounded search terminates on every input, and an invariant of its iterations
holds for the loop variables it ends with. -/
theorem limitedBFS_total {start target : Str} (max_depth : Int) (hne : start ≠ target)
    (I : LSearch → Prop) (h0 : I (limitedInit start))
    (hI : ∀ σ, LimitedOK start target σ → I σ →
      LimitedOK start target (limitedIter target max_depth σ) ∧
        I (limitedIter target max_depth σ)) :
    ∃ σf, (∀ fuel, limitedFuel start max_depth ≤ fuel →
        limitedBFS fuel start target max_depth = some σf.result) ∧ σf.q = [] ∧
      LimitedOK start target σf ∧ I σf := by
  obtain ⟨σf, hr, hq, hok, hi⟩ := limitedLoop_total I (fun σ a b => (hI σ a b).2)
    (fun σ a b => (hI σ a b).1) _ _ (limitedOK_init hne) h0 (le_refl _)
  refine ⟨σf, fun fuel hf => ?_, hq, hok, hi⟩
  unfold limitedBFS
  rw [if_neg hne]
  exact limitedLoop_mono_le hf hr

theorem nothingFound_iter {start target : Str} {max_depth : Int}
    (hlt : max_depth < (lev start target : Int)) {σ : LSearch}
    (hok : LimitedOK start target σ) (h : NothingFound σ.result) :
    LimitedOK start target (limitedIter target max_depth σ) ∧
      NothingFound (limitedIter target max_depth σ).result := by
  refine limitedIter_preserves (fun s => NothingFound s.result) (fun _ _ _ _ _ hi => hi) ?_ hok h
  intro s cur w hcur hc hw _ hi
  unfold limitedVisit
  split
  · rename_i e
    rw [e] at hw
    have := hcur.entry_step_cost hw
    rw [lev_self] at this
    simp only [Nat.cast_zero, add_zero] at this
    omega
  · split
    · exact hi
    · exact hi

/-! ### Depth-bounded search: the distance is found within the bound -/

theorem LMid.lmid_finish {start target : Str} {cur : State} {σ : LSearch}
    {hist : List (Str × Int)} (h : LMid start target cur [] σ hist) :
    LHead start target σ hist where
  vis := h.vis
  sub := h.sub
  sound := h.sound
  mono := by
    intro e he x hx
    have h1 := h.mono x hx
    have h2 := h.fifo.cost_ge he
    omega
  fifo := h.fifo.to_fifo
  start_in := h.start_in
  key := by
    intro x hx hg
    rcases h.key x hx hg with k | k | ⟨_, _, w, hw, _⟩
    · exact Or.inl k
    · exact Or.inr k
    · simp at hw

theorem LHead.lhead_pop_skip {start target : Str} {max_depth : Int} {σ : LSearch}
    {hist : List (Str × Int)} {cur : State} {rest : List State}
    (hd : (lev start target : Int) ≤ max_depth) (hok : LimitedOK start target σ)
    (h : LHead start target σ hist) (hq : σ.q = cur :: rest) (hskip : cur.cost ≥ max_depth) :
    LHead start target ⟨countNode σ.result σ.q.length, σ.visited, rest⟩ hist := by
  have hcur : EntryOK start target cur :=
    hok.entries cur (by rw [hq]; exact List.mem_cons_self _ _)
  have hfifo : FifoAfter State.cost cur.cost rest := (hq ▸ h.fifo).fifo_pop
  refine ⟨h.vis, fun e he => h.sub e (by rw [hq]; exact List.mem_cons_of_mem _ he), h.sound,
    ?_, hfifo.to_fifo, h.start_in, ?_⟩
  · intro e he x hx
    have h1 := h.mono cur (by rw [hq]; exact List.mem_cons_self _ _) x hx
    have h2 := hfifo.cost_ge he
    omega
  · intro x hx hg
    rcases h.key x hx hg with g | ⟨e, he, g, hl⟩
    · exact Or.inl g
    · right
      rw [hq] at he
      rcases List.mem_cons.mp he with e1 | e1
      · subst e1
        have := g.good_cost_lt hcur
        omega
      · exact ⟨e, e1, g, hl⟩

theorem LHead.lhead_pop_expand {start target : Str} (ht : Lower target) {σ : LSearch}
    {hist : List (Str × Int)} {cur : State} {rest : List State}
    (hok : LimitedOK start target σ) (h : LHead start target σ hist) (hq : σ.q = cur :: rest) :
    LMid start target cur (generateNextStates cur.current_string)
      ⟨countNode σ.result σ.q.length, σ.visited, rest⟩ hist := by
  have hcur : EntryOK start target cur :=
    hok.entries cur (by rw [hq]; exact List.mem_cons_self _ _)
  refine ⟨h.vis, fun e he => h.sub e (by rw [hq]; exact List.mem_cons_of_mem _ he), h.sound,
    h.mono cur (by rw [hq]; exact List.mem_cons_self _ _), (hq ▸ h.fifo).fifo_pop,
    fun _ hw => hw, h.start_in, ?_⟩
  intro x hx hg
  rcases h.key x hx hg with g | ⟨e, he, g, hl⟩
  · exact Or.inl g
  · rw [hq] at he
    rcases List.mem_cons.mp he with e1 | e1
    · subst e1
      obtain ⟨w, hw, hlev⟩ := exists_neighbour_closer ht hcur.ne
      exact Or.inr (Or.inr ⟨g, hl, w, hw, hlev⟩)
    · exact Or.inr (Or.inl ⟨e, e1, g, hl⟩)

theorem LMid.lmid_visit_target {start target : Str} {cur : State} {rest : List Str}
    {σ : LSearch} {hist : List (Str × Int)} (hok : LimitedOK start target σ)
    (hcur : EntryOK start target cur) (h : LMid start target cur (target :: rest) σ hist) :
    LMid start target cur rest
      { σ with result := recordPath σ.result (cur.cost + 1) (cur.path ++ [target]) } hist := by
  have hw : target ∈ generateNextStates cur.current_string := h.pend _ (List.mem_cons_self _ _)
  have hnew : (lev start target : Int) ≤ cur.cost + 1 := by
    have := hcur.entry_step_cost hw
    rw [lev_self] at this
    simpa using this
  have hsound := hok.result.sound
  have hpos : (0 : Int) ≤ lev start target := Int.natCast_nonneg _
  refine ⟨h.vis, h.sub, h.sound, h.mono, h.fifo,
    fun w hw => h.pend w (List.mem_cons_of_mem _ hw), h.start_in, ?_⟩
  intro x hx hg
  rcases h.key x hx hg with g | g | ⟨gc, hl, w1, hw1, hlev⟩
  · left
    show (recordPath _ _ _).min_distance = _
    rw [recordPath_min, if_neg]
    · exact g
    · omega
  · exact Or.inr (Or.inl g)
  · rcases List.mem_cons.mp hw1 with e | hw2
    · left
      rw [e, lev_self] at hlev
      have gc1 : cur.cost + (lev cur.current_string target : Int) = lev start target := gc
      show (recordPath _ _ _).min_distance = _
      rw [recordPath_min]
      split
      · omega
      · omega
    · exact Or.inr (Or.inr ⟨gc, hl, w1, hw2, hlev⟩)

theorem LMid.lmid_visit_push {start target : Str} {cur : State} {w : Str} {rest : List Str}
    {σ : LSearch} {hist : List (Str × Int)} (hcur : EntryOK start target cur)
    (h : LMid start target cur (w :: rest) σ hist) :
    LMid start target cur rest
      { σ with
        visited := w :: σ.visited,
        q := σ.q ++ [⟨w, cur.cost + 1, cur.path ++ [w]⟩] }
      ((w, cur.cost + 1) :: hist) := by
  have hw : w ∈ generateNextStates cur.current_string := h.pend _ (List.mem_cons_self _ _)
  have hstep := hcur.entry_step_cost hw
  refine ⟨?_, ?_, ?_, ?_, h.fifo.fifo_push rfl,
    fun x hx => h.pend x (List.mem_cons_of_mem _ hx), List.mem_cons_of_mem _ h.start_in, ?_⟩
  · intro x hx
    rcases List.mem_cons.mp hx with e | e
    · exact ⟨cur.cost + 1, by rw [e]; exact List.mem_cons_self _ _⟩
    · obtain ⟨c, hc⟩ := h.vis x e
      exact ⟨c, List.mem_cons_of_mem _ hc⟩
  · intro e he
    simp only [List.mem_append, List.mem_singleton] at he
    rcases he with he | he
    · exact List.mem_cons_of_mem _ (h.sub e he)
    · rw [he]; exact List.mem_cons_self _ _
  · intro x hx
    rcases List.mem_cons.mp hx with e1 | e1
    · rw [e1]; exact hstep
    · exact h.sound x e1
  · intro x hx
    rcases List.mem_cons.mp hx with e1 | e1
    · rw [e1]
    · exact h.mono x e1
  · intro x hx hg
    have hnew : ∀ y, lev w target ≤ y →
        cur.cost + 1 + (lev w target : Int) = lev start target →
        ∃ e ∈ σ.q ++ [(⟨w, cur.cost + 1, cur.path ++ [w]⟩ : State)],
          Good start target e ∧ lev e.current_string target ≤ y :=
      fun y hy hgood => ⟨_, List.mem_append_right _ (List.mem_singleton_self _), hgood, hy⟩
    rcases List.mem_cons.mp hx with e1 | e1
    · right; left
      rw [e1] at hg ⊢
      exact hnew _ (le_refl _) hg
    · rcases h.key x e1 hg with g | ⟨e2, he2, hg2, hl2⟩ | ⟨hgc, hl, w1, hw1, hlev⟩
      · exact Or.inl g
      · exact Or.inr (Or.inl ⟨e2, List.mem_append_left _ he2, hg2, hl2⟩)
      · rcases List.mem_cons.mp hw1 with e3 | e3
        · right; left
          rw [e3] at hlev
          have hgc1 : cur.cost + (lev cur.current_string target : Int) = lev start target := hgc
          exact hnew _ (by omega) (by omega)
        · exact Or.inr (Or.inr ⟨hgc, hl, w1, e3, hlev⟩)

theorem LMid.lmid_visit_seen {start target : Str} {cur : State} {w : Str} {rest : List Str}
    {σ : LSearch} {hist : List (Str × Int)} (h : LMid start target cur (w :: rest) σ hist)
    (hv : w ∈ σ.visited) : LMid start target cur rest σ hist := by
  refine ⟨h.vis, h.sub, h.sound, h.mono, h.fifo,
    fun x hx => h.pend x (List.mem_cons_of_mem _ hx), h.start_in, ?_⟩
  intro x hx hg
  rcases h.key x hx hg with k | k | ⟨hgc, hl, w1, hw1, hlev⟩
  · exact Or.inl k
  · exact Or.inr (Or.inl k)
  · rcases List.mem_cons.mp hw1 with e3 | e3
    · rw [e3] at hlev
      obtain ⟨c1, hc1⟩ := h.vis w hv
      have h1 := h.sound _ hc1
      have h2 := h.mono _ hc1
      have hgc1 : cur.cost + (lev cur.current_string target : Int) = lev start target := hgc
      have hgw : GoodP start target (w, c1) := by
        show c1 + (lev w target : Int) = lev start target
        simp only at h1 h2
        omega
      rcases h.key _ hc1 hgw with k | ⟨e2, he2, hg2, hl2⟩ | ⟨_, hl3, _⟩
      · exact Or.inl k
      · exact Or.inr (Or.inl ⟨e2, he2, hg2, by simp only at hl2; omega⟩)
      · simp only at hl3; omega
    · exact Or.inr (Or.inr ⟨hgc, hl, w1, e3, hlev⟩)

theorem LMid.lmid_visit {start target : Str} {cur : State} {w : Str} {rest : List Str}
    {σ : LSearch} {hist : List (Str × Int)} (hok : LimitedOK start target σ)
    (hcur : EntryOK start target cur) (h : LMid start target cur (w :: rest) σ hist) :
    ∃ hist1, LMid start target cur rest (limitedVisit target cur σ w) hist1 := by
  unfold limitedVisit
  split
  · rename_i e
    subst e
    exact ⟨hist, h.lmid_visit_target hok hcur⟩
  · split
    · exact ⟨_, h.lmid_visit_push hcur⟩
    · rename_i hv
      exact ⟨hist, h.lmid_visit_seen (not_not.mp hv)⟩

/-- One iteration of `limitedBFS` keeps the invariant when the depth cap is not below the
distance and the target is lowercase. -/
theorem limitedGood_iter {start target : Str} {max_depth : Int} (ht : Lower target)
    (hd : (lev start target : Int) ≤ max_depth) {σ : LSearch}
    (hok : LimitedOK start target σ) (h : LimitedGood start target σ) :
    LimitedOK start target (limitedIter target max_depth σ) ∧
      LimitedGood start target (limitedIter target max_depth σ) := by
  obtain ⟨hist, hh⟩ := h
  unfold limitedIter
  split
  · exact ⟨hok, hist, hh⟩
  · rename_i cur rest hq
    have hcur : EntryOK start target cur :=
      hok.entries cur (by rw [hq]; exact List.mem_cons_self _ _)
    have h1 : LimitedOK start target ⟨countNode σ.result σ.q.length, σ.visited, rest⟩ :=
      ⟨resultOK_countNode hok.result _,
        fun e he => hok.entries e (by rw [hq]; exact List.mem_cons_of_mem _ he)⟩
    simp only
    split
    · rename_i hskip
      exact ⟨h1, hist, hh.lhead_pop_skip hd hok hq hskip⟩
    · have := foldl_pending_inv (limitedVisit target cur)
        (fun l s => LimitedOK start target s ∧ ∃ hist1, LMid start target cur l s hist1)
        (generateNextStates cur.current_string) _ ⟨h1, hist, hh.lhead_pop_expand ht hok hq⟩
        (fun x rest1 b hb => by
          obtain ⟨hb1, hist1, hb2⟩ := hb
          exact ⟨limitedOK_visit hb1 hcur (hb2.pend x (List.mem_cons_self _ _)),
            hb2.lmid_visit hb1 hcur⟩)
      obtain ⟨hf1, hist1, hf2⟩ := this
      exact ⟨hf1, hist1, hf2.lmid_finish⟩

theorem limitedGood_init (start target : Str) : LimitedGood start target (limitedInit start) := by
  refine ⟨[(start, 0)], ?_, ?_, ?_, ?_, ⟨0, [⟨start, 0, [start]⟩], [], by simp [limitedInit],
    by simp, by simp⟩, by simp, ?_⟩
  · intro w hw
    simp only [limitedInit, List.mem_singleton] at hw
    exact ⟨0, by rw [hw]; simp⟩
  · intro e he
    simp only [limitedInit, List.mem_singleton] at he
    rw [he]; simp
  · intro x hx
    rw [List.mem_singleton] at hx
    rw [hx]; simp
  · intro e he x hx
    simp only [limitedInit, List.mem_singleton] at he
    rw [List.mem_singleton] at hx
    rw [he, hx]; simp
  · intro x hx hg
    right
    rw [List.mem_singleton] at hx
    refine ⟨⟨start, 0, [start]⟩, by simp [limitedInit], by simp [Good], ?_⟩
    rw [hx]

/-- With a depth cap that is not below the distance the depth-bounded search towards a
lowercase target terminates with a consistent result whose `min_distance` is the distance. -/
theorem limitedBFS_distance {start target : Str} (ht : Lower target) (max_depth : Int)
    (hd : (lev start target : Int) ≤ max_depth) :
    ∃ r, (∀ fuel, limitedFuel start max_depth ≤ fuel →
        limitedBFS fuel start target max_depth = some r) ∧
      ResultOK start target r ∧ r.min_distance = lev start target := by
  by_cases hst : start = target
  · subst hst
    exact ⟨trivialResult start, fun fuel _ => by simp [limitedBFS], resultOK_trivial start,
      by simp [trivialResult, lev_self]⟩
  · obtain ⟨σf, hr, hq, hok, hist, hh⟩ := limitedBFS_total max_depth hst
      (LimitedGood start target) (limitedGood_init start target)
      (fun σ a b => limitedGood_iter ht hd a b)
    refine ⟨σf.result, hr, hok.result, ?_⟩
    rcases hh.key _ hh.start_in (by simp [GoodP]) with g | ⟨e, he, _⟩
    · exact g
    · rw [hq] at he; simp at he

/-! ### Depth-bounded search: a path that is never recorded -/

theorem recordPath_mem_cases {r : BFSResult} {c : Int} {np x : List Str}
    (h : x ∈ (recordPath r c np).all_paths) : x ∈ r.all_paths ∨ x = np := by
  unfold recordPath at h
  split at h
  · right; simpa using h
  · split at h
    · simp only [List.mem_append, List.mem_singleton] at h
      exact h
    · exact Or.inl h

theorem missesPath_visit {p1 : List Str} {c target : Str} {cur : State} (hc : cur.path ≠ p1)
    (hlast : p1.getLast? = some c) (σ : LSearch) (w : Str)
    (h : MissesPath p1 c target σ) : MissesPath p1 c target (limitedVisit target cur σ w) := by
  obtain ⟨h1, h2, h3⟩ := h
  unfold limitedVisit
  split
  · refine ⟨h1, h2, ?_⟩
    intro hin
    rcases recordPath_mem_cases hin with e | e
    · exact h3 e
    · exact hc (List.append_cancel_right e).symm
  · split
    · rename_i hv
      refine ⟨List.mem_cons_of_mem _ h1, ?_, h3⟩
      intro e he
      simp only [List.mem_append, List.mem_singleton] at he
      rcases he with he | he
      · exact h2 e he
      · rw [he]
        intro e1
        simp only at e1
        have hw : (cur.path ++ [w]).getLast? = some w := by simp
        rw [e1, hlast] at hw
        rw [← Option.some.inj hw] at hv
        exact hv h1
    · exact ⟨h1, h2, h3⟩

theorem missesPath_iter {p1 : List Str} {c target : Str} {max_depth : Int}
    (hlast : p1.getLast? = some c) {σ : LSearch} (h : MissesPath p1 c target σ) :
    MissesPath p1 c target (limitedIter target max_depth σ) := by
  unfold limitedIter
  split
  · exact h
  · rename_i cur rest hq
    have hc : cur.path ≠ p1 := h.2.1 cur (by rw [hq]; exact List.mem_cons_self _ _)
    have h1 : MissesPath p1 c target ⟨countNode σ.result σ.q.length, σ.visited, rest⟩ :=
      ⟨h.1, fun e he => h.2.1 e (by rw [hq]; exact List.mem_cons_of_mem _ he), h.2.2⟩
    simp only
    split
    · exact h1
    · exact foldl_pending_inv (limitedVisit target cur)
        (fun _ s => MissesPath p1 c target s) _ _ h1
        (fun x _ b hb => missesPath_visit hc hlast b x hb)

theorem missesPath_loop {p1 : List Str} {c target : Str} {max_depth : Int}
    (hlast : p1.getLast? = some c) : ∀ (fuel : Nat) (σ : LSearch) (r : BFSResult),
      MissesPath p1 c target σ → limitedLoop target max_depth fuel σ = some r →
      p1 ++ [target] ∉ r.all_paths := by
  intro fuel
  induction fuel with
  | zero => intro σ r _ h; simp [limitedLoop] at h
  | succ fuel ih =>
    intro σ r hj hr
    cases hq : σ.q with
    | nil =>
      rw [limitedLoop, hq] at hr
      rw [← Option.some.inj hr]
      exact hj.2.2
    | cons cur rest =>
      rw [limitedLoop, hq] at hr
      exact ih _ r (missesPath_iter hlast hj) hr

theorem limitedLoop_shift {target : Str} {max_depth : Int} {fuel : Nat} {σ : LSearch}
    {r : BFSResult} (h : limitedLoop target max_depth fuel σ = some r) :
    limitedLoop target max_depth fuel (limitedIter target max_depth σ) = some r := by
  cases fuel with
  | zero => simp [limitedLoop] at h
  | succ fuel =>
    cases hq : σ.q with
    | nil =>
      have e : limitedIter target max_depth σ = σ := by
        unfold limitedIter
        rw [hq]
      rw [e]; exact h
    | cons cur rest =>
      rw [limitedLoop, hq] at h
      exact limitedLoop_mono _ _ r h

/-! ### Depth-bounded search: the first two iterations from `abc` -/

theorem limitedIter_expand (target : Str) (max_depth : Int) (σ : LSearch) {cur : State}
    {rest : List State} (hq : σ.q = cur :: rest) (hc : cur.cost < max_depth) :
    limitedIter target max_depth σ =
      (generateNextStates cur.current_string).foldl (limitedVisit target cur)
        ⟨countNode σ.result σ.q.length, σ.visited, rest⟩ := by
  unfold limitedIter
  rw [hq]
  simp only []
  rw [if_neg (by omega)]

/-- What the loop over the neighbours `l` leaves when the target is not among them: the
result record is untouched, the queue keeps its entries in front of the new ones, every new
entry extends the path of `cur` by one neighbour, and every neighbour is visited. -/
theorem limitedFold_spec (target : Str) (cur : State) : ∀ (l : List Str) (σ : LSearch),
    target ∉ l →
    (l.foldl (limitedVisit target cur) σ).result = σ.result ∧
      (∃ more, (l.foldl (limitedVisit target cur) σ).q = σ.q ++ more ∧
        ∀ e ∈ more, ∃ w ∈ l, e = ⟨w, cur.cost + 1, cur.path ++ [w]⟩) ∧
      (∀ w ∈ l, w ∈ (l.foldl (limitedVisit target cur) σ).visited) ∧
      ∀ w ∈ σ.visited, w ∈ (l.foldl (limitedVisit target cur) σ).visited := by
  intro l
  induction l with
  | nil => intro σ _; exact ⟨rfl, ⟨[], by simp, by simp⟩, by simp, fun w h => h⟩
  | cons x l ih =>
    intro σ ht
    rw [List.mem_cons, not_or] at ht
    obtain ⟨r1, ⟨more, q1, m1⟩, v1, v2⟩ := ih (limitedVisit target cur σ x) ht.2
    have hx : x ≠ target := fun e => ht.1 e.symm
    rw [List.foldl_cons]
    by_cases hv : x ∈ σ.visited
    · have e : limitedVisit target cur σ x = σ := by
        unfold limitedVisit
        rw [if_neg hx, if_neg (by simpa using hv)]
      rw [e] at r1 q1 v1 v2 ⊢
      refine ⟨r1, ⟨more, q1, fun e he => ?_⟩, ?_, v2⟩
      · obtain ⟨w, hw, hew⟩ := m1 e he
        exact ⟨w, List.mem_cons_of_mem _ hw, hew⟩
      · intro w hw
        rcases List.mem_cons.mp hw with hw | hw
        · rw [hw]; exact v2 x hv
        · exact v1 w hw
    · have e : limitedVisit target cur σ x =
          ⟨σ.result, x :: σ.visited, σ.q ++ [⟨x, cur.cost + 1, cur.path ++ [x]⟩]⟩ := by
        unfold limitedVisit
        rw [if_neg hx, if_pos hv]
      rw [e] at r1 q1 v1 v2 ⊢
      refine ⟨r1, ⟨⟨x, cur.cost + 1, cur.path ++ [x]⟩ :: more, ?_, fun e he => ?_⟩, ?_, ?_⟩
      · rw [q1]; simp
      · rcases List.mem_cons.mp he with he | he
        · exact ⟨x, List.mem_cons_self _ _, he⟩
        · obtain ⟨w, hw, hew⟩ := m1 e he
          exact ⟨w, List.mem_cons_of_mem _ hw, hew⟩
      · intro w hw
        rcases List.mem_cons.mp hw with hw | hw
        · rw [hw]; exact v2 x (List.mem_cons_self _ _)
        · exact v1 w hw
      · exact fun w hw => v2 w (List.mem_cons_of_mem _ hw)

/-- The first neighbour, when it is not yet visited, is the first entry pushed. -/
theorem limitedFold_first (target : Str) (cur : State) {x : Str} {l : List Str}
    (σ : LSearch) (ht : target ∉ x :: l) (hv : x ∉ σ.visited) (hq : σ.q = []) :
    ∃ more, ((x :: l).foldl (limitedVisit target cur) σ).q =
        ⟨x, cur.cost + 1, cur.path ++ [x]⟩ :: more ∧
      ∀ e ∈ more, ∃ w ∈ x :: l, e = ⟨w, cur.cost + 1, cur.path ++ [w]⟩ := by
  rw [List.mem_cons, not_or] at ht
  have hx : x ≠ target := fun e => ht.1 e.symm
  have e : limitedVisit target cur σ x =
      ⟨σ.result, x :: σ.visited, σ.q ++ [⟨x, cur.cost + 1, cur.path ++ [x]⟩]⟩ := by
    unfold limitedVisit
    rw [if_neg hx, if_pos hv]
  obtain ⟨_, ⟨more, q1, m1⟩, _, _⟩ :=
    limitedFold_spec target cur l (limitedVisit target cur σ x) ht.2
  rw [List.foldl_cons]
  refine ⟨more, by rw [q1, e]; simp [hq], fun e1 he1 => ?_⟩
  obtain ⟨w, hw, hew⟩ := m1 e1 he1
  exact ⟨w, List.mem_cons_of_mem _ hw, hew⟩

theorem empty_not_neighbour {s : Str} (h : 2 ≤ s.length) : ([] : Str) ∉ generateNextStates s := by
  intro hin
  have h1 := (length_le_lev_add s []).1
  rw [lev_eq_one_of_mem hin] at h1
  simp at h1
  omega

theorem generateNextStates_head (a : Char) (s : Str) :
    ∃ l, generateNextStates (a :: s) = s :: l := by
  unfold generateNextStates deletions
  rw [List.length_cons, List.range_succ_eq_map]
  exact ⟨_, rfl⟩

/-- The first iteration of `limitedBFS` from `a :: s`: nothing is recorded, the first entry of
the queue is the first neighbour `s`, and every entry has a path of two states. -/
theorem limitedIter_first (target : Str) (max_depth : Int) (a : Char) (s : Str)
    (hd : 0 < max_depth) (ht : target ∉ generateNextStates (a :: s)) :
    (limitedIter target max_depth (limitedInit (a :: s))).result.all_paths = [] ∧
      ∃ more, (limitedIter target max_depth (limitedInit (a :: s))).q =
          ⟨s, 0 + 1, [a :: s] ++ [s]⟩ :: more ∧
        ∀ e ∈ more, ∃ w, e = ⟨w, 0 + 1, [a :: s] ++ [w]⟩ := by
  have e1 : limitedIter target max_depth (limitedInit (a :: s)) =
      (generateNextStates (a :: s)).foldl (limitedVisit target ⟨a :: s, 0, [a :: s]⟩)
        ⟨countNode emptyResult 1, [a :: s], []⟩ :=
    limitedIter_expand target max_depth (limitedInit (a :: s)) rfl hd
  obtain ⟨r1, _, _, _⟩ := limitedFold_spec target ⟨a :: s, 0, [a :: s]⟩
    (generateNextStates (a :: s)) ⟨countNode emptyResult 1, [a :: s], []⟩ ht
  obtain ⟨l, hl⟩ := generateNextStates_head a s
  have hne : s ∉ [a :: s] := by
    rw [List.mem_singleton]
    intro h
    have := congrArg List.length h
    simp at this
  rw [hl] at ht
  obtain ⟨more, q1, m1⟩ := limitedFold_first target ⟨a :: s, 0, [a :: s]⟩
    ⟨countNode emptyResult 1, [a :: s], []⟩ ht hne rfl
  rw [← hl, ← e1] at q1
  rw [← e1] at r1
  refine ⟨by rw [r1]; rfl, more, q1, fun e he => ?_⟩
  obtain ⟨w, _, hw⟩ := m1 e he
  exact ⟨w, hw⟩

/-- The second iteration, which expands the first neighbour `y`: a neighbour `c` of `y` is
visited, and no path from the start through another state `x` to `c` is queued or
recorded. -/
theorem limitedIter_second {target : Str} {max_depth : Int} {σ : LSearch} {s y x c : Str}
    {more : List State} (hd : 1 < max_depth) (hr : σ.result.all_paths = [])
    (hq : σ.q = ⟨y, 0 + 1, [s] ++ [y]⟩ :: more)
    (hm : ∀ e ∈ more, ∃ w, e = ⟨w, 0 + 1, [s] ++ [w]⟩)
    (ht : target ∉ generateNextStates y) (hc : c ∈ generateNextStates y) (hxy : x ≠ y) :
    MissesPath [s, x, c] c target (limitedIter target max_depth σ) := by
  have e2 := limitedIter_expand target max_depth σ hq (by simp only []; omega)
  obtain ⟨r2, ⟨more2, q2, m2⟩, v2, _⟩ :=
    limitedFold_spec target ⟨y, 0 + 1, [s] ++ [y]⟩ (generateNextStates y)
      ⟨countNode σ.result σ.q.length, σ.visited, more⟩ ht
  rw [← e2] at r2 q2 v2
  refine ⟨v2 c hc, ?_, ?_⟩
  · intro e he
    rw [q2] at he
    rcases List.mem_append.mp he with he | he
    · obtain ⟨w, hew⟩ := hm e he
      rw [hew]
      simp
    · obtain ⟨w, _, hew⟩ := m2 e he
      rw [hew]
      simp only [List.singleton_append, List.cons_append, List.nil_append, ne_eq,
        List.cons.injEq, true_and, and_true, not_and]
      exact fun h => absurd h.symm hxy
  · have ha : (limitedIter target max_depth σ).result.all_paths = [] := by
      rw [r2]
      exact hr
    rw [ha]
    exact List.not_mem_nil _

set_option maxRecDepth 100000 in
theorem second_iteration_abc :
    MissesPath ["abc".toList, "ac".toList, "c".toList] "c".toList "".toList
      (limitedIter "".toList 3 (limitedIter "".toList 3 (limitedInit "abc".toList))) := by
  obtain ⟨hr, more, hq, hm⟩ := limitedIter_first "".toList 3 'a' "bc".toList (by decide)
    (empty_not_neighbour (by decide))
  exact limitedIter_second (by decide) hr hq hm (empty_not_neighbour (by decide))
    (mem_generateNextStates.mpr (Or.inl (mem_deletions.mpr ⟨0, by decide, rfl⟩)))
    (by decide)

/-! ### Bidirectional search: one visit -/

theorem RegistryOK.registry_mono {origin : Str} {D : Nat} {m m1 : Int}
    {visited : List (Str × Int)} (h : RegistryOK origin D m visited)
    (hst : m = D → m1 = D) : RegistryOK origin D m1 visited :=
  ⟨h.up, h.key0, fun hne => h.cap (fun e => hne (hst e))⟩

theorem SideHead.side_mono {origin goal : Str} {D : Nat} {m m1 : Int} {F : Frontier}
    (h : SideHead origin goal D m F) (hst : m = D → m1 = D) : SideHead origin goal D m1 F :=
  ⟨h.reg.registry_mono hst, h.qup, h.fifo, fun w c hc hg =>
    (h.key w c hc hg).imp hst id⟩

theorem biMeet_paths (ov : List (Str × Int)) (r : BFSResult) (w : Str) (nc : Int) :
    (biMeet ov r w nc).all_paths = r.all_paths := by
  unfold biMeet
  split
  · rfl
  · split <;> rfl

/-- The meeting check keeps the recorded distance sound and bounded, never moves it away from
`D`, and records `D` when the goal itself is met at cost `D`. -/
theorem biMeet_spec {origin goal : Str} {D : Nat} (hD : lev origin goal = D)
    {ov : List (Str × Int)} {r : BFSResult} {w : Str} {nc : Int}
    (hO : RegistryOK goal D r.min_distance ov) (hM : MinOK D r.min_distance)
    (hup : (lev origin w : Int) ≤ nc) (hcap : r.min_distance ≠ D → nc ≤ (D : Int)) :
    MinOK D (biMeet ov r w nc).min_distance ∧
      (r.min_distance = D → (biMeet ov r w nc).min_distance = D) ∧
      (w = goal → nc = D → (biMeet ov r w nc).min_distance = D) := by
  unfold biMeet
  cases hc : costOf ov w with
  | none =>
    refine ⟨hM, fun e => e, ?_⟩
    intro e _
    rw [e, hO.key0] at hc
    simp at hc
  | some cb =>
    have h1 := hO.up w cb hc
    have h2 := lev_triangle origin w goal
    rw [hD, lev_comm w goal] at h2
    have hc0 : w = goal → cb = 0 := by
      intro e
      rw [e, hO.key0] at hc
      exact (Option.some.inj hc).symm
    simp only
    split
    · rename_i hcond
      refine ⟨Or.inr ⟨by show (D : Int) ≤ nc + cb; omega, ?_⟩, ?_, ?_⟩
      · show nc + cb ≤ 2 * (D : Int)
        rcases hcond with e | e
        · have hne : r.min_distance ≠ D := by omega
          have := hcap hne
          have := hO.cap hne w cb hc
          omega
        · rcases hM with e1 | e1
          · have hne : r.min_distance ≠ D := by omega
            have := hcap hne
            have := hO.cap hne w cb hc
            omega
          · omega
      · intro e
        show nc + cb = (D : Int)
        omega
      · intro e1 e2
        have := hc0 e1
        show nc + cb = (D : Int)
        omega
    · rename_i hcond
      refine ⟨hM, fun e => e, ?_⟩
      intro e1 e2
      have := hc0 e1
      rcases hM with e3 | e3
      · exact absurd (Or.inl e3) hcond
      · have : ¬ (nc + cb < r.min_distance) := fun x => hcond (Or.inr x)
        omega

theorem lev_step_right {s w : Str} (h : w ∈ generateNextStates s) (x : Str) :
    lev x w ≤ lev x s + 1 :=
  lev_le_of_edit (mem_generateNextStates_iff.mp h) x

/-- One visit of a neighbour keeps the invariant of the expanding direction. -/
theorem SideMid.side_visit {origin goal : Str} {D : Nat} (hD : lev origin goal = D)
    {ov : List (Str × Int)} {r : BFSResult} {F : Frontier} {s : Str} {c : Int} {w : Str}
    {rest : List Str} (hO : RegistryOK goal D r.min_distance ov)
    (hM : MinOK D r.min_distance)
    (h : SideMid origin goal D r.min_distance s c (w :: rest) F) :
    SideMid origin goal D (biVisit ov c (r, F) w).1.min_distance s c rest
        (biVisit ov c (r, F) w).2 ∧
      MinOK D (biVisit ov c (r, F) w).1.min_distance ∧
      (r.min_distance = D → (biVisit ov c (r, F) w).1.min_distance = D) ∧
      (biVisit ov c (r, F) w).1.all_paths = r.all_paths := by
  have hw : w ∈ generateNextStates s := h.pend w (List.mem_cons_self _ _)
  have hup : (lev origin w : Int) ≤ c + 1 := by
    have := lev_step_right hw origin
    have := h.cur_up
    omega
  obtain ⟨hm1, hm2, hm3⟩ := biMeet_spec hD hO hM hup h.cur_cap
  have hc0 : (0 : Int) ≤ c := by
    have := h.cur_up
    have : (0 : Int) ≤ lev origin s := Int.natCast_nonneg _
    omega
  have htri := lev_triangle origin w goal
  rw [hD] at htri
  have hnb := (lev_neighbour hw goal).2
  refine ⟨?_, hm1, hm2, biMeet_paths _ _ _ _⟩
  have hpend : ∀ x ∈ rest, x ∈ generateNextStates s :=
    fun x hx => h.pend x (List.mem_cons_of_mem _ hx)
  have hcap1 : (biMeet ov r w (c + 1)).min_distance ≠ D → c + 1 ≤ (D : Int) :=
    fun hne => h.cur_cap (fun e => hne (hm2 e))
  -- the closer neighbour `w` of a good `(s, c)` gives the new distance or a new good entry
  have hcloser : ∀ x : Nat, c + (lev s goal : Int) = D → lev s goal ≤ x →
      lev w goal + 1 = lev s goal →
      (biMeet ov r w (c + 1)).min_distance = D ∨
        (SideGood goal D (w, c + 1) ∧ w ≠ goal ∧ lev w goal ≤ x) := by
    intro x hg hx hlev
    by_cases hwg : w = goal
    · left
      apply hm3 hwg
      rw [hwg, lev_self] at hlev
      omega
    · right
      refine ⟨?_, hwg, by omega⟩
      show c + 1 + (lev w goal : Int) = D
      omega
  show SideMid origin goal D (biMeet ov r w (c + 1)).min_distance s c rest
    (if biAccepts F.visited w (c + 1) then
      ⟨F.queue ++ [(w, c + 1)], (w, c + 1) :: F.visited⟩ else F)
  cases hacc : biAccepts F.visited w (c + 1) with
  | true =>
    simp only [if_true]
    have hwo : w ≠ origin := by
      intro e
      rw [e] at hacc
      unfold biAccepts at hacc
      rw [h.reg.key0] at hacc
      simp only [decide_eq_true_eq] at hacc
      omega
    refine ⟨⟨?_, ?_, ?_⟩, ?_, h.fifo.fifo_push rfl, h.cur_up, hcap1, hpend, ?_⟩
    · intro x cx hx
      rw [costOf_cons] at hx
      split at hx
      · rename_i e
        rw [← e, ← Option.some.inj hx]
        exact hup
      · exact h.reg.up x cx hx
    · rw [costOf_cons, if_neg hwo]
      exact h.reg.key0
    · intro hne x cx hx
      rw [costOf_cons] at hx
      split at hx
      · rw [← Option.some.inj hx]
        exact hcap1 hne
      · exact h.reg.cap (fun e => hne (hm2 e)) x cx hx
    · intro e he
      simp only [List.mem_append, List.mem_singleton] at he
      rcases he with he | he
      · exact h.qup e he
      · rw [he]; exact hup
    · intro x cx hx hg
      have hin : (w, c + 1) ∈ F.queue ++ [(w, c + 1)] :=
        List.mem_append_right _ (List.mem_singleton_self _)
      rw [costOf_cons] at hx
      split at hx
      · rename_i e
        have ecx : c + 1 = cx := Option.some.inj hx
        by_cases hwg : w = goal
        · left
          apply hm3 hwg
          rw [← e, hwg, lev_self] at hg
          omega
        · right; left
          refine ⟨(w, c + 1), hin, ?_, hwg, by rw [e]⟩
          show c + 1 + (lev w goal : Int) = D
          rw [← e] at hg
          omega
      · rcases h.key x cx hx hg with k | ⟨e1, he1, k⟩ | ⟨hg1, hl1, w1, hw1, hlev1⟩
        · exact Or.inl (hm2 k)
        · exact Or.inr (Or.inl ⟨e1, List.mem_append_left _ he1, k⟩)
        · rcases List.mem_cons.mp hw1 with e2 | e2
          · rw [e2] at hlev1
            rcases hcloser _ hg1 hl1 hlev1 with k | k
            · exact Or.inl k
            · exact Or.inr (Or.inl ⟨(w, c + 1), hin, k⟩)
          · exact Or.inr (Or.inr ⟨hg1, hl1, w1, e2, hlev1⟩)
  | false =>
    simp only [Bool.false_eq_true, if_false]
    obtain ⟨c1, hc1, hle⟩ : ∃ c1, costOf F.visited w = some c1 ∧ c1 ≤ c + 1 := by
      unfold biAccepts at hacc
      split at hacc
      · simp at hacc
      · rename_i c1 hc1
        exact ⟨c1, hc1, by simpa using hacc⟩
    have hup1 := h.reg.up w c1 hc1
    refine ⟨h.reg.registry_mono hm2, h.qup, h.fifo, h.cur_up, hcap1, hpend, ?_⟩
    intro x cx hx hg
    rcases h.key x cx hx hg with k | k | ⟨hg1, hl1, w1, hw1, hlev1⟩
    · exact Or.inl (hm2 k)
    · exact Or.inr (Or.inl k)
    · rcases List.mem_cons.mp hw1 with e2 | e2
      · rw [e2] at hlev1
        rcases h.key w c1 hc1 (by omega) with k | ⟨e3, he3, k1, k2, k3⟩ | ⟨_, hl3, _⟩
        · exact Or.inl (hm2 k)
        · exact Or.inr (Or.inl ⟨e3, he3, k1, k2, by omega⟩)
        · omega
      · exact Or.inr (Or.inr ⟨hg1, hl1, w1, e2, hlev1⟩)

/-! ### Bidirectional search: total correctness -/

theorem frontierWeight_cons (B : Nat) (e : Str × Int) (q : List (Str × Int)) :
    frontierWeight B (e :: q) = cutWeight B e + frontierWeight B q := by
  simp [frontierWeight]

theorem frontierWeight_append (B : Nat) (q1 q2 : List (Str × Int)) :
    frontierWeight B (q1 ++ q2) = frontierWeight B q1 + frontierWeight B q2 := by
  simp [frontierWeight]

theorem sum_map_zero {α : Type} (f : α → Nat) (l : List α) (h : ∀ x, f x = 0) :
    (l.map f).sum = 0 := by
  induction l with
  | nil => rfl
  | cons x rest ih => simp [h x, ih]

/-- The weight of an entry covers the weights of its successors, plus one while the entry is
within the bound. -/
theorem cutWeight_expand (B : Nat) (s : Str) {c : Int} (h0 : 0 ≤ c) :
    ((generateNextStates s).map (fun w => cutWeight B (w, c + 1))).sum +
      (if c ≤ (B : Int) then 1 else 0) ≤ cutWeight B (s, c) := by
  by_cases h1 : c + 1 ≤ (B : Int)
  · have hc : c ≤ (B : Int) := by omega
    have e : B - c.toNat = (B - (c + 1).toNat) + 1 := by omega
    have hf : (fun w => cutWeight B (w, c + 1)) = treeSize (B - (c + 1).toNat) := by
      funext w
      simp only [cutWeight, if_pos h1]
    rw [hf, if_pos hc]
    simp only [cutWeight, if_pos hc]
    rw [e, treeSize]
    omega
  · rw [sum_map_zero _ _ (fun w => by simp only [cutWeight, if_neg h1])]
    by_cases hc : c ≤ (B : Int)
    · rw [if_pos hc]
      simp only [cutWeight, if_pos hc]
      have := treeSize_pos (B - c.toNat) s
      omega
    · rw [if_neg hc]
      exact Nat.zero_le _

theorem biVisit_weight (B : Nat) (ov : List (Str × Int)) (c : Int) (r : BFSResult)
    (F : Frontier) (w : Str) :
    frontierWeight B (biVisit ov c (r, F) w).2.queue ≤
      frontierWeight B F.queue + cutWeight B (w, c + 1) := by
  show frontierWeight B (if biAccepts F.visited w (c + 1) then
      (⟨F.queue ++ [(w, c + 1)], (w, c + 1) :: F.visited⟩ : Frontier) else F).queue ≤ _
  split
  · show frontierWeight B (F.queue ++ [(w, c + 1)]) ≤ _
    rw [frontierWeight_append]
    simp [frontierWeight]
  · omega

/-- What one half-step of `bidirectionalBFS` (one direction expanding its front entry)
guarantees. -/
theorem biHalf_spec {origin goal : Str} {D : Nat} (hD : lev origin goal = D)
    (hg : Lower goal) (B : Nat) (ov : List (Str × Int)) (r : BFSResult) (F : Frontier)
    (hO : RegistryOK goal D r.min_distance ov) (hM : MinOK D r.min_distance)
    (h : SideHead origin goal D r.min_distance F) :
    SideHead origin goal D (biHalf ov (r, F)).1.min_distance (biHalf ov (r, F)).2 ∧
      MinOK D (biHalf ov (r, F)).1.min_distance ∧
      (r.min_distance = D → (biHalf ov (r, F)).1.min_distance = D) ∧
      (biHalf ov (r, F)).1.all_paths = r.all_paths ∧
      frontierWeight B (biHalf ov (r, F)).2.queue ≤ frontierWeight B F.queue ∧
      (∀ s c rest, F.queue = (s, c) :: rest → c ≤ (B : Int) →
        frontierWeight B (biHalf ov (r, F)).2.queue < frontierWeight B F.queue) := by
  cases hq : F.queue with
  | nil =>
    have e : biHalf ov (r, F) = (r, F) := by
      unfold biHalf
      simp only [hq]
    rw [e]
    refine ⟨h, hM, fun x => x, rfl, ?_, ?_⟩
    · show frontierWeight B F.queue ≤ _
      rw [hq]
    · intro s c rest hcontra
      exact absurd hcontra (by simp)
  | cons cur rest =>
    obtain ⟨s, c⟩ := cur
    have hcur : (s, c) ∈ F.queue := by rw [hq]; exact List.mem_cons_self _ _
    have hrest : ∀ e ∈ rest, e ∈ F.queue := fun e he => by
      rw [hq]; exact List.mem_cons_of_mem _ he
    have hfifo : FifoAfter Prod.snd c rest := by
      have := h.fifo
      rw [hq] at this
      exact this.fifo_pop
    have hcup : (lev origin s : Int) ≤ c := h.qup (s, c) hcur
    have hc0 : (0 : Int) ≤ c := by
      have : (0 : Int) ≤ lev origin s := Int.natCast_nonneg _
      omega
    have hfront : ∀ e ∈ F.queue, c ≤ e.2 := by
      intro e he
      rw [hq] at he
      rcases List.mem_cons.mp he with he | he
      · rw [he]
      · exact hfifo.cost_ge he
    have hcap : r.min_distance ≠ D → c + 1 ≤ (D : Int) := by
      intro hne
      rcases h.key origin 0 h.reg.key0 (by rw [hD]; omega) with k | ⟨e, he, k1, k2, _⟩
      · exact absurd k hne
      · have := hfront e he
        have hpos : 0 < lev e.1 goal := lev_pos_of_ne k2
        unfold SideGood at k1
        omega
    let r1 : BFSResult := { r with nodes_explored := r.nodes_explored + 1 }
    let F1 : Frontier := ⟨rest, F.visited⟩
    have e : biHalf ov (r, F) =
        (generateNextStates s).foldl (biVisit ov c) (r1, F1) := by
      unfold biHalf
      simp only [hq]
    rw [e]
    have hmid : SideMid origin goal D r1.min_distance s c (generateNextStates s) F1 := by
      refine ⟨h.reg, fun e he => h.qup e (hrest e he), hfifo, hcup, hcap, fun w hw => hw, ?_⟩
      intro w c0 hw hgood
      rcases h.key w c0 hw hgood with k | ⟨e, he, k1, k2, k3⟩
      · exact Or.inl k
      · rw [hq] at he
        rcases List.mem_cons.mp he with he | he
        · right; right
          rw [he] at k1 k2 k3
          obtain ⟨u, hu, hlev⟩ := exists_neighbour_closer hg k2
          exact ⟨k1, k3, u, hu, hlev⟩
        · exact Or.inr (Or.inl ⟨e, he, k1, k2, k3⟩)
    have hfold := foldl_pending_inv (biVisit ov c)
      (fun l acc => SideMid origin goal D acc.1.min_distance s c l acc.2 ∧
        MinOK D acc.1.min_distance ∧ (r.min_distance = D → acc.1.min_distance = D) ∧
        acc.1.all_paths = r.all_paths ∧
        frontierWeight B acc.2.queue + (l.map (fun w => cutWeight B (w, c + 1))).sum ≤
          frontierWeight B rest +
            ((generateNextStates s).map (fun w => cutWeight B (w, c + 1))).sum)
      (generateNextStates s) (r1, F1) ⟨hmid, hM, fun x => x, rfl, le_refl _⟩
      (by
        rintro w l ⟨ra, Fa⟩ ⟨i1, i2, i3, i4, i5⟩
        obtain ⟨j1, j2, j3, j4⟩ := SideMid.side_visit hD (hO.registry_mono i3) i2 i1
        refine ⟨j1, j2, fun x => j3 (i3 x), j4.trans i4, ?_⟩
        have := biVisit_weight B ov c ra Fa w
        simp only [List.map_cons, List.sum_cons] at i5
        omega)
    obtain ⟨k1, k2, k3, k4, k5⟩ := hfold
    simp only [List.map_nil, List.sum_nil, Nat.add_zero] at k5
    have hexp := cutWeight_expand B s hc0
    have hw : frontierWeight B F.queue = cutWeight B (s, c) + frontierWeight B rest := by
      rw [hq, frontierWeight_cons]
    refine ⟨⟨k1.reg, k1.qup, k1.fifo.to_fifo, ?_⟩, k2, k3, k4, ?_, ?_⟩
    · intro w c0 hw0 hgood
      rcases k1.key w c0 hw0 hgood with k | k | ⟨_, _, w1, hw1, _⟩
      · exact Or.inl k
      · exact Or.inr k
      · exact absurd hw1 (List.not_mem_nil _)
    · rw [frontierWeight_cons]
      omega
    · intro s2 c2 rest2 heq hle
      have hc2 : c = c2 := by
        have := (List.cons.inj heq).1
        exact (Prod.mk.inj this).2
      rw [frontierWeight_cons]
      rw [if_pos (by omega)] at hexp
      omega

theorem frontBlocks_iff (q : List (Str × Int)) (m : Int) :
    frontBlocks q m = true ↔ ∃ s c rest, q = (s, c) :: rest ∧ c ≤ m := by
  unfold frontBlocks
  cases q with
  | nil => simp
  | cons e rest =>
    obtain ⟨s, c⟩ := e
    simp only [List.cons.injEq, Prod.mk.injEq]
    constructor
    · intro h; exact ⟨s, c, rest, ⟨⟨rfl, rfl⟩, rfl⟩, by simpa using h⟩
    · rintro ⟨_, _, _, ⟨⟨_, rfl⟩, _⟩, h⟩; simpa using h

/-- When the distance `D` is not recorded yet, the forward queue still holds an entry on a
shortest route, and the front of the queue costs less than `D`. -/
theorem SideHead.front_lt {origin goal : Str} {D : Nat} (hD : lev origin goal = D) {m : Int}
    {F : Frontier} (h : SideHead origin goal D m F) (hne : m ≠ D) :
    ∃ s c rest, F.queue = (s, c) :: rest ∧ c + 1 ≤ (D : Int) := by
  rcases h.key origin 0 h.reg.key0 (by rw [hD]; omega) with k | ⟨e, he, k1, k2, _⟩
  · exact absurd k hne
  · cases hq : F.queue with
    | nil => rw [hq] at he; exact absurd he (List.not_mem_nil _)
    | cons cur rest =>
      obtain ⟨s, c⟩ := cur
      refine ⟨s, c, rest, rfl, ?_⟩
      have hfifo : FifoAfter Prod.snd c rest := by
        have := h.fifo
        rw [hq] at this
        exact this.fifo_pop
      have hpos : 0 < lev e.1 goal := lev_pos_of_ne k2
      unfold SideGood at k1
      rw [hq] at he
      rcases List.mem_cons.mp he with he | he
      · rw [he] at k1 hpos
        simp only at k1 hpos
        omega
      · have := hfifo.cost_ge he
        omega

/-- A state in which the loop may stop has recorded the distance. -/
theorem BiInv.stop_correct {start target : Str} {σ : BiSearch} (h : BiInv start target σ)
    (hstop : biCanStop σ = true) : σ.result.min_distance = lev start target := by
  by_contra hne
  obtain ⟨s, c, rest, hq, hc⟩ := h.fwd.front_lt rfl hne
  unfold biCanStop at hstop
  simp only [Bool.and_eq_true, decide_eq_true_eq, Bool.not_eq_true'] at hstop
  obtain ⟨h1, h2, _⟩ := hstop
  have hb : frontBlocks σ.forward.queue σ.result.min_distance = true := by
    rw [frontBlocks_iff]
    refine ⟨s, c, rest, hq, ?_⟩
    rcases h.minok with k | k
    · exact absurd k h1
    · omega
  rw [hb] at h2
  exact absurd h2 (by simp)

/-- A state with both queues empty has recorded the distance. -/
theorem BiInv.empty_correct {start target : Str} {σ : BiSearch} (h : BiInv start target σ)
    (hq : σ.forward.queue = []) : σ.result.min_distance = lev start target := by
  by_contra hne
  obtain ⟨s, c, rest, hq1, _⟩ := h.fwd.front_lt rfl hne
  rw [hq] at hq1
  exact absurd hq1 (by simp)

/-- One loop iteration of `bidirectionalBFS` keeps the invariant and does not increase the
weight; it decreases the weight when the loop could not stop before it. -/
theorem BiInv.bi_iter {start target : Str} (hs : Lower start) (ht : Lower target)
    {σ : BiSearch} (h : BiInv start target σ) :
    BiInv start target (biIter σ) ∧
      frontierWeight (2 * lev start target) (biIter σ).forward.queue +
          frontierWeight (2 * lev start target) (biIter σ).backward.queue ≤
        frontierWeight (2 * lev start target) σ.forward.queue +
          frontierWeight (2 * lev start target) σ.backward.queue ∧
      (biCanStop σ = false →
        frontierWeight (2 * lev start target) (biIter σ).forward.queue +
            frontierWeight (2 * lev start target) (biIter σ).backward.queue <
          frontierWeight (2 * lev start target) σ.forward.queue +
            frontierWeight (2 * lev start target) σ.backward.queue) := by
  let r0 : BFSResult :=
    { σ.result with
      max_queue_size := max σ.result.max_queue_size
        ((σ.forward.queue.length + σ.backward.queue.length : Nat) : Int) }
  have hfw := biHalf_spec rfl ht (2 * lev start target) σ.backward.visited r0 σ.forward
    h.bwd.reg h.minok h.fwd
  obtain ⟨f1, f2, f3, f4, f5, f6⟩ := hfw
  have hbw := biHalf_spec (lev_comm target start) hs (2 * lev start target)
    (biHalf σ.backward.visited (r0, σ.forward)).2.visited
    (biHalf σ.backward.visited (r0, σ.forward)).1 σ.backward f1.reg f2 (h.bwd.side_mono f3)
  obtain ⟨b1, b2, b3, b4, b5, b6⟩ := hbw
  have hiter : biIter σ =
      ⟨(biHalf (biHalf σ.backward.visited (r0, σ.forward)).2.visited
          ((biHalf σ.backward.visited (r0, σ.forward)).1, σ.backward)).1,
        (biHalf σ.backward.visited (r0, σ.forward)).2,
        (biHalf (biHalf σ.backward.visited (r0, σ.forward)).2.visited
          ((biHalf σ.backward.visited (r0, σ.forward)).1, σ.backward)).2⟩ := rfl
  rw [hiter]
  refine ⟨⟨f1.side_mono b3, b1, b2, ?_⟩, ?_, ?_⟩
  · show _ = []
    rw [b4, f4]
    exact h.paths
  · show _ + _ ≤ _ + _
    simp only
    omega
  · intro hns
    show _ + _ < _ + _
    simp only
    have hcase : σ.result.min_distance = -1 ∨
        frontBlocks σ.forward.queue σ.result.min_distance = true ∨
        frontBlocks σ.backward.queue σ.result.min_distance = true := by
      unfold biCanStop at hns
      by_cases k1 : σ.result.min_distance = -1
      · exact Or.inl k1
      · right
        simp only [k1, ne_eq, not_false_eq_true, decide_True, Bool.true_and,
          Bool.and_eq_false_imp, Bool.not_eq_true', Bool.not_eq_false'] at hns
        cases k2 : frontBlocks σ.forward.queue σ.result.min_distance with
        | true => exact Or.inl rfl
        | false => exact Or.inr (by simpa [k2] using hns)
    have hm2 : σ.result.min_distance ≠ -1 → σ.result.min_distance ≤ 2 * (lev start target : Int) := by
      intro hne
      rcases h.minok with k | k
      · exact absurd k hne
      · exact k.2
    rcases hcase with k | k | k
    · have hne : σ.result.min_distance ≠ (lev start target : Int) := by omega
      obtain ⟨s, c, rest, hq, hc⟩ := h.fwd.front_lt rfl hne
      have := f6 s c rest hq (by push_cast; omega)
      omega
    · obtain ⟨s, c, rest, hq, hc⟩ := (frontBlocks_iff _ _).mp k
      have hc0 : (0 : Int) ≤ c := by
        have := h.fwd.qup (s, c) (by rw [hq]; exact List.mem_cons_self _ _)
        have : (0 : Int) ≤ lev start s := Int.natCast_nonneg _
        omega
      have := f6 s c rest hq (by push_cast; have := hm2 (by omega); omega)
      omega
    · obtain ⟨s, c, rest, hq, hc⟩ := (frontBlocks_iff _ _).mp k
      have hc0 : (0 : Int) ≤ c := by
        have := h.bwd.qup (s, c) (by rw [hq]; exact List.mem_cons_self _ _)
        have : (0 : Int) ≤ lev target s := Int.natCast_nonneg _
        omega
      have := b6 s c rest hq (by push_cast; have := hm2 (by omega); omega)
      omega

theorem biInv_init {start target : Str} (hne : start ≠ target) :
    BiInv start target (biInit start target) := by
  have side : ∀ a b : Str, a ≠ b → SideHead a b (lev a b) (-1) ⟨[(a, 0)], [(a, 0)]⟩ := by
    intro a b hab
    have hlook : ∀ w c, costOf [(a, (0 : Int))] w = some c → w = a ∧ c = 0 := by
      intro w c hw
      rw [costOf_cons] at hw
      split at hw
      · rename_i e
        exact ⟨e.symm, (Option.some.inj hw).symm⟩
      · simp [costOf] at hw
    refine ⟨⟨?_, by simp [costOf], ?_⟩, ?_, ⟨0, [(a, 0)], [], rfl, by simp, by simp⟩, ?_⟩
    · intro w c hw
      obtain ⟨e1, e2⟩ := hlook w c hw
      rw [e1, e2, lev_self]
      rfl
    · intro _ w c hw
      obtain ⟨e1, e2⟩ := hlook w c hw
      rw [e2]
      exact Int.natCast_nonneg _
    · intro e he
      rw [List.mem_singleton.mp he, lev_self]
      exact le_refl _
    · intro w c hw hgood
      obtain ⟨e1, e2⟩ := hlook w c hw
      right
      refine ⟨(a, 0), List.mem_singleton_self _, ?_, hab, by rw [e1]⟩
      show (0 : Int) + lev a b = lev a b
      omega
  refine ⟨side start target hne, ?_, Or.inl rfl, rfl⟩
  have := side target start (Ne.symm hne)
  rw [lev_comm target start] at this
  exact this

/-- The loop of `bidirectionalBFS` returns, with the reference distance and no path, once the
fuel exceeds the weight of the two queues. -/
theorem biLoop_total {start target : Str} (hs : Lower start) (ht : Lower target) :
    ∀ (n : Nat) (σ : BiSearch), BiInv start target σ → biCanStop σ = false →
      frontierWeight (2 * lev start target) σ.forward.queue +
        frontierWeight (2 * lev start target) σ.backward.queue < n →
      ∃ r, biLoop n σ = some r ∧ r.min_distance = lev start target ∧ r.all_paths = [] := by
  intro n
  induction n with
  | zero => intro σ _ _ hw; omega
  | succ n ih =>
    intro σ hinv hns hw
    obtain ⟨i1, i2, i3⟩ := hinv.bi_iter hs ht
    have hlt := i3 hns
    unfold biLoop
    split
    · rename_i hf hb
      exact ⟨σ.result, rfl, hinv.empty_correct hf, hinv.paths⟩
    · cases hstop : biCanStop (biIter σ) with
      | true =>
        simp only [if_true]
        exact ⟨_, rfl, i1.stop_correct hstop, i1.paths⟩
      | false =>
        simp only [Bool.false_eq_true, if_false]
        exact ih _ i1 hstop (by omega)

theorem biLoop_mono : ∀ (n : Nat) (σ : BiSearch) (r : BFSResult),
    biLoop n σ = some r → biLoop (n + 1) σ = some r := by
  intro n
  induction n with
  | zero => intro σ r h; simp [biLoop] at h
  | succ n ih =>
    intro σ r h
    rw [biLoop] at h ⊢
    split
    · rename_i hf hb
      simpa [hf, hb] using h
    · rename_i hnot
      split at h
      · rename_i hf hb
        exact absurd hb (by intro hb; exact hnot hf hb)
      · split at h
        · rename_i hstop
          rw [if_pos hstop]; exact h
        · rename_i hstop
          rw [if_neg hstop]; exact ih _ _ h

theorem biLoop_mono_le {n m : Nat} (hnm : n ≤ m) {σ : BiSearch} {r : BFSResult}
    (h : biLoop n σ = some r) : biLoop m σ = some r := by
  induction hnm with
  | refl => exact h
  | step _ ih => exact biLoop_mono _ _ _ ih

/-- Total correctness of the bidirectional search between lowercase strings. -/
theorem bidirectionalBFS_total {start target : Str} (hs : Lower start) (ht : Lower target) :
    ∃ r, (∀ fuel, biFuel start target ≤ fuel → bidirectionalBFS fuel start target = some r) ∧
      r.min_distance = lev start target := by
  by_cases hst : start = target
  · subst hst
    exact ⟨trivialResult start, fun fuel _ => by simp [bidirectionalBFS],
      by simp [trivialResult, lev_self]⟩
  · obtain ⟨r, hr, hd, _⟩ := biLoop_total hs ht (biFuel start target) (biInit start target)
      (biInv_init hst) rfl (by unfold biFuel biInit; simp)
    refine ⟨r, fun fuel hf => ?_, hd⟩
    unfold bidirectionalBFS
    rw [if_neg hst]
    exact biLoop_mono_le hf hr

/-- The loop of `bidirectionalBFS` never touches the path list. -/
theorem biIter_paths (σ : BiSearch) : (biIter σ).result.all_paths = σ.result.all_paths := by
  have hvisit : ∀ (ov : List (Str × Int)) (c : Int) (l : List Str) (acc : BFSResult × Frontier),
      (l.foldl (biVisit ov c) acc).1.all_paths = acc.1.all_paths := by
    intro ov c l
    induction l with
    | nil => intro acc; rfl
    | cons w rest ih =>
      intro acc
      rw [List.foldl_cons, ih]
      exact biMeet_paths _ _ _ _
  have hhalf : ∀ (ov : List (Str × Int)) (acc : BFSResult × Frontier),
      (biHalf ov acc).1.all_paths = acc.1.all_paths := by
    intro ov acc
    unfold biHalf
    split
    · rfl
    · rw [hvisit]
  show (biHalf _ _).1.all_paths = _
  rw [hhalf, hhalf]

theorem biLoop_paths : ∀ (n : Nat) (σ : BiSearch) (r : BFSResult),
    biLoop n σ = some r → r.all_paths = σ.result.all_paths := by
  intro n
  induction n with
  | zero => intro σ r h; simp [biLoop] at h
  | succ n ih =>
    intro σ r h
    rw [biLoop] at h
    split at h
    · rw [← Option.some.inj h]
    · split at h
      · rw [← Option.some.inj h]; exact biIter_paths σ
      · rw [ih _ _ h]; exact biIter_paths σ

theorem limitedBFS_unique {start target : Str} {max_depth : Int} {fuel fuel1 : Nat}
    {r r1 : BFSResult} (h : limitedBFS fuel start target max_depth = some r)
    (h1 : limitedBFS fuel1 start target max_depth = some r1) : r = r1 := by
  unfold limitedBFS at h h1
  by_cases hst : start = target
  · rw [if_pos hst] at h h1
    rw [← Option.some.inj h, ← Option.some.inj h1]
  · rw [if_neg hst] at h h1
    exact limitedLoop_unique h h1

/-! ### The claims C11 to C20 -/

/-- C11. The heuristic is admissible: for all strings `s` and `target` (any characters),
`heuristic s target` is `|len s - len target|`, it is at most `basicEditDistance s target`,
and `heuristic target target = 0`. -/
theorem C11_heuristic_admissible (s target : Str) :
    heuristic s target = |(s.length : Int) - (target.length : Int)| ∧
      heuristic s target ≤ basicEditDistance s target ∧
      heuristic target target = 0 := by
  refine ⟨rfl, ?_, by simp [heuristic]⟩
  rw [basicEditDistance_eq_lev]
  exact heuristic_le_lev s target

/-- C12. For every pair of lowercase strings `start`, `target`, `bidirectionalBFS` terminates
(every run with at least `biFuel start target` loop iterations allowed returns the same
result) and the `min_distance` of its result is the value `basicBFSEditDistance` returns. -/
theorem C12_bidirectional_min_distance (start target : Str) (hs : Lower start)
    (ht : Lower target) :
    ∃ r, (∀ fuel, biFuel start target ≤ fuel →
        bidirectionalBFS fuel start target = some r) ∧
      (∀ fuel, basicFuel start target ≤ fuel →
        basicBFSEditDistance fuel start target = some r.min_distance) ∧
      r.min_distance = basicEditDistance start target := by
  obtain ⟨r, hr, hd⟩ := bidirectionalBFS_total hs ht
  refine ⟨r, hr, fun fuel hf => ?_, by rw [basicEditDistance_eq_lev]; exact hd⟩
  rw [hd]
  exact basicBFS_total ht fuel hf

theorem C12_witness :
    Lower "kitten".toList ∧ Lower "sitting".toList ∧
      ∃ r, (∀ fuel, biFuel "kitten".toList "sitting".toList ≤ fuel →
        bidirectionalBFS fuel "kitten".toList "sitting".toList = some r) ∧
      (∀ fuel, basicFuel "kitten".toList "sitting".toList ≤ fuel →
        basicBFSEditDistance fuel "kitten".toList "sitting".toList = some r.min_distance) ∧
      r.min_distance = basicEditDistance "kitten".toList "sitting".toList :=
  ⟨by decide, by decide, C12_bidirectional_min_distance _ _ (by decide) (by decide)⟩

/-- C13, refuted as stated: on `start = target = "a"` the result of `bidirectionalBFS` has the
one-state path `["a"]` in `all_paths`, which is therefore not empty. -/
theorem C13_counterexample :
    ∃ r, (∀ fuel, bidirectionalBFS fuel "a".toList "a".toList = some r) ∧
      r.all_paths = [["a".toList]] ∧ r.all_paths ≠ [] :=
  ⟨trivialResult "a".toList, fun fuel => by simp [bidirectionalBFS], rfl,
    by simp [trivialResult]⟩

/-- C13, amended. Whenever `bidirectionalBFS` returns, `all_paths` is empty if
`start ≠ target` and is the single one-state path `[start]` if `start = target`; and between
lowercase strings it does return. -/
theorem C13_bidirectional_paths (start target : Str) :
    (∀ fuel r, bidirectionalBFS fuel start target = some r →
        r.all_paths = if start = target then [[start]] else []) ∧
      (Lower start → Lower target →
        ∃ r, ∀ fuel, biFuel start target ≤ fuel →
          bidirectionalBFS fuel start target = some r) := by
  refine ⟨?_, fun hs ht => ?_⟩
  · intro fuel r h
    unfold bidirectionalBFS at h
    by_cases hst : start = target
    · rw [if_pos hst] at h ⊢
      rw [← Option.some.inj h]
      rfl
    · rw [if_neg hst] at h ⊢
      exact biLoop_paths _ _ _ h
  · obtain ⟨r, hr, _⟩ := bidirectionalBFS_total hs ht
    exact ⟨r, hr⟩

theorem C13_witness :
    Lower "kitten".toList ∧ Lower "sitting".toList ∧
      ∃ r, (∀ fuel, biFuel "kitten".toList "sitting".toList ≤ fuel →
        bidirectionalBFS fuel "kitten".toList "sitting".toList = some r) ∧
      r.all_paths = [] := by
  refine ⟨by decide, by decide, ?_⟩
  obtain ⟨h1, h2⟩ := C13_bidirectional_paths "kitten".toList "sitting".toList
  obtain ⟨r, hr⟩ := h2 (by decide) (by decide)
  refine ⟨r, hr, ?_⟩
  have h := h1 _ r (hr _ (le_refl _))
  rw [if_neg (by decide)] at h
  exact h

/-- C14, refuted as stated: for `start = target = "a"` and `max_depth = -1` the bound is below
the distance `0`, yet `limitedBFS` returns `min_distance = 0` and the path `["a"]`. -/
theorem C14_counterexample :
    (-1 : Int) < basicEditDistance "a".toList "a".toList ∧
      ∃ r, (∀ fuel, limitedBFS fuel "a".toList "a".toList (-1) = some r) ∧
        r.min_distance = 0 ∧ r.all_paths = [["a".toList]] :=
  ⟨by decide, trivialResult "a".toList, fun fuel => by simp [limitedBFS], rfl, rfl⟩

/-- C14, amended. For all strings (any characters) and every integer `max_depth` below
`basicEditDistance start target`, `limitedBFS` terminates; if `start ≠ target` its result has
`min_distance = -1` and an empty `all_paths`, and if `start = target` (which needs a negative
`max_depth`) its result has `min_distance = 0` and the single path `[start]`. -/
theorem C14_limited_below_distance (start target : Str) (max_depth : Int)
    (hlt : max_depth < basicEditDistance start target) :
    ∃ r, (∀ fuel, limitedFuel start max_depth ≤ fuel →
        limitedBFS fuel start target max_depth = some r) ∧
      (start ≠ target → r.min_distance = -1 ∧ r.all_paths = []) ∧
      (start = target → r.min_distance = 0 ∧ r.all_paths = [[start]]) := by
  rw [basicEditDistance_eq_lev] at hlt
  by_cases hst : start = target
  · refine ⟨trivialResult start, fun fuel _ => by simp [limitedBFS, hst],
      fun h => absurd hst h, fun _ => ⟨rfl, rfl⟩⟩
  · obtain ⟨σf, hr, _, _, hn⟩ := limitedBFS_total max_depth hst
      (fun s => NothingFound s.result) ⟨rfl, rfl⟩ (fun σ hok h => nothingFound_iter hlt hok h)
    exact ⟨σf.result, hr, fun _ => hn, fun h => absurd h hst⟩

set_option maxRecDepth 1000000 in
theorem C14_witness :
    (2 : Int) < basicEditDistance "abc".toList "".toList ∧
      ∃ r, (∀ fuel, limitedFuel "abc".toList 2 ≤ fuel →
        limitedBFS fuel "abc".toList "".toList 2 = some r) ∧
      r.min_distance = -1 ∧ r.all_paths = [] := by
  refine ⟨by decide, ?_⟩
  obtain ⟨r, hr, h1, _⟩ := C14_limited_below_distance "abc".toList "".toList 2 (by decide)
  exact ⟨r, hr, h1 (by decide)⟩

/-- C15. For every start, every lowercase target and every `max_depth` that is at least
`basicEditDistance start target`, `limitedBFS` and `completeBFSEditDistance` both terminate
and report the same `min_distance`, the true distance; and an iteration whose front entry has
cost `max_depth - 1` does expand that entry: it visits every neighbour, the visit comparing
the neighbour with `target` first. -/
theorem C15_limited_min_distance (start target : Str) (ht : Lower target) (max_depth : Int)
    (hd : basicEditDistance start target ≤ max_depth) :
    (∃ r rc, (∀ fuel, limitedFuel start max_depth ≤ fuel →
          limitedBFS fuel start target max_depth = some r) ∧
        (∀ fuel, completeFuel start target ≤ fuel →
          completeBFSEditDistance fuel start target = some rc) ∧
        r.min_distance = rc.min_distance ∧
        r.min_distance = basicEditDistance start target) ∧
      (∀ (σ : LSearch) (current : State) (rest : List State), σ.q = current :: rest →
        current.cost = max_depth - 1 →
        limitedIter target max_depth σ =
          (generateNextStates current.current_string).foldl (limitedVisit target current)
            ⟨countNode σ.result σ.q.length, σ.visited, rest⟩) := by
  rw [basicEditDistance_eq_lev] at hd ⊢
  obtain ⟨r, hr, _, hdist⟩ := limitedBFS_distance ht max_depth hd
  obtain ⟨rc, hrc, hpost⟩ := completeBFS_total start target ht
  refine ⟨⟨r, rc, hr, hrc, by rw [hdist, hpost.dist], hdist⟩, ?_⟩
  intro σ current rest hq hc
  unfold limitedIter
  rw [hq]
  simp only
  rw [if_neg (by omega)]

set_option maxRecDepth 1000000 in
theorem C15_witness :
    Lower "sitting".toList ∧
      basicEditDistance "kitten".toList "sitting".toList ≤ 3 ∧
      ∃ r rc, (∀ fuel, limitedFuel "kitten".toList 3 ≤ fuel →
          limitedBFS fuel "kitten".toList "sitting".toList 3 = some r) ∧
        (∀ fuel, completeFuel "kitten".toList "sitting".toList ≤ fuel →
          completeBFSEditDistance fuel "kitten".toList "sitting".toList = some rc) ∧
        r.min_distance = rc.min_distance ∧
        r.min_distance = basicEditDistance "kitten".toList "sitting".toList :=
  ⟨by decide, by decide,
    (C15_limited_min_distance "kitten".toList "sitting".toList (by decide) 3 (by decide)).1⟩

/-- C16, refuted as stated: for `start = "abc"`, `target = ""`, `max_depth = 3` the optimal
path `abc, ac, c, ""` is in the `all_paths` of `completeBFSEditDistance` and not in the
`all_paths` of `limitedBFS`: `"c"` was first reached through `"bc"`, and `limitedBFS` keeps a
plain visited set, so the later arrival through `"ac"` is not queued. -/
theorem C16_counterexample :
    ∃ rc rl, (∀ fuel, completeFuel "abc".toList "".toList ≤ fuel →
          completeBFSEditDistance fuel "abc".toList "".toList = some rc) ∧
        (∀ fuel, limitedFuel "abc".toList 3 ≤ fuel →
          limitedBFS fuel "abc".toList "".toList 3 = some rl) ∧
        ["abc".toList, "ac".toList, "c".toList, "".toList] ∈ rc.all_paths ∧
        ["abc".toList, "ac".toList, "c".toList, "".toList] ∉ rl.all_paths := by
  obtain ⟨rc, hrc, hpost⟩ := completeBFS_total "abc".toList "".toList (by decide)
  obtain ⟨rl, hrl, _, _⟩ := limitedBFS_distance (by decide : Lower "".toList) 3
    (by decide : ((lev "abc".toList "".toList : Nat) : Int) ≤ 3)
  refine ⟨rc, rl, hrc, hrl, ?_, ?_⟩
  · apply hpost.all
    refine ⟨⟨rfl, rfl, ?_⟩, by decide⟩
    unfold IsChain
    simp only [List.chain'_cons, List.chain'_singleton, and_true]
    decide
  · have h := hrl _ (le_refl _)
    unfold limitedBFS at h
    rw [if_neg (by decide)] at h
    have hlast : (["abc".toList, "ac".toList, "c".toList] : List Str).getLast? =
        some "c".toList := rfl
    exact missesPath_loop hlast _ _ _ second_iteration_abc
      (limitedLoop_shift (limitedLoop_shift h))

/-- C16, amended. For every start, every lowercase target and every `max_depth` that is at
least the true distance, both searches terminate, `limitedBFS` returns at least one path, and
every path it returns is one of the paths of `completeBFSEditDistance` (an optimal path); the
converse inclusion does not hold. -/
theorem C16_limited_paths_subset_complete (start target : Str) (ht : Lower target)
    (max_depth : Int) (hd : basicEditDistance start target ≤ max_depth) :
    ∃ rl rc, (∀ fuel, limitedFuel start max_depth ≤ fuel →
          limitedBFS fuel start target max_depth = some rl) ∧
        (∀ fuel, completeFuel start target ≤ fuel →
          completeBFSEditDistance fuel start target = some rc) ∧
        rl.all_paths ≠ [] ∧ ∀ p ∈ rl.all_paths, p ∈ rc.all_paths := by
  rw [basicEditDistance_eq_lev] at hd
  obtain ⟨rl, hrl, hok, hdist⟩ := limitedBFS_distance ht max_depth hd
  obtain ⟨rc, hrc, hpost⟩ := completeBFS_total start target ht
  refine ⟨rl, rc, hrl, hrc, ?_, ?_⟩
  · rw [hok.nonempty, hdist]
    have : (0 : Int) ≤ lev start target := Int.natCast_nonneg _
    omega
  · intro p hp
    obtain ⟨hlen, hpath⟩ := hok.paths p hp
    exact hpost.all p ⟨hpath, by omega⟩

set_option maxRecDepth 1000000 in
theorem C16_witness :
    Lower "".toList ∧ basicEditDistance "abc".toList "".toList ≤ 3 ∧
      ∃ rl rc, (∀ fuel, limitedFuel "abc".toList 3 ≤ fuel →
          limitedBFS fuel "abc".toList "".toList 3 = some rl) ∧
        (∀ fuel, completeFuel "abc".toList "".toList ≤ fuel →
          completeBFSEditDistance fuel "abc".toList "".toList = some rc) ∧
        rl.all_paths ≠ [] ∧ ∀ p ∈ rl.all_paths, p ∈ rc.all_paths :=
  ⟨by decide, by decide,
    C16_limited_paths_subset_complete "abc".toList "".toList (by decide) 3 (by decide)⟩

/-- C17. For every string `a` (any characters) and every number of loop iterations allowed,
`basicBFSEditDistance a a` returns `0`, and `completeBFSEditDistance`,
`optimizedBFSEditDistance` (for every tie resolution), `bidirectionalBFS` and `limitedBFS`
(for every `max_depth`) return a result whose `min_distance` is `0`. -/
theorem C17_distance_to_self (a : Str) (fuel : Nat) (tie : Nat → Nat) (max_depth : Int) :
    basicBFSEditDistance fuel a a = some 0 ∧
      (∃ r, completeBFSEditDistance fuel a a = some r ∧ r.min_distance = 0) ∧
      (∃ r, optimizedBFSEditDistance tie fuel a a = some r ∧ r.min_distance = 0) ∧
      (∃ r, bidirectionalBFS fuel a a = some r ∧ r.min_distance = 0) ∧
      (∃ r, limitedBFS fuel a a max_depth = some r ∧ r.min_distance = 0) := by
  refine ⟨by simp [basicBFSEditDistance], ⟨trivialResult a, ?_, rfl⟩, ⟨trivialResult a, ?_, rfl⟩,
    ⟨trivialResult a, ?_, rfl⟩, ⟨trivialResult a, ?_, rfl⟩⟩
  · simp [completeBFSEditDistance]
  · simp [optimizedBFSEditDistance]
  · simp [bidirectionalBFS]
  · simp [limitedBFS]

/-- C18, refuted as stated: from `"a"` to `"A"` the search never returns, whatever number of
loop iterations is allowed (no neighbour ever contains an upper-case letter), while from `"A"`
to `"a"` it returns `1`. -/
theorem C18_counterexample :
    (∀ fuel, basicBFSEditDistance fuel "a".toList "A".toList = none) ∧
      (∀ fuel, basicFuel "A".toList "a".toList ≤ fuel →
        basicBFSEditDistance fuel "A".toList "a".toList = some 1) :=
  ⟨fun fuel => basicBFS_never_returns (by decide) (by decide) fuel,
    fun fuel hf => basicBFS_total (by decide : Lower "a".toList) fuel hf⟩

/-- C18, amended. For all lowercase strings `a` and `b` both `basicBFSEditDistance a b` and
`basicBFSEditDistance b a` terminate and return the same integer. -/
theorem C18_symmetry_lowercase (a b : Str) (ha : Lower a) (hb : Lower b) :
    ∃ d : Int, (∀ fuel, basicFuel a b ≤ fuel → basicBFSEditDistance fuel a b = some d) ∧
      (∀ fuel, basicFuel b a ≤ fuel → basicBFSEditDistance fuel b a = some d) := by
  refine ⟨(lev a b : Int), fun fuel hf => basicBFS_total hb fuel hf, fun fuel hf => ?_⟩
  rw [lev_comm a b]
  exact basicBFS_total ha fuel hf

theorem C18_witness :
    Lower "kitten".toList ∧ Lower "sitting".toList ∧
      ∃ d : Int, (∀ fuel, basicFuel "kitten".toList "sitting".toList ≤ fuel →
          basicBFSEditDistance fuel "kitten".toList "sitting".toList = some d) ∧
        (∀ fuel, basicFuel "sitting".toList "kitten".toList ≤ fuel →
          basicBFSEditDistance fuel "sitting".toList "kitten".toList = some d) :=
  ⟨by decide, by decide, C18_symmetry_lowercase _ _ (by decide) (by decide)⟩

/-- C19. Triangle inequality: for every string `a` and all lowercase strings `b`, `c` (so for
all lowercase `a`, `b`, `c`) the three calls `basicBFSEditDistance a c`,
`basicBFSEditDistance a b` and `basicBFSEditDistance b c` terminate, with values `x`, `y`, `z`
such that `x ≤ y + z`. -/
theorem C19_triangle (a b c : Str) (hb : Lower b) (hc : Lower c) :
    ∃ x y z : Int,
      (∀ fuel, basicFuel a c ≤ fuel → basicBFSEditDistance fuel a c = some x) ∧
      (∀ fuel, basicFuel a b ≤ fuel → basicBFSEditDistance fuel a b = some y) ∧
      (∀ fuel, basicFuel b c ≤ fuel → basicBFSEditDistance fuel b c = some z) ∧
      x ≤ y + z := by
  refine ⟨(lev a c : Int), (lev a b : Int), (lev b c : Int),
    fun fuel hf => basicBFS_total hc fuel hf, fun fuel hf => basicBFS_total hb fuel hf,
    fun fuel hf => basicBFS_total hc fuel hf, ?_⟩
  have := lev_triangle a b c
  omega

theorem C19_witness :
    Lower "bat".toList ∧ Lower "bad".toList ∧
      ∃ x y z : Int,
        (∀ fuel, basicFuel "cat".toList "bad".toList ≤ fuel →
          basicBFSEditDistance fuel "cat".toList "bad".toList = some x) ∧
        (∀ fuel, basicFuel "cat".toList "bat".toList ≤ fuel →
          basicBFSEditDistance fuel "cat".toList "bat".toList = some y) ∧
        (∀ fuel, basicFuel "bat".toList "bad".toList ≤ fuel →
          basicBFSEditDistance fuel "bat".toList "bad".toList = some z) ∧
        x ≤ y + z :=
  ⟨by decide, by decide, C19_triangle _ _ _ (by decide) (by decide)⟩

/-- C20. Empty strings are ordinary boundary cases: for every lowercase string `s`, with
enough loop iterations allowed, `basicBFSEditDistance "" s` and `basicBFSEditDistance s ""`
both return `len s`. -/
theorem C20_empty_strings (s : Str) (hs : Lower s) :
    (∀ fuel, basicFuel [] s ≤ fuel → basicBFSEditDistance fuel [] s = some (s.length : Int)) ∧
      (∀ fuel, basicFuel s [] ≤ fuel →
        basicBFSEditDistance fuel s [] = some (s.length : Int)) := by
  refine ⟨fun fuel hf => ?_, fun fuel hf => ?_⟩
  · rw [← lev_nil_left s]
    exact basicBFS_total hs fuel hf
  · rw [← lev_nil_right s]
    exact basicBFS_total (by decide) fuel hf

theorem C20_witness :
    (Lower "abc".toList ∧
      (∀ fuel, basicFuel "".toList "abc".toList ≤ fuel →
        basicBFSEditDistance fuel "".toList "abc".toList = some 3) ∧
      (∀ fuel, basicFuel "abc".toList "".toList ≤ fuel →
        basicBFSEditDistance fuel "abc".toList "".toList = some 3)) ∧
    (Lower "".toList ∧
      ∀ fuel, basicFuel "".toList "".toList ≤ fuel →
        basicBFSEditDistance fuel "".toList "".toList = some 0) :=
  ⟨⟨by decide, C20_empty_strings "abc".toList (by decide)⟩,
    ⟨by decide, (C20_empty_strings "".toList (by decide)).1⟩⟩

/-! ### The transition generator: membership, counts, order -/

theorem mem_generateNextStates_of_lev {s t : Str} (ht : Lower t) (h : lev s t = 1) :
    t ∈ generateNextStates s := by
  have hne : s ≠ t := by
    intro e
    rw [e, lev_self] at h
    omega
  obtain ⟨u, hu, hlev⟩ := exists_neighbour_closer ht hne
  have hu0 : lev u t = 0 := by omega
  rw [← eq_of_lev_eq_zero u t hu0]
  exact hu

theorem not_mem_generateNextStates_self (s : Str) : s ∉ generateNextStates s := by
  intro h
  have := lev_eq_one_of_mem h
  rw [lev_self] at this
  omega

theorem alphabet_length : alphabet.length = 26 := by decide

theorem alphabet_ascending : alphabet.Pairwise (fun a b => a < b) := by decide

theorem length_deletions (s : Str) : (deletions s).length = s.length := by
  simp [deletions]

theorem length_insertions (s : Str) : (insertions s).length = (s.length + 1) * 26 := by
  unfold insertions
  rw [List.length_flatMap]
  have e : (List.length ∘ fun i => alphabet.map (fun c => s.insertIdx i c)) = fun _ => 26 := by
    funext i
    simp [alphabet_length]
  rw [e, List.map_const', List.sum_replicate]
  simp

/-- Number of replacement characters offered at a position that holds `a`. -/
theorem length_replacements (a : Char) :
    (alphabet.filter (fun c => decide (some a ≠ some c))).length +
      (if a ∈ alphabet then 1 else 0) = 26 := by
  by_cases h : a ∈ alphabet
  · rw [if_pos h]
    revert a
    decide
  · rw [if_neg h]
    have : alphabet.filter (fun c => decide (some a ≠ some c)) = alphabet := by
      rw [List.filter_eq_self]
      intro c hc
      simp only [ne_eq, Option.some.injEq, decide_not, Bool.not_eq_true', decide_eq_false_iff_not]
      intro e
      exact h (e ▸ hc)
    rw [this]
    rfl

theorem range_map_getElem? {β : Type} (l : Str) (g : Option Char → β) :
    (List.range l.length).map (fun i => g l[i]?) = l.map (fun a => g (some a)) := by
  apply List.ext_getElem
  · simp
  · intro i h1 h2
    simp only [List.length_map, List.length_range] at h1
    simp [List.getElem?_eq_getElem h1]

theorem length_substitutions (s : Str) :
    (substitutions s).length + s.countP (fun c => decide (c ∈ alphabet)) = 26 * s.length := by
  unfold substitutions
  rw [List.length_flatMap]
  have e : (List.length ∘ fun i =>
      (alphabet.filter (fun c => decide (s[i]? ≠ some c))).map (fun c => s.set i c)) =
      fun i => (fun o : Option Char =>
        (alphabet.filter (fun c => decide (o ≠ some c))).length) s[i]? := by
    funext i
    simp
  rw [e, range_map_getElem? s
    (fun o => (alphabet.filter (fun c => decide (o ≠ some c))).length)]
  clear e
  induction s with
  | nil => rfl
  | cons a x ih =>
    have h := length_replacements a
    simp only [List.map_cons, List.sum_cons, List.countP_cons, List.length_cons,
      decide_eq_true_eq]
    split at h <;> rename_i ha
    · rw [if_pos ha]; omega
    · rw [if_neg ha]; omega

theorem countP_lower {s : Str} (h : Lower s) :
    s.countP (fun c => decide (c ∈ alphabet)) = s.length := by
  rw [List.countP_eq_length]
  intro c hc
  simpa using h c hc

/-- The substitution candidates as a list of keys `(position, character)`. -/
theorem substitutions_eq_map (s : Str) :
    substitutions s =
      ((List.range s.length).flatMap (fun i =>
        (alphabet.filter (fun c => decide (s[i]? ≠ some c))).map (fun c => (i, c)))).map
        (fun k => s.set k.1 k.2) := by
  unfold substitutions
  rw [List.map_flatMap]
  simp only [List.map_map]
  rfl

theorem insertions_eq_map (s : Str) :
    insertions s =
      ((List.range (s.length + 1)).flatMap (fun i => alphabet.map (fun c => (i, c)))).map
        (fun k => s.insertIdx k.1 k.2) := by
  unfold insertions
  rw [List.map_flatMap]
  simp only [List.map_map]
  rfl

/-- Keys generated position by position, each position with an ascending list of characters,
are in ascending order. -/
theorem pairwise_keys (n : Nat) (f : Nat → List Char)
    (hf : ∀ i, (f i).Pairwise (fun a b => a < b)) :
    ((List.range n).flatMap (fun i => (f i).map (fun c => (i, c)))).Pairwise keyLt := by
  rw [List.pairwise_flatMap]
  refine ⟨fun i _ => ?_, ?_⟩
  · rw [List.pairwise_map]
    exact (hf i).imp (fun h => Or.inr ⟨rfl, h⟩)
  · refine (List.pairwise_lt_range n).imp ?_
    intro i j hij x hx y hy
    simp only [List.mem_map] at hx hy
    obtain ⟨_, _, rfl⟩ := hx
    obtain ⟨_, _, rfl⟩ := hy
    exact Or.inl hij

/-! ### Strings outside the alphabet are out of reach -/

theorem lower_of_walk {n : Nat} {s t : Str} (h : Walk n s t) (hs : Lower s) : Lower t := by
  induction h with
  | nil s => exact hs
  | step hstep _ ih => exact ih (lower_of_neighbour hstep hs)

theorem lower_of_path {start s : Str} (hs : Lower start) :
    ∀ {p : List Str}, PathFromTo start s p → Lower s := by
  intro p
  induction p generalizing start with
  | nil => intro h; simp [PathFromTo] at h
  | cons x rest ih =>
    intro h
    obtain ⟨h1, h2, h3⟩ := h
    have hx : x = start := by simpa using h1
    subst hx
    cases rest with
    | nil =>
      have : x = s := by simpa using h2
      rw [← this]; exact hs
    | cons y rest1 =>
      unfold IsChain at h3
      rw [List.chain'_cons] at h3
      have hy : Lower y := lower_of_neighbour h3.1 hs
      apply ih hy
      refine ⟨rfl, ?_, h3.2⟩
      rw [List.getLast?_cons_cons] at h2
      exact h2

theorem lowerQueue_iter {start target : Str} {max_depth : Int} (hs : Lower start)
    (ht : ¬ Lower target) {σ : LSearch} (hok : LimitedOK start target σ) (h : LowerQueue σ) :
    LimitedOK start target (limitedIter target max_depth σ) ∧
      LowerQueue (limitedIter target max_depth σ) := by
  refine limitedIter_preserves LowerQueue ?_ ?_ hok h
  · intro σ cur rest hq _ hi
    exact ⟨hi.1, fun e he => hi.2 e (by rw [hq]; exact List.mem_cons_of_mem _ he)⟩
  · intro σ cur w hcur _ hw _ hi
    have hlw : Lower w := lower_of_neighbour hw (lower_of_path hs hcur.path_ok)
    have hne : w ≠ target := fun e => ht (e ▸ hlw)
    unfold limitedVisit
    rw [if_neg hne]
    split
    · refine ⟨hi.1, ?_⟩
      intro e he
      simp only [List.mem_append, List.mem_singleton] at he
      rcases he with he | he
      · exact hi.2 e he
      · rw [he]; exact hlw
    · exact hi

/-- From a lowercase start towards a target with a character outside `a .. z` the
depth-bounded search terminates, for every bound, without having found anything. -/
theorem limitedBFS_unreachable {start target : Str} (hs : Lower start) (ht : ¬ Lower target)
    (max_depth : Int) :
    ∃ r, (∀ fuel, limitedFuel start max_depth ≤ fuel →
        limitedBFS fuel start target max_depth = some r) ∧ NothingFound r := by
  have hne : start ≠ target := fun e => ht (e ▸ hs)
  obtain ⟨σf, hr, _, _, hn⟩ := limitedBFS_total max_depth hne LowerQueue
    ⟨⟨rfl, rfl⟩, fun e he => by
      simp only [limitedInit, List.mem_singleton] at he
      rw [he]; exact hs⟩
    (fun σ hok h => lowerQueue_iter hs ht hok h)
  exact ⟨σf.result, hr, hn.1⟩

theorem lev_le_max : ∀ (s t : Str), lev s t ≤ max s.length t.length := by
  intro s
  induction s with
  | nil => intro t; simp [lev_nil_left]
  | cons a x ih =>
    intro t
    cases t with
    | nil => simp [lev_nil_right]
    | cons b y =>
      rw [lev_cons_cons]
      have h1 := ih y
      have h2 := subCost_le_one a b
      simp only [List.length_cons]
      omega

/-! ### The weighted reference distance -/

theorem wlev_nil_left (k : Costs) (t : Str) : wlev k [] t = (t.length : Int) * k.insert_cost :=
  rfl

theorem wlev_cons_nil (k : Costs) (a : Char) (x : Str) :
    wlev k (a :: x) [] = wlev k x [] + k.delete_cost := rfl

theorem wlev_nil_right (k : Costs) (s : Str) : wlev k s [] = (s.length : Int) * k.delete_cost := by
  induction s with
  | nil => simp [wlev]
  | cons a x ih =>
    rw [wlev_cons_nil, ih]
    simp only [List.length_cons]
    push_cast
    ring

theorem wlev_cons_cons (k : Costs) (a b : Char) (x y : Str) : wlev k (a :: x) (b :: y) =
    min (wlev k x (b :: y) + k.delete_cost)
      (min (wlev k (a :: x) y + k.insert_cost) (wlev k x y + wsubCost k a b)) := rfl

theorem wsubCost_self (k : Costs) (a : Char) : wsubCost k a a = 0 := by simp [wsubCost]

theorem wsubCost_nonneg {k : Costs} (hk : k.NonNeg) (a b : Char) : 0 ≤ wsubCost k a b := by
  unfold wsubCost
  split
  · exact le_refl _
  · exact hk.2.2

theorem wsubCost_le {k : Costs} (hk : k.NonNeg) (a b : Char) :
    wsubCost k a b ≤ k.replace_cost := by
  unfold wsubCost
  split
  · exact hk.2.2
  · exact le_refl _

theorem wsubCost_ne (k : Costs) {a b : Char} (h : a ≠ b) : wsubCost k a b = k.replace_cost := by
  simp [wsubCost, h]

/-- Deleting the head of the first string costs at most `delete_cost`. -/
theorem wlev_cons_left_le (k : Costs) (a : Char) (x t : Str) :
    wlev k (a :: x) t ≤ wlev k x t + k.delete_cost := by
  cases t with
  | nil => rw [wlev_cons_nil]
  | cons b y => rw [wlev_cons_cons]; exact min_le_left _ _

/-- Inserting a head into the second string costs at most `insert_cost`. -/
theorem wlev_cons_right_le (k : Costs) (b : Char) (s y : Str) :
    wlev k s (b :: y) ≤ wlev k s y + k.insert_cost := by
  cases s with
  | nil =>
    simp only [wlev_nil_left, List.length_cons]
    push_cast
    linarith
  | cons a x =>
    rw [wlev_cons_cons]
    exact le_trans (min_le_right _ _) (min_le_left _ _)

/-- Dropping the head of the second string costs at most `delete_cost`. -/
theorem wlev_le_cons_right {k : Costs} (hk : k.NonNeg) (b : Char) :
    ∀ (x y : Str), wlev k x y ≤ wlev k x (b :: y) + k.delete_cost := by
  obtain ⟨h1, h2, h3⟩ := hk
  intro x
  induction x with
  | nil =>
    intro y
    simp only [wlev_nil_left, List.length_cons]
    push_cast
    nlinarith
  | cons e x ih =>
    intro y
    rw [wlev_cons_cons]
    have a1 := ih y
    have a2 := wlev_cons_left_le k e x y
    have a3 := wsubCost_nonneg ⟨h1, h2, h3⟩ e b
    omega

/-- Dropping the head of the first string costs at most `insert_cost`. -/
theorem wlev_le_cons_left {k : Costs} (hk : k.NonNeg) (a : Char) (x : Str) :
    ∀ (y : Str), wlev k x y ≤ wlev k (a :: x) y + k.insert_cost := by
  obtain ⟨h1, h2, h3⟩ := hk
  intro y
  induction y with
  | nil =>
    rw [wlev_cons_nil]
    omega
  | cons b y ih =>
    rw [wlev_cons_cons]
    have a2 := wlev_cons_right_le k b x y
    have a3 := wsubCost_nonneg ⟨h1, h2, h3⟩ a b
    omega

/-- Equal heads are matched for free. -/
theorem wlev_cons_cons_same {k : Costs} (hk : k.NonNeg) (a : Char) (x y : Str) :
    wlev k (a :: x) (a :: y) = wlev k x y := by
  rw [wlev_cons_cons, wsubCost_self]
  have a1 := wlev_le_cons_right hk a x y
  have a2 := wlev_le_cons_left hk a x y
  omega

theorem wlev_cons_cons_ne (k : Costs) {a b : Char} (h : a ≠ b) (x y : Str) :
    wlev k (a :: x) (b :: y) =
      min (wlev k x (b :: y) + k.delete_cost)
        (min (wlev k (a :: x) y + k.insert_cost) (wlev k x y + k.replace_cost)) := by
  rw [wlev_cons_cons, wsubCost_ne k h]

theorem wlev_self {k : Costs} (hk : k.NonNeg) (s : Str) : wlev k s s = 0 := by
  induction s with
  | nil => simp [wlev]
  | cons a x ih => rw [wlev_cons_cons_same hk, ih]

theorem wlev_nonneg {k : Costs} (hk : k.NonNeg) : ∀ (s t : Str), 0 ≤ wlev k s t := by
  intro s
  induction s with
  | nil =>
    intro t
    rw [wlev_nil_left]
    exact mul_nonneg (Int.natCast_nonneg _) hk.1
  | cons a x ih =>
    intro t
    induction t with
    | nil =>
      rw [wlev_cons_nil]
      have := ih []
      have := hk.2.1
      omega
    | cons b y iht =>
      rw [wlev_cons_cons]
      have a1 := ih (b :: y)
      have a2 := ih y
      have a3 := wsubCost_nonneg hk a b
      have := hk.1
      have := hk.2.1
      omega

/-- A single edit of cost `c` on the first string changes the reference distance by at most
`c`. -/
theorem wlev_le_of_wedit {k : Costs} (hk : k.NonNeg) {c : Int} {s u : Str}
    (h : WEdit k c s u) : ∀ t, wlev k s t ≤ c + wlev k u t := by
  induction h with
  | del a s =>
    intro t
    have := wlev_cons_left_le k a s t
    omega
  | ins c s =>
    intro t
    have := wlev_le_cons_left hk c s t
    omega
  | sub a c s hne =>
    intro t
    induction t with
    | nil =>
      rw [wlev_cons_nil, wlev_cons_nil]
      have := hk.2.2
      omega
    | cons b y ih =>
      rw [wlev_cons_cons k c, wlev_cons_cons k a]
      have a1 := wsubCost_le hk a b
      have a2 := wsubCost_nonneg hk c b
      have a3 := hk.2.2
      have a4 := wlev_cons_left_le k a s (b :: y)
      omega
  | cons a hsu ih =>
    rename_i c s u
    intro t
    induction t with
    | nil =>
      rw [wlev_cons_nil, wlev_cons_nil]
      have := ih []
      omega
    | cons b y iht =>
      rw [wlev_cons_cons k a b u, wlev_cons_cons k a b s]
      have a1 := ih (b :: y)
      have a2 := ih y
      omega

/-- No edit script is cheaper than the reference distance. -/
theorem wlev_le_of_script {k : Costs} (hk : k.NonNeg) {n : Int} {s t : Str}
    (h : WScript k n s t) : wlev k s t ≤ n := by
  induction h with
  | nil s => rw [wlev_self hk]
  | step hedit hrest ih =>
    rename_i c n s u t
    have := wlev_le_of_wedit hk hedit t
    omega

theorem WScript.wscript_snoc {k : Costs} {n c : Int} {s u t : Str} (h : WScript k n s u)
    (hedit : WEdit k c u t) : WScript k (n + c) s t := by
  induction h with
  | nil s =>
    have := WScript.step hedit (WScript.nil t)
    simpa [add_comm] using this
  | step h1 _ ih =>
    rename_i c1 n1 s1 u1 t1
    have := WScript.step h1 (ih hedit)
    rw [← add_assoc] at this
    exact this

theorem WScript.wscript_cons {k : Costs} (a : Char) {n : Int} {s t : Str}
    (h : WScript k n s t) : WScript k n (a :: s) (a :: t) := by
  induction h with
  | nil s => exact WScript.nil _
  | step h1 _ ih => exact WScript.step (WEdit.cons a h1) ih

theorem wscript_insert_all (k : Costs) (t : Str) :
    WScript k ((t.length : Int) * k.insert_cost) [] t := by
  induction t with
  | nil => simpa using WScript.nil (k := k) []
  | cons b y ih =>
    have := ih.wscript_snoc (WEdit.ins b y)
    simp only [List.length_cons]
    push_cast
    rw [add_mul, one_mul]
    exact this

/-- Some edit script costs exactly the reference distance. -/
theorem wscript_of_wlev (k : Costs) : ∀ (s t : Str), WScript k (wlev k s t) s t := by
  intro s
  induction s with
  | nil => intro t; exact wscript_insert_all k t
  | cons a x ih =>
    intro t
    induction t with
    | nil =>
      rw [wlev_cons_nil, add_comm]
      exact WScript.step (WEdit.del a x) (ih [])
    | cons b y iht =>
      have hdel : WScript k (wlev k x (b :: y) + k.delete_cost) (a :: x) (b :: y) := by
        rw [add_comm]
        exact WScript.step (WEdit.del a x) (ih (b :: y))
      have hins : WScript k (wlev k (a :: x) y + k.insert_cost) (a :: x) (b :: y) :=
        iht.wscript_snoc (WEdit.ins b y)
      have hsub : WScript k (wlev k x y + wsubCost k a b) (a :: x) (b :: y) := by
        by_cases hab : a = b
        · rw [hab, wsubCost_self, add_zero]
          exact (ih y).wscript_cons b
        · rw [wsubCost_ne k hab]
          exact ((ih y).wscript_cons a).wscript_snoc (WEdit.sub a b y hab)
      rw [wlev_cons_cons]
      rcases min_choice (wlev k x (b :: y) + k.delete_cost)
        (min (wlev k (a :: x) y + k.insert_cost) (wlev k x y + wsubCost k a b)) with e | e
      · rw [e]; exact hdel
      · rw [e]
        rcases min_choice (wlev k (a :: x) y + k.insert_cost)
          (wlev k x y + wsubCost k a b) with e1 | e1
        · rw [e1]; exact hins
        · rw [e1]; exact hsub

theorem WEdit.wedit_append_right {k : Costs} {c : Int} {s t : Str} (h : WEdit k c s t)
    (p : Str) : WEdit k c (s ++ p) (t ++ p) := by
  induction h with
  | del a s => exact WEdit.del a _
  | ins c s => exact WEdit.ins c _
  | sub a c s hne => exact WEdit.sub a c _ hne
  | cons a _ ih => exact WEdit.cons a ih

theorem WEdit.wedit_append_left {k : Costs} {c : Int} {s t : Str} (h : WEdit k c s t)
    (p : Str) : WEdit k c (p ++ s) (p ++ t) := by
  induction p with
  | nil => exact h
  | cons a p ih => exact WEdit.cons a ih

theorem WEdit.wedit_reverse {k : Costs} {c : Int} {s t : Str} (h : WEdit k c s t) :
    WEdit k c s.reverse t.reverse := by
  induction h with
  | del a s =>
    have := (WEdit.del (k := k) a []).wedit_append_left s.reverse
    simpa using this
  | ins c s =>
    have := (WEdit.ins (k := k) c []).wedit_append_left s.reverse
    simpa using this
  | sub a c s hne =>
    have := (WEdit.sub (k := k) a c [] hne).wedit_append_left s.reverse
    simpa using this
  | cons a _ ih =>
    have := ih.wedit_append_right [a]
    simpa using this

theorem WScript.wscript_reverse {k : Costs} {n : Int} {s t : Str} (h : WScript k n s t) :
    WScript k n s.reverse t.reverse := by
  induction h with
  | nil s => exact WScript.nil _
  | step h1 _ ih => exact WScript.step h1.wedit_reverse ih

/-- The weighted reference distance does not change when both strings are reversed. -/
theorem wlev_reverse {k : Costs} (hk : k.NonNeg) (s t : Str) :
    wlev k s.reverse t.reverse = wlev k s t := by
  apply le_antisymm
  · exact wlev_le_of_script hk (wscript_of_wlev k s t).wscript_reverse
  · have := wlev_le_of_script hk (wscript_of_wlev k s.reverse t.reverse).wscript_reverse
    simpa using this

/-- With unit costs the weighted reference distance is the reference distance. -/
theorem wlev_unit : ∀ (s t : Str), wlev ⟨1, 1, 1⟩ s t = (lev s t : Int) := by
  intro s
  induction s with
  | nil => intro t; simp [wlev_nil_left, lev_nil_left]
  | cons a x ih =>
    intro t
    induction t with
    | nil => rw [wlev_nil_right, lev_nil_right]; simp
    | cons b y iht =>
      rw [wlev_cons_cons, lev_cons_cons, ih, ih, iht]
      have hs : wsubCost ⟨1, 1, 1⟩ a b = (subCost a b : Int) := by
        unfold wsubCost subCost
        split <;> simp
      rw [hs]
      push_cast
      rfl

/-! ### Table fills in general -/

theorem cellsOf_next_row {val : Nat → Nat → Int} {m n i : Nat} {dp : Table}
    (h : CellsOf val m n i (1 + n) dp) : CellsOf val m n (i + 1) 1 dp := by
  refine ⟨h.1, ?_⟩
  intro i' j' hi' hj' hc
  apply h.2 i' j' hi' hj'
  rcases hc with hc | hc | hc | hc
  · exact Or.inl hc
  · exact Or.inr (Or.inl hc)
  · by_cases e : i' = i
    · exact Or.inr (Or.inr (Or.inr ⟨e, by omega⟩))
    · exact Or.inr (Or.inr (Or.inl (by omega)))
  · exact Or.inr (Or.inl (by omega))

/-- Writing the value of the cell `(i, j)` extends the invariant by that cell. -/
theorem cellsOf_tset {val : Nat → Nat → Int} {m n i j : Nat} {dp : Table}
    (hi : i ≤ m) (hj : j ≤ n) (h : CellsOf val m n i j dp) :
    CellsOf val m n i (j + 1) (tset dp i j (val i j)) := by
  refine ⟨h.1.shaped_tset _ _ _ hi, ?_⟩
  intro i' j' hi' hj' hc
  rw [tget_tset h.1 _ hi hj]
  split
  · rename_i heq; rw [heq.1, heq.2]
  · rename_i hneq
    apply h.2 i' j' hi' hj'
    rcases hc with hc | hc | hc | hc
    · exact Or.inl hc
    · exact Or.inr (Or.inl hc)
    · exact Or.inr (Or.inr (Or.inl hc))
    · refine Or.inr (Or.inr (Or.inr ⟨hc.1, ?_⟩))
      have : ¬ (j' = j) := fun e => hneq ⟨hc.1, e⟩
      omega

/-- A fill loop whose cell step writes the value of its cell establishes the invariant for the
whole table. -/
theorem cellsOf_fill {val : Nat → Nat → Int} {m n : Nat} (cell : Nat → Table → Nat → Table)
    (hcell : ∀ i j dp, 1 ≤ i → i ≤ m → 1 ≤ j → j ≤ n → CellsOf val m n i j dp →
      cell i dp j = tset dp i j (val i j))
    (dp : Table) (h : CellsOf val m n 1 1 dp) :
    CellsOf val m n (1 + m) 1
      ((List.range' 1 m).foldl (fun dp i => (List.range' 1 n).foldl (cell i) dp) dp) := by
  refine foldl_range'_inv _ (fun i dp => CellsOf val m n i 1 dp) m 1 dp h ?_
  intro i b h1 h2 hb
  apply cellsOf_next_row
  refine foldl_range'_inv (cell i) (fun j dp => CellsOf val m n i j dp) n 1 b hb ?_
  intro j b1 g1 g2 hb1
  rw [hcell i j b1 h1 (by omega) g1 (by omega) hb1]
  exact cellsOf_tset (by omega) (by omega) hb1

/-- After the two boundary loops the first column and the first row hold their values. -/
theorem cellsOf_boundary {val : Nat → Nat → Int} {m n : Nat} (f g : Nat → Int)
    (hf : ∀ i, i ≤ m → val i 0 = f i) (hg : ∀ j, j ≤ n → val 0 j = g j) :
    CellsOf val m n 1 1
      ((List.range (n + 1)).foldl (fun dp j => tset dp 0 j (g j))
        ((List.range (m + 1)).foldl (fun dp i => tset dp i 0 (f i))
          (List.replicate (m + 1) (List.replicate (n + 1) 0)))) := by
  have h1 := foldl_range'_inv (fun dp i => tset dp i 0 (f i))
    (fun k dp => Shaped m n dp ∧ ∀ i, i < k → tget dp i 0 = f i)
    (m + 1) 0 _ ⟨shaped_replicate _ _, fun i hi => by omega⟩
    (fun k b _ hk hinv => by
      refine ⟨hinv.1.shaped_tset _ _ _ (by omega), ?_⟩
      intro i hi
      rw [tget_tset hinv.1 _ (by omega) (Nat.zero_le _)]
      by_cases e : i = k
      · simp [e]
      · simp only [e, false_and, if_false]; exact hinv.2 i (by omega))
  rw [← List.range_eq_range'] at h1
  have h2 := foldl_range'_inv (fun dp j => tset dp 0 j (g j))
    (fun k dp => Shaped m n dp ∧ (∀ i, 1 ≤ i → i ≤ m → tget dp i 0 = f i) ∧
      ∀ j, j < k → tget dp 0 j = g j)
    (n + 1) 0 _ ⟨h1.1, fun i _ hi => h1.2 i (by omega), fun j hj => by omega⟩
    (fun k b _ hk hinv => by
      refine ⟨hinv.1.shaped_tset _ _ _ (Nat.zero_le _), ?_, ?_⟩
      · intro i hi1 hi
        rw [tget_tset hinv.1 _ (Nat.zero_le _) (by omega)]
        rw [if_neg (by omega)]
        exact hinv.2.1 i hi1 hi
      · intro j hj
        rw [tget_tset hinv.1 _ (Nat.zero_le _) (by omega)]
        by_cases e : j = k
        · simp [e]
        · simp only [e, and_false, if_false]; exact hinv.2.2 j (by omega))
  rw [← List.range_eq_range'] at h2
  refine ⟨h2.1, ?_⟩
  intro i' j' hi' hj' hc
  by_cases e : i' = 0
  · subst e; rw [hg j' hj']; exact h2.2.2 j' (by omega)
  · have e0 : j' = 0 := by omega
    subst e0; rw [hf i' hi']; exact h2.2.1 i' (by omega) hi'

/-! ### The weighted table -/

theorem wcellValue_zero_right (k : Costs) (s t : Str) (i : Nat) (hi : i ≤ s.length) :
    wcellValue k s t i 0 = (i : Int) * k.delete_cost := by
  simp [wcellValue, wlev_nil_right, hi]

theorem wcellValue_zero_left (k : Costs) (s t : Str) (j : Nat) (hj : j ≤ t.length) :
    wcellValue k s t 0 j = (j : Int) * k.insert_cost := by
  simp [wcellValue, wlev_nil_left, hj]

/-- The recurrence of the weighted fill loop holds for the reference distance of the
prefixes. -/
theorem wcellValue_succ {k : Costs} (hk : k.NonNeg) (s t : Str) (i j : Nat)
    (hi : i < s.length) (hj : j < t.length) :
    wcellValue k s t (i + 1) (j + 1) =
      if s[i]? = t[j]? then wcellValue k s t i j
      else min (wcellValue k s t i (j + 1) + k.delete_cost)
        (min (wcellValue k s t (i + 1) j + k.insert_cost)
          (wcellValue k s t i j + k.replace_cost)) := by
  have ha : s[i]? = some s[i] := List.getElem?_eq_getElem hi
  have hb : t[j]? = some t[j] := List.getElem?_eq_getElem hj
  unfold wcellValue
  rw [reverse_take_succ s i _ ha, reverse_take_succ t j _ hb, ha, hb]
  by_cases hab : s[i] = t[j]
  · rw [hab, wlev_cons_cons_same hk]; simp
  · rw [wlev_cons_cons_ne k hab]
    have : ¬ (some s[i] = some t[j]) := fun e => hab (Option.some.inj e)
    rw [if_neg this]

theorem cellsOf_weightedTable {k : Costs} (hk : k.NonNeg) (s t : Str) :
    CellsOf (wcellValue k s t) s.length t.length (1 + s.length) 1
      (weightedTable s t k.insert_cost k.delete_cost k.replace_cost) := by
  unfold weightedTable
  refine cellsOf_fill
    (fun i dp j => weightedCell s t k.insert_cost k.delete_cost k.replace_cost i dp j) ?_ _
    (cellsOf_boundary (fun i => (i : Int) * k.delete_cost) (fun j => (j : Int) * k.insert_cost)
      (fun i hi => wcellValue_zero_right k s t i hi)
      (fun j hj => wcellValue_zero_left k s t j hj))
  intro i j dp hi1 hi hj1 hj h
  obtain ⟨i0, rfl⟩ : ∃ i0, i = i0 + 1 := ⟨i - 1, by omega⟩
  obtain ⟨j0, rfl⟩ : ∃ j0, j = j0 + 1 := ⟨j - 1, by omega⟩
  have hd := h.2 i0 j0 (by omega) (by omega) (by omega)
  have hu := h.2 i0 (j0 + 1) (by omega) (by omega) (by omega)
  have hl := h.2 (i0 + 1) j0 (by omega) (by omega) (Or.inr (Or.inr (Or.inr ⟨rfl, by omega⟩)))
  unfold weightedCell
  simp only [Nat.add_sub_cancel]
  rw [wcellValue_succ hk s t i0 j0 (by omega) (by omega), hd, hu, hl]
  split <;> rfl

/-- The weighted table fill computes the weighted reference recursion. -/
theorem weightedEditDistance_eq_wlev {k : Costs} (hk : k.NonNeg) (s t : Str) :
    weightedEditDistance s t k.insert_cost k.delete_cost k.replace_cost = wlev k s t := by
  unfold weightedEditDistance
  rw [(cellsOf_weightedTable hk s t).2 s.length t.length (le_refl _) (le_refl _) (by omega)]
  unfold wcellValue
  rw [List.take_length, List.take_length, wlev_reverse hk]

/-! ### The two-row variant -/

theorem getD_set (l : List Int) (i j : Nat) (v : Int) (hi : i < l.length) :
    (l.set i v).getD j 0 = if j = i then v else l.getD j 0 := by
  simp only [List.getD_eq_getElem?_getD]
  by_cases e : j = i
  · subst e
    rw [List.getElem?_set_self hi]
    simp
  · rw [List.getElem?_set_ne (fun h => e h.symm)]
    simp [e]

theorem currOK_rowCell (s t : Str) (j i : Nat) (prev curr : List Int) (hj1 : 1 ≤ j)
    (hj : j ≤ t.length) (hi1 : 1 ≤ i) (hi : i ≤ s.length)
    (hprev : ∀ i', i' ≤ s.length → prev.getD i' 0 = cellValue s t i' (j - 1))
    (h : CurrOK s t j i curr) : CurrOK s t j (i + 1) (rowCell s t j prev curr i) := by
  obtain ⟨i0, rfl⟩ : ∃ i0, i = i0 + 1 := ⟨i - 1, by omega⟩
  obtain ⟨j0, rfl⟩ : ∃ j0, j = j0 + 1 := ⟨j - 1, by omega⟩
  simp only [Nat.add_sub_cancel] at hprev
  have hval : rowCell s t (j0 + 1) prev curr (i0 + 1) =
      curr.set (i0 + 1) (cellValue s t (i0 + 1) (j0 + 1)) := by
    unfold rowCell
    simp only [Nat.add_sub_cancel]
    rw [cellValue_succ s t i0 j0 (by omega) (by omega), hprev i0 (by omega),
      hprev (i0 + 1) (by omega), h.2 i0 (by omega)]
    split
    · rfl
    · congr 1
      omega
  rw [hval]
  refine ⟨by rw [List.length_set]; exact h.1, ?_⟩
  intro i' hi'
  rw [getD_set _ _ _ _ (by rw [h.1]; omega)]
  split
  · rename_i e; rw [e]
  · rename_i e; exact h.2 i' (by omega)

theorem rowsOK_rowStep (s t : Str) (j : Nat) (rows : List Int × List Int) (hj1 : 1 ≤ j)
    (hj : j ≤ t.length) (h : RowsOK s t j rows) : RowsOK s t (j + 1) (rowStep s t rows j) := by
  have h0 : CurrOK s t j 1 (rows.2.set 0 (j : Int)) := by
    refine ⟨by rw [List.length_set]; exact h.2.1, ?_⟩
    intro i' hi'
    have e : i' = 0 := by omega
    subst e
    rw [getD_set _ _ _ _ (by rw [h.2.1]; omega), if_pos rfl, cellValue_zero_left s t j hj]
  have hfold := foldl_range'_inv (rowCell s t j rows.1) (fun i curr => CurrOK s t j i curr)
    s.length 1 _ h0
    (fun i curr h1 h2 hc => currOK_rowCell s t j i rows.1 curr hj1 hj h1 (by omega) h.2.2 hc)
  unfold rowStep
  simp only
  exact ⟨hfold.1, hfold.1, fun i hi => by
    rw [Nat.add_sub_cancel]
    exact hfold.2 i (by omega)⟩

theorem rowsOK_init (s t : Str) :
    RowsOK s t 1
      ((List.range (s.length + 1)).foldl (fun prev i => prev.set i (i : Int))
        (List.replicate (s.length + 1) 0), List.replicate (s.length + 1) 0) := by
  have h := foldl_range'_inv (fun (prev : List Int) i => prev.set i (i : Int))
    (fun k prev => prev.length = s.length + 1 ∧ ∀ i, i < k → prev.getD i 0 = (i : Int))
    (s.length + 1) 0 (List.replicate (s.length + 1) 0) ⟨by simp, fun i hi => by omega⟩
    (fun k b _ hk hb => by
      refine ⟨by rw [List.length_set]; exact hb.1, ?_⟩
      intro i hi
      rw [getD_set _ _ _ _ (by rw [hb.1]; omega)]
      split
      · rename_i e; rw [e]
      · exact hb.2 i (by omega))
  rw [← List.range_eq_range'] at h
  refine ⟨h.1, by simp, ?_⟩
  intro i hi
  rw [cellValue_zero_right s t i hi]
  exact h.2 i (by omega)

/-- The two-row loops compute the reference distance, whichever string is longer. -/
theorem twoRows_eq_lev (s t : Str) : twoRows s t = (lev s t : Int) := by
  have h := foldl_range'_inv (rowStep s t) (fun j rows => RowsOK s t j rows) t.length 1 _
    (rowsOK_init s t) (fun j rows h1 h2 hr => rowsOK_rowStep s t j rows h1 (by omega) hr)
  unfold twoRows
  simp only
  rw [h.2.2 s.length (le_refl _)]
  unfold cellValue
  rw [Nat.add_sub_cancel_left, List.take_length, List.take_length, lev_reverse]

theorem spaceOptimizedEditDistance_eq_lev (s t : Str) :
    spaceOptimizedEditDistance s t = (lev s t : Int) := by
  rw [spaceOptimizedEditDistance]
  split
  · rename_i h
    rw [spaceOptimizedEditDistance, if_neg (by omega), twoRows_eq_lev, lev_comm]
  · exact twoRows_eq_lev s t

/-! ### Reconstruction of the operation sequence -/

theorem tget_dpTable (s t : Str) (i j : Nat) (hi : i ≤ s.length) (hj : j ≤ t.length) :
    tget (dpTable s t) i j = cellValue s t i j :=
  (cells_dpTable s t).2 i j hi hj (by omega)

theorem take_succ_charAt (s : Str) (i : Nat) (hi : i < s.length) :
    s.take (i + 1) = s.take i ++ [charAt s i] := by
  rw [List.take_succ, List.getElem?_eq_getElem hi]
  simp [charAt, List.getD_eq_getElem?_getD, List.getElem?_eq_getElem hi]

theorem charAt_eq_of_getElem? {s t : Str} {i j : Nat} (h : s[i]? = t[j]?) :
    charAt s i = charAt t j := by
  simp only [charAt, List.getD_eq_getElem?_getD, h]

theorem trace_nil (s t : Str) : Trace s t 0 0 [] := by
  refine ⟨by simp, by simp, by simp, ?_⟩
  rw [cellValue_zero_left s t 0 (Nat.zero_le _)]
  simp

/-- Effect of one pass through the loop body on the invariant: an operation is emitted, the
cell moves towards `(0, 0)`, and a trace from the new cell extends to a trace from the old. -/
theorem reconstructStep_spec (s t : Str) (i j : Nat) (ops : List EditOperation)
    (hi : i ≤ s.length) (hj : j ≤ t.length) (hpos : 0 < i ∨ 0 < j) :
    ∃ o i1 j1, reconstructStep s t (dpTable s t) i j ops = (i1, j1, ops ++ [o]) ∧
      i1 + j1 < i + j ∧ i1 ≤ s.length ∧ j1 ≤ t.length ∧
      ∀ em, Trace s t i1 j1 em → Trace s t i j (o :: em) := by
  have hd : tget (dpTable s t) i j = cellValue s t i j := tget_dpTable s t i j hi hj
  have hd1 : tget (dpTable s t) (i - 1) (j - 1) = cellValue s t (i - 1) (j - 1) :=
    tget_dpTable s t _ _ (by omega) (by omega)
  have hd2 : tget (dpTable s t) (i - 1) j = cellValue s t (i - 1) j :=
    tget_dpTable s t _ _ (by omega) hj
  have hd3 : tget (dpTable s t) i (j - 1) = cellValue s t i (j - 1) :=
    tget_dpTable s t _ _ hi (by omega)
  unfold reconstructStep
  rw [hd, hd1, hd2, hd3]
  by_cases b1 : 0 < i ∧ 0 < j ∧ s[i - 1]? = t[j - 1]?
  · rw [if_pos b1]
    obtain ⟨i0, rfl⟩ : ∃ i0, i = i0 + 1 := ⟨i - 1, by omega⟩
    obtain ⟨j0, rfl⟩ : ∃ j0, j = j0 + 1 := ⟨j - 1, by omega⟩
    simp only [Nat.add_sub_cancel] at b1 ⊢
    refine ⟨_, i0, j0, rfl, by omega, by omega, by omega, ?_⟩
    rintro em ⟨t1, t2, t3, t4⟩
    refine ⟨?_, ?_, ?_, ?_⟩
    · rw [take_succ_charAt s i0 (by omega), ← t1]
      simp [EditOperation.readsFrom]
    · rw [take_succ_charAt t j0 (by omega), ← t2]
      simp [EditOperation.writesTo]
    · intro o ho hm
      rcases List.mem_cons.mp ho with e | e
      · rw [e]; exact charAt_eq_of_getElem? b1.2.2
      · exact t3 o e hm
    · rw [cellValue_succ s t i0 j0 (by omega) (by omega), if_pos b1.2.2, ← t4]
      simp [EditOperation.isEdit]
  rw [if_neg b1]
  by_cases b2 : 0 < i ∧ 0 < j ∧ cellValue s t i j = cellValue s t (i - 1) (j - 1) + 1
  · rw [if_pos b2]
    obtain ⟨i0, rfl⟩ : ∃ i0, i = i0 + 1 := ⟨i - 1, by omega⟩
    obtain ⟨j0, rfl⟩ : ∃ j0, j = j0 + 1 := ⟨j - 1, by omega⟩
    simp only [Nat.add_sub_cancel] at b2 ⊢
    refine ⟨_, i0, j0, rfl, by omega, by omega, by omega, ?_⟩
    rintro em ⟨t1, t2, t3, t4⟩
    refine ⟨?_, ?_, ?_, ?_⟩
    · rw [take_succ_charAt s i0 (by omega), ← t1]
      simp [EditOperation.readsFrom]
    · rw [take_succ_charAt t j0 (by omega), ← t2]
      simp [EditOperation.writesTo]
    · intro o ho hm
      rcases List.mem_cons.mp ho with e | e
      · rw [e] at hm; exact absurd hm (by simp)
      · exact t3 o e hm
    · rw [b2.2.2, ← t4]
      simp [EditOperation.isEdit]
  rw [if_neg b2]
  by_cases b3 : 0 < i ∧ cellValue s t i j = cellValue s t (i - 1) j + 1
  · rw [if_pos b3]
    obtain ⟨i0, rfl⟩ : ∃ i0, i = i0 + 1 := ⟨i - 1, by omega⟩
    simp only [Nat.add_sub_cancel] at b3 ⊢
    refine ⟨_, i0, j, rfl, by omega, by omega, by omega, ?_⟩
    rintro em ⟨t1, t2, t3, t4⟩
    refine ⟨?_, ?_, ?_, ?_⟩
    · rw [take_succ_charAt s i0 (by omega), ← t1]
      simp [EditOperation.readsFrom]
    · rw [← t2]
      simp [EditOperation.writesTo]
    · intro o ho hm
      rcases List.mem_cons.mp ho with e | e
      · rw [e] at hm; exact absurd hm (by simp)
      · exact t3 o e hm
    · rw [b3.2, ← t4]
      simp [EditOperation.isEdit]
  rw [if_neg b3]
  by_cases b4 : 0 < j ∧ cellValue s t i j = cellValue s t i (j - 1) + 1
  · rw [if_pos b4]
    obtain ⟨j0, rfl⟩ : ∃ j0, j = j0 + 1 := ⟨j - 1, by omega⟩
    simp only [Nat.add_sub_cancel] at b4 ⊢
    refine ⟨_, i, j0, rfl, by omega, by omega, by omega, ?_⟩
    rintro em ⟨t1, t2, t3, t4⟩
    refine ⟨?_, ?_, ?_, ?_⟩
    · rw [← t1]
      simp [EditOperation.readsFrom]
    · rw [take_succ_charAt t j0 (by omega), ← t2]
      simp [EditOperation.writesTo]
    · intro o ho hm
      rcases List.mem_cons.mp ho with e | e
      · rw [e] at hm; exact absurd hm (by simp)
      · exact t3 o e hm
    · rw [b4.2, ← t4]
      simp [EditOperation.isEdit]
  -- no branch applies: impossible for the filled table
  exfalso
  rcases Nat.eq_zero_or_pos i with hi0 | hi0
  · subst hi0
    have hj0 : 0 < j := by omega
    apply b4
    refine ⟨hj0, ?_⟩
    rw [cellValue_zero_left s t j hj, cellValue_zero_left s t (j - 1) (by omega)]
    omega
  rcases Nat.eq_zero_or_pos j with hj0 | hj0
  · subst hj0
    apply b3
    refine ⟨hi0, ?_⟩
    rw [cellValue_zero_right s t i hi, cellValue_zero_right s t (i - 1) (by omega)]
    omega
  obtain ⟨i0, rfl⟩ : ∃ i0, i = i0 + 1 := ⟨i - 1, by omega⟩
  obtain ⟨j0, rfl⟩ : ∃ j0, j = j0 + 1 := ⟨j - 1, by omega⟩
  simp only [Nat.add_sub_cancel] at b1 b2 b3 b4
  have hne : ¬ s[i0]? = t[j0]? := fun e => b1 ⟨hi0, hj0, e⟩
  have hrec := cellValue_succ s t i0 j0 (by omega) (by omega)
  rw [if_neg hne] at hrec
  have c2 : ¬ cellValue s t (i0 + 1) (j0 + 1) = cellValue s t i0 j0 + 1 :=
    fun e => b2 ⟨hi0, hj0, e⟩
  have c3 : ¬ cellValue s t (i0 + 1) (j0 + 1) = cellValue s t i0 (j0 + 1) + 1 :=
    fun e => b3 ⟨hi0, e⟩
  have c4 : ¬ cellValue s t (i0 + 1) (j0 + 1) = cellValue s t (i0 + 1) j0 + 1 :=
    fun e => b4 ⟨hj0, e⟩
  omega

/-- The loop of `reconstructPath` returns once the fuel exceeds `i + j`, and what it has
emitted is a trace from `(i, j)`. -/
theorem reconstructLoop_total (s t : Str) :
    ∀ (fuel i j : Nat) (ops : List EditOperation), i ≤ s.length → j ≤ t.length →
      i + j < fuel →
      ∃ em, reconstructLoop s t (dpTable s t) fuel i j ops = some (ops ++ em) ∧
        Trace s t i j em := by
  intro fuel
  induction fuel with
  | zero => intro i j ops _ _ h; omega
  | succ fuel ih =>
    intro i j ops hi hj hf
    rw [reconstructLoop]
    by_cases hpos : 0 < i ∨ 0 < j
    · rw [if_pos hpos]
      obtain ⟨o, i1, j1, hstep, hlt, hi1, hj1, htr⟩ := reconstructStep_spec s t i j ops hi hj hpos
      rw [hstep]
      obtain ⟨em, hem, hT⟩ := ih i1 j1 (ops ++ [o]) hi1 hj1 (by omega)
      refine ⟨o :: em, ?_, htr em hT⟩
      simp only at hem ⊢
      rw [hem]
      simp
    · rw [if_neg hpos]
      have e1 : i = 0 := by omega
      have e2 : j = 0 := by omega
      subst e1 e2
      exact ⟨[], by simp, trace_nil s t⟩

theorem reconstructLoop_mono (s t : Str) (dp : Table) :
    ∀ (fuel i j : Nat) (ops r : List EditOperation),
      reconstructLoop s t dp fuel i j ops = some r →
      reconstructLoop s t dp (fuel + 1) i j ops = some r := by
  intro fuel
  induction fuel with
  | zero => intro i j ops r h; simp [reconstructLoop] at h
  | succ fuel ih =>
    intro i j ops r h
    rw [reconstructLoop] at h ⊢
    split
    · rename_i hpos
      rw [if_pos hpos] at h
      exact ih _ _ _ _ h
    · rename_i hpos
      rw [if_neg hpos] at h
      exact h

theorem reconstructLoop_mono_le (s t : Str) (dp : Table) {fuel fuel1 : Nat} (hle : fuel ≤ fuel1)
    {i j : Nat} {ops r : List EditOperation}
    (h : reconstructLoop s t dp fuel i j ops = some r) :
    reconstructLoop s t dp fuel1 i j ops = some r := by
  induction hle with
  | refl => exact h
  | step _ ih => exact reconstructLoop_mono s t dp _ _ _ _ _ ih

/-- Total correctness of `completeEditDistance`. -/
theorem completeEditDistance_total (s t : Str) :
    ∃ r, (∀ fuel, reconstructFuel s t ≤ fuel → completeEditDistance fuel s t = some r) ∧
      r.distance = (lev s t : Int) ∧ r.dp_matrix = dpTable s t ∧
      Trace s t s.length t.length r.operations.reverse := by
  obtain ⟨em, hem, hT⟩ := reconstructLoop_total s t (reconstructFuel s t) s.length t.length []
    (le_refl _) (le_refl _) (by unfold reconstructFuel; omega)
  refine ⟨⟨tget (dpTable s t) s.length t.length, em.reverse, dpTable s t⟩, ?_, ?_, rfl, ?_⟩
  · intro fuel hf
    unfold completeEditDistance reconstructPath
    rw [reconstructLoop_mono_le s t _ hf hem]
    simp
  · exact basicEditDistance_eq_lev s t
  · simpa using hT

/-! ### Batch distances -/

theorem stdSort_perm {α : Type} (tie : Nat → Nat) (comp : α → α → Bool) (l : List α) :
    (stdSort tie comp l).Perm l := by
  unfold stdSort
  have h := (List.mergeSort_perm (l.enum.map (fun e => (tie e.1, e.2)))
    (fun a b => comp a.2 b.2 || (!comp b.2 a.2 && decide (a.1 ≤ b.1)))).map Prod.snd
  have e : (l.enum.map (fun e => (tie e.1, e.2))).map Prod.snd = l := by
    rw [List.map_map]
    exact List.enum_map_snd l
  rw [e] at h
  exact h

/-- The sort with the comparison `a.second < b.second` leaves the second components in
non-decreasing order. -/
theorem stdSort_sorted (tie : Nat → Nat) (l : List (Str × Int)) :
    (stdSort tie (fun a b => decide (a.2 < b.2)) l).Pairwise (fun a b => a.2 ≤ b.2) := by
  unfold stdSort
  rw [List.pairwise_map]
  have h : List.Pairwise
      (fun (a b : Nat × Str × Int) =>
        (decide (a.2.2 < b.2.2) || (!decide (b.2.2 < a.2.2) && decide (a.1 ≤ b.1))) = true)
      ((l.enum.map (fun e => (tie e.1, e.2))).mergeSort
        (fun a b => decide (a.2.2 < b.2.2) || (!decide (b.2.2 < a.2.2) && decide (a.1 ≤ b.1)))) :=
    List.sorted_mergeSort
      (by
        intro a b c h1 h2
        simp only [Bool.or_eq_true, decide_eq_true_eq, Bool.and_eq_true, Bool.not_eq_true',
          decide_eq_false_iff_not] at h1 h2 ⊢
        omega)
      (by
        intro a b
        simp only [Bool.or_eq_true, decide_eq_true_eq, Bool.and_eq_true, Bool.not_eq_true',
          decide_eq_false_iff_not]
        omega)
      _
  refine h.imp ?_
  intro a b hab
  simp only [Bool.or_eq_true, decide_eq_true_eq, Bool.and_eq_true, Bool.not_eq_true',
    decide_eq_false_iff_not] at hab
  omega

/-! ### The claims C21 to C30 -/

/-- C21. For every string `s` and every lowercase string `t` (so for all lowercase `s`, `t`),
`t` is an element of `generateNextStates s` if and only if the Levenshtein distance between
`s` and `t` (the reference recursion, equally the value of `basicEditDistance`) is exactly 1;
and `s` is never in its own neighbour list. -/
theorem C21_neighbours_are_distance_one (s t : Str) (ht : Lower t) :
    (t ∈ generateNextStates s ↔ lev s t = 1) ∧
      (t ∈ generateNextStates s ↔ basicEditDistance s t = 1) ∧
      s ∉ generateNextStates s := by
  have h : t ∈ generateNextStates s ↔ lev s t = 1 :=
    ⟨lev_eq_one_of_mem, mem_generateNextStates_of_lev ht⟩
  refine ⟨h, ?_, not_mem_generateNextStates_self s⟩
  rw [h, basicEditDistance_eq_lev]
  exact ⟨fun e => by rw [e]; rfl, fun e => by exact_mod_cast e⟩

set_option maxRecDepth 1000000 in
theorem C21_witness :
    Lower "bat".toList ∧
      ("bat".toList ∈ generateNextStates "cat".toList ↔ lev "cat".toList "bat".toList = 1) ∧
      ("bat".toList ∈ generateNextStates "cat".toList ↔
        basicEditDistance "cat".toList "bat".toList = 1) ∧
      "cat".toList ∉ generateNextStates "cat".toList :=
  ⟨by decide, C21_neighbours_are_distance_one "cat".toList "bat".toList (by decide)⟩

/-- C22, refuted as stated: for `s = "A"` the substitution loop offers all 26 letters (none of
them is the character already there), so there are 26 substitution candidates, not 25, and the
neighbour list has 79 elements, not `52 * 1 + 26 = 78`. -/
theorem C22_counterexample :
    (substitutions "A".toList).length = 26 ∧ (generateNextStates "A".toList).length = 79 ∧
      (generateNextStates "A".toList).length ≠ 52 * "A".toList.length + 26 := by
  decide

/-- C22, amended. For every string `s`, `generateNextStates s` consists of `len s` deletion
candidates, `(len s + 1) * 26` insertion candidates and `26 * len s` minus the number of
characters of `s` in `a .. z` substitution candidates; for a lowercase `s` these are
`len s * 25` substitution candidates and `52 * len s + 26` candidates in all. -/
theorem C22_neighbour_counts (s : Str) :
    (deletions s).length = s.length ∧ (insertions s).length = (s.length + 1) * 26 ∧
      (substitutions s).length + s.countP (fun c => decide (c ∈ alphabet)) = 26 * s.length ∧
      alphabet.length = 26 ∧
      (Lower s → (substitutions s).length = s.length * 25 ∧
        (generateNextStates s).length = 52 * s.length + 26) := by
  have h1 := length_deletions s
  have h2 := length_insertions s
  have h3 := length_substitutions s
  refine ⟨h1, h2, h3, alphabet_length, fun hs => ?_⟩
  rw [countP_lower hs] at h3
  refine ⟨by omega, ?_⟩
  unfold generateNextStates
  rw [List.length_append, List.length_append]
  omega

theorem C22_witness :
    Lower "kitten".toList ∧ (substitutions "kitten".toList).length = 6 * 25 ∧
      (generateNextStates "kitten".toList).length = 52 * 6 + 26 :=
  ⟨by decide, (C22_neighbour_counts "kitten".toList).2.2.2.2 (by decide)⟩

/-- C23. The neighbour list has a fixed order: for every string `s`, `generateNextStates s` is
the concatenation of the deletions at the positions `ds`, the insertions at the keys `is` and
the substitutions at the keys `ss`, where `ds` lists exactly the positions `0 .. len s - 1` in
ascending order, `is` lists exactly the pairs (position `0 .. len s`, letter of `a .. z`) in
ascending order by position and then by letter, and `ss` lists exactly the pairs (position
`0 .. len s - 1`, letter of `a .. z` other than the character already there) in the same
order; the letters `a .. z` themselves are listed in ascending order. -/
theorem C23_neighbour_order (s : Str) :
    ∃ (ds : List Nat) (is ss : List (Nat × Char)),
      generateNextStates s =
        ds.map (fun i => s.eraseIdx i) ++ is.map (fun k => s.insertIdx k.1 k.2) ++
          ss.map (fun k => s.set k.1 k.2) ∧
      ds.Pairwise (fun a b => a < b) ∧ (∀ i, i ∈ ds ↔ i < s.length) ∧
      is.Pairwise keyLt ∧ (∀ k, k ∈ is ↔ k.1 ≤ s.length ∧ k.2 ∈ alphabet) ∧
      ss.Pairwise keyLt ∧
      (∀ k, k ∈ ss ↔ k.1 < s.length ∧ k.2 ∈ alphabet ∧ s[k.1]? ≠ some k.2) ∧
      alphabet.Pairwise (fun a b => a < b) := by
  refine ⟨List.range s.length,
    (List.range (s.length + 1)).flatMap (fun i => alphabet.map (fun c => (i, c))),
    (List.range s.length).flatMap (fun i =>
      (alphabet.filter (fun c => decide (s[i]? ≠ some c))).map (fun c => (i, c))),
    ?_, List.pairwise_lt_range _, fun i => List.mem_range, ?_, ?_, ?_, ?_, alphabet_ascending⟩
  · rw [← insertions_eq_map, ← substitutions_eq_map]
    rfl
  · exact pairwise_keys _ (fun _ => alphabet) (fun _ => alphabet_ascending)
  · rintro ⟨i, c⟩
    simp only [List.mem_flatMap, List.mem_range, List.mem_map, Prod.mk.injEq]
    constructor
    · rintro ⟨i1, hi1, c1, hc1, rfl, rfl⟩
      exact ⟨by omega, hc1⟩
    · rintro ⟨hi, hc⟩
      exact ⟨i, by omega, c, hc, rfl, rfl⟩
  · exact pairwise_keys _ (fun i => alphabet.filter (fun c => decide (s[i]? ≠ some c)))
      (fun _ => alphabet_ascending.filter _)
  · rintro ⟨i, c⟩
    simp only [List.mem_flatMap, List.mem_range, List.mem_map, List.mem_filter,
      decide_eq_true_eq, Prod.mk.injEq]
    constructor
    · rintro ⟨i1, hi1, c1, ⟨hc1, hne⟩, rfl, rfl⟩
      exact ⟨hi1, hc1, hne⟩
    · rintro ⟨hi, hc, hne⟩
      exact ⟨i, hi, c, ⟨hc, hne⟩, rfl, rfl⟩

/-- C24. For `start = "a"` and `target = "A"`: no walk of any length along
`generateNextStates` leads from `start` to `target`; `limitedBFS` terminates for every bound
`k` with `min_distance = -1`; `basicBFSEditDistance` returns for no number of loop iterations;
and yet `basicEditDistance "a" "A"` is 1. -/
theorem C24_uppercase_target_unreachable :
    (∀ n, ¬ Walk n "a".toList "A".toList) ∧
      (∀ k : Int, ∃ r, (∀ fuel, limitedFuel "a".toList k ≤ fuel →
        limitedBFS fuel "a".toList "A".toList k = some r) ∧ r.min_distance = -1) ∧
      (∀ fuel, basicBFSEditDistance fuel "a".toList "A".toList = none) ∧
      basicEditDistance "a".toList "A".toList = 1 := by
  have hs : Lower "a".toList := by decide
  have ht : ¬ Lower "A".toList := by decide
  refine ⟨fun n h => ht (lower_of_walk h hs), fun k => ?_,
    fun fuel => basicBFS_never_returns hs ht fuel, by decide⟩
  obtain ⟨r, hr, hn⟩ := limitedBFS_unreachable hs ht k
  exact ⟨r, hr, hn.1⟩

/-- C25. For every start and every lowercase target (so for every pair of lowercase strings)
the loop of `basicBFSEditDistance` ends within `basicFuel start target` iterations with a
result `r` such that `0 ≤ r ≤ max (len start) (len target)`; in particular `r` is not the `-1`
of the fall-through `return -1`, which is therefore not reached. -/
theorem C25_basicBFS_terminates_bounded (start target : Str) (ht : Lower target) :
    ∃ r : Int, (∀ fuel, basicFuel start target ≤ fuel →
        basicBFSEditDistance fuel start target = some r) ∧
      0 ≤ r ∧ r ≤ (max start.length target.length : Nat) ∧ r ≠ -1 := by
  refine ⟨(lev start target : Int), fun fuel hf => basicBFS_total ht fuel hf, ?_, ?_, ?_⟩
  · exact Int.natCast_nonneg _
  · exact_mod_cast lev_le_max start target
  · have : (0 : Int) ≤ lev start target := Int.natCast_nonneg _
    omega

theorem C25_witness :
    Lower "sitting".toList ∧
      ∃ r : Int, (∀ fuel, basicFuel "kitten".toList "sitting".toList ≤ fuel →
          basicBFSEditDistance fuel "kitten".toList "sitting".toList = some r) ∧
        0 ≤ r ∧ r ≤ (max "kitten".toList.length "sitting".toList.length : Nat) ∧ r ≠ -1 :=
  ⟨by decide, C25_basicBFS_terminates_bounded _ _ (by decide)⟩

set_option maxRecDepth 1000000 in
/-- C26, the code at the failing input: `basicEditDistance "algorithm" "logarithm"` is 3,
while the tenth entry of `getClassicTestCases` expects 2; the verdicts of the thirteen cases
are twelve `[PASS]` and, for that entry, `[FAIL]`. -/
theorem C26_algorithm_logarithm_fails :
    basicEditDistance "algorithm".toList "logarithm".toList = 3 ∧
      getClassicTestCases.map TestCase.expected_distance =
        [3, 3, 3, 0, 0, 1, 1, 1, 5, 2, 3, 3, 6] ∧
      getClassicTestCases.map testPasses =
        [true, true, true, true, true, true, true, true, true, false, true, true, true] := by
  decide

/-- C27. For all strings `str1`, `str2` (any characters, either one the longer)
`spaceOptimizedEditDistance str1 str2 = basicEditDistance str1 str2`. -/
theorem C27_spaceOptimized_eq_basic (str1 str2 : Str) :
    spaceOptimizedEditDistance str1 str2 = basicEditDistance str1 str2 := by
  rw [spaceOptimizedEditDistance_eq_lev, basicEditDistance_eq_lev]

/-- C28. For all strings `str1`, `str2`: `reconstructPath` on the filled table terminates
(within `reconstructFuel str1 str2` loop iterations), `completeEditDistance` returns a result
whose `distance` is `basicEditDistance str1 str2`; the `from_char` of its `MATCH`, `REPLACE`
and `DELETE` operations spell `str1` in order, the `to_char` of its `MATCH`, `REPLACE` and
`INSERT` operations spell `str2` in order, every `MATCH` has `from_char = to_char`, and the
number of operations other than `MATCH` is `distance`. -/
theorem C28_completeEditDistance_script (str1 str2 : Str) :
    ∃ r, (∀ fuel, reconstructFuel str1 str2 ≤ fuel →
        completeEditDistance fuel str1 str2 = some r ∧
        reconstructPath fuel str1 str2 (dpTable str1 str2) = some r.operations) ∧
      r.distance = basicEditDistance str1 str2 ∧
      (r.operations.filter EditOperation.readsFrom).map EditOperation.from_char = str1 ∧
      (r.operations.filter EditOperation.writesTo).map EditOperation.to_char = str2 ∧
      (∀ o ∈ r.operations, o.op = Operation.MATCH → o.from_char = o.to_char) ∧
      (((r.operations.filter EditOperation.isEdit).length : Nat) : Int) = r.distance := by
  obtain ⟨r, hr, hd, _, h1, h2, h3, h4⟩ := completeEditDistance_total str1 str2
  refine ⟨r, fun fuel hf => ⟨hr fuel hf, ?_⟩, by rw [basicEditDistance_eq_lev]; exact hd,
    ?_, ?_, ?_, ?_⟩
  · have h := hr fuel hf
    unfold completeEditDistance at h
    cases hp : reconstructPath fuel str1 str2 (dpTable str1 str2) with
    | none => rw [hp] at h; simp at h
    | some ops =>
      rw [hp] at h
      simp only [Option.map_some'] at h
      rw [← Option.some.inj h]
  · rw [List.filter_reverse, List.map_reverse, List.reverse_reverse, List.take_length] at h1
    exact h1
  · rw [List.filter_reverse, List.map_reverse, List.reverse_reverse, List.take_length] at h2
    exact h2
  · intro o ho
    exact h3 o (List.mem_reverse.mpr ho)
  · rw [List.filter_reverse, List.length_reverse] at h4
    rw [h4, hd]
    unfold cellValue
    rw [List.take_length, List.take_length, lev_reverse]

/-- C29. For every target and every list of candidates, and for every way `tie` in which the
sort orders elements of equal distance, `batchEditDistance` returns a list that is in
non-decreasing order of its distance component and is a permutation of the list of the pairs
`(c, basicEditDistance target c)` for `c` in `candidates`; in particular it has the same
length. -/
theorem C29_batch_sorted_permutation (tie : Nat → Nat) (target : Str) (candidates : List Str) :
    (batchEditDistance tie target candidates).Pairwise (fun a b => a.2 ≤ b.2) ∧
      (batchEditDistance tie target candidates).Perm
        (candidates.map (fun c => (c, basicEditDistance target c))) ∧
      (batchEditDistance tie target candidates).length = candidates.length := by
  have hp := stdSort_perm tie (fun (a b : Str × Int) => decide (a.2 < b.2))
    (candidates.map (fun c => (c, basicEditDistance target c)))
  refine ⟨stdSort_sorted tie _, hp, ?_⟩
  have := hp.length_eq
  simpa using this

/-- C30. For all strings and all non-negative integer costs, `weightedEditDistance` equals the
weighted reference recursion `wlev` (equal characters cost 0, otherwise the minimum of delete,
insert and substitute), which is the minimum total cost of an edit script from `str1` to
`str2`: some script has that cost and no script is cheaper; and with the default costs
`(1, 1, 1)` it equals `basicEditDistance str1 str2`. -/
theorem C30_weighted_is_minimum_cost (str1 str2 : Str) (insert_cost delete_cost replace_cost : Int)
    (hi : 0 ≤ insert_cost) (hd : 0 ≤ delete_cost) (hr : 0 ≤ replace_cost) :
    weightedEditDistance str1 str2 insert_cost delete_cost replace_cost =
        wlev ⟨insert_cost, delete_cost, replace_cost⟩ str1 str2 ∧
      WScript ⟨insert_cost, delete_cost, replace_cost⟩
        (weightedEditDistance str1 str2 insert_cost delete_cost replace_cost) str1 str2 ∧
      (∀ n, WScript ⟨insert_cost, delete_cost, replace_cost⟩ n str1 str2 →
        weightedEditDistance str1 str2 insert_cost delete_cost replace_cost ≤ n) ∧
      weightedEditDistance str1 str2 1 1 1 = basicEditDistance str1 str2 := by
  have hk : Costs.NonNeg ⟨insert_cost, delete_cost, replace_cost⟩ := ⟨hi, hd, hr⟩
  have h := weightedEditDistance_eq_wlev hk str1 str2
  simp only at h
  refine ⟨h, ?_, ?_, ?_⟩
  · rw [h]; exact wscript_of_wlev _ str1 str2
  · intro n hn
    rw [h]; exact wlev_le_of_script hk hn
  · have h1 := weightedEditDistance_eq_wlev (k := ⟨1, 1, 1⟩)
      ⟨by decide, by decide, by decide⟩ str1 str2
    simp only at h1
    rw [h1, wlev_unit, basicEditDistance_eq_lev]

set_option maxRecDepth 1000000 in
theorem C30_witness :
    (0 : Int) ≤ 2 ∧ (0 : Int) ≤ 3 ∧ (0 : Int) ≤ 10 ∧
      weightedEditDistance "kitten".toList "sitting".toList 2 3 10 =
        wlev ⟨2, 3, 10⟩ "kitten".toList "sitting".toList ∧
      WScript ⟨2, 3, 10⟩ (weightedEditDistance "kitten".toList "sitting".toList 2 3 10)
        "kitten".toList "sitting".toList ∧
      (∀ n, WScript ⟨2, 3, 10⟩ n "kitten".toList "sitting".toList →
        weightedEditDistance "kitten".toList "sitting".toList 2 3 10 ≤ n) ∧
      weightedEditDistance "kitten".toList "sitting".toList 1 1 1 =
        basicEditDistance "kitten".toList "sitting".toList :=
  ⟨by decide, by decide, by decide,
    C30_weighted_is_minimum_cost "kitten".toList "sitting".toList 2 3 10 (by decide) (by decide)
      (by decide)⟩

/-! ### Heuristic best-first search: states of the run, paths that are never recorded -/

theorem optimizedLoop_shift {target : Str} {fuel : Nat} {tie : Nat → Nat} {σ : PSearch}
    {r : BFSResult} (h : optimizedLoop target fuel tie σ = some r) :
    optimizedLoop target fuel (fun k => tie (k + 1)) (optimizedIter target (tie 0) σ) =
      some r := by
  cases fuel with
  | zero => simp [optimizedLoop] at h
  | succ fuel =>
    cases hq : σ.pq with
    | nil =>
      have e : optimizedIter target (tie 0) σ = σ := by
        unfold optimizedIter
        rw [hq]
      rw [e]
      rw [optimizedLoop, hq] at h ⊢
      exact h
    | cons first tl =>
      rw [optimizedLoop, hq] at h
      exact optimizedLoop_mono _ _ _ _ h

/-- A run that returns passes through the state after `n` iterations. -/
theorem optimizedLoop_after {target start : Str} {tie : Nat → Nat} {fuel : Nat}
    {r : BFSResult} (h : optimizedLoop target fuel tie (optimizedInit start target) = some r) :
    ∀ n, optimizedLoop target fuel (fun k => tie (k + n)) (optimizedAfter target start tie n) =
      some r := by
  intro n
  induction n with
  | zero => exact h
  | succ n ih =>
    have := optimizedLoop_shift ih
    simp only [Nat.zero_add] at this
    have e : (fun k => tie (k + 1 + n)) = fun k => tie (k + (n + 1)) := by
      funext k
      congr 1
      omega
    rw [e] at this
    exact this

theorem phead_after {start target : Str} (ht : Lower target) (hne : start ≠ target)
    (tie : Nat → Nat) (n : Nat) : PHead start target (optimizedAfter target start tie n) := by
  induction n with
  | zero => exact PHead.phead_init hne
  | succ n ih => exact ih.phead_iter ht (tie n)

/-! ### Heuristic best-first search: one entry per string and cost -/

theorem OnePerCost.one_visit {target : Str} {σ : PSearch} {hist : List State} {cur : State}
    (h : OnePerCost target σ hist) (hc : cur ∈ hist) (w : Str) :
    ∃ hist1, OnePerCost target (optimizedVisit target cur σ w) hist1 ∧ cur ∈ hist1 := by
  unfold optimizedVisit
  split
  · refine ⟨hist, ⟨h.queued, ?_, h.shape, h.single, h.known⟩, hc⟩
    intro p hp
    rcases recordPath_mem_cases hp with hp | hp
    · exact h.recorded p hp
    · exact ⟨cur, hc, hp⟩
  · split
    · rename_i hacc
      have hnew : ∀ e ∈ hist, e.current_string = w → cur.cost + 1 < e.cost ∧
          cur.cost + 1 ≤ e.cost := by
        intro e he hw
        obtain ⟨v, hv, hle⟩ := h.known e he
        rw [hw] at hv
        unfold optimizedAccepts at hacc
        rw [hv] at hacc
        simp only [decide_eq_true_eq] at hacc
        constructor <;> omega
      refine ⟨⟨w, cur.cost + 1, cur.path ++ [w]⟩ :: hist, ⟨?_, ?_, ?_, ?_, ?_⟩,
        List.mem_cons_of_mem _ hc⟩
      · intro pe hpe
        rcases List.mem_append.mp hpe with hpe | hpe
        · exact List.mem_cons_of_mem _ (h.queued pe hpe)
        · rw [List.mem_singleton] at hpe
          subst hpe
          exact List.mem_cons_self _ _
      · intro p hp
        obtain ⟨e, he, hpe⟩ := h.recorded p hp
        exact ⟨e, List.mem_cons_of_mem _ he, hpe⟩
      · intro e he
        rcases List.mem_cons.mp he with he | he
        · subst he
          have := (h.shape cur hc).2
          refine ⟨by simp, ?_⟩
          simp only [List.length_append, List.length_singleton]
          push_cast
          omega
        · exact h.shape e he
      · intro e he e1 he1 hs hcost
        rcases List.mem_cons.mp he with he | he <;> rcases List.mem_cons.mp he1 with he1 | he1
        · rw [he, he1]
        · subst he
          have := (hnew e1 he1 hs.symm).1
          have hc2 : cur.cost + 1 = e1.cost := hcost
          exfalso
          omega
        · subst he1
          have := (hnew e he hs).1
          have hc2 : e.cost = cur.cost + 1 := hcost
          exfalso
          omega
        · exact h.single e he e1 he1 hs hcost
      · intro e he
        rw [costOf_cons]
        rcases List.mem_cons.mp he with he | he
        · subst he
          exact ⟨cur.cost + 1, by simp, le_refl _⟩
        · by_cases hw : w = e.current_string
          · rw [if_pos hw]
            exact ⟨cur.cost + 1, rfl, (hnew e he hw.symm).2⟩
          · rw [if_neg hw]
            exact h.known e he
    · exact ⟨hist, h, hc⟩

theorem OnePerCost.one_foldl {target : Str} {cur : State} : ∀ (l : List Str) (σ : PSearch)
    (hist : List State), OnePerCost target σ hist → cur ∈ hist →
    ∃ hist1, OnePerCost target (l.foldl (optimizedVisit target cur) σ) hist1 := by
  intro l
  induction l with
  | nil => intro σ hist h _; exact ⟨hist, h⟩
  | cons w l ih =>
    intro σ hist h hc
    obtain ⟨hist1, h1, hc1⟩ := h.one_visit hc w
    exact ih _ hist1 h1 hc1

theorem OnePerCost.one_iter {target : Str} {σ : PSearch} {hist : List State}
    (h : OnePerCost target σ hist) (choice : Nat) :
    ∃ hist1, OnePerCost target (optimizedIter target choice σ) hist1 := by
  unfold optimizedIter
  split
  · exact ⟨hist, h⟩
  · rename_i first tl hq
    obtain ⟨hi, _⟩ := pickTop_spec choice first σ.pq (by rw [hq]; simp)
    have hmem : (pickTop choice first σ.pq).2 ∈ σ.pq := List.getElem?_mem hi
    have hcur : (pickTop choice first σ.pq).2.2 ∈ hist := h.queued _ hmem
    have h1 : OnePerCost target
        ⟨countNode σ.result σ.pq.length, σ.best_cost,
          σ.pq.eraseIdx (pickTop choice first σ.pq).1⟩ hist :=
      ⟨fun pe hpe => h.queued pe (List.mem_of_mem_eraseIdx hpe), h.recorded, h.shape,
        h.single, h.known⟩
    simp only [hq] at h1 hcur ⊢
    split
    · exact ⟨hist, h1⟩
    · exact OnePerCost.one_foldl _ _ hist h1 hcur

theorem onePerCost_init (start target : Str) :
    OnePerCost target (optimizedInit start target) [⟨start, 0, [start]⟩] := by
  refine ⟨?_, ?_, ?_, ?_, ?_⟩
  · intro pe hpe
    simp only [optimizedInit, List.mem_singleton] at hpe
    subst hpe
    exact List.mem_singleton_self _
  · intro p hp
    simp [optimizedInit, emptyResult] at hp
  · intro e he
    rw [List.mem_singleton] at he
    subst he
    simp
  · intro e he e1 he1 _ _
    rw [List.mem_singleton] at he he1
    rw [he, he1]
  · intro e he
    rw [List.mem_singleton] at he
    subst he
    exact ⟨0, by simp [optimizedInit, costOf], le_refl _⟩

theorem onePerCost_loop {target : Str} : ∀ (fuel : Nat) (tie : Nat → Nat) (σ : PSearch)
    (hist : List State) (r : BFSResult), OnePerCost target σ hist →
    optimizedLoop target fuel tie σ = some r →
    ∃ hist1 σ1, σ1.result = r ∧ OnePerCost target σ1 hist1 := by
  intro fuel
  induction fuel with
  | zero => intro tie σ hist r _ h; simp [optimizedLoop] at h
  | succ fuel ih =>
    intro tie σ hist r hj hr
    cases hq : σ.pq with
    | nil =>
      rw [optimizedLoop, hq] at hr
      exact ⟨hist, σ, Option.some.inj hr, hj⟩
    | cons first tl =>
      rw [optimizedLoop, hq] at hr
      obtain ⟨hist1, h1⟩ := hj.one_iter (tie 0)
      exact ih _ _ hist1 r h1 hr

/-- Two recorded paths of the same length with the same last state before the target are the
same path: the heuristic search records at most one path through each string and cost. -/
theorem optimized_paths_single {tie : Nat → Nat} {fuel : Nat} {start target : Str}
    {r : BFSResult} (hne : start ≠ target)
    (h : optimizedBFSEditDistance tie fuel start target = some r) :
    ∀ p ∈ r.all_paths, ∀ q ∈ r.all_paths, p.length = q.length →
      p.dropLast.getLast? = q.dropLast.getLast? → p = q := by
  unfold optimizedBFSEditDistance at h
  rw [if_neg hne] at h
  obtain ⟨hist, σ1, e1, hj⟩ :=
    onePerCost_loop fuel tie _ _ r (onePerCost_init start target) h
  subst e1
  intro p hp q hq hlen hlast
  obtain ⟨e, he, rfl⟩ := hj.recorded p hp
  obtain ⟨e2, he2, rfl⟩ := hj.recorded q hq
  simp only [List.dropLast_concat] at hlast
  have s1 := hj.shape e he
  have s2 := hj.shape e2 he2
  rw [s1.1, s2.1] at hlast
  simp only [List.length_append, List.length_singleton] at hlen
  have hcost : e.cost = e2.cost := by
    have a := s1.2
    have b := s2.2
    have : (e.path.length : Int) = e2.path.length := by
      have : e.path.length = e2.path.length := by omega
      rw [this]
    omega
  rw [hj.single e he e2 he2 (Option.some.inj hlast) hcost]

/-! ### Heuristic best-first search: the recorded distance only goes down -/

theorem notRaised_visit {target : Str} {cur : State} (hc : 0 ≤ cur.cost) (σ : PSearch)
    (w : Str) :
    NotRaised σ.result.min_distance (optimizedVisit target cur σ w).result.min_distance := by
  unfold optimizedVisit
  split
  · simp only
    rw [recordPath_min]
    intro hm
    split
    · rename_i hcond
      rcases hcond with e | e
      · exact absurd e hm
      · exact ⟨by omega, by omega⟩
    · exact ⟨hm, le_refl _⟩
  · split
    · exact fun hm => ⟨hm, le_refl _⟩
    · exact fun hm => ⟨hm, le_refl _⟩

theorem notRaised_foldl (target : Str) {cur : State} (hc : 0 ≤ cur.cost) :
    ∀ (l : List Str) (σ : PSearch),
      NotRaised σ.result.min_distance
        (l.foldl (optimizedVisit target cur) σ).result.min_distance := by
  intro l
  induction l with
  | nil => intro σ; exact fun hm => ⟨hm, le_refl _⟩
  | cons w l ih =>
    intro σ
    intro hm
    obtain ⟨a1, a2⟩ := notRaised_visit hc σ w hm
    obtain ⟨b1, b2⟩ := ih (optimizedVisit target cur σ w) a1
    exact ⟨b1, by simp only [List.foldl_cons]; omega⟩

theorem notRaised_iter {start target : Str} (choice : Nat) {σ : PSearch}
    (h : PHead start target σ) :
    NotRaised σ.result.min_distance (optimizedIter target choice σ).result.min_distance := by
  unfold optimizedIter
  split
  · exact fun hm => ⟨hm, le_refl _⟩
  · rename_i first tl hq
    obtain ⟨hi, _⟩ := pickTop_spec choice first σ.pq (by rw [hq]; simp)
    have hmem : (pickTop choice first σ.pq).2 ∈ σ.pq := List.getElem?_mem hi
    have hc := (h.ok.entries _ hmem).1.entry_cost_nonneg
    simp only
    split
    · exact fun hm => ⟨hm, le_refl _⟩
    · exact notRaised_foldl target hc _
        ⟨countNode σ.result σ.pq.length, σ.best_cost,
          σ.pq.eraseIdx (pickTop choice first σ.pq).1⟩

/-! ### Heuristic best-first search: a first discovery above the distance -/

theorem optimizedVisit_result (target : Str) (cur : State) (σ : PSearch) (w : Str) :
    (optimizedVisit target cur σ w).result =
      if w = target then recordPath σ.result (cur.cost + 1) (cur.path ++ [target])
      else σ.result := by
  unfold optimizedVisit
  split
  · rfl
  · split <;> rfl

/-- The result record after the loop over the neighbours: one `recordPath` for each
occurrence of the target among them. -/
theorem optimizedFold_result (target : Str) (cur : State) : ∀ (l : List Str) (σ : PSearch),
    (l.foldl (optimizedVisit target cur) σ).result =
      (l.filter (fun w => decide (w = target))).foldl
        (fun r _ => recordPath r (cur.cost + 1) (cur.path ++ [target])) σ.result := by
  intro l
  induction l with
  | nil => intro σ; rfl
  | cons w l ih =>
    intro σ
    rw [List.foldl_cons, ih, optimizedVisit_result, List.filter_cons]
    by_cases hw : w = target
    · simp [hw]
    · simp [hw]

/-- An iteration that starts with `min_distance` unset and pops an entry with exactly one
neighbour equal to the target records `cost + 1` and the path of that entry. -/
theorem optimizedIter_first_record {target : Str} {choice : Nat} {σ : PSearch}
    {d : Int × State} {s : Str} {c : Int} {p : List Str}
    (hq : σ.pq.isEmpty = false) (hmin : σ.result.min_distance = -1)
    (hs : (pickTop choice (σ.pq.headD d) σ.pq).2.2.current_string = s)
    (hc : (pickTop choice (σ.pq.headD d) σ.pq).2.2.cost = c)
    (hp : (pickTop choice (σ.pq.headD d) σ.pq).2.2.path = p)
    (hone : (generateNextStates s).filter (fun w => decide (w = target)) = [target]) :
    (optimizedIter target choice σ).result.min_distance = c + 1 ∧
      (optimizedIter target choice σ).result.all_paths = [p ++ [target]] := by
  unfold optimizedIter
  cases hpq : σ.pq with
  | nil => rw [hpq] at hq; simp at hq
  | cons first tl =>
    rw [hpq] at hs hc hp
    simp only [List.headD_cons] at hs hc hp
    simp only []
    have hm : (countNode σ.result (first :: tl).length).min_distance = -1 := hmin
    rw [if_neg (by rw [hm]; simp), optimizedFold_result, hs, hone, hc, hp]
    simp only [List.foldl_cons, List.foldl_nil]
    unfold recordPath
    rw [if_pos (Or.inl hm)]
    exact ⟨rfl, rfl⟩

set_option maxRecDepth 1000000 in
/-- The run from `""` towards `"ab"` in which the second pop takes `"c"`: after two iterations
nothing is recorded, and the entry popped next (the first of the candidates) is `"ac"` with
cost 2. -/
theorem second_state_ab :
    (optimizedAfter "ab".toList "".toList (fun k => if k = 1 then 2 else 0) 2).result.min_distance
        = -1 ∧
      (optimizedAfter "ab".toList "".toList (fun k => if k = 1 then 2 else 0) 2).pq.isEmpty
        = false ∧
      (pickTop 0
        ((optimizedAfter "ab".toList "".toList (fun k => if k = 1 then 2 else 0) 2).pq.headD
          (0, ⟨[], 0, []⟩))
        (optimizedAfter "ab".toList "".toList (fun k => if k = 1 then 2 else 0)
          2).pq).2.2.current_string = "ac".toList ∧
      (pickTop 0
        ((optimizedAfter "ab".toList "".toList (fun k => if k = 1 then 2 else 0) 2).pq.headD
          (0, ⟨[], 0, []⟩))
        (optimizedAfter "ab".toList "".toList (fun k => if k = 1 then 2 else 0)
          2).pq).2.2.cost = 2 ∧
      (pickTop 0
        ((optimizedAfter "ab".toList "".toList (fun k => if k = 1 then 2 else 0) 2).pq.headD
          (0, ⟨[], 0, []⟩))
        (optimizedAfter "ab".toList "".toList (fun k => if k = 1 then 2 else 0)
          2).pq).2.2.path = ["".toList, "c".toList, "ac".toList] := by
  decide!

set_option maxRecDepth 1000000 in
/-- In that run the third iteration records the distance 3 with the path `"", c, ac, ab`. -/
theorem third_iteration_ab :
    (optimizedAfter "ab".toList "".toList (fun k => if k = 1 then 2 else 0) 2).result.min_distance
        = -1 ∧
      (optimizedAfter "ab".toList "".toList (fun k => if k = 1 then 2 else 0) 3).result.min_distance
        = 3 ∧
      (optimizedAfter "ab".toList "".toList (fun k => if k = 1 then 2 else 0) 3).result.all_paths
        = [["".toList, "c".toList, "ac".toList, "ab".toList]] := by
  obtain ⟨h1, h2, h3, h4, h5⟩ := second_state_ab
  have hone : (generateNextStates "ac".toList).filter (fun w => decide (w = "ab".toList)) =
      ["ab".toList] := by decide
  have h := optimizedIter_first_record h2 h1 h3 h4 h5 hone
  exact ⟨h1, h.1, h.2⟩

/-! ### Depth-bounded search: termination on every input -/

theorem limitedBFS_terminates (start target : Str) (max_depth : Int) :
    ∃ r, ∀ fuel, limitedFuel start max_depth ≤ fuel →
      limitedBFS fuel start target max_depth = some r := by
  by_cases hst : start = target
  · exact ⟨trivialResult start, fun fuel _ => by simp [limitedBFS, hst]⟩
  · obtain ⟨σf, hr, _⟩ := limitedBFS_total max_depth hst (fun _ => True) trivial
      (fun σ hok _ => ⟨(limitedIter_preserves (fun _ => True) (fun _ _ _ _ _ _ => trivial)
        (fun _ _ _ _ _ _ _ _ => trivial) hok trivial).1, trivial⟩)
    exact ⟨σf.result, hr⟩

theorem oncePerString_visit (target : Str) (cur : State) (σ : LSearch) (w : Str)
    (h : OncePerString σ) : OncePerString (limitedVisit target cur σ w) := by
  obtain ⟨h1, h2, h3⟩ := h
  unfold limitedVisit
  split
  · exact ⟨h1, h2, h3⟩
  · split
    · rename_i hv
      refine ⟨List.nodup_cons.mpr ⟨hv, h1⟩, ?_, ?_⟩
      · simp only [List.map_append, List.map_cons, List.map_nil]
        rw [List.nodup_append]
        refine ⟨h2, List.nodup_singleton _, ?_⟩
        intro x hx hx1
        rw [List.mem_singleton] at hx1
        obtain ⟨e, he, rfl⟩ := List.mem_map.mp hx
        exact hv (hx1 ▸ h3 e he)
      · intro e he
        simp only [List.mem_append, List.mem_singleton] at he
        rcases he with he | he
        · exact List.mem_cons_of_mem _ (h3 e he)
        · rw [he]; exact List.mem_cons_self _ _
    · exact ⟨h1, h2, h3⟩

theorem oncePerString_iter (target : Str) (max_depth : Int) (σ : LSearch)
    (h : OncePerString σ) : OncePerString (limitedIter target max_depth σ) := by
  unfold limitedIter
  split
  · exact h
  · rename_i cur rest hq
    have h1 : OncePerString ⟨countNode σ.result σ.q.length, σ.visited, rest⟩ := by
      obtain ⟨a1, a2, a3⟩ := h
      rw [hq] at a2 a3
      simp only [List.map_cons, List.nodup_cons] at a2
      exact ⟨a1, a2.2, fun e he => a3 e (List.mem_cons_of_mem _ he)⟩
    simp only
    split
    · exact h1
    · exact foldl_pending_inv (limitedVisit target cur) (fun _ s => OncePerString s) _ _ h1
        (fun x _ b hb => oncePerString_visit target cur b x hb)

theorem oncePerString_after (target start : Str) (max_depth : Int) (n : Nat) :
    OncePerString (limitedAfter target start max_depth n) := by
  induction n with
  | zero => exact ⟨by simp [limitedAfter, limitedInit], by simp [limitedAfter, limitedInit],
      by simp [limitedAfter, limitedInit]⟩
  | succ n ih => exact oncePerString_iter target max_depth _ ih

/-! ### Bidirectional search: the registries hold shortest distances -/

theorem costOf_mem {m : List (Str × Int)} {w : Str} {c : Int} (h : costOf m w = some c) :
    (w, c) ∈ m := by
  induction m with
  | nil => simp [costOf] at h
  | cons e m ih =>
    obtain ⟨k, v⟩ := e
    rw [costOf_cons] at h
    split at h
    · rename_i e1
      rw [← e1, ← Option.some.inj h]
      exact List.mem_cons_self _ _
    · exact List.mem_cons_of_mem _ (ih h)

theorem registered_of_costOf_ne_none {m : List (Str × Int)} {w : Str}
    (h : costOf m w ≠ none) : Registered m w := by
  cases hc : costOf m w with
  | none => exact absurd hc h
  | some c => exact ⟨c, costOf_mem hc⟩

theorem costOf_ne_none_of_mem {m : List (Str × Int)} {w : Str} {c : Int} (h : (w, c) ∈ m) :
    costOf m w ≠ none := by
  induction m with
  | nil => simp at h
  | cons e m ih =>
    obtain ⟨k, v⟩ := e
    rw [costOf_cons]
    split
    · simp
    · rename_i hne
      rcases List.mem_cons.mp h with e1 | e1
      · exact absurd (Prod.mk.inj e1).1.symm hne
      · exact ih e1

theorem mem_generateNextStates_symm {s t : Str} (hs : Lower s) (h : t ∈ generateNextStates s) :
    s ∈ generateNextStates t := by
  apply mem_generateNextStates_of_lev hs
  rw [lev_comm]
  exact lev_eq_one_of_mem h

theorem shortestWalk_of_lev {origin s : Str} (hs : Lower s) :
    ShortestWalk origin s (lev origin s : Int) :=
  ⟨lev origin s, rfl, walk_of_lev hs, fun _ h => lev_le_of_walk h⟩

/-- Loop rule for a prefix of the iterations of a left fold. -/
theorem foldl_take_inv {α β : Type} (f : β → α → β) (Inv : List α → β → Prop) :
    ∀ (k : Nat) (l : List α) (b : β), Inv l b →
      (∀ x rest b, Inv (x :: rest) b → Inv rest (f b x)) →
      Inv (l.drop k) ((l.take k).foldl f b) := by
  intro k
  induction k with
  | zero => intro l b h _; simpa using h
  | succ k ih =>
    intro l b h hstep
    cases l with
    | nil => simpa using h
    | cons x rest =>
      simp only [List.take_succ_cons, List.foldl_cons, List.drop_succ_cons]
      exact ih rest (f b x) (hstep x rest b h) hstep

/-- Every lowercase string at distance at most `c` from the origin is registered while an
entry of cost `c` is being expanded. -/
theorem ExactMid.level_complete {origin s : Str} {c : Int} {pending : List Str} {F : Frontier}
    (ho : Lower origin) (h : ExactMid origin s c pending F) :
    ∀ (d : Nat) (u : Str), Lower u → lev origin u = d → (d : Int) ≤ c →
      Registered F.visited u := by
  intro d
  induction d with
  | zero =>
    intro u _ hd _
    have : origin = u := eq_of_lev_eq_zero origin u hd
    rw [← this]
    exact ⟨0, h.origin_in⟩
  | succ d ih =>
    intro u hu hd hc
    have hne : u ≠ origin := by
      intro e
      rw [e, lev_self] at hd
      omega
    obtain ⟨v, hv, hlev⟩ := exists_neighbour_closer ho hne
    have hvl : Lower v := lower_of_neighbour hv hu
    have hdv : lev origin v = d := by
      rw [lev_comm origin v]
      rw [lev_comm origin u] at hd
      omega
    obtain ⟨cv, hcv⟩ := ih v hvl hdv (by push_cast at hc ⊢; omega)
    have hex := (h.exact _ hcv).2
    simp only at hex
    have huv : u ∈ generateNextStates v := mem_generateNextStates_symm hu hv
    rcases h.closed _ hcv with k | k | k
    · have := h.fifo.cost_ge k
      simp only at this
      push_cast at hc
      omega
    · exact k u huv
    · have := (Prod.mk.inj k.1).2
      push_cast at hc
      omega

/-- One visit of a neighbour keeps the breadth-first invariant; a neighbour that is admitted
was not registered before. -/
theorem ExactMid.exact_visit {origin s : Str} {c : Int} {w : Str} {rest : List Str}
    {F : Frontier} (ho : Lower origin) (ov : List (Str × Int)) (r : BFSResult)
    (h : ExactMid origin s c (w :: rest) F) :
    ExactMid origin s c rest (biVisit ov c (r, F) w).2 ∧
      (biAccepts F.visited w (c + 1) = true → costOf F.visited w = none) := by
  have hw : w ∈ generateNextStates s := h.pend w (List.mem_cons_self _ _)
  obtain ⟨hsl, hsc⟩ := h.exact _ h.cur_in
  simp only at hsl hsc
  have hwl : Lower w := lower_of_neighbour hw hsl
  have hup : (lev origin w : Int) ≤ c + 1 := by
    have := lev_step_right hw origin
    omega
  have hpend : ∀ x ∈ rest, x ∈ generateNextStates s :=
    fun x hx => h.pend x (List.mem_cons_of_mem _ hx)
  have hnone : biAccepts F.visited w (c + 1) = true → costOf F.visited w = none := by
    intro hacc
    unfold biAccepts at hacc
    cases hc : costOf F.visited w with
    | none => rfl
    | some v =>
      rw [hc] at hacc
      simp only [decide_eq_true_eq] at hacc
      have := (h.exact _ (costOf_mem hc)).2
      simp only at this
      omega
  refine ⟨?_, hnone⟩
  show ExactMid origin s c rest
    (if biAccepts F.visited w (c + 1) then
      ⟨F.queue ++ [(w, c + 1)], (w, c + 1) :: F.visited⟩ else F)
  cases hacc : biAccepts F.visited w (c + 1) with
  | true =>
    simp only [if_true]
    have hnew : ¬ Registered F.visited w := by
      rintro ⟨cw, hcw⟩
      exact costOf_ne_none_of_mem hcw (hnone hacc)
    have hexact : (lev origin w : Int) = c + 1 := by
      by_contra hne
      have hle : ((lev origin w : Nat) : Int) ≤ c := by omega
      exact hnew (h.level_complete ho (lev origin w) w hwl rfl hle)
    have hreg : ∀ u, Registered F.visited u → Registered ((w, c + 1) :: F.visited) u :=
      fun u ⟨cu, hcu⟩ => ⟨cu, List.mem_cons_of_mem _ hcu⟩
    refine ⟨?_, List.mem_cons_of_mem _ h.origin_in, ?_, h.fifo.fifo_push rfl,
      List.mem_cons_of_mem _ h.cur_in, hpend, ?_⟩
    · intro e he
      rcases List.mem_cons.mp he with e1 | e1
      · rw [e1]; exact ⟨hwl, hexact⟩
      · exact h.exact e e1
    · intro e he
      simp only [List.mem_append, List.mem_singleton] at he
      rcases he with e1 | e1
      · exact List.mem_cons_of_mem _ (h.qsub e e1)
      · rw [e1]; exact List.mem_cons_self _ _
    · intro e he
      rcases List.mem_cons.mp he with e1 | e1
      · left
        rw [e1]
        exact List.mem_append_right _ (List.mem_singleton_self _)
      · rcases h.closed e e1 with k | k | k
        · exact Or.inl (List.mem_append_left _ k)
        · exact Or.inr (Or.inl (fun u hu => hreg u (k u hu)))
        · refine Or.inr (Or.inr ⟨k.1, fun u hu => ?_⟩)
          rcases k.2 u hu with k1 | k1
          · rcases List.mem_cons.mp k1 with e2 | e2
            · right
              rw [e2]
              exact ⟨c + 1, List.mem_cons_self _ _⟩
            · exact Or.inl e2
          · exact Or.inr (hreg u k1)
  | false =>
    simp only [Bool.false_eq_true, if_false]
    have hwreg : Registered F.visited w := by
      apply registered_of_costOf_ne_none
      intro hc
      unfold biAccepts at hacc
      rw [hc] at hacc
      simp at hacc
    refine ⟨h.exact, h.origin_in, h.qsub, h.fifo, h.cur_in, hpend, ?_⟩
    intro e he
    rcases h.closed e he with k | k | k
    · exact Or.inl k
    · exact Or.inr (Or.inl k)
    · refine Or.inr (Or.inr ⟨k.1, fun u hu => ?_⟩)
      rcases k.2 u hu with k1 | k1
      · rcases List.mem_cons.mp k1 with e2 | e2
        · right; rw [e2]; exact hwreg
        · exact Or.inl e2
      · exact Or.inr k1

/-- The meeting check keeps the recorded distance sound when both registries give lower
bounds. -/
theorem biMeet_sound {origin goal : Str} {ov : List (Str × Int)} {r : BFSResult} {w : Str}
    {nc : Int} (hov : ExactRegistry goal ov) (hup : (lev origin w : Int) ≤ nc)
    (hm : MinSound (lev origin goal) r.min_distance) :
    MinSound (lev origin goal) (biMeet ov r w nc).min_distance := by
  unfold biMeet
  cases hc : costOf ov w with
  | none => exact hm
  | some cb =>
    have h1 := (hov _ (costOf_mem hc)).2
    have h2 := lev_triangle origin w goal
    rw [lev_comm w goal] at h2
    simp only at h1 ⊢
    split
    · right
      show ((lev origin goal : Nat) : Int) ≤ nc + cb
      omega
    · exact hm

theorem ExactHead.exact_pop {origin : Str} {F : Frontier} {s : Str} {c : Int}
    {rest : List (Str × Int)} (h : ExactHead origin F) (hq : F.queue = (s, c) :: rest) :
    ExactMid origin s c (generateNextStates s) ⟨rest, F.visited⟩ := by
  have hcur : (s, c) ∈ F.queue := by rw [hq]; exact List.mem_cons_self _ _
  have hfifo : FifoAfter Prod.snd c rest := by
    have := h.fifo
    rw [hq] at this
    exact this.fifo_pop
  refine ⟨h.exact, h.origin_in, fun e he => h.qsub e (by rw [hq]; exact List.mem_cons_of_mem _ he),
    hfifo, h.qsub _ hcur, fun _ hw => hw, ?_⟩
  intro e he
  rcases h.closed e he with k | k
  · rw [hq] at k
    rcases List.mem_cons.mp k with e1 | e1
    · exact Or.inr (Or.inr ⟨e1, fun u hu => Or.inl hu⟩)
    · exact Or.inl e1
  · exact Or.inr (Or.inl k)

theorem ExactMid.exact_finish {origin s : Str} {c : Int} {F : Frontier}
    (h : ExactMid origin s c [] F) : ExactHead origin F := by
  refine ⟨h.exact, h.origin_in, h.qsub, h.fifo.to_fifo, ?_⟩
  intro e he
  rcases h.closed e he with k | k | k
  · exact Or.inl k
  · exact Or.inr k
  · right
    rw [k.1]
    intro u hu
    rcases k.2 u hu with k1 | k1
    · exact absurd k1 (List.not_mem_nil _)
    · exact k1

/-- One visit inside a half-step keeps the breadth-first invariant and the soundness of the
recorded distance. -/
theorem exact_visit_sound {origin goal s : Str} {c : Int} {w : Str} {rest : List Str}
    (ho : Lower origin) {ov : List (Str × Int)} (hov : ExactRegistry goal ov)
    (acc : BFSResult × Frontier)
    (h : ExactMid origin s c (w :: rest) acc.2 ∧ MinSound (lev origin goal) acc.1.min_distance) :
    ExactMid origin s c rest (biVisit ov c acc w).2 ∧
      MinSound (lev origin goal) (biVisit ov c acc w).1.min_distance := by
  obtain ⟨h1, h2⟩ := h
  have hw : w ∈ generateNextStates s := h1.pend w (List.mem_cons_self _ _)
  have hsc := (h1.exact _ h1.cur_in).2
  simp only at hsc
  have hup : (lev origin w : Int) ≤ c + 1 := by
    have := lev_step_right hw origin
    omega
  exact ⟨(h1.exact_visit ho ov acc.1).1, biMeet_sound hov hup h2⟩

/-- What holds at every point inside a half-step of `bidirectionalBFS`. -/
theorem exact_half_point {origin goal : Str} (ho : Lower origin) {ov : List (Str × Int)}
    (hov : ExactRegistry goal ov) {r : BFSResult} {F : Frontier}
    (hm : MinSound (lev origin goal) r.min_distance) (h : ExactHead origin F) (k : Nat) :
    ExactRegistry origin (biHalfUpTo k ov (r, F)).2.visited ∧
      MinSound (lev origin goal) (biHalfUpTo k ov (r, F)).1.min_distance ∧
      ∀ s c rest w, F.queue = (s, c) :: rest → (generateNextStates s)[k]? = some w →
        biAccepts (biHalfUpTo k ov (r, F)).2.visited w (c + 1) = true →
        costOf (biHalfUpTo k ov (r, F)).2.visited w = none := by
  cases hq : F.queue with
  | nil =>
    have e : biHalfUpTo k ov (r, F) = (r, F) := by
      unfold biHalfUpTo
      simp only [hq]
    rw [e]
    exact ⟨h.exact, hm, fun s c rest w hcontra => absurd hcontra (by simp)⟩
  | cons cur rest =>
    obtain ⟨s, c⟩ := cur
    have e : biHalfUpTo k ov (r, F) =
        ((generateNextStates s).take k).foldl (biVisit ov c)
          ({ r with nodes_explored := r.nodes_explored + 1 }, ⟨rest, F.visited⟩) := by
      unfold biHalfUpTo
      simp only [hq]
    rw [e]
    have hfold := foldl_take_inv (biVisit ov c)
      (fun l acc => ExactMid origin s c l acc.2 ∧ MinSound (lev origin goal) acc.1.min_distance)
      k (generateNextStates s)
      ({ r with nodes_explored := r.nodes_explored + 1 }, ⟨rest, F.visited⟩)
      ⟨h.exact_pop hq, hm⟩
      (fun x l b hb => exact_visit_sound ho hov b hb)
    refine ⟨hfold.1.exact, hfold.2, ?_⟩
    intro s1 c1 rest1 w heq hget hacc
    obtain ⟨e1, _⟩ := List.cons.inj heq
    obtain ⟨es, ec⟩ := Prod.mk.inj e1
    rw [← es] at hget
    rw [← ec] at hacc
    have hlt : k < (generateNextStates s).length := by
      by_contra hge
      rw [List.getElem?_eq_none (by omega)] at hget
      simp at hget
    have hdrop : (generateNextStates s).drop k = w :: (generateNextStates s).drop (k + 1) := by
      rw [List.drop_eq_getElem_cons hlt]
      rw [List.getElem?_eq_getElem hlt] at hget
      rw [Option.some.inj hget]
    have hmid := hfold.1
    rw [hdrop] at hmid
    exact (hmid.exact_visit ho ov
      (((generateNextStates s).take k).foldl (biVisit ov c)
        ({ r with nodes_explored := r.nodes_explored + 1 }, ⟨rest, F.visited⟩)).1).2 hacc

/-- A half-step of `bidirectionalBFS` is its point after all neighbours. -/
theorem biHalf_eq_upTo (ov : List (Str × Int)) (acc : BFSResult × Frontier) (k : Nat)
    (hk : ∀ s c rest, acc.2.queue = (s, c) :: rest → (generateNextStates s).length ≤ k) :
    biHalfUpTo k ov acc = biHalf ov acc := by
  cases hq : acc.2.queue with
  | nil =>
    unfold biHalfUpTo biHalf
    simp only [hq]
  | cons cur rest =>
    obtain ⟨s, c⟩ := cur
    unfold biHalfUpTo biHalf
    simp only [hq]
    rw [List.take_of_length_le (hk s c rest hq)]

/-- A whole half-step keeps the breadth-first invariant and the soundness of the recorded
distance. -/
theorem exact_half {origin goal : Str} (ho : Lower origin) {ov : List (Str × Int)}
    (hov : ExactRegistry goal ov) {r : BFSResult} {F : Frontier}
    (hm : MinSound (lev origin goal) r.min_distance) (h : ExactHead origin F) :
    ExactHead origin (biHalf ov (r, F)).2 ∧
      MinSound (lev origin goal) (biHalf ov (r, F)).1.min_distance := by
  cases hq : F.queue with
  | nil =>
    have e : biHalf ov (r, F) = (r, F) := by
      unfold biHalf
      simp only [hq]
    rw [e]
    exact ⟨h, hm⟩
  | cons cur rest =>
    obtain ⟨s, c⟩ := cur
    have e : biHalf ov (r, F) =
        (generateNextStates s).foldl (biVisit ov c)
          ({ r with nodes_explored := r.nodes_explored + 1 }, ⟨rest, F.visited⟩) := by
      unfold biHalf
      simp only [hq]
    rw [e]
    have hfold := foldl_pending_inv (biVisit ov c)
      (fun l acc => ExactMid origin s c l acc.2 ∧ MinSound (lev origin goal) acc.1.min_distance)
      (generateNextStates s)
      ({ r with nodes_explored := r.nodes_explored + 1 }, ⟨rest, F.visited⟩)
      ⟨h.exact_pop hq, hm⟩
      (fun x l b hb => exact_visit_sound ho hov b hb)
    exact ⟨hfold.1.exact_finish, hfold.2⟩

theorem minSound_comm {a b : Str} {m : Int} (h : MinSound (lev a b) m) :
    MinSound (lev b a) m := by
  rw [lev_comm b a]; exact h

theorem biIter_eq (σ : BiSearch) :
    biIter σ =
      ⟨(biHalf (biHalf σ.backward.visited (biBook σ, σ.forward)).2.visited
          ((biHalf σ.backward.visited (biBook σ, σ.forward)).1, σ.backward)).1,
        (biHalf σ.backward.visited (biBook σ, σ.forward)).2,
        (biHalf (biHalf σ.backward.visited (biBook σ, σ.forward)).2.visited
          ((biHalf σ.backward.visited (biBook σ, σ.forward)).1, σ.backward)).2⟩ := rfl

theorem BiExact.exact_iter {start target : Str} (hs : Lower start) (ht : Lower target)
    {σ : BiSearch} (h : BiExact start target σ) : BiExact start target (biIter σ) := by
  have hm0 : MinSound (lev start target) (biBook σ).min_distance := h.sound
  obtain ⟨f1, f2⟩ := exact_half hs h.bwd.exact hm0 h.fwd
  obtain ⟨b1, b2⟩ := exact_half ht f1.exact (minSound_comm f2) h.bwd
  rw [biIter_eq]
  exact ⟨f1, b1, minSound_comm b2⟩

theorem biExact_init {start target : Str} (hs : Lower start) (ht : Lower target) :
    BiExact start target (biInit start target) := by
  have side : ∀ a : Str, Lower a → ExactHead a ⟨[(a, 0)], [(a, 0)]⟩ := by
    intro a ha
    refine ⟨?_, List.mem_singleton_self _, fun e he => he,
      ⟨0, [(a, 0)], [], rfl, by simp, by simp⟩, fun e he => Or.inl he⟩
    intro e he
    rw [List.mem_singleton.mp he]
    exact ⟨ha, by simp [lev_self]⟩
  exact ⟨side start hs, side target ht, Or.inl rfl⟩

theorem biExact_after {start target : Str} (hs : Lower start) (ht : Lower target) (n : Nat) :
    BiExact start target (biAfter start target n) := by
  induction n with
  | zero => exact biExact_init hs ht
  | succ n ih => exact ih.exact_iter hs ht

theorem shortest_of_exact {origin : Str} {visited : List (Str × Int)}
    (h : ExactRegistry origin visited) : ∀ e ∈ visited, ShortestWalk origin e.1 e.2 := by
  intro e he
  obtain ⟨h1, h2⟩ := h e he
  rw [← h2]
  exact shortestWalk_of_lev h1

theorem charAt_append_length (pre : Str) (a : Char) (x : Str) :
    charAt (pre ++ a :: x) pre.length = a := by
  unfold charAt
  rw [List.getD_eq_getElem?_getD, List.getElem?_append_right (le_refl _)]
  simp

theorem greedyCost_nil_right (x : Str) : greedyCost x [] = x.length := by
  cases x <;> rfl

theorem editCount_greedyOps : ∀ (x y : Str) (pos : Nat),
    editCount (greedyOps pos x y) = greedyCost x y := by
  intro x
  induction x with
  | nil =>
    intro y
    induction y with
    | nil => intro pos; simp [greedyOps, editCount, greedyCost]
    | cons b y ih =>
      intro pos
      have := ih (pos + 1)
      simp [greedyOps, editCount, greedyCost] at this ⊢
      exact this
  | cons a x ih =>
    intro y pos
    cases y with
    | nil =>
      have := ih [] pos
      rw [greedyCost_nil_right] at this
      simp [greedyOps, editCount, greedyCost] at this ⊢
      exact this
    | cons b y =>
      have := ih y (pos + 1)
      by_cases hab : a = b
      · simp [greedyOps, editCount, greedyCost, hab] at this ⊢
        exact this
      · simp [greedyOps, editCount, greedyCost, hab] at this ⊢
        omega

theorem mismatches_cons (a b : Char) (x y : Str) :
    mismatches (a :: x) (b :: y) = (if a = b then 0 else 1) + mismatches x y := by
  unfold mismatches
  have hmin : min (a :: x).length (b :: y).length = min x.length y.length + 1 := by
    simp only [List.length_cons]; omega
  rw [hmin, List.range_succ_eq_map, List.filter_cons, List.filter_map]
  have hf : ((fun i => decide (charAt (a :: x) i ≠ charAt (b :: y) i)) ∘ Nat.succ) =
      (fun i => decide (charAt x i ≠ charAt y i)) := by
    funext i; simp [charAt]
  rw [hf]
  by_cases hab : a = b
  · simp [charAt, hab]
  · simp [charAt, hab]; omega

theorem mismatches_nil_left (y : Str) : mismatches [] y = 0 := by simp [mismatches]

theorem mismatches_nil_right (x : Str) : mismatches x [] = 0 := by simp [mismatches]

theorem greedyCost_eq_mismatches : ∀ (x y : Str),
    greedyCost x y = mismatches x y + (max x.length y.length - min x.length y.length) := by
  intro x
  induction x with
  | nil => intro y; simp [greedyCost, mismatches_nil_left]
  | cons a x ih =>
    intro y
    cases y with
    | nil => simp [greedyCost, mismatches_nil_right]
    | cons b y =>
      rw [mismatches_cons, greedyCost, ih y]
      simp only [List.length_cons]
      omega

theorem basicGreedyLoop_spec : ∀ (x y pre : Str) (operations : List GreedyOperation) (d : Int)
    (fuel : Nat), max x.length y.length < fuel →
    basicGreedyLoop (pre ++ y) fuel ⟨pre ++ x, pre.length, operations, d⟩ =
      some (Except.ok ⟨pre ++ y, (pre ++ y).length,
        operations ++ greedyOps pre.length x y, d + (greedyCost x y : Int)⟩) := by
  intro x
  induction x with
  | nil =>
    intro y
    induction y with
    | nil =>
      intro pre ops d fuel hf
      obtain ⟨fuel, rfl⟩ : ∃ k, fuel = k + 1 := ⟨fuel - 1, by omega⟩
      simp [basicGreedyLoop, greedyOps, greedyCost]
    | cons b y ih =>
      intro pre ops d fuel hf
      obtain ⟨fuel, rfl⟩ : ∃ k, fuel = k + 1 := ⟨fuel - 1, by omega⟩
      have hlt : pre.length < max (pre ++ []).length (pre ++ b :: y).length := by simp
      have hstep : basicGreedyStep (pre ++ b :: y) ⟨pre ++ [], pre.length, ops, d⟩ =
          Except.ok ⟨(pre ++ [b]) ++ [], (pre ++ [b]).length,
            ops ++ [⟨OperationType.INSERT, (pre.length : Int), nul, b⟩], d + 1⟩ := by
        simp [basicGreedyStep, strInsert, charAt_append_length, Except.map,
          List.insertIdx_length_self]
      have hrec := ih (pre ++ [b]) (ops ++ [⟨OperationType.INSERT, (pre.length : Int), nul, b⟩])
        (d + 1) fuel (by simp at hf ⊢; omega)
      have ht : pre ++ [b] ++ y = pre ++ b :: y := by simp
      rw [ht] at hrec
      rw [basicGreedyLoop, if_pos hlt, hstep]
      simp only []
      rw [hrec]
      simp [greedyOps, greedyCost]
      omega
  | cons a x ih =>
    intro y pre ops d fuel hf
    obtain ⟨fuel, rfl⟩ : ∃ k, fuel = k + 1 := ⟨fuel - 1, by omega⟩
    cases y with
    | nil =>
      have hlt : pre.length < max (pre ++ a :: x).length (pre ++ []).length := by simp
      have hstep : basicGreedyStep (pre ++ []) ⟨pre ++ a :: x, pre.length, ops, d⟩ =
          Except.ok ⟨pre ++ x, pre.length,
            ops ++ [⟨OperationType.DELETE, (pre.length : Int), a, nul⟩], d + 1⟩ := by
        simp [basicGreedyStep, charAt_append_length, List.eraseIdx_append_of_length_le]
      have hrec := ih [] pre (ops ++ [⟨OperationType.DELETE, (pre.length : Int), a, nul⟩])
        (d + 1) fuel (by simp at hf ⊢; omega)
      rw [basicGreedyLoop, if_pos hlt, hstep]
      simp only []
      rw [hrec]
      simp [greedyOps, greedyCost, greedyCost_nil_right]
      omega
    | cons b y =>
      have hlt : pre.length < max (pre ++ a :: x).length (pre ++ b :: y).length := by simp
      have ht : pre ++ [b] ++ y = pre ++ b :: y := by simp
      by_cases hab : a = b
      · subst hab
        have hstep : basicGreedyStep (pre ++ a :: y) ⟨pre ++ a :: x, pre.length, ops, d⟩ =
            Except.ok ⟨(pre ++ [a]) ++ x, (pre ++ [a]).length,
              ops ++ [⟨OperationType.MATCH, (pre.length : Int), a, a⟩], d⟩ := by
          simp [basicGreedyStep, charAt_append_length]
        have hrec := ih y (pre ++ [a]) (ops ++ [⟨OperationType.MATCH, (pre.length : Int), a, a⟩])
          d fuel (by simp at hf ⊢; omega)
        rw [ht] at hrec
        rw [basicGreedyLoop, if_pos hlt, hstep]
        simp only []
        rw [hrec]
        simp [greedyOps, greedyCost]
      · have hstep : basicGreedyStep (pre ++ b :: y) ⟨pre ++ a :: x, pre.length, ops, d⟩ =
            Except.ok ⟨(pre ++ [b]) ++ x, (pre ++ [b]).length,
              ops ++ [⟨OperationType.REPLACE, (pre.length : Int), a, b⟩], d + 1⟩ := by
          simp [basicGreedyStep, charAt_append_length, hab]
        have hrec := ih y (pre ++ [b])
          (ops ++ [⟨OperationType.REPLACE, (pre.length : Int), a, b⟩])
          (d + 1) fuel (by simp at hf ⊢; omega)
        rw [ht] at hrec
        rw [basicGreedyLoop, if_pos hlt, hstep]
        simp only []
        rw [hrec]
        simp [greedyOps, greedyCost, hab]
        omega

theorem basicGreedy_spec (source target : Str) (fuel : Nat)
    (hf : max source.length target.length < fuel) :
    basicGreedyEditDistance fuel source target =
      some (Except.ok ⟨(greedyCost source target : Int), greedyOps 0 source target, target⟩) := by
  have h := basicGreedyLoop_spec source target [] [] 0 fuel hf
  simp only [List.nil_append, List.length_nil] at h
  simp [basicGreedyEditDistance, h, Except.map]

theorem lev_le_greedyCost : ∀ (x y : Str), lev x y ≤ greedyCost x y := by
  intro x
  induction x with
  | nil => intro y; simp [greedyCost, lev_nil_left]
  | cons a x ih =>
    intro y
    cases y with
    | nil => simp [greedyCost, lev_nil_right]
    | cons b y =>
      rw [lev_cons_cons, greedyCost]
      have := ih y
      by_cases hab : a = b
      · simp [hab, subCost]; omega
      · simp [hab, subCost]; omega

theorem greedyCost_le_max : ∀ (x y : Str), greedyCost x y ≤ max x.length y.length := by
  intro x
  induction x with
  | nil => intro y; simp [greedyCost]
  | cons a x ih =>
    intro y
    cases y with
    | nil => simp [greedyCost]
    | cons b y =>
      rw [greedyCost]
      have := ih y
      simp only [List.length_cons]
      split <;> omega

theorem lcp_split : ∀ (x y : Str), ∃ pre x1 y1, x = pre ++ x1 ∧ y = pre ++ y1 ∧
    lcp x y = pre.length := by
  intro x
  induction x with
  | nil => intro y; exact ⟨[], [], y, rfl, rfl, by simp [lcp]⟩
  | cons a x ih =>
    intro y
    cases y with
    | nil => exact ⟨[], a :: x, [], rfl, rfl, by simp [lcp]⟩
    | cons b y =>
      by_cases hab : a = b
      · subst hab
        obtain ⟨pre, x1, y1, h1, h2, h3⟩ := ih y
        exact ⟨a :: pre, x1, y1, by simp [h1], by simp [h2], by simp [lcp, h3]⟩
      · exact ⟨[], a :: x, b :: y, rfl, rfl, by simp [lcp, hab]⟩

theorem lcp_reverse_split (x y : Str) : ∃ suf x1 y1, x = x1 ++ suf ∧ y = y1 ++ suf ∧
    lcp x.reverse y.reverse = suf.length := by
  obtain ⟨pre, x1, y1, h1, h2, h3⟩ := lcp_split x.reverse y.reverse
  refine ⟨pre.reverse, x1.reverse, y1.reverse, ?_, ?_, by simp [h3]⟩
  · rw [← List.reverse_append, ← h1, List.reverse_reverse]
  · rw [← List.reverse_append, ← h2, List.reverse_reverse]

theorem lcp_le_left : ∀ (x y : Str), lcp x y ≤ x.length := by
  intro x y
  obtain ⟨pre, x1, y1, h1, _, h3⟩ := lcp_split x y
  rw [h3, h1]; simp

theorem lcp_le_right : ∀ (x y : Str), lcp x y ≤ y.length := by
  intro x y
  obtain ⟨pre, x1, y1, _, h2, h3⟩ := lcp_split x y
  rw [h3, h2]; simp

theorem prefixLoop_spec : ∀ (x y pre : Str) (operations : List GreedyOperation) (fuel : Nat),
    lcp x y < fuel →
    ∃ ops1, prefixLoop (pre ++ x) (pre ++ y) fuel pre.length operations =
      some (pre.length + lcp x y, ops1) := by
  intro x
  induction x with
  | nil =>
    intro y pre ops fuel hf
    obtain ⟨fuel, rfl⟩ : ∃ k, fuel = k + 1 := ⟨fuel - 1, by omega⟩
    exact ⟨ops, by simp [prefixLoop, lcp]⟩
  | cons a x ih =>
    intro y pre ops fuel hf
    obtain ⟨fuel, rfl⟩ : ∃ k, fuel = k + 1 := ⟨fuel - 1, by omega⟩
    cases y with
    | nil => exact ⟨ops, by simp [prefixLoop, lcp]⟩
    | cons b y =>
      by_cases hab : a = b
      · subst hab
        have hl : lcp (a :: x) (a :: y) = lcp x y + 1 := by simp [lcp]
        obtain ⟨ops1, h1⟩ := ih y (pre ++ [a]) (ops ++ [⟨OperationType.MATCH, (pre.length : Int),
          charAt (pre ++ a :: x) pre.length, charAt (pre ++ a :: y) pre.length⟩]) fuel
          (by omega)
        have e1 : pre ++ [a] ++ x = pre ++ a :: x := by simp
        have e2 : pre ++ [a] ++ y = pre ++ a :: y := by simp
        rw [e1, e2] at h1
        refine ⟨ops1, ?_⟩
        rw [prefixLoop, if_pos ⟨by simp, by rw [charAt_append_length, charAt_append_length]⟩]
        simp only [List.length_append, List.length_singleton] at h1
        rw [h1, hl]
        congr 2
        omega
      · refine ⟨ops, ?_⟩
        rw [prefixLoop, if_neg (by rw [charAt_append_length, charAt_append_length]; tauto)]
        simp [lcp, hab]

theorem charAt_before_suffix (w : Str) (a : Char) (suf : Str) :
    charAt (w ++ a :: suf) ((w ++ a :: suf).length - 1 - suf.length) = a := by
  have : (w ++ a :: suf).length - 1 - suf.length = w.length := by simp
  rw [this, charAt_append_length]

theorem suffixLoop_spec (pre : Str) : ∀ (u v suf : Str) (fuel : Nat), lcp u v < fuel →
    suffixLoop (pre ++ (u.reverse ++ suf)) (pre ++ (v.reverse ++ suf)) pre.length fuel
      suf.length = some (suf.length + lcp u v) := by
  intro u
  induction u with
  | nil =>
    intro v suf fuel hf
    obtain ⟨fuel, rfl⟩ : ∃ k, fuel = k + 1 := ⟨fuel - 1, by omega⟩
    simp [suffixLoop, lcp]
  | cons a u ih =>
    intro v suf fuel hf
    obtain ⟨fuel, rfl⟩ : ∃ k, fuel = k + 1 := ⟨fuel - 1, by omega⟩
    cases v with
    | nil => simp [suffixLoop, lcp]
    | cons b v =>
      have ea : pre ++ ((a :: u).reverse ++ suf) = (pre ++ u.reverse) ++ a :: suf := by simp
      have eb : pre ++ ((b :: v).reverse ++ suf) = (pre ++ v.reverse) ++ b :: suf := by simp
      have ca := charAt_before_suffix (pre ++ u.reverse) a suf
      have cb := charAt_before_suffix (pre ++ v.reverse) b suf
      rw [← ea] at ca
      rw [← eb] at cb
      by_cases hab : a = b
      · subst hab
        have hl : lcp (a :: u) (a :: v) = lcp u v + 1 := by simp [lcp]
        have h1 := ih v (a :: suf) fuel (by omega)
        have e1 : pre ++ (u.reverse ++ a :: suf) = pre ++ ((a :: u).reverse ++ suf) := by simp
        have e2 : pre ++ (v.reverse ++ a :: suf) = pre ++ ((a :: v).reverse ++ suf) := by simp
        rw [e1, e2] at h1
        rw [suffixLoop, if_pos ⟨by simp; omega, by rw [ca, cb]⟩]
        simp only [List.length_cons] at h1
        rw [h1, hl]
        congr 1
        omega
      · rw [suffixLoop, if_neg (by rw [ca, cb]; tauto)]
        simp [lcp, hab]

theorem lev_append_left (pre x y : Str) : lev (pre ++ x) (pre ++ y) = lev x y := by
  induction pre with
  | nil => rfl
  | cons a pre ih => rw [List.cons_append, List.cons_append, lev_cons_cons_same, ih]

theorem lev_append_right (x y suf : Str) : lev (x ++ suf) (y ++ suf) = lev x y := by
  rw [← lev_reverse, List.reverse_append, List.reverse_append, lev_append_left, lev_reverse]

theorem greedyCost_append_left (pre x y : Str) :
    greedyCost (pre ++ x) (pre ++ y) = greedyCost x y := by
  induction pre with
  | nil => rfl
  | cons a pre ih => simp [greedyCost, ih]

theorem length_diff_le_greedyCost (x y : Str) :
    max x.length y.length - min x.length y.length ≤ greedyCost x y := by
  rw [greedyCost_eq_mismatches]; omega

theorem greedyCost_le_append : ∀ (x y suf : Str),
    greedyCost x y ≤ greedyCost (x ++ suf) (y ++ suf) := by
  intro x
  induction x with
  | nil =>
    intro y suf
    have := length_diff_le_greedyCost suf (y ++ suf)
    simp only [List.nil_append, greedyCost, List.length_append] at this ⊢
    omega
  | cons a x ih =>
    intro y suf
    cases y with
    | nil =>
      have := length_diff_le_greedyCost (a :: x ++ suf) suf
      simp only [List.nil_append, greedyCost, List.length_append, List.length_cons] at this ⊢
      omega
    | cons b y =>
      have := ih y suf
      show greedyCost (a :: x) (b :: y) ≤ greedyCost (a :: (x ++ suf)) (b :: (y ++ suf))
      rw [greedyCost, greedyCost]
      omega

/-- What `heuristicGreedy` returns is determined up to the recorded operations. -/
theorem heuristicGreedy_spec (source target : Str) (fuel : Nat)
    (hf : max source.length target.length < fuel) :
    ∃ r, heuristicGreedy fuel source target = some (Except.ok r) ∧ r.final_string = target ∧
      (lev source target : Int) ≤ r.distance ∧
      r.distance ≤ (greedyCost source target : Int) := by
  obtain ⟨pre, xm, ym, hs, ht, hp⟩ := lcp_split source target
  obtain ⟨suf, ms, mt, hxm, hym, hq⟩ := lcp_reverse_split xm ym
  have hls : source.length = pre.length + (ms.length + suf.length) := by simp [hs, hxm]
  have hlt : target.length = pre.length + (mt.length + suf.length) := by simp [ht, hym]
  obtain ⟨ops1, h1⟩ := prefixLoop_spec source target [] [] fuel
    (by have := lcp_le_left source target; omega)
  simp only [List.nil_append, List.length_nil, Nat.zero_add] at h1
  rw [hp] at h1
  have h2 := suffixLoop_spec pre xm.reverse ym.reverse [] fuel
    (by have := lcp_le_left xm.reverse ym.reverse; rw [hq] at this ⊢; omega)
  simp only [List.reverse_reverse, List.append_nil, List.length_nil, Nat.zero_add] at h2
  rw [← hs, ← ht, hq] at h2
  have hlev : lev source target = lev ms mt := by
    rw [hs, ht, hxm, hym, lev_append_left, lev_append_right]
  have hcost : greedyCost ms mt ≤ greedyCost source target := by
    rw [hs, ht, hxm, hym, greedyCost_append_left]
    exact greedyCost_le_append ms mt suf
  unfold heuristicGreedy
  rw [h1]
  simp only []
  rw [h2]
  simp only []
  by_cases hmid : pre.length + suf.length < max source.length target.length
  · rw [if_pos hmid]
    have s1 : strSubstr source pre.length (source.length - pre.length - suf.length) =
        Except.ok ms := by
      have e : source.length - pre.length - suf.length = ms.length := by omega
      rw [e, strSubstr, if_pos (by omega), hs, hxm]
      simp
    have s2 : strSubstr target pre.length (target.length - pre.length - suf.length) =
        Except.ok mt := by
      have e : target.length - pre.length - suf.length = mt.length := by omega
      rw [e, strSubstr, if_pos (by omega), ht, hym]
      simp
    have s3 : strSubstr source 0 pre.length = Except.ok pre := by
      rw [strSubstr, if_pos (by omega), hs]
      simp
    have s4 : strSubstr source (source.length - suf.length) source.length = Except.ok suf := by
      have e : source.length - suf.length = (pre ++ ms).length := by simp; omega
      rw [strSubstr, if_pos (by omega), e]
      have e2 : source = (pre ++ ms) ++ suf := by rw [hs, hxm]; simp
      rw [e2, List.drop_left]
      simp
      omega
    have hb := basicGreedy_spec ms mt fuel (by omega)
    unfold heuristicMiddle
    rw [s1, s2]
    simp only []
    rw [hb]
    simp only []
    rw [s3, s4]
    simp only []
    refine ⟨_, rfl, ?_, ?_, ?_⟩
    · simp [ht, hym]
    · simp only []; rw [hlev]; exact_mod_cast lev_le_greedyCost ms mt
    · simp only []; exact_mod_cast hcost
  · rw [if_neg hmid]
    have e1 : ms.length = 0 := by omega
    have e2 : mt.length = 0 := by omega
    have e3 : ms = [] := List.length_eq_zero.mp e1
    have e4 : mt = [] := List.length_eq_zero.mp e2
    refine ⟨_, rfl, ?_, ?_, ?_⟩
    · simp [hs, ht, hxm, hym, e3, e4]
    · simp only []; rw [hlev, e3, e4]; simp [lev]
    · simp only []; exact_mod_cast Nat.zero_le _

theorem freqIncr_keys (c k : Char) : ∀ (freq : List (Char × Int)),
    k ∈ (freqIncr freq c).map Prod.fst ↔ k = c ∨ k ∈ freq.map Prod.fst := by
  intro freq
  induction freq with
  | nil => simp [freqIncr]
  | cons p rest ih =>
    obtain ⟨k0, v0⟩ := p
    unfold freqIncr
    split
    · rename_i h; subst h; simp
    · split
      · simp
      · simp only [List.map_cons, List.mem_cons, ih]; tauto

theorem freqIncr_sorted (c : Char) : ∀ (freq : List (Char × Int)),
    FreqSorted freq → FreqSorted (freqIncr freq c) := by
  intro freq
  induction freq with
  | nil => intro _; simp [freqIncr, FreqSorted]
  | cons p rest ih =>
    obtain ⟨k0, v0⟩ := p
    intro hs
    unfold FreqSorted at hs ih ⊢
    rw [List.map_cons, List.pairwise_cons] at hs
    unfold freqIncr
    split
    · rw [List.map_cons, List.pairwise_cons]; exact hs
    · rename_i hne
      split
      · rename_i hlt
        rw [List.map_cons, List.pairwise_cons]
        refine ⟨?_, by rw [List.map_cons, List.pairwise_cons]; exact hs⟩
        intro k hk
        rw [List.map_cons, List.mem_cons] at hk
        rcases hk with rfl | hk
        · exact hlt
        · exact lt_trans hlt (hs.1 k hk)
      · rename_i hnlt
        rw [List.map_cons, List.pairwise_cons]
        refine ⟨?_, ih hs.2⟩
        intro k hk
        rcases (freqIncr_keys c k rest).mp hk with rfl | hk
        · rcases lt_trichotomy k k0 with h | h | h
          · exact absurd h hnlt
          · exact absurd h hne
          · exact h
        · exact hs.1 k hk

theorem freqCount_cons (k : Char) (v : Int) (rest : List (Char × Int)) (c : Char) :
    freqCount ((k, v) :: rest) c = if k = c then v else freqCount rest c := by
  unfold freqCount
  rw [List.find?_cons]
  by_cases h : k = c
  · simp [h]
  · have hb : (k == c) = false := by simpa using h
    simp only [hb, if_neg h]

theorem freqCount_of_not_key : ∀ (freq : List (Char × Int)) (c : Char),
    c ∉ freq.map Prod.fst → freqCount freq c = 0 := by
  intro freq
  induction freq with
  | nil => intro c _; simp [freqCount]
  | cons p rest ih =>
    obtain ⟨k0, v0⟩ := p
    intro c hc
    rw [List.map_cons, List.mem_cons, not_or] at hc
    rw [freqCount_cons, if_neg (fun h => hc.1 h.symm)]
    exact ih c hc.2

theorem freqCount_of_mem : ∀ (freq : List (Char × Int)), FreqSorted freq →
    ∀ k v, (k, v) ∈ freq → freqCount freq k = v := by
  intro freq
  induction freq with
  | nil => intro _ k v h; simp at h
  | cons p rest ih =>
    obtain ⟨k0, v0⟩ := p
    intro hs k v h
    unfold FreqSorted at hs ih
    rw [List.map_cons, List.pairwise_cons] at hs
    rw [freqCount_cons]
    rcases List.mem_cons.mp h with h | h
    · obtain ⟨rfl, rfl⟩ := Prod.mk.inj h
      simp
    · have hk : k ∈ rest.map Prod.fst := List.mem_map.mpr ⟨(k, v), h, rfl⟩
      rw [if_neg (ne_of_lt (hs.1 k hk))]
      exact ih hs.2 k v h

theorem freqCount_incr (c c1 : Char) : ∀ (freq : List (Char × Int)), FreqSorted freq →
    freqCount (freqIncr freq c) c1 = freqCount freq c1 + (if c = c1 then 1 else 0) := by
  intro freq
  induction freq with
  | nil => intro _; by_cases h : c = c1 <;> simp [freqIncr, freqCount_cons, freqCount, h]
  | cons p rest ih =>
    obtain ⟨k0, v0⟩ := p
    intro hs
    unfold FreqSorted at hs ih
    rw [List.map_cons, List.pairwise_cons] at hs
    unfold freqIncr
    split
    · rename_i h
      subst h
      rw [freqCount_cons, freqCount_cons]
      by_cases h1 : c = c1
      · simp [h1]
      · simp [h1]
    · rename_i hne
      split
      · rename_i hlt
        rw [freqCount_cons]
        by_cases h1 : c = c1
        · subst h1
          rw [if_pos rfl, if_pos rfl, freqCount_of_not_key]
          · simp
          · intro hmem
            rw [List.map_cons, List.mem_cons] at hmem
            rcases hmem with h | h
            · exact hne h
            · exact lt_irrefl _ (lt_trans hlt (hs.1 c h))
        · simp [h1]
      · rw [freqCount_cons, freqCount_cons, ih hs.2]
        by_cases h1 : k0 = c1
        · subst h1
          simp [hne]
        · simp [h1]

theorem calculateFrequency_fold : ∀ (str : Str) (init : List (Char × Int)), FreqSorted init →
    FreqSorted (str.foldl freqIncr init) ∧
    (∀ c, freqCount (str.foldl freqIncr init) c = freqCount init c + (str.count c : Int)) ∧
    (∀ k, k ∈ (str.foldl freqIncr init).map Prod.fst ↔ k ∈ init.map Prod.fst ∨ k ∈ str) := by
  intro str
  induction str with
  | nil => intro init h; simp [h]
  | cons a str ih =>
    intro init h
    obtain ⟨h1, h2, h3⟩ := ih (freqIncr init a) (freqIncr_sorted a init h)
    refine ⟨h1, ?_, ?_⟩
    · intro c
      rw [List.foldl_cons, h2, freqCount_incr a c init h, List.count_cons]
      by_cases hac : a = c
      · simp [hac]; omega
      · simp [hac]
    · intro k
      rw [List.foldl_cons, h3, freqIncr_keys, List.mem_cons]
      tauto

theorem calculateFrequency_sorted (str : Str) : FreqSorted (calculateFrequency str) :=
  (calculateFrequency_fold str [] (by simp [FreqSorted])).1

theorem freqCount_calculateFrequency (str : Str) (c : Char) :
    freqCount (calculateFrequency str) c = (str.count c : Int) := by
  have := (calculateFrequency_fold str [] (by simp [FreqSorted])).2.1 c
  simpa [freqCount, calculateFrequency] using this

theorem mem_keys_calculateFrequency (str : Str) (k : Char) :
    k ∈ (calculateFrequency str).map Prod.fst ↔ k ∈ str := by
  have := (calculateFrequency_fold str [] (by simp [FreqSorted])).2.2 k
  simpa [calculateFrequency] using this

theorem calculateFrequency_value (str : Str) (p : Char × Int)
    (h : p ∈ calculateFrequency str) : p.2 = (str.count p.1 : Int) := by
  rw [← freqCount_calculateFrequency]
  exact (freqCount_of_mem _ (calculateFrequency_sorted str) p.1 p.2 h).symm

theorem calculateFrequency_nodup (str : Str) : ((calculateFrequency str).map Prod.fst).Nodup :=
  List.Pairwise.imp (fun h => ne_of_lt h) (calculateFrequency_sorted str)

/-- The excess of an entry of `calculateFrequency str` over `calculateFrequency other`. -/
theorem excess_calculateFrequency (str other : Str) (p : Char × Int)
    (h : p ∈ calculateFrequency str) :
    excess (calculateFrequency other) p = str.count p.1 - other.count p.1 := by
  unfold excess
  rw [calculateFrequency_value str p h, freqCount_calculateFrequency]
  omega

theorem appendChar_fold (k : Char) : ∀ (n : Nat) (v : FrequencyVars),
    ((List.range n).foldl (fun v1 _ => appendChar k v1) v).current =
        v.current ++ List.replicate n k ∧
      ((List.range n).foldl (fun v1 _ => appendChar k v1) v).distance = v.distance + (n : Int) := by
  intro n
  induction n with
  | zero => intro v; simp
  | succ n ih =>
    intro v
    rw [List.range_succ, List.foldl_append]
    obtain ⟨h1, h2⟩ := ih v
    generalize (List.range n).foldl (fun v1 _ => appendChar k v1) v = w at h1 h2
    simp only [List.foldl_cons, List.foldl_nil, appendChar, h1, h2]
    refine ⟨?_, by push_cast; omega⟩
    rw [List.replicate_succ', List.append_assoc]

theorem insertMissing_spec (source_freq : List (Char × Int)) (v : FrequencyVars)
    (p : Char × Int) :
    (insertMissing source_freq v p).current =
        v.current ++ List.replicate (excess source_freq p) p.1 ∧
      (insertMissing source_freq v p).distance = v.distance + (excess source_freq p : Int) := by
  unfold insertMissing excess
  split
  · exact appendChar_fold p.1 _ v
  · rename_i h
    have : (p.2 - freqCount source_freq p.1).toNat = 0 := by omega
    rw [this]; simp

theorem insertMissing_fold (source_freq : List (Char × Int)) :
    ∀ (l : List (Char × Int)) (v : FrequencyVars),
    (∀ c, (l.foldl (insertMissing source_freq) v).current.count c = v.current.count c +
        (l.map (fun p => if p.1 = c then excess source_freq p else 0)).sum) ∧
      (l.foldl (insertMissing source_freq) v).distance =
        v.distance + ((l.map (excess source_freq)).sum : Nat) := by
  intro l
  induction l with
  | nil => intro v; simp
  | cons p l ih =>
    intro v
    obtain ⟨h1, h2⟩ := ih (insertMissing source_freq v p)
    obtain ⟨e1, e2⟩ := insertMissing_spec source_freq v p
    refine ⟨?_, ?_⟩
    · intro c
      rw [List.foldl_cons, h1 c, e1, List.count_append, List.count_replicate, List.map_cons,
        List.sum_cons]
      by_cases hc : p.1 = c
      · simp [hc]; omega
      · simp [hc]
    · rw [List.foldl_cons, h2, e2, List.map_cons, List.sum_cons]
      push_cast; omega

theorem eraseFirst_fold (k : Char) : ∀ (n : Nat) (v : FrequencyVars), n ≤ v.current.count k →
    (∀ c, ((List.range n).foldl (fun v1 _ => eraseFirst k v1) v).current.count c =
        v.current.count c - (if k = c then n else 0)) ∧
      ((List.range n).foldl (fun v1 _ => eraseFirst k v1) v).distance = v.distance + (n : Int) := by
  intro n
  induction n with
  | zero => intro v _; simp
  | succ n ih =>
    intro v hn
    rw [List.range_succ, List.foldl_append]
    obtain ⟨h1, h2⟩ := ih v (by omega)
    generalize (List.range n).foldl (fun v1 _ => eraseFirst k v1) v = w at h1 h2
    have hk : k ∈ w.current := by
      apply List.count_pos_iff.mp
      have := h1 k
      simp at this
      omega
    simp only [List.foldl_cons, List.foldl_nil, eraseFirst,
      if_pos (List.indexOf_lt_length.mpr hk), List.eraseIdx_indexOf_eq_erase]
    refine ⟨?_, by rw [h2]; push_cast; omega⟩
    intro c
    rw [List.count_erase, h1 c]
    by_cases hc : k = c
    · simp [hc]; omega
    · simp [hc]

theorem deleteSurplus_spec (target_freq : List (Char × Int)) (v : FrequencyVars)
    (p : Char × Int) (h : excess target_freq p ≤ v.current.count p.1) :
    (∀ c, (deleteSurplus target_freq v p).current.count c =
        v.current.count c - (if p.1 = c then excess target_freq p else 0)) ∧
      (deleteSurplus target_freq v p).distance = v.distance + (excess target_freq p : Int) := by
  unfold deleteSurplus
  unfold excess at h ⊢
  split
  · exact eraseFirst_fold p.1 _ v h
  · rename_i hgt
    have : (p.2 - freqCount target_freq p.1).toNat = 0 := by omega
    rw [this]; simp

theorem deleteSurplus_fold (target_freq : List (Char × Int)) :
    ∀ (l : List (Char × Int)) (v : FrequencyVars), (l.map Prod.fst).Nodup →
    (∀ p ∈ l, excess target_freq p ≤ v.current.count p.1) →
    (∀ c, (l.foldl (deleteSurplus target_freq) v).current.count c = v.current.count c -
        (l.map (fun p => if p.1 = c then excess target_freq p else 0)).sum) ∧
      (l.foldl (deleteSurplus target_freq) v).distance =
        v.distance + ((l.map (excess target_freq)).sum : Nat) := by
  intro l
  induction l with
  | nil => intro v _ _; simp
  | cons p l ih =>
    intro v hnd hle
    rw [List.map_cons, List.nodup_cons] at hnd
    obtain ⟨e1, e2⟩ := deleteSurplus_spec target_freq v p (hle p (List.mem_cons_self _ _))
    have hle1 : ∀ q ∈ l, excess target_freq q ≤
        (deleteSurplus target_freq v p).current.count q.1 := by
      intro q hq
      have hne : p.1 ≠ q.1 := fun h => hnd.1 (h ▸ List.mem_map.mpr ⟨q, hq, rfl⟩)
      rw [e1 q.1, if_neg hne]
      exact hle q (List.mem_cons_of_mem _ hq)
    obtain ⟨h1, h2⟩ := ih (deleteSurplus target_freq v p) hnd.2 hle1
    refine ⟨?_, ?_⟩
    · intro c
      rw [List.foldl_cons, h1 c, e1 c, List.map_cons, List.sum_cons]
      omega
    · rw [List.foldl_cons, h2, e2, List.map_cons, List.sum_cons]
      push_cast; omega

/-- Over a list with distinct keys, the sum that selects the key `c` is the term of `c`. -/
theorem sum_select_key (f : Char → Nat) (c : Char) : ∀ (keys : List Char), keys.Nodup →
    (keys.map (fun k => if k = c then f k else 0)).sum = if c ∈ keys then f c else 0 := by
  intro keys
  induction keys with
  | nil => intro _; simp
  | cons k keys ih =>
    intro hnd
    rw [List.nodup_cons] at hnd
    rw [List.map_cons, List.sum_cons, ih hnd.2]
    by_cases hk : k = c
    · subst hk; simp [hnd.1]
    · have : ¬ c = k := fun h => hk h.symm
      simp [hk, this]

theorem select_calculateFrequency (str other : Str) (c : Char) :
    ((calculateFrequency str).map
      (fun p => if p.1 = c then excess (calculateFrequency other) p else 0)).sum =
      str.count c - other.count c := by
  have e : (calculateFrequency str).map
      (fun p => if p.1 = c then excess (calculateFrequency other) p else 0) =
      ((calculateFrequency str).map Prod.fst).map
        (fun k => if k = c then str.count k - other.count k else 0) := by
    rw [List.map_map]
    apply List.map_congr_left
    intro p hp
    simp only [Function.comp, excess_calculateFrequency str other p hp]
  rw [e, sum_select_key (fun k => str.count k - other.count k) c _
    (calculateFrequency_nodup str)]
  split
  · rfl
  · rename_i h
    rw [mem_keys_calculateFrequency] at h
    rw [List.count_eq_zero_of_not_mem h]; simp

theorem total_calculateFrequency (str other : Str) (chars : Finset Char)
    (h : ∀ c ∈ str, c ∈ chars) :
    ((calculateFrequency str).map (excess (calculateFrequency other))).sum =
      ∑ c ∈ chars, (str.count c - other.count c) := by
  have e : (calculateFrequency str).map (excess (calculateFrequency other)) =
      ((calculateFrequency str).map Prod.fst).map (fun k => str.count k - other.count k) := by
    rw [List.map_map]
    apply List.map_congr_left
    intro p hp
    simp only [Function.comp, excess_calculateFrequency str other p hp]
  rw [e, ← List.sum_toFinset _ (calculateFrequency_nodup str)]
  apply Finset.sum_subset
  · intro k hk
    rw [List.mem_toFinset, mem_keys_calculateFrequency] at hk
    exact h k hk
  · intro k _ hk
    rw [List.mem_toFinset, mem_keys_calculateFrequency] at hk
    rw [List.count_eq_zero_of_not_mem hk]; simp

theorem frequencyBasedGreedy_spec (source target : Str) :
    (∀ c, (frequencyBasedGreedy source target).final_string.count c = target.count c) ∧
      ∀ chars : Finset Char, (∀ c ∈ source ++ target, c ∈ chars) →
        (frequencyBasedGreedy source target).distance =
          ∑ c ∈ chars, abs ((source.count c : Int) - (target.count c : Int)) := by
  obtain ⟨a1, a2⟩ := insertMissing_fold (calculateFrequency source) (calculateFrequency target)
    ⟨source, [], 0⟩
  have hpre : ∀ p ∈ calculateFrequency source, excess (calculateFrequency target) p ≤
      ((calculateFrequency target).foldl (insertMissing (calculateFrequency source))
        ⟨source, [], 0⟩).current.count p.1 := by
    intro p hp
    rw [a1 p.1, excess_calculateFrequency source target p hp]
    show source.count p.1 - target.count p.1 ≤ source.count p.1 + _
    omega
  obtain ⟨b1, b2⟩ := deleteSurplus_fold (calculateFrequency target) (calculateFrequency source)
    _ (calculateFrequency_nodup source) hpre
  have ef : (frequencyBasedGreedy source target).final_string =
      ((calculateFrequency source).foldl (deleteSurplus (calculateFrequency target))
        ((calculateFrequency target).foldl (insertMissing (calculateFrequency source))
          ⟨source, [], 0⟩)).current := rfl
  have ed : (frequencyBasedGreedy source target).distance =
      ((calculateFrequency source).foldl (deleteSurplus (calculateFrequency target))
        ((calculateFrequency target).foldl (insertMissing (calculateFrequency source))
          ⟨source, [], 0⟩)).distance := rfl
  refine ⟨?_, ?_⟩
  · intro c
    rw [ef, b1 c, a1 c, select_calculateFrequency, select_calculateFrequency]
    show source.count c + _ - _ = _
    omega
  · intro chars hch
    rw [ed, b2, a2, total_calculateFrequency target source chars
        (fun c hc => hch c (List.mem_append_right _ hc)),
      total_calculateFrequency source target chars
        (fun c hc => hch c (List.mem_append_left _ hc))]
    push_cast
    rw [zero_add, ← Finset.sum_add_distrib]
    apply Finset.sum_congr rfl
    intro c _
    rcases le_total (source.count c) (target.count c) with h | h
    · rw [abs_of_nonpos (by omega), Nat.sub_eq_zero_of_le h]
      push_cast [Nat.cast_sub h]
      omega
    · rw [abs_of_nonneg (by omega), Nat.sub_eq_zero_of_le h]
      push_cast [Nat.cast_sub h]
      omega

theorem lcsLoop_terminates (str1 str2 : Str) (dp : Table) : ∀ (fuel i j : Nat)
    (positions : List (Int × Int)), i + j < fuel →
    ∃ r, lcsLoop str1 str2 dp fuel i j positions = some r := by
  intro fuel
  induction fuel with
  | zero => intro i j ps h; omega
  | succ fuel ih =>
    intro i j ps h
    unfold lcsLoop
    by_cases hc : 0 < i ∧ 0 < j
    · rw [if_pos hc]
      apply ih
      unfold lcsStep
      split
      · simp only []; omega
      · split
        · simp only []; omega
        · simp only []; omega
    · rw [if_neg hc]; exact ⟨ps, rfl⟩

theorem findLCS_terminates (str1 str2 : Str) (fuel : Nat)
    (h : str1.length + str2.length < fuel) : ∃ r, findLCS fuel str1 str2 = some r := by
  obtain ⟨r, hr⟩ := lcsLoop_terminates str1 str2 (lcsTable str1 str2) fuel str1.length
    str2.length [] h
  exact ⟨r.reverse, by simp [findLCS, hr]⟩

theorem positionLoop_append (target : Str) : ∀ (l1 l2 : List Nat) (v : PositionVars),
    positionLoop target (l1 ++ l2) v =
      match positionLoop target l1 v with
      | Except.error e => Except.error e
      | Except.ok v1 => positionLoop target l2 v1 := by
  intro l1
  induction l1 with
  | nil => intro l2 v; rfl
  | cons i l1 ih =>
    intro l2 v
    rw [List.cons_append, positionLoop, positionLoop]
    cases positionStep target v i with
    | error e => rfl
    | ok v1 => exact ih l2 v1

/-- The iterations with `i < min(source.length(), target.length())`: replacements and matches
in place, the offset stays zero. -/
theorem positionLoop_overlap : ∀ (x y pre : Str) (operations : List GreedyOperation) (d : Int),
    ∃ ops1 d1, positionLoop (pre ++ y) (List.range' pre.length (min x.length y.length))
        ⟨pre ++ x, 0, operations, d⟩ =
      Except.ok ⟨pre ++ y.take (min x.length y.length) ++ x.drop (min x.length y.length), 0,
        ops1, d1⟩ := by
  intro x
  induction x with
  | nil => intro y pre ops d; exact ⟨ops, d, by simp [positionLoop]⟩
  | cons a x ih =>
    intro y pre ops d
    cases y with
    | nil => exact ⟨ops, d, by simp [positionLoop]⟩
    | cons b y =>
      have hmin : min (a :: x).length (b :: y).length = min x.length y.length + 1 := by
        simp only [List.length_cons]; omega
      have ht : pre ++ [b] ++ y = pre ++ b :: y := by simp
      have hsz : sizeLt ((pre.length : Int) + 0) (pre ++ a :: x).length = true := by
        simp [sizeLt]
      rw [hmin, List.range'_succ, positionLoop]
      by_cases hab : a = b
      · subst hab
        have hstep : positionStep (pre ++ a :: y) ⟨pre ++ a :: x, 0, ops, d⟩ pre.length =
            Except.ok ⟨pre ++ [a] ++ x, 0,
              ops ++ [⟨OperationType.MATCH, (pre.length : Int) + 0, a, a⟩], d⟩ := by
          unfold positionStep
          rw [if_neg (by simp)]
          simp only [hsz]
          simp [charAt_append_length]
        obtain ⟨ops1, d1, h1⟩ := ih y (pre ++ [a])
          (ops ++ [⟨OperationType.MATCH, (pre.length : Int) + 0, a, a⟩]) d
        rw [ht] at h1
        rw [hstep]
        simp only []
        refine ⟨ops1, d1, ?_⟩
        simp only [List.length_append, List.length_singleton] at h1
        rw [h1]
        simp
      · have hstep : positionStep (pre ++ b :: y) ⟨pre ++ a :: x, 0, ops, d⟩ pre.length =
            Except.ok ⟨pre ++ [b] ++ x, 0,
              ops ++ [⟨OperationType.REPLACE, (pre.length : Int) + 0, a, b⟩], d + 1⟩ := by
          unfold positionStep
          rw [if_neg (by simp)]
          simp only [hsz]
          simp [charAt_append_length, hab]
        obtain ⟨ops1, d1, h1⟩ := ih y (pre ++ [b])
          (ops ++ [⟨OperationType.REPLACE, (pre.length : Int) + 0, a, b⟩]) (d + 1)
        rw [ht] at h1
        rw [hstep]
        simp only []
        refine ⟨ops1, d1, ?_⟩
        simp only [List.length_append, List.length_singleton] at h1
        rw [h1]
        simp

/-- The iterations with `i >= target.length()` while characters remain: each erases the
character at position `target.length()`. -/
theorem positionLoop_delete (target : Str) : ∀ (z : Str) (j : Nat)
    (operations : List GreedyOperation) (d : Int),
    ∃ off1 ops1 d1, positionLoop target (List.range' (target.length + j) z.length)
        ⟨target ++ z, -(j : Int), operations, d⟩ = Except.ok ⟨target, off1, ops1, d1⟩ := by
  intro z
  induction z with
  | nil => intro j ops d; exact ⟨-(j : Int), ops, d, by simp [positionLoop]⟩
  | cons a z ih =>
    intro j ops d
    have hpos : ((target.length + j : Nat) : Int) + -(j : Int) = (target.length : Int) := by
      push_cast; omega
    have hsz : sizeLt (((target.length + j : Nat) : Int) + -(j : Int))
        (target ++ a :: z).length = true := by
      rw [hpos]; simp [sizeLt]
    have hstep : positionStep target ⟨target ++ a :: z, -(j : Int), ops, d⟩
        (target.length + j) = Except.ok ⟨target ++ z, -((j + 1 : Nat) : Int),
          ops ++ [⟨OperationType.DELETE, ((target.length + j : Nat) : Int) + -(j : Int), a,
            nul⟩], d + 1⟩ := by
      unfold positionStep
      rw [if_pos (by omega)]
      simp only [hsz, if_true]
      rw [hpos]
      simp [charAt_append_length]
      refine ⟨?_, by omega⟩
      rw [List.eraseIdx_append_of_length_le (le_refl _)]
      simp
    obtain ⟨off1, ops1, d1, h1⟩ := ih (j + 1)
      (ops ++ [⟨OperationType.DELETE, ((target.length + j : Nat) : Int) + -(j : Int), a,
        nul⟩]) (d + 1)
    rw [List.length_cons, List.range'_succ, positionLoop, hstep]
    simp only []
    exact ⟨off1, ops1, d1, h1⟩

/-- The first iteration with `i >= source.length()` (and `i < target.length()`): the
insertion at the end succeeds and the offset becomes 1. -/
theorem positionStep_first_insert (pre : Str) (b : Char) (y : Str)
    (operations : List GreedyOperation) (d : Int) :
    positionStep (pre ++ b :: y) ⟨pre, 0, operations, d⟩ pre.length =
      Except.ok ⟨pre ++ [b], 1,
        operations ++ [⟨OperationType.INSERT, (pre.length : Int) + 0, nul, b⟩], d + 1⟩ := by
  have hsz : sizeLt ((pre.length : Int) + 0) pre.length = false := by simp [sizeLt]
  unfold positionStep
  rw [if_neg (by simp)]
  simp only [hsz]
  simp [strInsert, Except.map, charAt_append_length, List.insertIdx_length_self]

/-- The second such iteration: the position `i + 1` is beyond the end and `insert` throws. -/
theorem positionStep_second_insert (pre : Str) (b c : Char) (y : Str)
    (operations : List GreedyOperation) (d : Int) :
    positionStep (pre ++ b :: c :: y) ⟨pre ++ [b], 1, operations, d⟩ (pre.length + 1) =
      Except.error StringError.insert_out_of_range := by
  have hsz : sizeLt (((pre.length + 1 : Nat) : Int) + 1) (pre ++ [b]).length = false := by
    simp [sizeLt]
  unfold positionStep
  rw [if_neg (by simp)]
  simp only [hsz]
  simp [strInsert, Except.map]

theorem positionLoop_spec (source target : Str) :
    (source.length + 2 ≤ target.length →
      positionLoop target (List.range (max source.length target.length)) ⟨source, 0, [], 0⟩ =
        Except.error StringError.insert_out_of_range) ∧
    (target.length < source.length + 2 →
      ∃ v, positionLoop target (List.range (max source.length target.length))
        ⟨source, 0, [], 0⟩ = Except.ok v ∧ v.current = target) := by
  obtain ⟨ops1, d1, h1⟩ := positionLoop_overlap source target [] [] 0
  simp only [List.nil_append, List.length_nil] at h1
  have hsplit : List.range (max source.length target.length) =
      List.range' 0 (min source.length target.length) ++
        List.range' (min source.length target.length)
          (max source.length target.length - min source.length target.length) := by
    rw [List.range_eq_range']
    have := List.range'_append_1 0 (min source.length target.length)
      (max source.length target.length - min source.length target.length)
    rw [Nat.zero_add] at this
    rw [this]
    congr 1
    omega
  rw [hsplit, positionLoop_append, h1]
  simp only []
  rcases Nat.lt_or_ge source.length target.length with hlt | hge
  · -- the target is longer: its first part is in place, the rest is to be inserted
    have hmin : min source.length target.length = source.length := by omega
    have hmax : max source.length target.length = target.length := by omega
    rw [hmin, hmax, List.drop_length, List.append_nil]
    obtain ⟨y, hy⟩ : ∃ y, target = target.take source.length ++ y :=
      ⟨target.drop source.length, (List.take_append_drop _ _).symm⟩
    have hlen : (target.take source.length).length = source.length := by
      rw [List.length_take]; omega
    have hyl : y.length = target.length - source.length := by
      have := congrArg List.length hy
      rw [List.length_append, hlen] at this
      omega
    generalize target.take source.length = pre at hy hlen
    subst hy
    rw [← hlen]
    cases y with
    | nil => rw [List.append_nil] at hlt; omega
    | cons b y =>
      have e : (pre ++ b :: y).length - pre.length = y.length + 1 := by simp
      rw [e, List.range'_succ, positionLoop, positionStep_first_insert]
      simp only []
      cases y with
      | nil =>
        refine ⟨fun h => ?_, fun _ => ⟨_, rfl, rfl⟩⟩
        simp only [List.length_append, List.length_cons, List.length_nil] at h
        omega
      | cons c y =>
        refine ⟨fun _ => ?_, fun h => ?_⟩
        · rw [List.length_cons, List.range'_succ, positionLoop, positionStep_second_insert]
        · simp only [List.length_append, List.length_cons] at h
          omega
  · -- the source is at least as long: its surplus is erased
    have hmin : min source.length target.length = target.length := by omega
    have hmax : max source.length target.length = source.length := by omega
    rw [hmin, hmax, List.take_length]
    refine ⟨fun h => by omega, fun _ => ?_⟩
    obtain ⟨off1, ops2, d2, h2⟩ := positionLoop_delete target (source.drop target.length) 0
      ops1 d1
    rw [List.length_drop] at h2
    simp only [Nat.add_zero, Nat.cast_zero, neg_zero] at h2
    exact ⟨_, h2, rfl⟩

theorem positionBasedGreedy_spec (source target : Str) (fuel : Nat)
    (hf : source.length + target.length < fuel) :
    (source.length + 2 ≤ target.length →
      positionBasedGreedy fuel source target =
        some (Except.error StringError.insert_out_of_range)) ∧
    (target.length < source.length + 2 →
      ∃ r, positionBasedGreedy fuel source target = some (Except.ok r) ∧
        r.final_string = target) := by
  obtain ⟨lcs_positions, hl⟩ := findLCS_terminates source target fuel hf
  obtain ⟨h1, h2⟩ := positionLoop_spec source target
  refine ⟨fun h => ?_, fun h => ?_⟩
  · simp [positionBasedGreedy, hl, h1 h, Except.map]
  · obtain ⟨v, hv, hc⟩ := h2 h
    exact ⟨⟨v.distance, v.operations, v.current⟩,
      by simp [positionBasedGreedy, hl, hv, Except.map], hc⟩

/-! ### The optimal paths from `abc` to the empty string -/

theorem mem_deletions_of_shorter {s u : Str} (h : u ∈ generateNextStates s)
    (hl : u.length < s.length) : u ∈ deletions s := by
  rcases mem_generateNextStates.mp h with h | h | h
  · exact h
  · obtain ⟨i, c, hi, _, rfl⟩ := mem_insertions.mp h
    rw [List.length_insertIdx _ _ hi] at hl
    omega
  · obtain ⟨i, c, _, _, _, rfl⟩ := mem_substitutions.mp h
    rw [List.length_set] at hl
    omega

theorem length_of_neighbour {s u : Str} (h : u ∈ generateNextStates s) :
    u.length ≤ s.length + 1 ∧ s.length ≤ u.length + 1 := by
  have h1 := heuristic_le_lev s u
  rw [lev_eq_one_of_mem h] at h1
  unfold heuristic at h1
  have := abs_le.mp h1
  constructor <;> omega

set_option maxRecDepth 1000000 in
theorem optPath_abc_cases {p : List Str} (h : OptPath "abc".toList "".toList p) :
    p ∈ abcDeletionOrders := by
  obtain ⟨⟨hh, hl, hc⟩, hlen⟩ := h
  have e3 : lev "abc".toList "".toList = 3 := by decide
  rw [e3] at hlen
  match p, hlen with
  | [a0, a1, a2, a3], _ =>
    simp only [List.head?_cons, Option.some.injEq] at hh
    have hl3 : a3 = "".toList := by simpa using hl
    subst hh hl3
    unfold IsChain at hc
    simp only [List.chain'_cons, List.chain'_singleton, and_true] at hc
    obtain ⟨c1, c2, c3⟩ := hc
    have l3 := length_of_neighbour c3
    have l2 := length_of_neighbour c2
    have l1 := length_of_neighbour c1
    have n0 : "abc".toList.length = 3 := rfl
    have n3 : "".toList.length = 0 := rfl
    rw [n3] at l3
    rw [n0] at l1
    have d1 := mem_deletions_of_shorter c1 (by rw [n0]; omega)
    have d2 := mem_deletions_of_shorter c2 (by omega)
    have e1 : deletions "abc".toList = ["bc".toList, "ac".toList, "ab".toList] := by decide
    rw [e1] at d1
    simp only [List.mem_cons, List.mem_singleton, List.not_mem_nil, or_false] at d1
    rcases d1 with rfl | rfl | rfl
    · have e2 : deletions "bc".toList = ["c".toList, "b".toList] := by decide
      rw [e2] at d2
      simp only [List.mem_cons, List.mem_singleton, List.not_mem_nil, or_false] at d2
      rcases d2 with rfl | rfl <;> decide
    · have e2 : deletions "ac".toList = ["c".toList, "a".toList] := by decide
      rw [e2] at d2
      simp only [List.mem_cons, List.mem_singleton, List.not_mem_nil, or_false] at d2
      rcases d2 with rfl | rfl <;> decide
    · have e2 : deletions "ab".toList = ["b".toList, "a".toList] := by decide
      rw [e2] at d2
      simp only [List.mem_cons, List.mem_singleton, List.not_mem_nil, or_false] at d2
      rcases d2 with rfl | rfl <;> decide

set_option maxRecDepth 1000000 in
theorem optPath_abc_orders : ∀ p ∈ abcDeletionOrders, OptPath "abc".toList "".toList p := by
  have hd : ∀ (s u : Str), u ∈ deletions s → u ∈ generateNextStates s :=
    fun s u h => mem_generateNextStates.mpr (Or.inl h)
  intro p hp
  simp only [abcDeletionOrders, List.mem_cons, List.mem_singleton, List.not_mem_nil,
    or_false] at hp
  rcases hp with rfl | rfl | rfl | rfl | rfl | rfl
  all_goals
    refine ⟨⟨rfl, rfl, ?_⟩, by decide⟩
    unfold IsChain
    simp only [List.chain'_cons, List.chain'_singleton, and_true]
    exact ⟨hd _ _ (by decide), hd _ _ (by decide), hd _ _ (by decide)⟩

/-! ### Bidirectional search: the states of the run -/

theorem biLoop_result_after (start target : Str) : ∀ (fuel m : Nat) (r : BFSResult),
    biLoop fuel (biAfter start target m) = some r → ∃ n, r = (biAfter start target n).result := by
  intro fuel
  induction fuel with
  | zero => intro m r h; simp [biLoop] at h
  | succ fuel ih =>
    intro m r h
    unfold biLoop at h
    split at h
    · exact ⟨m, (Option.some.inj h).symm⟩
    · split at h
      · exact ⟨m + 1, (Option.some.inj h).symm⟩
      · exact ih (m + 1) r h

theorem biHalfUpTo_full (ov : List (Str × Int)) (acc : BFSResult × Frontier) (k : Nat)
    (hk : neighbourCount acc.2 ≤ k) : biHalfUpTo k ov acc = biHalf ov acc := by
  apply biHalf_eq_upTo
  intro s c rest hq
  unfold neighbourCount at hk
  rw [hq] at hk
  exact hk

/-! ### The claims C31 to C40 -/

/-- C31. For lowercase strings `s` and `t`, `t` is among the neighbours `generateNextStates s`
exactly when `s` is among the neighbours `generateNextStates t`. -/
theorem C31_generateNextStates_symmetric (s t : Str) (hs : Lower s) (ht : Lower t) :
    t ∈ generateNextStates s ↔ s ∈ generateNextStates t :=
  ⟨mem_generateNextStates_symm hs, mem_generateNextStates_symm ht⟩

set_option maxRecDepth 1000000 in
theorem C31_witness :
    Lower "cat".toList ∧ Lower "at".toList ∧ "at".toList ∈ generateNextStates "cat".toList ∧
      ("at".toList ∈ generateNextStates "cat".toList ↔
        "cat".toList ∈ generateNextStates "at".toList) :=
  ⟨by decide, by decide, by decide,
    C31_generateNextStates_symmetric "cat".toList "at".toList (by decide) (by decide)⟩

set_option maxRecDepth 1000000 in
/-- C32, counterexample. From `""` to `"ab"` (true distance 2), when the second pop takes the
single-letter state `"c"`: after two iterations `min_distance` is still unset, the third
iteration assigns it the value 3 with the path `"" → c → ac → ab`; the search continued from
there returns `min_distance = 2`, and the path recorded first is no longer in `all_paths`. -/
theorem C32_counterexample :
    basicEditDistance "".toList "ab".toList = 2 ∧
      (optimizedAfter "ab".toList "".toList (fun k => if k = 1 then 2 else 0) 2).result.min_distance
        = -1 ∧
      (optimizedAfter "ab".toList "".toList (fun k => if k = 1 then 2 else 0) 3).result.min_distance
        = 3 ∧
      (optimizedAfter "ab".toList "".toList (fun k => if k = 1 then 2 else 0) 3).result.all_paths
        = [["".toList, "c".toList, "ac".toList, "ab".toList]] ∧
      ∃ r, (∀ fuel, optimizedFuel "".toList "ab".toList ≤ fuel →
          optimizedBFSEditDistance (fun k => if k = 1 then 2 else 0) fuel "".toList "ab".toList =
            some r ∧
          optimizedLoop "ab".toList fuel (fun k => if k + 3 = 1 then 2 else 0)
            (optimizedAfter "ab".toList "".toList (fun k => if k = 1 then 2 else 0) 3) = some r) ∧
        r.min_distance = 2 ∧
        ["".toList, "c".toList, "ac".toList, "ab".toList] ∉ r.all_paths := by
  have hd : basicEditDistance "".toList "ab".toList = 2 := by
    rw [basicEditDistance_eq_lev]; decide
  obtain ⟨r, hr, hok, hdist⟩ := optimizedBFS_total "".toList "ab".toList (by decide)
    (fun k => if k = 1 then 2 else 0)
  have hne : "".toList ≠ "ab".toList := by decide
  have hm : r.min_distance = 2 := by rw [hdist, ← basicEditDistance_eq_lev, hd]
  refine ⟨hd, third_iteration_ab.1, third_iteration_ab.2.1, third_iteration_ab.2.2, r,
    fun fuel hf => ⟨hr fuel hf, ?_⟩, hm, ?_⟩
  · have h := hr fuel hf
    unfold optimizedBFSEditDistance at h
    rw [if_neg hne] at h
    exact optimizedLoop_after h 3
  · intro hin
    have := (hok.paths _ hin).1
    rw [hm] at this
    simp at this

/-- C32 (amended). For every start, every lowercase target other than the start and every
resolution `tie` of the queue ties, `optimizedBFSEditDistance` terminates and the
`min_distance` it returns is `basicEditDistance start target`; the states
`optimizedAfter .. n` after `n` iterations are the states the run goes through; in each of
them `min_distance` is unset or at least the true distance (a first recorded value may exceed
it), and one more iteration never unsets or raises a recorded value (it may lower it). -/
theorem C32_min_distance_settles_from_above (start target : Str) (ht : Lower target)
    (hne : start ≠ target) (tie : Nat → Nat) :
    ∃ r, (∀ fuel, optimizedFuel start target ≤ fuel →
          optimizedBFSEditDistance tie fuel start target = some r ∧
          ∀ n, optimizedLoop target fuel (fun k => tie (k + n))
            (optimizedAfter target start tie n) = some r) ∧
      r.min_distance = basicEditDistance start target ∧
      ∀ n, ((optimizedAfter target start tie n).result.min_distance = -1 ∨
          basicEditDistance start target ≤
            (optimizedAfter target start tie n).result.min_distance) ∧
        ((optimizedAfter target start tie n).result.min_distance ≠ -1 →
          (optimizedAfter target start tie (n + 1)).result.min_distance ≠ -1 ∧
          (optimizedAfter target start tie (n + 1)).result.min_distance ≤
            (optimizedAfter target start tie n).result.min_distance) := by
  obtain ⟨r, hr, _, hdist⟩ := optimizedBFS_total start target ht tie
  refine ⟨r, fun fuel hf => ⟨hr fuel hf, ?_⟩, by rw [basicEditDistance_eq_lev]; exact hdist,
    fun n => ⟨?_, ?_⟩⟩
  · have h := hr fuel hf
    unfold optimizedBFSEditDistance at h
    rw [if_neg hne] at h
    exact optimizedLoop_after h
  · rw [basicEditDistance_eq_lev]
    exact (phead_after ht hne tie n).ok.result.sound
  · exact notRaised_iter (tie n) (phead_after ht hne tie n)

theorem C32_witness :
    Lower "ab".toList ∧ "".toList ≠ "ab".toList ∧
      ∃ r, (∀ fuel, optimizedFuel "".toList "ab".toList ≤ fuel →
          optimizedBFSEditDistance (fun k => if k = 1 then 2 else 0) fuel "".toList
            "ab".toList = some r) ∧
        r.min_distance = basicEditDistance "".toList "ab".toList := by
  refine ⟨by decide, by decide, ?_⟩
  obtain ⟨r, h1, h2, _⟩ := C32_min_distance_settles_from_above "".toList "ab".toList
    (by decide) (by decide) (fun k => if k = 1 then 2 else 0)
  exact ⟨r, fun fuel hf => (h1 fuel hf).1, h2⟩

/-- C33. From `"abc"` to `""`, for every resolution `tie` of the queue ties: both searches
terminate; the paths of `completeBFSEditDistance` are exactly the six orders of deleting the
three letters; every path of `optimizedBFSEditDistance` is one of them, and at least one of
them is missing (the two orders that pass through `"c"` are never both recorded, a string
being enqueued only when reached at a strictly smaller cost), so the heuristic search returns
fewer than six distinct paths. -/
theorem C33_optimized_paths_strict_subset (tie : Nat → Nat) :
    ∃ ro rc,
      (∀ fuel, optimizedFuel "abc".toList "".toList ≤ fuel →
        optimizedBFSEditDistance tie fuel "abc".toList "".toList = some ro) ∧
      (∀ fuel, completeFuel "abc".toList "".toList ≤ fuel →
        completeBFSEditDistance fuel "abc".toList "".toList = some rc) ∧
      (∀ p, p ∈ rc.all_paths ↔ p ∈ abcDeletionOrders) ∧
      (∀ p ∈ ro.all_paths, p ∈ rc.all_paths) ∧
      (∃ p ∈ rc.all_paths, p ∉ ro.all_paths) ∧
      rc.all_paths.toFinset.card = 6 ∧
      ro.all_paths.toFinset.card < rc.all_paths.toFinset.card := by
  obtain ⟨ro, hro, hok, hdist⟩ := optimizedBFS_total "abc".toList "".toList (by decide) tie
  obtain ⟨rc, hrc, hpost⟩ := completeBFS_total "abc".toList "".toList (by decide)
  have hne : "abc".toList ≠ "".toList := by decide
  have hiff : ∀ p, p ∈ rc.all_paths ↔ p ∈ abcDeletionOrders := by
    intro p
    constructor
    · intro hp
      obtain ⟨hlen, hpath⟩ := hpost.ok.paths p hp
      rw [hpost.dist] at hlen
      exact optPath_abc_cases ⟨hpath, by omega⟩
    · exact fun hp => hpost.all p (optPath_abc_orders p hp)
  have hsub : ∀ p ∈ ro.all_paths, p ∈ rc.all_paths := by
    intro p hp
    obtain ⟨hlen, hpath⟩ := hok.paths p hp
    exact hpost.all p ⟨hpath, by omega⟩
  have hmiss : ∃ p ∈ rc.all_paths, p ∉ ro.all_paths := by
    by_cases h1 : ["abc".toList, "bc".toList, "c".toList, "".toList] ∈ ro.all_paths
    · refine ⟨["abc".toList, "ac".toList, "c".toList, "".toList],
        (hiff _).mpr (by simp [abcDeletionOrders]), fun h2 => ?_⟩
      have e := optimized_paths_single hne (hro _ (le_refl _)) _ h1 _ h2 rfl rfl
      exact absurd e (by decide)
    · exact ⟨_, (hiff _).mpr (by simp [abcDeletionOrders]), h1⟩
  have hcard : rc.all_paths.toFinset.card = 6 := by
    have e : rc.all_paths.toFinset = abcDeletionOrders.toFinset := by
      ext p
      rw [List.mem_toFinset, List.mem_toFinset]
      exact hiff p
    rw [e]
    decide
  refine ⟨ro, rc, hro, hrc, hiff, hsub, hmiss, hcard, ?_⟩
  apply Finset.card_lt_card
  refine ⟨fun p hp => List.mem_toFinset.mpr (hsub p (List.mem_toFinset.mp hp)), ?_⟩
  intro hback
  obtain ⟨p, hp, hn⟩ := hmiss
  exact hn (List.mem_toFinset.mp (hback (List.mem_toFinset.mpr hp)))

theorem C33_witness :
    ∃ ro rc,
      optimizedBFSEditDistance (fun _ => 0) (optimizedFuel "abc".toList "".toList) "abc".toList
        "".toList = some ro ∧
      completeBFSEditDistance (completeFuel "abc".toList "".toList) "abc".toList "".toList =
        some rc ∧
      ro.all_paths.toFinset.card < 6 ∧ rc.all_paths.toFinset.card = 6 := by
  obtain ⟨ro, rc, h1, h2, _, _, _, h6, hlt⟩ := C33_optimized_paths_strict_subset (fun _ => 0)
  exact ⟨ro, rc, h1 _ (le_refl _), h2 _ (le_refl _), by omega, h6⟩

/-- C34. For lowercase `start` and `target`: whatever `bidirectionalBFS` returns is the result
record of one of the states `biAfter start target n`, and iteration `n + 1` leads from state
`n` through the points `forwardPoint` and `backwardPoint` to state `n + 1`. In every state
and at every such point, each entry `(s, c)` of the forward registry has `c` equal to the
length of a shortest `generateNextStates` walk from `start` to `s`, each entry of the backward
registry likewise from `target`, and `min_distance` is unset or at least
`basicEditDistance start target`; and whenever the registry test lets the next neighbour in,
that neighbour has no entry yet, so no entry is overwritten. -/
theorem C34_bidirectional_registry_invariant (start target : Str) (hs : Lower start)
    (ht : Lower target) :
    (∀ fuel r, start ≠ target → bidirectionalBFS fuel start target = some r →
        ∃ n, r = (biAfter start target n).result) ∧
    ∀ n k,
      (neighbourCount (biAfter start target n).forward ≤ k →
        neighbourCount (biAfter start target n).backward ≤ k →
        biAfter start target (n + 1) =
          ⟨(backwardPoint start target n k).1, (forwardPoint start target n k).2,
            (backwardPoint start target n k).2⟩) ∧
      ((∀ e ∈ (biAfter start target n).forward.visited, ShortestWalk start e.1 e.2) ∧
        (∀ e ∈ (biAfter start target n).backward.visited, ShortestWalk target e.1 e.2) ∧
        ((biAfter start target n).result.min_distance = -1 ∨
          basicEditDistance start target ≤ (biAfter start target n).result.min_distance)) ∧
      ((∀ e ∈ (forwardPoint start target n k).2.visited, ShortestWalk start e.1 e.2) ∧
        ((forwardPoint start target n k).1.min_distance = -1 ∨
          basicEditDistance start target ≤ (forwardPoint start target n k).1.min_distance) ∧
        ∀ s c rest w, (biAfter start target n).forward.queue = (s, c) :: rest →
          (generateNextStates s)[k]? = some w →
          biAccepts (forwardPoint start target n k).2.visited w (c + 1) = true →
          costOf (forwardPoint start target n k).2.visited w = none) ∧
      ((∀ e ∈ (backwardPoint start target n k).2.visited, ShortestWalk target e.1 e.2) ∧
        ((backwardPoint start target n k).1.min_distance = -1 ∨
          basicEditDistance start target ≤ (backwardPoint start target n k).1.min_distance) ∧
        ∀ s c rest w, (biAfter start target n).backward.queue = (s, c) :: rest →
          (generateNextStates s)[k]? = some w →
          biAccepts (backwardPoint start target n k).2.visited w (c + 1) = true →
          costOf (backwardPoint start target n k).2.visited w = none) := by
  refine ⟨?_, fun n k => ?_⟩
  · intro fuel r hne h
    unfold bidirectionalBFS at h
    rw [if_neg hne] at h
    exact biLoop_result_after start target fuel 0 r h
  · have hσ := biExact_after hs ht n
    have hbook : MinSound (lev start target) (biBook (biAfter start target n)).min_distance :=
      hσ.sound
    obtain ⟨f1, f2, f3⟩ := exact_half_point hs hσ.bwd.exact hbook hσ.fwd k
    obtain ⟨g1, g2⟩ := exact_half hs hσ.bwd.exact hbook hσ.fwd
    obtain ⟨b1, b2, b3⟩ := exact_half_point ht g1.exact (minSound_comm g2) hσ.bwd k
    rw [basicEditDistance_eq_lev]
    refine ⟨?_, ⟨shortest_of_exact hσ.fwd.exact, shortest_of_exact hσ.bwd.exact, hσ.sound⟩,
      ⟨shortest_of_exact f1, f2, f3⟩, ⟨shortest_of_exact b1, minSound_comm b2, b3⟩⟩
    intro hk1 hk2
    show biIter (biAfter start target n) = _
    rw [biIter_eq]
    unfold backwardPoint forwardPoint
    rw [biHalfUpTo_full (biAfter start target n).backward.visited
      (biBook (biAfter start target n), (biAfter start target n).forward) k hk1,
      biHalfUpTo_full _ _ k hk2]

set_option maxRecDepth 1000000 in
theorem C34_witness :
    Lower "a".toList ∧ Lower "b".toList ∧
      ("b".toList, (1 : Int)) ∈ (biAfter "a".toList "b".toList 1).forward.visited ∧
      ∀ e ∈ (biAfter "a".toList "b".toList 1).forward.visited, ShortestWalk "a".toList e.1 e.2 :=
  ⟨by decide, by decide, by decide,
    ((C34_bidirectional_registry_invariant "a".toList "b".toList (by decide) (by decide)).2
      1 0).2.1.1⟩

/-- C35. For all strings `start`, `target` and every integer `max_depth`, `limitedBFS`
terminates: there is a result that every run with enough fuel returns. An entry with
`cost >= max_depth` is popped without being expanded; a neighbour is pushed only when it is
not in `visited`, and is put there at the same time; after any number of iterations `visited`
and the queue hold no string twice and every queued string is in `visited`. -/
theorem C35_limitedBFS_terminates (start target : Str) (max_depth : Int) :
    (∃ r, ∀ fuel, limitedFuel start max_depth ≤ fuel →
        limitedBFS fuel start target max_depth = some r) ∧
    (∀ (σ : LSearch) (cur : State) (rest : List State), σ.q = cur :: rest →
        cur.cost ≥ max_depth →
        limitedIter target max_depth σ = ⟨countNode σ.result σ.q.length, σ.visited, rest⟩) ∧
    (∀ (cur : State) (σ : LSearch) (w : Str),
        ((limitedVisit target cur σ w).q = σ.q ∧
          (limitedVisit target cur σ w).visited = σ.visited) ∨
        (w ∉ σ.visited ∧ (limitedVisit target cur σ w).visited = w :: σ.visited ∧
          (limitedVisit target cur σ w).q = σ.q ++ [⟨w, cur.cost + 1, cur.path ++ [w]⟩])) ∧
    ∀ n, (limitedAfter target start max_depth n).visited.Nodup ∧
      ((limitedAfter target start max_depth n).q.map State.current_string).Nodup ∧
      ∀ e ∈ (limitedAfter target start max_depth n).q,
        e.current_string ∈ (limitedAfter target start max_depth n).visited := by
  refine ⟨limitedBFS_terminates start target max_depth, ?_, ?_,
    fun n => oncePerString_after target start max_depth n⟩
  · intro σ cur rest hq hc
    unfold limitedIter
    rw [hq]
    simp only [if_pos hc]
  · intro cur σ w
    unfold limitedVisit
    split
    · exact Or.inl ⟨rfl, rfl⟩
    · split
      · rename_i hv
        exact Or.inr ⟨hv, rfl, rfl⟩
      · exact Or.inl ⟨rfl, rfl⟩

theorem C35_witness :
    (∃ r, limitedBFS (limitedFuel "ab".toList (-1)) "ab".toList "b!".toList (-1) = some r) ∧
      ∃ r, limitedBFS (limitedFuel "ab".toList 2) "ab".toList "b!".toList 2 = some r := by
  obtain ⟨r, hr⟩ := (C35_limitedBFS_terminates "ab".toList "b!".toList (-1)).1
  obtain ⟨r1, hr1⟩ := (C35_limitedBFS_terminates "ab".toList "b!".toList 2).1
  exact ⟨⟨r, hr _ (le_refl _)⟩, ⟨r1, hr1 _ (le_refl _)⟩⟩

/-- C36. For all strings `source` and `target`, `basicGreedyEditDistance` terminates without
an exception; its `final_string` is `target`; its `distance` is the number of operations other
than `MATCH` it recorded, and that is the number of positions `i < min(len(source),
len(target))` with `source[i] != target[i]` plus `|len(source) - len(target)|`. -/
theorem C36_basicGreedy_reaches_target (source target : Str) :
    ∃ r, (∀ fuel, max source.length target.length < fuel →
        basicGreedyEditDistance fuel source target = some (Except.ok r)) ∧
      r.final_string = target ∧
      r.distance = (editCount r.operations : Int) ∧
      r.distance = (mismatches source target : Int) +
        abs ((source.length : Int) - (target.length : Int)) := by
  refine ⟨_, fun fuel hf => basicGreedy_spec source target fuel hf, rfl, ?_, ?_⟩
  · simp only [editCount_greedyOps]
  · simp only [greedyCost_eq_mismatches]
    rcases le_total source.length target.length with h | h
    · rw [abs_of_nonpos (by omega)]; push_cast; omega
    · rw [abs_of_nonneg (by omega)]; push_cast; omega

set_option maxRecDepth 1000000 in
theorem C36_witness :
    ∃ r, basicGreedyEditDistance 8 "kitten".toList "sitting".toList = some (Except.ok r) ∧
      r.final_string = "sitting".toList ∧ editCount r.operations = 3 ∧ r.distance = 3 := by
  obtain ⟨r, h, hf, he, hd⟩ := C36_basicGreedy_reaches_target "kitten".toList "sitting".toList
  have h3 : r.distance = 3 := by rw [hd]; decide
  exact ⟨r, h 8 (by decide), hf, by omega, h3⟩

/-- C37. For all strings `source` and `target`, the distance returned by
`basicGreedyEditDistance` lies between `basicEditDistance source target` and
`max(len(source), len(target))`, and the ratio `basic_ratio` computed by the greedy test (when
the optimum is positive) is at least 1. -/
theorem C37_greedy_upper_bound (source target : Str) :
    ∃ r, (∀ fuel, max source.length target.length < fuel →
        basicGreedyEditDistance fuel source target = some (Except.ok r)) ∧
      basicEditDistance source target ≤ r.distance ∧
      r.distance ≤ ((max source.length target.length : Nat) : Int) ∧
      ∀ ratio, basic_ratio r.distance (basicEditDistance source target) = some ratio →
        1 ≤ ratio := by
  have h1 : basicEditDistance source target ≤ (greedyCost source target : Int) := by
    rw [basicEditDistance_eq_lev]; exact_mod_cast lev_le_greedyCost source target
  have h2 : (greedyCost source target : Int) ≤
      ((max source.length target.length : Nat) : Int) := by
    exact_mod_cast greedyCost_le_max source target
  refine ⟨_, fun fuel hf => basicGreedy_spec source target fuel hf, h1, h2, ?_⟩
  intro ratio hr
  unfold basic_ratio at hr
  split at hr
  · rename_i hpos
    rw [← Option.some.inj hr]
    have hq : (0 : ℚ) < (basicEditDistance source target : ℚ) := by exact_mod_cast hpos
    rw [one_le_div hq]
    exact_mod_cast h1
  · simp at hr

set_option maxRecDepth 1000000 in
theorem C37_witness :
    ∃ r, basicGreedyEditDistance 4 "abc".toList "bcd".toList = some (Except.ok r) ∧
      basicEditDistance "abc".toList "bcd".toList = 2 ∧
      basicEditDistance "abc".toList "bcd".toList ≤ r.distance ∧ r.distance ≤ 3 := by
  obtain ⟨r, h, h1, h2, _⟩ := C37_greedy_upper_bound "abc".toList "bcd".toList
  exact ⟨r, h 4 (by decide), by rw [basicEditDistance_eq_lev]; decide, h1, h2⟩

/-- C38. For all strings `source` and `target` and enough fuel, `heuristicGreedy` returns
without an exception, with `final_string == target` and a distance between
`basicEditDistance source target` and the distance of `basicGreedyEditDistance`. -/
theorem C38_heuristicGreedy_between (source target : Str) (fuel : Nat)
    (hf : max source.length target.length < fuel) :
    ∃ r rb, heuristicGreedy fuel source target = some (Except.ok r) ∧
      basicGreedyEditDistance fuel source target = some (Except.ok rb) ∧
      r.final_string = target ∧
      basicEditDistance source target ≤ r.distance ∧ r.distance ≤ rb.distance := by
  obtain ⟨r, h1, h2, h3, h4⟩ := heuristicGreedy_spec source target fuel hf
  exact ⟨r, _, h1, basicGreedy_spec source target fuel hf, h2,
    by rw [basicEditDistance_eq_lev]; exact h3, h4⟩

set_option maxRecDepth 1000000 in
theorem C38_witness :
    max "abxcd".toList.length "abycd".toList.length < 6 ∧
      ∃ r rb, heuristicGreedy 6 "abxcd".toList "abycd".toList = some (Except.ok r) ∧
        basicGreedyEditDistance 6 "abxcd".toList "abycd".toList = some (Except.ok rb) ∧
        r.final_string = "abycd".toList ∧
        basicEditDistance "abxcd".toList "abycd".toList ≤ r.distance ∧
        r.distance ≤ rb.distance :=
  ⟨by decide, C38_heuristicGreedy_between "abxcd".toList "abycd".toList 6 (by decide)⟩

/-- C39. For all strings `source` and `target`, the `final_string` of `frequencyBasedGreedy`
has the character counts of `target` (it is a permutation of `target`), and the distance is
the sum of `|count of c in source - count of c in target|` over the characters `c` of the two
strings, and over every larger finite set of characters; for `"ab"` and `"ba"` the
`final_string` is `"ab"`, not the target. -/
theorem C39_frequencyGreedy_counts (source target : Str) :
    (∀ c, (frequencyBasedGreedy source target).final_string.count c = target.count c) ∧
      List.Perm (frequencyBasedGreedy source target).final_string target ∧
      (frequencyBasedGreedy source target).distance =
        ∑ c ∈ (source ++ target).toFinset,
          abs ((source.count c : Int) - (target.count c : Int)) ∧
      (∀ chars : Finset Char, (∀ c ∈ source ++ target, c ∈ chars) →
        (frequencyBasedGreedy source target).distance =
          ∑ c ∈ chars, abs ((source.count c : Int) - (target.count c : Int))) ∧
      (frequencyBasedGreedy "ab".toList "ba".toList).final_string = "ab".toList := by
  obtain ⟨h1, h2⟩ := frequencyBasedGreedy_spec source target
  exact ⟨h1, List.perm_iff_count.mpr h1,
    h2 _ (fun c hc => List.mem_toFinset.mpr hc), h2, by decide⟩

set_option maxRecDepth 1000000 in
theorem C39_witness :
    List.Perm (frequencyBasedGreedy "kitten".toList "sitting".toList).final_string
        "sitting".toList ∧
      (frequencyBasedGreedy "kitten".toList "sitting".toList).final_string =
        "ittngis".toList ∧
      (frequencyBasedGreedy "kitten".toList "sitting".toList).distance = 5 :=
  ⟨(C39_frequencyGreedy_counts "kitten".toList "sitting".toList).2.1, by decide, by decide⟩

/-- C40. For all strings and enough fuel, `positionBasedGreedy` ends in the exception
`std::out_of_range` of `current.insert` exactly when `len(target) >= len(source) + 2`; on every
other input it returns, with `final_string == target`. -/
theorem C40_positionGreedy_out_of_range (source target : Str) (fuel : Nat)
    (hf : source.length + target.length < fuel) :
    (positionBasedGreedy fuel source target =
        some (Except.error StringError.insert_out_of_range) ↔
      source.length + 2 ≤ target.length) ∧
    (¬ source.length + 2 ≤ target.length →
      ∃ r, positionBasedGreedy fuel source target = some (Except.ok r) ∧
        r.final_string = target) := by
  obtain ⟨h1, h2⟩ := positionBasedGreedy_spec source target fuel hf
  refine ⟨⟨fun h => ?_, h1⟩, fun h => h2 (by omega)⟩
  by_contra hn
  obtain ⟨r, hr, _⟩ := h2 (by omega)
  rw [hr] at h
  simp at h

set_option maxRecDepth 1000000 in
theorem C40_witness :
    ("a".toList.length + "abc".toList.length < 5 ∧
      positionBasedGreedy 5 "a".toList "abc".toList =
        some (Except.error StringError.insert_out_of_range)) ∧
    ("ab".toList.length + "abc".toList.length < 6 ∧
      ∃ r, positionBasedGreedy 6 "ab".toList "abc".toList = some (Except.ok r) ∧
        r.final_string = "abc".toList) :=
  ⟨⟨by decide,
      (C40_positionGreedy_out_of_range "a".toList "abc".toList 5 (by decide)).1.mpr
        (by decide)⟩,
    ⟨by decide,
      (C40_positionGreedy_out_of_range "ab".toList "abc".toList 6 (by decide)).2
        (by decide)⟩⟩

end EditDistance
